import Mathlib

/-!
# Disjunctive intervals (crab/domains/dis_intervals.hpp)

A shallow embedding of `dis_interval<z_number>` and of the operations the
lattice claims are about: the order `operator<=`, the syntactic equality
`operator==`, join `operator|`, meet `operator&`, widening `operator||`, the
normalizing list constructor and `normalize`.

Vectors are lists.  The result vector `res` of the loops that use
`res[res.size()-1]`, `pop_back` and `push_back` is kept as a stack whose head
is the back of the vector, and reversed when the loop is left.

The classes `bound` and `interval` (intervals.hpp) are not among the sources
and are modelled from the spec.  `std::sort` with the comparator `IsOnTheLeft`
is modelled by the insertion sort that libstdc++ runs on short ranges.

The file has three parts: the definitions, the lemmas about them, and the
theorems that settle the claims C1, C2, ...
-/

namespace crab

/-- Modelled from the spec: the class `bound<Number>` (intervals.hpp) is not
among the sources.  An interval end point is an integer or one of the two
infinities ("lb ∈ {−∞}∪ℤ, ub ∈ {+∞}∪ℤ"). -/
inductive bound where
  | minus_infinity : bound
  | finite (n : Int) : bound
  | plus_infinity : bound
deriving DecidableEq, Repr

namespace bound

/-- Modelled from the spec: `bound::operator<=`, the order of the extended
integers. -/
def leb : bound → bound → Bool
  | minus_infinity, _ => true
  | finite _, minus_infinity => false
  | finite a, finite b => decide (a ≤ b)
  | finite _, plus_infinity => true
  | plus_infinity, plus_infinity => true
  | plus_infinity, _ => false

/-- Modelled from the spec: `bound::operator<`, the strict order of the
extended integers. -/
def ltb (a b : bound) : Bool := leb a b && !(leb b a)

/-- Modelled from the spec: `bound::is_infinite`. -/
def is_infinite : bound → Bool
  | finite _ => false
  | _ => true

/-- Modelled from the spec: `b + Number(n)`; an infinite bound absorbs the
addition of a number. -/
def plus : bound → Int → bound
  | finite a, n => finite (a + n)
  | b, _ => b

/-- Modelled from the spec: `bound::min`. -/
def bmin (a b : bound) : bound := if leb a b then a else b

/-- Modelled from the spec: `bound::max`. -/
def bmax (a b : bound) : bound := if leb a b then b else a

end bound

/-- The extended integers are linearly ordered by `bound.leb`; `min` and `max`
are `bound::min` and `bound::max`. -/
instance : LinearOrder bound where
  le a b := bound.leb a b = true
  lt a b := bound.ltb a b = true
  le_refl a := by cases a <;> simp [bound.leb]
  le_trans a b c := by
    cases a <;> cases b <;> cases c <;> simp [bound.leb] <;> omega
  lt_iff_le_not_le a b := by simp [bound.ltb]
  le_antisymm a b := by
    cases a <;> cases b <;> simp [bound.leb] <;> omega
  le_total a b := by
    cases a <;> cases b <;> simp [bound.leb] <;> omega
  decidableLE a b := inferInstanceAs (Decidable (bound.leb a b = true))
  decidableLT a b := inferInstanceAs (Decidable (bound.ltb a b = true))
  min := bound.bmin
  max := bound.bmax
  min_def a b := by
    show bound.bmin a b = if bound.leb a b = true then a else b
    rfl
  max_def a b := by
    show bound.bmax a b = if bound.leb a b = true then b else a
    rfl

/-- Modelled from the spec: the class `interval<Number>` (intervals.hpp) is not
among the sources.  "Pair (lb, ub) ...; bottom has lb > ub by convention." -/
structure interval where
  lb : bound
  ub : bound
deriving DecidableEq, Repr

namespace interval

/-- Modelled from the spec: `interval::top()`, the interval [-oo,+oo]. -/
def top : interval := ⟨bound.minus_infinity, bound.plus_infinity⟩

/-- Modelled from the spec: `interval::bottom()`; the interval class stores
the empty interval as [0,-1]. -/
def bottom : interval := ⟨bound.finite 0, bound.finite (-1)⟩

/-- Modelled from the spec: `interval::is_bottom`, "bottom has lb > ub". -/
def is_bottom (i : interval) : Bool := bound.ltb i.ub i.lb

/-- Modelled from the spec: `interval::is_top`, both end points infinite. -/
def is_top (i : interval) : Bool := i.lb.is_infinite && i.ub.is_infinite

/-- Modelled from the spec: the two-bound constructor `interval(lb, ub)`,
which stores bottom when lb > ub. -/
def mk_interval (l u : bound) : interval :=
  if bound.ltb u l then bottom else ⟨l, u⟩

/-- Modelled from the spec: `interval::operator==`. -/
def eq (a b : interval) : Bool :=
  if a.is_bottom then b.is_bottom else (decide (a.lb = b.lb) && decide (a.ub = b.ub))

/-- Modelled from the spec: `interval::operator<=`, inclusion of intervals. -/
def leq (a b : interval) : Bool :=
  if a.is_bottom then true
  else if b.is_bottom then false
  else bound.leb b.lb a.lb && bound.leb a.ub b.ub

/-- Modelled from the spec: `interval::operator|`, the hull of two intervals. -/
def join (a b : interval) : interval :=
  if a.is_bottom then b
  else if b.is_bottom then a
  else mk_interval (bound.bmin a.lb b.lb) (bound.bmax a.ub b.ub)

/-- Modelled from the spec: `interval::operator&`, the intersection. -/
def meet (a b : interval) : interval :=
  if a.is_bottom || b.is_bottom then bottom
  else mk_interval (bound.bmax a.lb b.lb) (bound.bmin a.ub b.ub)

/-- Modelled from the spec: `interval::operator||`, the standard interval
widening: an unstable end point jumps to infinity. -/
def widening (a b : interval) : interval :=
  if a.is_bottom then b
  else if b.is_bottom then a
  else mk_interval (if bound.ltb b.lb a.lb then bound.minus_infinity else a.lb)
                   (if bound.ltb a.ub b.ub then bound.plus_infinity else a.ub)

end interval

/-- The enum `state_t` of dis_interval. -/
inductive state_t where
  | BOT : state_t
  | FINITE : state_t
  | TOP : state_t
deriving DecidableEq, Repr

/-- The class `dis_interval`: the fields `_state` and `_list`. -/
structure dis_interval where
  _state : state_t
  _list : List interval
deriving DecidableEq, Repr

namespace dis_interval

/-- The constructor `dis_interval(state_t state)`: the list stays empty. -/
def of_state (s : state_t) : dis_interval := ⟨s, []⟩

/-- `dis_interval::top()`. -/
def top : dis_interval := of_state state_t.TOP

/-- `dis_interval::bottom()`. -/
def bottom : dis_interval := of_state state_t.BOT

/-- `dis_interval::is_bottom`. -/
def is_bottom (x : dis_interval) : Bool := decide (x._state = state_t.BOT)

/-- `dis_interval::is_top`. -/
def is_top (x : dis_interval) : Bool := decide (x._state = state_t.TOP)

/-- `dis_interval::is_finite`. -/
def is_finite (x : dis_interval) : Bool := decide (x._state = state_t.FINITE)

/-- `dis_interval::are_consecutive`. -/
def are_consecutive (i1 i2 : interval) : Bool :=
  ((bound.leb i1.lb i2.lb && bound.leb i1.ub i2.ub) && decide (i1.ub.plus 1 = i2.lb)) ||
  ((bound.leb i2.lb i1.lb && bound.leb i2.ub i1.ub) && decide (i2.ub.plus 1 = i1.lb))

/-- `dis_interval::overlap`. -/
def overlap (i1 i2 : interval) : Bool :=
  bound.leb i2.lb i1.ub && bound.leb i1.lb i2.ub

/-- `IsOnTheLeft::operator()`. -/
def IsOnTheLeft (i1 i2 : interval) : Bool :=
  bound.leb i1.ub i2.lb && !(decide (i1.ub = i2.lb))

/-- The inner loop of `operator<=`: advance `j` over `o._list` until an
interval that includes `x` is found; returns the remaining part of `o._list`
starting at that interval, or none when `j` reaches the end. -/
def leq_find (x : interval) : List interval → Option (List interval)
  | [] => none
  | y :: ys => if x.leq y then some (y :: ys) else leq_find x ys

/-- The outer loop of `operator<=` over `_list`; `j` is not reset between
two intervals of `_list`. -/
def leq_loop : List interval → List interval → Bool
  | [], _ => true
  | x :: xs, os =>
    match leq_find x os with
    | none => false
    | some os' => leq_loop xs os'

/-- `dis_interval::operator<=`. -/
def leq (x o : dis_interval) : Bool :=
  if x.is_bottom then true
  else if o.is_bottom then false
  else leq_loop x._list o._list

/-- `std::__unguarded_linear_insert` of libstdc++: `val` moves towards the
front while `comp (val, *next)` holds.  The sorted prefix is given with its
last element first. -/
def unguarded_linear_insert (val : interval) : List interval → List interval
  | [] => [val]
  | y :: ys =>
    if IsOnTheLeft val y then y :: unguarded_linear_insert val ys else val :: y :: ys

/-- `std::__insertion_sort` of libstdc++ with `comp = IsOnTheLeft`: an element
that is on the left of `*first` is moved to the front, any other one is
inserted by `unguarded_linear_insert`.  The sorted prefix `p` is kept with its
last element first. -/
def insertion_sort_loop : List interval → List interval → List interval
  | p, [] => p.reverse
  | p, x :: xs =>
    match p.getLast? with
    | none => insertion_sort_loop [x] xs
    | some first =>
      if IsOnTheLeft x first then insertion_sort_loop (p ++ [x]) xs
      else insertion_sort_loop (unguarded_linear_insert x p) xs

/-- `std::sort (l.begin (), l.end (), comp)` with `comp = IsOnTheLeft`, as the
insertion sort that libstdc++ runs on a range of at most 16 elements.
`IsOnTheLeft` is not a strict weak ordering on overlapping intervals, so the
order of the result depends on the algorithm; this is the model used for
every length.  On a range of more than 16 elements libstdc++ runs introsort,
which is not modelled: a list with a bottom or a top interval can then come
out in another order (`IsOnTheLeft (bottom, bottom)` holds).  The theorems
about such lists do not use this model: they take the sorted vector as a
parameter (`normalize_sorted`) or leave these lists out (`sort_exact`). -/
def sort (l : List interval) : List interval := insertion_sort_loop [] l

/-- Outcome of the loop `while (refined && res.size () > 0)`: either the loop
is left through `goto next_iter` (the interval is subsumed by `prev`), or the
possibly fused interval is to be pushed on `res`. -/
inductive fused where
  | subsumed (res : List interval) (prev : interval) : fused
  | push (res : List interval) (intv : interval) : fused

/-- The loop `while (refined && res.size () > 0)` shared by `normalize` and by
the two "consume the rest" loops of `operator|`; `res` has its back first. -/
def fuse : List interval → interval → fused
  | [], intv => fused.push [] intv
  | prev :: res, intv =>
    if overlap prev intv || are_consecutive prev intv then fuse res (prev.join intv)
    else if intv.leq prev then fused.subsumed (prev :: res) prev
    else fused.push (prev :: res) intv

/-- The `for` loop of `normalize (l, is_bottom)` over the sorted list; the
state is `res` (back first), `prev` and the counter `bottoms`.  The result is
none when the loop returns the empty list because of a top interval. -/
def normalize_loop :
    List interval → List interval → interval → Nat → Option (List interval × Nat)
  | [], res, _, bottoms => some (res, bottoms)
  | intv :: l, res, prev, bottoms =>
    if prev.eq intv then normalize_loop l res prev bottoms
    else if intv.is_bottom then normalize_loop l res prev (bottoms + 1)
    else if intv.is_top then none
    else
      match (if !prev.is_top then fuse res intv else fused.push res intv) with
      | fused.subsumed res' prev' => normalize_loop l res' prev' bottoms
      | fused.push res' intv' =>
        if intv'.is_top then none
        else normalize_loop l (intv' :: res') intv' bottoms

/-- `dis_interval::normalize (list_intervals_t l, bool& is_bottom)`; the pair
is the returned list and the value left in `is_bottom`. -/
def normalize (l : List interval) : List interval × Bool :=
  if l.length ≤ 1 then (l, false)
  else
    match normalize_loop (sort l) [] interval.top 0 with
    | none => ([], false)
    | some (res, bottoms) => (res.reverse, decide (bottoms = l.length))

/-- `dis_interval::approx (list_intervals_t x)`; none stands for the
`CRAB_ERROR` on the empty list. -/
def approx_list : List interval → Option interval
  | [] => none
  | [x] => some x
  | x :: y :: ys => some (x.join ((y :: ys).getLast (List.cons_ne_nil y ys)))

/-- The constant `max_num_disjunctions` of the list constructor. -/
def max_num_disjunctions : Nat := 50

/-- The constructor `dis_interval (list_intervals_t l, bool Normalize)`.  The
final `assert (check_well_formed (*this))` is not part of the behaviour. -/
def of_list (l : List interval) (Normalize : Bool) : dis_interval :=
  let s : dis_interval :=
    if Normalize then
      match normalize l with
      | (res, is_bottom) =>
        if is_bottom then ⟨state_t.BOT, []⟩
        else if res.isEmpty then ⟨state_t.TOP, []⟩
        else ⟨state_t.FINITE, res⟩
    else ⟨state_t.FINITE, l⟩
  if s.is_finite && decide (max_num_disjunctions ≤ s._list.length) then
    match approx_list s._list with
    | some alljoined => ⟨state_t.FINITE, [alljoined]⟩
    | none => s
  else s

/-- The constructor `dis_interval (interval_t i)`. -/
def of_interval (i : interval) : dis_interval :=
  if i.is_top then ⟨state_t.TOP, []⟩
  else if i.is_bottom then ⟨state_t.BOT, []⟩
  else ⟨state_t.FINITE, [i]⟩

/-- `dis_interval::approx ()`. -/
def approx (x : dis_interval) : Option interval :=
  if x.is_bottom then some interval.bottom
  else if x.is_top then some interval.top
  else approx_list x._list

/-- The `for` loop of the syntactic `operator==` over two lists of the same
size. -/
def eq_loop : List interval → List interval → Bool
  | x :: xs, y :: ys => if !(x.eq y) then false else eq_loop xs ys
  | _, _ => true

/-- `dis_interval::operator==` (the syntactic check). -/
def eq (x o : dis_interval) : Bool :=
  if x.is_bottom && o.is_bottom then true
  else if x.is_top && o.is_top then true
  else if x.is_bottom || o.is_bottom then false
  else if x.is_top || o.is_top then false
  else if x._list.length != o._list.length then false
  else eq_loop x._list o._list

/-- The first loop of `operator|`, `while (i < _list.size () && j <
o._list.size ())`, on the parts of the two lists not yet consumed; `res` has
its back first.  The result is none when the loop returns top, otherwise the
rests of the two lists and `res`.  Every iteration consumes an interval, so
the fuel `_list.size () + o._list.size ()` given by `join` is never used up. -/
def join_main : Nat → List interval → List interval → List interval →
    Option (List interval × List interval × List interval)
  | 0, a, b, res => some (a, b, res)
  | _ + 1, [], b, res => some ([], b, res)
  | _ + 1, x :: xs, [], res => some (x :: xs, [], res)
  | fuel + 1, x :: xs, y :: ys, res =>
    if x.is_top || y.is_top then none
    else if x.is_bottom then join_main fuel xs (y :: ys) res
    else if y.is_bottom then join_main fuel (x :: xs) ys res
    else if x.eq y then join_main fuel xs ys (x :: res)
    else if x.leq y then join_main fuel xs ys (y :: res)
    else if y.leq x then join_main fuel xs ys (x :: res)
    else if overlap x y || are_consecutive x y then join_main fuel xs ys (x.join y :: res)
    else if IsOnTheLeft x y then join_main fuel xs (y :: ys) (x :: res)
    else join_main fuel (x :: xs) ys (y :: res)

/-- The loops "consume the rest of left operand" and "consume the rest of
right operand" of `operator|`. -/
def join_rest : List interval → List interval → List interval
  | [], res => res
  | intv :: l, res =>
    match fuse res intv with
    | fused.subsumed res' _ => join_rest l res'
    | fused.push res' intv' => join_rest l (intv' :: res')

/-- The three loops of `operator|` on the two lists: the vector `res` when
the third loop is left, or none when the first loop returns top. -/
def join_list (a b : List interval) : Option (List interval) :=
  match join_main (a.length + b.length) a b [] with
  | none => none
  | some (a', b', res) => some (join_rest b' (join_rest a' res)).reverse

/-- `dis_interval::operator|`. -/
def join (x o : dis_interval) : dis_interval :=
  if x.is_bottom then o
  else if o.is_bottom then x
  else if x.is_top then x
  else if o.is_top then o
  else
    match join_list x._list o._list with
    | none => ⟨state_t.TOP, []⟩
    | some [] => of_state state_t.BOT
    | some (r :: rs) =>
      if decide ((r :: rs).length ≤ 1) && r.is_top then of_state state_t.TOP
      else of_list (r :: rs) true

/-- The two nested `for` loops of `operator&`: the non-bottom intersections
`_list[i] & o._list[j]` in the order they are pushed. -/
def meet_loop : List interval → List interval → List interval
  | [], _ => []
  | x :: xs, o => ((o.map (fun y => x.meet y)).filter (fun m => !m.is_bottom)) ++ meet_loop xs o

/-- `dis_interval::operator&`. -/
def meet (x o : dis_interval) : dis_interval :=
  if x.is_bottom || o.is_bottom then bottom
  else if x.is_top then o
  else if o.is_top then x
  else
    let res := meet_loop x._list o._list
    if res.isEmpty then bottom
    else of_list res true

/-- `dis_interval::widening (o, widen_op)`; `widen_op` stands for
`widen_op.apply`.  The three "trivial cases" call `approx` on a list of at
least two elements, which is the join of its first and last element.  A
FINITE operand with an empty list violates the `assert` of the source; the
last case of the match is only there to make the function total. -/
def widening (widen_op : interval → interval → interval) (x o : dis_interval) :
    dis_interval :=
  if x.is_bottom then o
  else if o.is_bottom then x
  else if x.is_top then x
  else if o.is_top then o
  else
    match x._list, o._list with
    | [a], [b] => of_interval (widen_op a b)
    | [a], b0 :: b1 :: bs =>
      of_interval (widen_op a (b0.join ((b1 :: bs).getLast (List.cons_ne_nil b1 bs))))
    | a0 :: a1 :: as, [b] =>
      of_interval (widen_op (a0.join ((a1 :: as).getLast (List.cons_ne_nil a1 as))) b)
    | a0 :: a1 :: as, b0 :: b1 :: bs =>
      let lb_widen := widen_op a0 b0
      let ub_widen := widen_op ((a1 :: as).getLast (List.cons_ne_nil a1 as))
                               ((b1 :: bs).getLast (List.cons_ne_nil b1 bs))
      of_list ([lb_widen] ++ (a1 :: as).dropLast ++ (b1 :: bs).dropLast ++ [ub_widen]) true
    | _, _ => of_list [] true

/-- `dis_interval::operator||`: widening with `WidenOp`, the interval
widening. -/
def widen (x o : dis_interval) : dis_interval := widening interval.widening x o

/-- The loop of `check_well_formed` over neighbours `tmp[prev]`, `tmp[cur]`. -/
def strictly_sorted : List interval → Bool
  | x :: y :: l => IsOnTheLeft x y && strictly_sorted (y :: l)
  | _ => true

/-- `dis_interval::check_well_formed`. -/
def check_well_formed (x : dis_interval) : Bool :=
  if x.is_top || x.is_bottom then true
  else
    match x._list with
    | [] => false
    | [i] => !(i.is_top || i.is_bottom)
    | l => strictly_sorted l

/-- Two neighbours of a well-formed list: the first lies strictly to the left
of the second and the two are not consecutive. -/
def gap (x y : interval) : Prop :=
  IsOnTheLeft x y = true ∧ are_consecutive x y = false

/-- Every interval of the list lies strictly to the left of the next one and
is not consecutive with it. -/
def sorted_with_gaps : List interval → Prop
  | x :: y :: l => gap x y ∧ sorted_with_gaps (y :: l)
  | _ => True

/-- The invariant of the data model (spec, "Disjunctive interval"): BOT and
TOP carry no list; a FINITE value carries a non-empty list of intervals that
are neither bottom nor top, each strictly to the left of the next and not
consecutive with it, with fewer than `max_num_disjunctions` elements. -/
def well_formed (x : dis_interval) : Prop :=
  match x._state with
  | state_t.FINITE =>
    x._list ≠ [] ∧ (∀ i ∈ x._list, i.is_bottom = false ∧ i.is_top = false) ∧
      sorted_with_gaps x._list ∧ x._list.length < max_num_disjunctions
  | _ => x._list = []

/-- The join of `x` and `o` stays below the cap: the vector `res` built by
`operator|`, once normalized, has fewer than `max_num_disjunctions`
intervals. -/
def join_uncapped (x o : dis_interval) : Bool :=
  match join_list x._list o._list with
  | none => true
  | some res => decide ((normalize res).1.length < max_num_disjunctions)

/-- The meet of `x` and `o` stays below the cap: the non-bottom intersections
collected by `operator&`, once normalized, are fewer than
`max_num_disjunctions`. -/
def meet_uncapped (x o : dis_interval) : Bool :=
  decide ((normalize (meet_loop x._list o._list)).1.length < max_num_disjunctions)

/-- What the sort guarantees for two neighbours `e`, `l` of its result: the
later one does not end before the earlier one starts, unless both are the
empty interval. -/
def adj (e l : interval) : Prop := e.lb ≤ l.ub ∨ (e.is_bottom = true ∧ e = l)

/-- The invariant of the loop of `normalize`: the intervals of `res` are
neither bottom nor top, every one has a gap to the one pushed after it, and
`prev` is the back of `res`, or the initial top while `res` is empty. -/
def loop_inv (res : List interval) (prev : interval) : Prop :=
  (∀ x ∈ res, x.is_bottom = false ∧ x.is_top = false) ∧
  List.Chain' (fun l e => gap e l) res ∧
  ((res = [] ∧ prev = interval.top) ∨ res.head? = some prev)

/-- An interval that is not bottom, does not start at +oo and does not end at
-oo.  Every interval that is neither bottom nor top is of this kind, and so
is the join of two such intervals. -/
def proper (z : interval) : Prop :=
  z.is_bottom = false ∧ z.lb ≠ bound.plus_infinity ∧ z.ub ≠ bound.minus_infinity

/-- The interval `x` is not bottom and is included in an interval of `c`. -/
def covered (c : List interval) (x : interval) : Prop :=
  x.is_bottom = false ∧ ∃ y ∈ c, x.leq y = true

/-- The inclusion order of the lattice on well-formed values: bottom is below
everything, everything is below top, and a FINITE value is below another one
when each of its intervals is included in an interval of the other. -/
def below (x o : dis_interval) : Prop :=
  match x._state, o._state with
  | state_t.BOT, _ => True
  | _, state_t.TOP => True
  | state_t.FINITE, state_t.FINITE => ∀ i ∈ x._list, covered o._list i
  | _, _ => False

end dis_interval

/-- The representation invariant of the interval class: the empty interval is
always stored as `interval::bottom()`. -/
def interval.canonical (i : interval) : Prop :=
  i.is_bottom = true → i = interval.bottom

instance (i : interval) : Decidable i.canonical :=
  inferInstanceAs (Decidable (i.is_bottom = true → i = interval.bottom))

/-- The interval [a,b] with two finite end points. -/
def iv (a b : Int) : interval := ⟨bound.finite a, bound.finite b⟩

/-- The list of the `n` intervals [s,s+w], [s+d,s+d+w], [s+2d,s+2d+w], ... -/
def stride (w d : Int) : Nat → Int → List interval
  | 0, _ => []
  | n + 1, s => iv s (s + w) :: stride w d n (s + d)

instance (x y : interval) : Decidable (dis_interval.gap x y) :=
  inferInstanceAs (Decidable (_ ∧ _))

/-- Decision procedure for `sorted_with_gaps`, by recursion on the list. -/
def dis_interval.decide_sorted_with_gaps :
    (l : List interval) → Decidable (dis_interval.sorted_with_gaps l)
  | [] => isTrue trivial
  | [_] => isTrue trivial
  | x :: y :: l =>
    match (inferInstance : Decidable (dis_interval.gap x y)),
        dis_interval.decide_sorted_with_gaps (y :: l) with
    | isTrue h1, isTrue h2 => isTrue ⟨h1, h2⟩
    | isFalse h1, _ => isFalse (fun h => h1 h.1)
    | _, isFalse h2 => isFalse (fun h => h2 h.2)

instance (l : List interval) : Decidable (dis_interval.sorted_with_gaps l) :=
  dis_interval.decide_sorted_with_gaps l

instance (x : dis_interval) : Decidable (dis_interval.well_formed x) :=
  match x with
  | ⟨state_t.FINITE, l⟩ =>
    inferInstanceAs (Decidable (l ≠ [] ∧ (∀ i ∈ l, i.is_bottom = false ∧ i.is_top = false) ∧
      dis_interval.sorted_with_gaps l ∧ l.length < dis_interval.max_num_disjunctions))
  | ⟨state_t.BOT, l⟩ => inferInstanceAs (Decidable (l = []))
  | ⟨state_t.TOP, l⟩ => inferInstanceAs (Decidable (l = []))


/-!
# The nullity lattice (crab/domains/nullity.hpp)

The class `nullity_value`: a private enum `kind_t` with two-bit codes, the
order `operator<=`, and join / meet computed on the codes.
-/

/-- The enum `nullity_value::kind_t`. -/
inductive kind_t where
  | Bottom : kind_t
  | Null : kind_t
  | NonNull : kind_t
  | Top : kind_t
deriving DecidableEq, Repr

namespace kind_t

/-- The integer value of an enumerator (`static_cast<int>`): Bottom = 0x0,
Null = 0x1, NonNull = 0x2, Top = 0x3. -/
def to_int : kind_t → Nat
  | Bottom => 0
  | Null => 1
  | NonNull => 2
  | Top => 3

/-- The conversion `static_cast<kind_t>(n)` of a two-bit integer; the bitwise
OR and AND of two codes are below 4, so the last case stands for 3 only. -/
def of_int : Nat → kind_t
  | 0 => Bottom
  | 1 => Null
  | 2 => NonNull
  | _ => Top

end kind_t

/-- The class `nullity_value`: the field `_value`. -/
structure nullity_value where
  _value : kind_t
deriving DecidableEq, Repr

namespace nullity_value

/-- `nullity_value::bottom()`. -/
def bottom : nullity_value := ⟨kind_t.Bottom⟩

/-- `nullity_value::top()`. -/
def top : nullity_value := ⟨kind_t.Top⟩

/-- `nullity_value::non_null()`. -/
def non_null : nullity_value := ⟨kind_t.NonNull⟩

/-- `nullity_value::null()`. -/
def null : nullity_value := ⟨kind_t.Null⟩

/-- `nullity_value::is_bottom`. -/
def is_bottom (a : nullity_value) : Bool := decide (a._value = kind_t.Bottom)

/-- `nullity_value::is_top`. -/
def is_top (a : nullity_value) : Bool := decide (a._value = kind_t.Top)

/-- `nullity_value::operator<=`; `>=` on enumerators compares their codes. -/
def leq (a other : nullity_value) : Bool :=
  if a._value = kind_t.Bottom ∨ other._value = kind_t.Top then true
  else if a._value = kind_t.Top then decide (other._value = kind_t.Top)
  else if a._value = kind_t.NonNull then
    decide (other._value.to_int ≥ kind_t.NonNull.to_int)
  else if a._value = kind_t.Null then
    decide (other._value = kind_t.Null) || decide (other._value = kind_t.Top)
  else false

/-- `nullity_value::operator==`. -/
def eq (a other : nullity_value) : Bool := decide (a._value = other._value)

/-- `nullity_value::operator|`: bitwise OR of the codes. -/
def join (a other : nullity_value) : nullity_value :=
  ⟨kind_t.of_int (a._value.to_int ||| other._value.to_int)⟩

/-- `nullity_value::operator||`: the widening is the join. -/
def widening (a other : nullity_value) : nullity_value := a.join other

/-- `nullity_value::operator&`: bitwise AND of the codes. -/
def meet (a other : nullity_value) : nullity_value :=
  ⟨kind_t.of_int (a._value.to_int &&& other._value.to_int)⟩

/-- `nullity_value::operator&&`: the narrowing is the meet. -/
def narrowing (a other : nullity_value) : nullity_value := a.meet other

end nullity_value

/-!
# Pointer analysis (crab/domains/pta.hpp)

A shallow embedding of the class `pta_system`: the constraints, the two maps
from names to address sets and to offsets, and the solver `solve`, which
repeats passes over the constraints with the extrapolation operator until a
pass changes nothing and then runs the refinement passes.

The keys of the maps are the strings built by `pointer_var::str` ("V_" uid),
by "O{" address "}", by `param_ref::str` ("P_" param "(" fuid ")") and by
`return_ref::str` ("R(" fuid ")"); two such strings are equal only when they
are built in the same way from the same numbers, and the type `vname` keeps
the way and the numbers.  A `std::set<index_t>` is a strictly ascending list.
No operation of the class tells a key bound to the empty set from an absent
key, so the empty entries that `operator[]` creates are left out.

Loops whose number of iterations is not fixed when they start take a `fuel`
argument and report `pta_error.out_of_fuel` when it is used up.
-/

/-- Modelled from the spec: `bound::operator+` (intervals.hpp); the sum of the
two opposite infinities, which the class rejects, is the left operand here. -/
def bound.add : bound → bound → bound
  | bound.finite a, bound.finite b => bound.finite (a + b)
  | bound.finite _, b => b
  | a, _ => a

/-- Modelled from the spec: `interval::operator+` (intervals.hpp). -/
def interval.add (a b : interval) : interval :=
  if a.is_bottom || b.is_bottom then interval.bottom
  else ⟨bound.add a.lb b.lb, bound.add a.ub b.ub⟩

/-- The type `index_t` of addresses and identifiers. -/
abbrev index_t := Nat

/-- The number of values of `std::size_t`, the type of the counter
`iteration` and of the two thresholds. -/
def size_t_modulus : Nat := 2 ^ 64

/-- The class `pointer_var`. -/
structure pointer_var where
  _uid : index_t
deriving DecidableEq, Repr

/-- The classes derived from `pta_ref`: `pointer_ref`, `object_ref`,
`function_ref`, `param_ref` and `return_ref`, with their fields. -/
inductive pta_ref where
  | pointer_ref (_pointer : pointer_var) (_offset : interval) : pta_ref
  | object_ref (_address : index_t) (_offset : interval) : pta_ref
  | function_ref (_uid : index_t) : pta_ref
  | param_ref (_fptr : pointer_var) (_param : Nat) : pta_ref
  | return_ref (_fptr : pointer_var) : pta_ref
deriving DecidableEq, Repr

/-- The enum `pta_ref_kind`. -/
inductive pta_ref_kind where
  | POINTER_REF : pta_ref_kind
  | OBJECT_REF : pta_ref_kind
  | FUNCTION_REF : pta_ref_kind
  | PARAM_REF : pta_ref_kind
  | RETURN_REF : pta_ref_kind
deriving DecidableEq, Repr

/-- `pta_ref::kind`. -/
def pta_ref.kind : pta_ref → pta_ref_kind
  | pta_ref.pointer_ref _ _ => pta_ref_kind.POINTER_REF
  | pta_ref.object_ref _ _ => pta_ref_kind.OBJECT_REF
  | pta_ref.function_ref _ => pta_ref_kind.FUNCTION_REF
  | pta_ref.param_ref _ _ => pta_ref_kind.PARAM_REF
  | pta_ref.return_ref _ => pta_ref_kind.RETURN_REF

/-- The classes derived from `pta_constraint`: `pta_assign` (built by `==`),
`pta_store` (built by `<<`) and `pta_load` (built by `*=`). -/
inductive pta_constraint where
  | pta_assign (_lhs : pointer_var) (_rhs : pta_ref) : pta_constraint
  | pta_store (_lhs : pta_ref) (_rhs : pointer_var) : pta_constraint
  | pta_load (_lhs : pointer_var) (_rhs : pta_ref) : pta_constraint
deriving DecidableEq, Repr

/-- The keys of `_offset_map` and `_address_map`. -/
inductive vname where
  | V (uid : index_t) : vname
  | O (address : index_t) : vname
  | P (param : Nat) (fuid : index_t) : vname
  | R (fuid : index_t) : vname
deriving DecidableEq, Repr

/-- `pointer_var::str`. -/
def pointer_var.str (v : pointer_var) : vname := vname.V v._uid

/-- The typedef `address_set`, a `std::set<index_t>`. -/
abbrev address_set := List index_t

namespace address_set

/-- `std::set::insert`. -/
def insert (a : index_t) : address_set → address_set
  | [] => [a]
  | x :: xs =>
    if a < x then a :: x :: xs
    else if a = x then x :: xs
    else x :: insert a xs

/-- `s.find(a) != s.end()`. -/
def contains (s : address_set) (a : index_t) : Bool := decide (a ∈ s)

/-- `addrs.insert(ptrs.begin(), ptrs.end())`. -/
def insert_all (ptrs : address_set) (addrs : address_set) : address_set :=
  ptrs.foldl (fun acc a => insert a acc) addrs

/-- `s.begin()`: the least element, none for `s.end()`. -/
def first (s : address_set) : Option index_t := s.head?

/-- The step `++it` of an iterator that stands at the element `a`: the least
element of the set, as it is now, above `a`; none for `s.end()`. -/
def next (s : address_set) (a : index_t) : Option index_t :=
  s.find? (fun x => decide (a < x))

end address_set

/-- The errors of the pointer analysis: `CRAB_ERROR`, and the end of the fuel
of a loop. -/
inductive pta_error where
  | crab_error (msg : String) : pta_error
  | out_of_fuel : pta_error
deriving DecidableEq, Repr

/-- The classes `extrapolate` (with its field `_threshold`) and `refine`
derived from `binary_op`. -/
inductive binary_op where
  | extrapolate (_threshold : Nat) : binary_op
  | refine : binary_op
deriving DecidableEq, Repr

namespace binary_op

/-- `binary_op::convergence_achieved`. -/
def convergence_achieved : binary_op → interval → interval → Bool
  | extrapolate _, before, after => after.leq before
  | refine, _, _ => false

/-- `binary_op::apply`. -/
def apply : binary_op → interval → interval → Nat → interval
  | extrapolate _threshold, before, after, iteration =>
    if iteration < _threshold then before.join after else before.widening after
  | refine, before, after, _ =>
    if after.leq before then after else before.join after

end binary_op

/-- Lookup in a `boost::unordered_map` keyed by names (`find`). -/
def map_find {β : Type} (v : vname) : List (vname × β) → Option β
  | [] => none
  | (k, x) :: m => if k = v then some x else map_find v m

/-- Binding a name in a `boost::unordered_map`: the value of an existing
entry is overwritten, a new entry is inserted otherwise. -/
def map_set {β : Type} (v : vname) (x : β) : List (vname × β) → List (vname × β)
  | [] => [(v, x)]
  | (k, y) :: m => if k = v then (k, x) :: m else (k, y) :: map_set v x m

/-- The class `pta_system`: its fields. -/
structure pta_system where
  _csts : List pta_constraint
  _offset_map : List (vname × interval)
  _address_map : List (vname × address_set)
  change_seen : Bool
  iteration : Nat
deriving DecidableEq, Repr

/-- The typedef `pta_info`. -/
abbrev pta_info := address_set × interval

namespace pta_system

/-- `pta_system::get_address_set`. -/
def get_address_set (s : pta_system) (v : vname) : address_set :=
  match map_find v s._address_map with
  | none => []
  | some x => x

/-- `pta_system::get_offset`. -/
def get_offset (s : pta_system) (v : vname) : interval :=
  match map_find v s._offset_map with
  | none => interval.bottom
  | some x => x

/-- `pta_system::add_offset`. -/
def add_offset (s : pta_system) (v : vname) (o : interval) (op : binary_op) : pta_system :=
  let off := s.get_offset v
  if !op.convergence_achieved off o then
    { s with
      change_seen := true
      _offset_map := map_set v (op.apply off o s.iteration) s._offset_map }
  else s

/-- `pta_system::add_address`. -/
def add_address (s : pta_system) (v : vname) (a : index_t) : pta_system :=
  if !(s.get_address_set v).contains a then
    { s with
      change_seen := true
      _address_map := map_set v (address_set.insert a (s.get_address_set v)) s._address_map }
  else s

/-- `pta_system::add_address_set`; the set is passed by value, so the loop
runs over the elements it had at the call. -/
def add_address_set (s : pta_system) (v : vname) (set : address_set) : pta_system :=
  set.foldl (fun st a => st.add_address v a) s

/-- The loop of `process_ref` over `fptrs` for a parameter or return
reference; `str` is `param->str` or `ret->str`. -/
def process_ref_loop (s : pta_system) (str : index_t → vname) :
    address_set → pta_info → pta_info
  | [], acc => acc
  | f :: fptrs, (addrs, offset) =>
    process_ref_loop s str fptrs
      (address_set.insert_all (s.get_address_set (str f)) addrs,
        offset.join (s.get_offset (str f)))

/-- `pta_system::process_ref`. -/
def process_ref (s : pta_system) : pta_ref → pta_info
  | pta_ref.pointer_ref _pointer _offset =>
    (s.get_address_set _pointer.str, (s.get_offset _pointer.str).add _offset)
  | pta_ref.object_ref _address _offset => (address_set.insert _address [], _offset)
  | pta_ref.function_ref _uid => (address_set.insert _uid [], interval.top)
  | pta_ref.param_ref _fptr _param =>
    process_ref_loop s (vname.P _param) (s.get_address_set _fptr.str) ([], interval.bottom)
  | pta_ref.return_ref _fptr =>
    process_ref_loop s vname.R (s.get_address_set _fptr.str) ([], interval.bottom)

/-- The loops `for (it = addrs.begin(); it != addrs.end(); ++it)` of
`process_constraint`, where `addrs` is a reference to the set bound to `v` in
`_address_map`: the iterator `it` is none at `addrs.end()`, and it is advanced
in the set as the body has left it. -/
def for_each_address (v : vname) (body : index_t → pta_system → pta_system) :
    Nat → Option index_t → pta_system → Except pta_error pta_system
  | _, none, s => Except.ok s
  | 0, some _, _ => Except.error pta_error.out_of_fuel
  | fuel + 1, some a, s =>
    for_each_address v body fuel (address_set.next ((body a s).get_address_set v) a) (body a s)

/-- `pta_system::process_constraint`. -/
def process_constraint (fuel : Nat) (cst : pta_constraint) (op : binary_op)
    (s : pta_system) : Except pta_error pta_system :=
  match cst with
  | pta_constraint.pta_assign _lhs _rhs =>
    let rhs_info := s.process_ref _rhs
    Except.ok ((s.add_address_set _lhs.str rhs_info.1).add_offset _lhs.str rhs_info.2 op)
  | pta_constraint.pta_store ref _rhs =>
    let rhs_offset := s.get_offset _rhs.str
    match ref with
    | pta_ref.pointer_ref _pointer _ =>
      for_each_address _pointer.str
        (fun a st =>
          (st.add_address_set (vname.O a) (st.get_address_set _rhs.str)).add_offset
            (vname.O a) rhs_offset op)
        fuel (address_set.first (s.get_address_set _pointer.str)) s
    | pta_ref.object_ref _ _ =>
      Except.error (pta_error.crab_error "cannot dereference a memory object")
    | pta_ref.function_ref _ =>
      Except.error (pta_error.crab_error "cannot dereference a function object")
    | pta_ref.param_ref _fptr _param =>
      for_each_address _fptr.str
        (fun f st =>
          (st.add_address_set (vname.P _param f) (st.get_address_set _rhs.str)).add_offset
            (vname.P _param f) rhs_offset op)
        fuel (address_set.first (s.get_address_set _fptr.str)) s
    | pta_ref.return_ref _fptr =>
      for_each_address _fptr.str
        (fun f st =>
          (st.add_address_set (vname.R f) (st.get_address_set _rhs.str)).add_offset
            (vname.R f) rhs_offset op)
        fuel (address_set.first (s.get_address_set _fptr.str)) s
  | pta_constraint.pta_load _lhs ref =>
    match ref with
    | pta_ref.pointer_ref _pointer _ =>
      for_each_address _pointer.str
        (fun a st =>
          let st1 := st.add_address_set _lhs.str (st.get_address_set (vname.O a))
          st1.add_offset _lhs.str (st1.get_offset (vname.O a)) op)
        fuel (address_set.first (s.get_address_set _pointer.str)) s
    | pta_ref.object_ref _ _ =>
      Except.error (pta_error.crab_error "cannot dereference a memory object")
    | pta_ref.function_ref _ =>
      Except.error (pta_error.crab_error "cannot dereference a function object")
    | pta_ref.param_ref _fptr _param =>
      for_each_address _fptr.str
        (fun f st =>
          let st1 := st.add_address_set _lhs.str (st.get_address_set (vname.P _param f))
          st1.add_offset _lhs.str (st1.get_offset (vname.P _param f)) op)
        fuel (address_set.first (s.get_address_set _fptr.str)) s
    | pta_ref.return_ref _fptr =>
      for_each_address _fptr.str
        (fun f st =>
          let st1 := st.add_address_set _lhs.str (st.get_address_set (vname.R f))
          st1.add_offset _lhs.str (st1.get_offset (vname.R f)) op)
        fuel (address_set.first (s.get_address_set _fptr.str)) s

/-- The loop of `pta_system::step` over the constraints that are left. -/
def step_loop (fuel : Nat) (op : binary_op) :
    List pta_constraint → pta_system → Except pta_error pta_system
  | [], s => Except.ok s
  | cst :: csts, s =>
    match process_constraint fuel cst op s with
    | Except.ok s' => step_loop fuel op csts s'
    | Except.error e => Except.error e

/-- `pta_system::step`. -/
def step (fuel : Nat) (op : binary_op) (s : pta_system) : Except pta_error pta_system :=
  step_loop fuel op s._csts s

/-- The `do ... while (change_seen)` loop of `solve`; `n` bounds the number of
passes and `fuel` the loops inside a pass. -/
def extrapolate_loop (fuel : Nat) (widening_threshold : Nat) :
    Nat → pta_system → Except pta_error pta_system
  | 0, _ => Except.error pta_error.out_of_fuel
  | n + 1, s =>
    match step fuel (binary_op.extrapolate widening_threshold)
        { s with iteration := (s.iteration + 1) % size_t_modulus, change_seen := false } with
    | Except.ok s' => if s'.change_seen then extrapolate_loop fuel widening_threshold n s'
                      else Except.ok s'
    | Except.error e => Except.error e

/-- The loop `for (; iteration < narrowing_threshold; ++iteration)` of
`solve`; `n` bounds the number of passes. -/
def refine_loop (fuel : Nat) (narrowing_threshold : Nat) :
    Nat → pta_system → Except pta_error pta_system
  | 0, _ => Except.error pta_error.out_of_fuel
  | n + 1, s =>
    if s.iteration < narrowing_threshold then
      match step fuel binary_op.refine s with
      | Except.ok s' =>
        refine_loop fuel narrowing_threshold n
          { s' with iteration := (s'.iteration + 1) % size_t_modulus }
      | Except.error e => Except.error e
    else Except.ok s

/-- `pta_system::solve`. -/
def solve (fuel : Nat) (s : pta_system) (widening_threshold narrowing_threshold : Nat) :
    Except pta_error pta_system :=
  match extrapolate_loop fuel widening_threshold fuel { s with iteration := 0 } with
  | Except.ok s' => refine_loop fuel narrowing_threshold fuel { s' with iteration := 0 }
  | Except.error e => Except.error e

/-- `pta_system::get`. -/
def get (s : pta_system) (p : pointer_var) : pta_info :=
  (s.get_address_set p.str, s.get_offset p.str)

/-- The constructor `pta_system()` followed by `operator+=` for each of the
constraints; the constructor does not set `change_seen` and `iteration`. -/
def mk_system (csts : List pta_constraint) (change_seen : Bool) (iteration : Nat) :
    pta_system :=
  ⟨csts, [], [], change_seen, iteration⟩

end pta_system

/-!
# The forward analyzer (crab/analysis/FwdAnalyzer.hpp): the invariant maps

The class `FwdAnalyzer` keeps the invariants at the entry and at the exit of
the blocks in two maps `m_pre_map` and `m_post_map` from block labels to
abstract values; `process_pre` and `process_post` fill them and `get_pre`,
`get_post` and `operator[]` read them.  The abstract domain `abs_dom_t` is a
parameter of the class.
-/

/-- The operations of the abstract domain `abs_dom_t` that the invariant maps
use: `top()`, `bottom()`, `is_bottom` and `is_top`. -/
structure abs_dom_ops (D : Type) where
  top : D
  bottom : D
  is_bottom : D → Bool
  is_top : D → Bool

/-- `invariant_map_t::find`: the value bound to the label `b`, none for
`end()`. -/
def invariant_map_find {L D : Type} [DecidableEq L] (b : L) : List (L × D) → Option D
  | [] => none
  | (k, x) :: m => if k = b then some x else invariant_map_find b m

/-- The class `FwdAnalyzer`: the two invariant maps. -/
structure FwdAnalyzer (L D : Type) where
  m_pre_map : List (L × D)
  m_post_map : List (L × D)

namespace FwdAnalyzer

variable {L D : Type} [DecidableEq L]

/-- `FwdAnalyzer::process_pre`. -/
def process_pre (ops : abs_dom_ops D) (a : FwdAnalyzer L D) (node : L) (inv : D) :
    FwdAnalyzer L D :=
  match invariant_map_find node a.m_pre_map with
  | none =>
    if ops.is_bottom inv then { a with m_pre_map := a.m_pre_map ++ [(node, ops.bottom)] }
    else if ops.is_top inv then { a with m_pre_map := a.m_pre_map ++ [(node, ops.top)] }
    else { a with m_pre_map := a.m_pre_map ++ [(node, inv)] }
  | some _ => a

/-- `FwdAnalyzer::process_post`. -/
def process_post (ops : abs_dom_ops D) (a : FwdAnalyzer L D) (node : L) (inv : D) :
    FwdAnalyzer L D :=
  match invariant_map_find node a.m_post_map with
  | none =>
    if ops.is_bottom inv then { a with m_post_map := a.m_post_map ++ [(node, ops.bottom)] }
    else if ops.is_top inv then { a with m_post_map := a.m_post_map ++ [(node, ops.top)] }
    else { a with m_post_map := a.m_post_map ++ [(node, inv)] }
  | some _ => a

/-- `FwdAnalyzer::get_pre`. -/
def get_pre (ops : abs_dom_ops D) (a : FwdAnalyzer L D) (b : L) : D :=
  match invariant_map_find b a.m_pre_map with
  | none => ops.top
  | some x => x

/-- `FwdAnalyzer::get_post`. -/
def get_post (ops : abs_dom_ops D) (a : FwdAnalyzer L D) (b : L) : D :=
  match invariant_map_find b a.m_post_map with
  | none => ops.top
  | some x => x

/-- `FwdAnalyzer::operator[]`. -/
def operator_index (ops : abs_dom_ops D) (a : FwdAnalyzer L D) (b : L) : D :=
  a.get_pre ops b

end FwdAnalyzer

/-- The operations `top`, `bottom`, `is_bottom`, `is_top` of the domain of
disjunctive intervals. -/
def dis_interval_ops : abs_dom_ops dis_interval :=
  ⟨dis_interval.top, dis_interval.bottom, dis_interval.is_bottom, dis_interval.is_top⟩

/-!
# Array smashing (crab/domains/array_smashing.hpp): `store`

The functor `array_smashing<NumDomain>` wraps a value `_inv` of the numerical
domain `NumDomain`, which is a parameter of the class.
-/

/-- The operations of the template parameter `NumDomain` that `store` and the
order use: `assign (x, e)`, `operator|` and `operator<=`.  `V` is the type of
variable names and `E` the type of linear expressions. -/
structure num_domain_ops (D V E : Type) where
  assign : D → V → E → D
  join : D → D → D
  leq : D → D → Bool

/-- The class `array_smashing`: the field `_inv`. -/
structure array_smashing (D : Type) where
  _inv : D

namespace array_smashing

variable {D V E : Type}

/-- `array_smashing::strong_update`. -/
def strong_update (ops : num_domain_ops D V E) (s : array_smashing D) (lhs : V) (rhs : E) :
    array_smashing D :=
  ⟨ops.assign s._inv lhs rhs⟩

/-- `array_smashing::weak_update`. -/
def weak_update (ops : num_domain_ops D V E) (s : array_smashing D) (lhs : V) (rhs : E) :
    array_smashing D :=
  let other := s._inv
  let other := ops.assign other lhs rhs
  ⟨ops.join s._inv other⟩

/-- `array_smashing::operator<=`. -/
def leq (ops : num_domain_ops D V E) (s other : array_smashing D) : Bool :=
  ops.leq s._inv other._inv

/-- `array_smashing::operator|`. -/
def join (ops : num_domain_ops D V E) (s other : array_smashing D) : array_smashing D :=
  ⟨ops.join s._inv other._inv⟩

/-- `array_smashing::assign`. -/
def assign (ops : num_domain_ops D V E) (s : array_smashing D) (x : V) (e : E) :
    array_smashing D :=
  ⟨ops.assign s._inv x e⟩

/-- `array_smashing::store`; the index `i` and the size `n_bytes` are not
used. -/
def store (ops : num_domain_ops D V E) (s : array_smashing D) (a : V) (_i : V) (val : E)
    (_n_bytes : Int) (is_singleton : Bool) : array_smashing D :=
  if is_singleton then strong_update ops s a val
  else weak_update ops s a val

end array_smashing

/-- A numerical domain with one cell for every variable name, all sharing one
interval: `assign` stores the interval, join and order are those of the
intervals. -/
def one_cell_ops : num_domain_ops interval Nat interval :=
  ⟨fun _ _ e => e, interval.join, interval.leq⟩

/-!
## Notions used to state and to prove the claims about the pointer analysis
-/

/-- The name whose address set a store or load through the reference runs
over, with the name that is written (store) or read (load) for each of its
elements; none for the two kinds of reference that cannot be dereferenced. -/
def pta_ref.deref : pta_ref → Option (vname × (index_t → vname))
  | pta_ref.pointer_ref _pointer _ => some (_pointer.str, vname.O)
  | pta_ref.object_ref _ _ => none
  | pta_ref.function_ref _ => none
  | pta_ref.param_ref _fptr _param => some (_fptr.str, vname.P _param)
  | pta_ref.return_ref _fptr => some (_fptr.str, vname.R)

namespace pta_system

/-- The pair of calls `add_address_set (dst, l); add_offset (dst, o, op)`. -/
def add_info (s : pta_system) (dst : vname) (l : address_set) (o : interval)
    (op : binary_op) : pta_system :=
  (s.add_address_set dst l).add_offset dst o op

/-- The body of the loops of a store constraint. -/
def store_body (key : index_t → vname) (rhs : vname) (rhs_offset : interval)
    (op : binary_op) (a : index_t) (st : pta_system) : pta_system :=
  st.add_info (key a) (st.get_address_set rhs) rhs_offset op

/-- The body of the loops of a load constraint. -/
def load_body (key : index_t → vname) (lhs : vname) (op : binary_op) (a : index_t)
    (st : pta_system) : pta_system :=
  st.add_info lhs (st.get_address_set (key a)) (st.get_offset (key a)) op

/-- The address sets of the state solve the constraint. -/
def solution (s : pta_system) : pta_constraint → Prop
  | pta_constraint.pta_assign _lhs _rhs =>
    ∀ x ∈ (s.process_ref _rhs).1, x ∈ s.get_address_set _lhs.str
  | pta_constraint.pta_store ref _rhs =>
    match ref.deref with
    | some (v, key) =>
      ∀ a ∈ s.get_address_set v, ∀ x ∈ s.get_address_set _rhs.str,
        x ∈ s.get_address_set (key a)
    | none => True
  | pta_constraint.pta_load _lhs ref =>
    match ref.deref with
    | some (v, key) =>
      ∀ a ∈ s.get_address_set v, ∀ x ∈ s.get_address_set (key a),
        x ∈ s.get_address_set _lhs.str
    | none => True

/-- The address sets of the maps are strictly ascending, as the elements of a
`std::set` are. -/
def sorted (s : pta_system) : Prop :=
  ∀ v, (s.get_address_set v).Sorted (· < ·)

/-- The constraint is not a store or load through an object or function
reference. -/
def deref_ok : pta_constraint → Bool
  | pta_constraint.pta_assign _ _ => true
  | pta_constraint.pta_store ref _ => ref.deref.isSome
  | pta_constraint.pta_load _ ref => ref.deref.isSome

/-- No constraint of the list dereferences an object or a function. -/
def deref_free (csts : List pta_constraint) : Bool :=
  csts.all deref_ok

end pta_system

namespace pta_system

/-- The pairs of a name and an address set that processing the constraint in
the state `st` can pass to `add_address_set`. -/
def writes (st : pta_system) : pta_constraint → vname → address_set → Prop
  | pta_constraint.pta_assign _lhs _rhs, dst, l =>
    dst = _lhs.str ∧ l = (st.process_ref _rhs).1
  | pta_constraint.pta_store ref _rhs, dst, l =>
    match ref.deref with
    | some (v, key) =>
      ∃ a ∈ st.get_address_set v, dst = key a ∧ l = st.get_address_set _rhs.str
    | none => False
  | pta_constraint.pta_load _lhs ref, dst, l =>
    match ref.deref with
    | some (v, key) =>
      ∃ a ∈ st.get_address_set v, dst = _lhs.str ∧ l = st.get_address_set (key a)
    | none => False

end pta_system

namespace pta_system

/-- The greatest address in the address sets of the state (0 when there is
none). -/
def max_address (s : pta_system) : Nat :=
  (s._address_map.map (fun e => e.2.foldr max 0)).foldr max 0

end pta_system

/-- The number of widening steps behind an offset: 0 for bottom, and
otherwise one more than the number of its infinite end points. -/
def interval.rank (i : interval) : Nat :=
  if i.is_bottom then 0
  else 1 + (if i.lb = bound.minus_infinity then 1 else 0) +
    (if i.ub = bound.plus_infinity then 1 else 0)

namespace pta_system

/-- The addresses named by a reference: the address of an object reference
and the identifier of a function reference. -/
def ref_constants : pta_ref → List index_t
  | pta_ref.object_ref _address _ => [_address]
  | pta_ref.function_ref _uid => [_uid]
  | _ => []

/-- The addresses named by a constraint. -/
def cst_constants : pta_constraint → List index_t
  | pta_constraint.pta_assign _ _rhs => ref_constants _rhs
  | _ => []

/-- The addresses named by the constraints of the state or held in its
address sets: no other address is ever added to an address set. -/
def address_universe (s : pta_system) : Finset Nat :=
  (s._csts.flatMap cst_constants ++ s._address_map.flatMap (fun e => e.2)).toFinset

/-- The address sets of the state hold addresses of `U` only. -/
def within (U : Finset Nat) (s : pta_system) : Prop :=
  ∀ (v : vname) (a : Nat), a ∈ s.get_address_set v → a ∈ U

/-- The names that processing the constraint can bind while the addresses are
in `U`. -/
def written (U : Finset Nat) : pta_constraint → Finset vname
  | pta_constraint.pta_assign _lhs _ => {_lhs.str}
  | pta_constraint.pta_load _lhs _ => {_lhs.str}
  | pta_constraint.pta_store ref _ =>
    match ref.deref with
    | some (_, key) => U.image key
    | none => ∅

/-- The names that processing the constraints can bind while the addresses
are in `U`. -/
def keys (csts : List pta_constraint) (U : Finset Nat) : Finset vname :=
  csts.toFinset.biUnion (written U)

/-- The size of what is known about a name: the number of its addresses plus
the rank of its offset. -/
def potential_at (s : pta_system) (v : vname) : Nat :=
  (s.get_address_set v).toFinset.card + (s.get_offset v).rank

/-- The sum of the sizes over the names of `K`. -/
def potential (K : Finset vname) (s : pta_system) : Nat :=
  K.sum (potential_at s)

/-- The state `s'` comes later than `s` in a pass with the extrapolation
operator of threshold `W`: nothing known has shrunk, `change_seen` is not
reset, and when the pass widens, a change that was seen has made something
known about a name of `K` larger. -/
def grows (K : Finset vname) (W : Nat) (s s' : pta_system) : Prop :=
  (∀ v, potential_at s v ≤ potential_at s' v) ∧
  (s.change_seen = true → s'.change_seen = true) ∧
  (¬ s.iteration < W → s.change_seen = false → s'.change_seen = true →
    ∃ v ∈ K, potential_at s v < potential_at s' v)

end pta_system

namespace pta_system

/-- The number of passes of the extrapolation loop, the next one included,
before a pass that widens, when the counter `iteration` is `i`. -/
def passes_to_widening (W : Nat) (i : Nat) : Nat :=
  if (i + 1) % size_t_modulus < W then W - (i + 1) % size_t_modulus else 0

/-- Exactly `n` passes with the operator `op`, the counter `iteration` being
incremented after each. -/
def passes (fuel : Nat) (op : binary_op) : Nat → pta_system → Except pta_error pta_system
  | 0, s => Except.ok s
  | n + 1, s =>
    match step fuel op s with
    | Except.ok s' =>
      passes fuel op n { s' with iteration := (s'.iteration + 1) % size_t_modulus }
    | Except.error e => Except.error e

end pta_system

namespace pta_system

/-- An amount of fuel that is enough for `solve` with the two thresholds in
the state `s`: it exceeds the greatest address, the number of passes of the
extrapolation loop and the number of refinement passes. -/
def enough_fuel (s : pta_system) (W N : Nat) : Nat :=
  s.address_universe.sup id +
    (keys s._csts s.address_universe).card * (s.address_universe.card + 3) * (W + 1) +
    W + N + 2

end pta_system

/-!
# Liveness (crab/analysis/Liveness.hpp, ikos/domains/discrete_domains.hpp)

A shallow embedding of the class `Liveness`: the kill and gen sets of the
blocks (`init`), the fixpoint loop of `exec`, `process_post` and the query
`dead_exit`, over the sets of variables `liveness_domain`, which wrap a
`discrete_domain`.

The control flow graph is not among the sources.  A block is given by its
label, the definitions and uses of its statements in program order, its
successors (`next_nodes`) and its set of variables (`live ()`); variables and
labels are numbers.  The order in which `exec` visits the blocks, computed by
`SccGraph` and `rev_topo_sort`, is an argument.  Maps are association lists.
-/

/-- Modelled from the spec: the class `patricia_tree_set` (patricia_trees.hpp)
is not among the sources; a set of variables is the list of its elements, and
this is `operator+=`, which adds an element. -/
def ptset_add (s : List Nat) (e : Nat) : List Nat := if e ∈ s then s else s ++ [e]

/-- Modelled from the spec: `patricia_tree_set::operator-=`, which removes an
element. -/
def ptset_remove (s : List Nat) (e : Nat) : List Nat := s.filter (fun x => decide (x ≠ e))

/-- Modelled from the spec: `patricia_tree_set::operator|`, the union. -/
def ptset_union (s t : List Nat) : List Nat := t.foldl ptset_add s

/-- Modelled from the spec: `patricia_tree_set::operator<=`, the inclusion. -/
def ptset_leq (s t : List Nat) : Bool := s.all (fun x => decide (x ∈ t))

/-- The class `discrete_domain`: the fields `_is_top` and `_set`. -/
structure discrete_domain where
  _is_top : Bool
  _set : List Nat
deriving DecidableEq, Repr

namespace discrete_domain

/-- `discrete_domain::bottom()`. -/
def bottom : discrete_domain := ⟨false, []⟩

/-- `discrete_domain::top()`. -/
def top : discrete_domain := ⟨true, []⟩

/-- `discrete_domain::is_top`. -/
def is_top (a : discrete_domain) : Bool := a._is_top

/-- `discrete_domain::is_bottom`. -/
def is_bottom (a : discrete_domain) : Bool := !a._is_top && a._set.isEmpty

/-- `discrete_domain::operator<=`. -/
def leq (a other : discrete_domain) : Bool :=
  other._is_top || (!a._is_top && ptset_leq a._set other._set)

/-- `discrete_domain::operator|`. -/
def join (a other : discrete_domain) : discrete_domain :=
  if a._is_top || other._is_top then ⟨true, []⟩
  else ⟨false, ptset_union a._set other._set⟩

/-- `discrete_domain::operator+=` for an element. -/
def add (a : discrete_domain) (s : Nat) : discrete_domain :=
  if !a._is_top then { a with _set := ptset_add a._set s } else a

/-- `discrete_domain::operator-=` for an element. -/
def remove (a : discrete_domain) (s : Nat) : discrete_domain :=
  if !a._is_top then { a with _set := ptset_remove a._set s } else a

/-- `discrete_domain::size`; none stands for the exception thrown at top. -/
def size (a : discrete_domain) : Option Nat :=
  if a._is_top then none else some a._set.length

end discrete_domain

/-- The class `liveness_domain`: the field `_inv`. -/
structure liveness_domain where
  _inv : discrete_domain
deriving DecidableEq, Repr

namespace liveness_domain

/-- `liveness_domain::bottom()`, also the default constructor. -/
def bottom : liveness_domain := ⟨discrete_domain.bottom⟩

/-- `liveness_domain::is_bottom`. -/
def is_bottom (a : liveness_domain) : Bool := a._inv.is_bottom

/-- `liveness_domain::is_top`. -/
def is_top (a : liveness_domain) : Bool := a._inv.is_top

/-- `liveness_domain::operator<=`. -/
def leq (a other : liveness_domain) : Bool :=
  if a.is_bottom then true
  else if other.is_top then true
  else a._inv.leq other._inv

/-- `liveness_domain::operator-=` for an element. -/
def remove (a : liveness_domain) (x : Nat) : liveness_domain :=
  if a.is_bottom then a else ⟨a._inv.remove x⟩

/-- `liveness_domain::operator-=` for a set: the loop runs over the elements
of `other`. -/
def remove_all (a other : liveness_domain) : liveness_domain :=
  if a.is_bottom || other.is_bottom then a
  else if !other._inv.is_top then
    ⟨other._inv._set.foldl (fun inv v => inv.remove v) a._inv⟩
  else a

/-- `liveness_domain::operator+=` for an element. -/
def add (a : liveness_domain) (x : Nat) : liveness_domain :=
  if a.is_top then a else ⟨a._inv.add x⟩

/-- `liveness_domain::operator+=` for a set. -/
def add_all (a other : liveness_domain) : liveness_domain :=
  if a.is_top || other.is_bottom then a
  else if other.is_top then ⟨discrete_domain.top⟩
  else ⟨a._inv.join other._inv⟩

/-- `liveness_domain::operator|`. -/
def join (a other : liveness_domain) : liveness_domain := ⟨a._inv.join other._inv⟩

/-- `liveness_domain::size`. -/
def size (a : liveness_domain) : Option Nat := a._inv.size

end liveness_domain

/-- The live information of a statement (`getLive ()`): the variables it
defines and the variables it uses. -/
structure statement_live where
  defs : List Nat
  uses : List Nat
deriving DecidableEq, Repr

/-- A basic block of the control flow graph: its label, its statements in
program order, its successors (`next_nodes`) and its variables (`live ()`). -/
structure basic_block where
  label : Nat
  stmts : List statement_live
  next : List Nat
  live : discrete_domain
deriving DecidableEq, Repr

/-- `m_cfg.get_node (bb)`: the block with the label, none when there is
none. -/
def get_node (cfg : List basic_block) (bb : Nat) : Option basic_block :=
  cfg.find? (fun b => decide (b.label = bb))

/-- `find` in a map keyed by block labels. -/
def label_map_find {β : Type} (n : Nat) : List (Nat × β) → Option β
  | [] => none
  | (k, x) :: m => if k = n then some x else label_map_find n m

/-- The assignment `m [n] = x` in a map keyed by block labels. -/
def label_map_set {β : Type} (n : Nat) (x : β) : List (Nat × β) → List (Nat × β)
  | [] => [(n, x)]
  | (k, y) :: m => if k = n then (k, x) :: m else (k, y) :: label_map_set n x m

/-- `insert` in a map keyed by block labels: an existing entry is kept. -/
def label_map_insert {β : Type} (n : Nat) (x : β) (m : List (Nat × β)) : List (Nat × β) :=
  match label_map_find n m with
  | some _ => m
  | none => m ++ [(n, x)]

/-- The value `m [n]` of a map of sets: a missing entry is created by the
default constructor, which is bottom. -/
def label_map_get (m : List (Nat × liveness_domain)) (n : Nat) : liveness_domain :=
  match label_map_find n m with
  | some x => x
  | none => liveness_domain.bottom

/-- The class `Liveness`: its fields. -/
structure Liveness where
  m_cfg : List basic_block
  m_in_map : List (Nat × liveness_domain)
  m_out_map : List (Nat × liveness_domain)
  m_kill_gen_map : List (Nat × (liveness_domain × liveness_domain))
  m_dead_map : List (Nat × liveness_domain)
  m_has_exec : Bool
  m_max_live : Nat
  m_total_live : Nat
  m_total_blks : Nat
deriving DecidableEq, Repr

namespace Liveness

/-- The loops of `init` over the definitions and the uses of one statement. -/
def init_stmt (kg : liveness_domain × liveness_domain) (s : statement_live) :
    liveness_domain × liveness_domain :=
  let kg1 := s.defs.foldl (fun kg d => (kg.1.add d, kg.2.remove d)) kg
  s.uses.foldl (fun kg u => (kg.1, kg.2.add u)) kg1

/-- The body of the loop of `init` for one block: the statements are visited
from the last to the first. -/
def init_block (b : basic_block) : liveness_domain × liveness_domain :=
  b.stmts.reverse.foldl init_stmt (liveness_domain.bottom, liveness_domain.bottom)

/-- `Liveness::init`. -/
def init (cfg : List basic_block) : List (Nat × (liveness_domain × liveness_domain)) :=
  cfg.foldl (fun m b => label_map_insert b.label (init_block b) m) []

/-- The constructor `Liveness (cfg)`. -/
def mk_liveness (cfg : List basic_block) : Liveness :=
  ⟨cfg, [], [], init cfg, [], false, 0, 0, 0⟩

/-- `Liveness::analyze`; none stands for the failure of the assertion. -/
def analyze (l : Liveness) (bb_id : Nat) (live_out : liveness_domain) :
    Option liveness_domain :=
  match label_map_find bb_id l.m_kill_gen_map with
  | none => none
  | some (kill, gen) => some ((live_out.remove_all kill).add_all gen)

/-- The loop `for (auto p: m_cfg.next_nodes (n)) out = out | m_in_map [p]`. -/
def live_out_of (in_map : List (Nat × liveness_domain)) (next : List Nat) : liveness_domain :=
  next.foldl (fun out p => out.join (label_map_get in_map p)) liveness_domain.bottom

/-- The body of the loop over `order` in `exec`, with the flag `change`; none
when the node is not in the graph. -/
def exec_node (l : Liveness) (change : Bool) (n : Nat) : Option (Liveness × Bool) :=
  match get_node l.m_cfg n with
  | none => none
  | some b =>
    let out := live_out_of l.m_in_map b.next
    match l.analyze n out with
    | none => none
    | some in_ =>
      let old_in := label_map_get l.m_in_map n
      if !(in_.leq old_in) then
        some ({ l with m_in_map := label_map_set n (in_.join old_in) l.m_in_map }, true)
      else some ({ l with m_out_map := label_map_set n out l.m_out_map }, change)

/-- The loop `for (auto &n : order)` inside the fixpoint loop of `exec`. -/
def exec_pass : List Nat → Liveness → Bool → Option (Liveness × Bool)
  | [], l, change => some (l, change)
  | n :: order, l, change =>
    match exec_node l change n with
    | none => none
    | some (l', change') => exec_pass order l' change'

/-- The loop `while (change)` of `exec`; none when the fuel is used up. -/
def exec_loop (order : List Nat) : Nat → Liveness → Option Liveness
  | 0, _ => none
  | fuel + 1, l =>
    match exec_pass order l false with
    | none => none
    | some (l', change) => if change then exec_loop order fuel l' else some l'

/-- `Liveness::process_post`; none stands for the exception that `size`
throws at top. -/
def process_post (l : Liveness) (bb : Nat) (live_out : liveness_domain) : Option Liveness :=
  if !live_out.is_bottom then
    match get_node l.m_cfg bb with
    | none => none
    | some b =>
      let dead_set : liveness_domain := ⟨b.live⟩
      let dead_set := dead_set.remove_all live_out
      match live_out.size with
      | none => none
      | some n =>
        some { l with
          m_dead_map := label_map_insert bb dead_set l.m_dead_map
          m_total_live := l.m_total_live + n
          m_max_live := max l.m_max_live n
          m_total_blks := l.m_total_blks + 1 }
  else some l

/-- The loop `for (auto &n : order) process_post (n, m_out_map [n])`. -/
def process_post_loop : List Nat → Liveness → Option Liveness
  | [], l => some l
  | n :: order, l =>
    match process_post l n (label_map_get l.m_out_map n) with
    | none => none
    | some l' => process_post_loop order l'

/-- `Liveness::exec`, with the order of the nodes as an argument; the state
is returned as it is after the warning when `exec` has been run before. -/
def exec (fuel : Nat) (order : List Nat) (l : Liveness) : Option Liveness :=
  if l.m_has_exec then some l
  else
    match exec_loop order fuel l with
    | none => none
    | some l1 =>
      match process_post_loop order l1 with
      | none => none
      | some l2 => some { l2 with m_has_exec := true, m_in_map := [], m_out_map := [] }

/-- `Liveness::dead_exit`. -/
def dead_exit (l : Liveness) (bb : Nat) : liveness_domain :=
  match label_map_find bb l.m_dead_map with
  | none => liveness_domain.bottom
  | some x => x

end Liveness

/-!
## Notions used to state and to prove the claim about liveness
-/

namespace Liveness

/-- No live-in set and no kill or gen set of the state is top. -/
def no_top (l : Liveness) : Prop :=
  (∀ n, (label_map_get l.m_in_map n)._inv._is_top = false) ∧
  (∀ n k g, label_map_find n l.m_kill_gen_map = some (k, g) →
    k._inv._is_top = false ∧ g._inv._is_top = false)

/-- The variables of the gen sets. -/
def gen_vars (l : Liveness) : Finset Nat :=
  (l.m_kill_gen_map.flatMap (fun e => e.2.2._inv._set)).toFinset

/-- The live-in set of a node, as a finite set. -/
def live_in (l : Liveness) (n : Nat) : Finset Nat :=
  (label_map_get l.m_in_map n)._inv._set.toFinset

/-- The sum of the sizes of the live-in sets of the nodes of `K`. -/
def live_in_size (K : Finset Nat) (l : Liveness) : Nat :=
  K.sum (fun n => (l.live_in n).card)

/-- An amount of fuel that is enough for the fixpoint loop of `exec` on a
new `Liveness` object: one more than the number of nodes of the order times
the number of variables of the gen sets. -/
def enough_fuel (cfg : List basic_block) (order : List Nat) : Nat :=
  order.toFinset.card * (mk_liveness cfg).gen_vars.card + 1

end Liveness


/-!
## Further operations of the sets of variables
-/

/-- Modelled from the spec: `patricia_tree_set::operator==`, the equality of
two sets. -/
def ptset_eq (s t : List Nat) : Bool := ptset_leq s t && ptset_leq t s

namespace discrete_domain

/-- `discrete_domain::operator==`. -/
def eq (a other : discrete_domain) : Bool :=
  (a._is_top && other._is_top) || ptset_eq a._set other._set

/-- `discrete_domain::operator-=` for a collection. -/
def remove_collection (a : discrete_domain) (c : List Nat) : discrete_domain :=
  if !a._is_top then { a with _set := c.foldl ptset_remove a._set } else a

/-- `discrete_domain::operator-` for an element: `operator-=` on a copy. -/
def minus (a : discrete_domain) (s : Nat) : discrete_domain :=
  let r := a
  r.remove s

/-- `discrete_domain::operator-` for a collection: `operator-=` on a copy. -/
def minus_collection (a : discrete_domain) (c : List Nat) : discrete_domain :=
  let r := a
  r.remove_collection c

/-- The elements between `discrete_domain::begin()` and `end()`; none stands
for the exception that both throw at top. -/
def elements (a : discrete_domain) : Option (List Nat) :=
  if a._is_top then none else some a._set

end discrete_domain

namespace liveness_domain

/-- `liveness_domain::top()`. -/
def top : liveness_domain := ⟨discrete_domain.top⟩

/-- The elements between `liveness_domain::begin()` and `end()`. -/
def elements (a : liveness_domain) : Option (List Nat) := a._inv.elements

/-- `liveness_domain::operator-=` for a set, with the exceptions of the
functions it calls: the loop `for (auto v : other)` runs from `other.begin()`
to `other.end()`; none stands for an exception. -/
def remove_all_checked (a other : liveness_domain) : Option liveness_domain :=
  if a.is_bottom || other.is_bottom then some a
  else if !other._inv.is_top then
    match other.elements with
    | none => none
    | some l => some ⟨l.foldl (fun inv v => inv.remove v) a._inv⟩
  else some a

/-- `liveness_domain::operator||`. -/
def widening (_a other : liveness_domain) : liveness_domain := other

/-- `liveness_domain::operator&&`. -/
def narrowing (_a other : liveness_domain) : liveness_domain := other

end liveness_domain



/-- The constraint with the offset of the reference of a store or of a load
through a pointer replaced by bottom; the other constraints are left as they
are. -/
def pta_constraint.forget_offset : pta_constraint → pta_constraint
  | pta_constraint.pta_store (pta_ref.pointer_ref p _) q =>
    pta_constraint.pta_store (pta_ref.pointer_ref p interval.bottom) q
  | pta_constraint.pta_load r (pta_ref.pointer_ref p _) =>
    pta_constraint.pta_load r (pta_ref.pointer_ref p interval.bottom)
  | c => c

/-- The system with its list of constraints replaced. -/
def pta_system.with_csts (csts : List pta_constraint) (s : pta_system) : pta_system :=
  { s with _csts := csts }



/-!
## Interval arithmetic and the lifted arithmetic of disjunctive intervals
-/

/-- Modelled from the spec: the unary `bound::operator-`. -/
def bound.neg : bound → bound
  | bound.minus_infinity => bound.plus_infinity
  | bound.finite n => bound.finite (-n)
  | bound.plus_infinity => bound.minus_infinity

/-- Modelled from the spec: the binary `bound::operator-`, the sum with the
opposite. -/
def bound.sub (a b : bound) : bound := bound.add a (bound.neg b)

/-- Modelled from the spec: `bound::operator*`; zero times an infinity is
zero, and otherwise the product with an infinity is the infinity with the
sign of the product. -/
def bound.mul : bound → bound → bound
  | bound.finite a, bound.finite b => bound.finite (a * b)
  | bound.finite a, bound.plus_infinity =>
    if a = 0 then bound.finite 0 else if 0 < a then bound.plus_infinity
    else bound.minus_infinity
  | bound.finite a, bound.minus_infinity =>
    if a = 0 then bound.finite 0 else if 0 < a then bound.minus_infinity
    else bound.plus_infinity
  | bound.plus_infinity, bound.finite b =>
    if b = 0 then bound.finite 0 else if 0 < b then bound.plus_infinity
    else bound.minus_infinity
  | bound.minus_infinity, bound.finite b =>
    if b = 0 then bound.finite 0 else if 0 < b then bound.minus_infinity
    else bound.plus_infinity
  | bound.plus_infinity, bound.plus_infinity => bound.plus_infinity
  | bound.minus_infinity, bound.minus_infinity => bound.plus_infinity
  | bound.plus_infinity, bound.minus_infinity => bound.minus_infinity
  | bound.minus_infinity, bound.plus_infinity => bound.minus_infinity

namespace interval

/-- Modelled from the spec: the constructor `interval (Number n)`, the
interval [n,n]. -/
def of_num (n : Int) : interval := ⟨bound.finite n, bound.finite n⟩

/-- The integer `n` lies between the end points of the interval. -/
def contains (i : interval) (n : Int) : Bool :=
  bound.leb i.lb (bound.finite n) && bound.leb (bound.finite n) i.ub

/-- Modelled from the spec: the binary `interval::operator-`. -/
def sub (a b : interval) : interval :=
  if a.is_bottom || b.is_bottom then bottom
  else ⟨bound.sub a.lb b.ub, bound.sub a.ub b.lb⟩

/-- Modelled from the spec: `interval::operator*`, the least and the
greatest of the four products of the end points. -/
def mul (a b : interval) : interval :=
  if a.is_bottom || b.is_bottom then bottom
  else
    let ll := bound.mul a.lb b.lb
    let lu := bound.mul a.lb b.ub
    let ul := bound.mul a.ub b.lb
    let uu := bound.mul a.ub b.ub
    ⟨bound.bmin (bound.bmin ll lu) (bound.bmin ul uu),
     bound.bmax (bound.bmax ll lu) (bound.bmax ul uu)⟩

/-- Modelled from the spec: `interval::lower_half_line`, from minus infinity
to the upper end point. -/
def lower_half_line (a : interval) : interval :=
  if a.is_bottom then bottom else ⟨bound.minus_infinity, a.ub⟩

/-- Modelled from the spec: `interval::upper_half_line`, from the lower end
point to plus infinity. -/
def upper_half_line (a : interval) : interval :=
  if a.is_bottom then bottom else ⟨a.lb, bound.plus_infinity⟩

end interval

namespace dis_interval

/-- The body of the loops of `apply_bin_op` for one computed interval: a
bottom interval is skipped, a top interval makes the function return top
(none), any other interval is pushed on `res` and clears `is_bot`. -/
def bin_op_push (intv : interval) (st : List interval × Bool) :
    Option (List interval × Bool) :=
  if intv.is_bottom then some st
  else if intv.is_top then none
  else some (st.1 ++ [intv], false)

/-- The inner loop `for j` of `apply_bin_op` for the interval `xi`. -/
def bin_op_inner (op : interval → interval → interval) (xi : interval) :
    List interval → List interval × Bool → Option (List interval × Bool)
  | [], st => some st
  | yj :: ys, st =>
    match bin_op_push (op xi yj) st with
    | none => none
    | some st' => bin_op_inner op xi ys st'

/-- The outer loop `for i` of `apply_bin_op`. -/
def bin_op_outer (op : interval → interval → interval) :
    List interval → List interval → List interval × Bool → Option (List interval × Bool)
  | [], _, st => some st
  | xi :: xs, ys, st =>
    match bin_op_inner op xi ys st with
    | none => none
    | some st' => bin_op_outer op xs ys st'

/-- The loop of `apply_bin_op` over the operand that is not top when the
other one is. -/
def bin_op_one (op : interval → interval → interval) (is_non_top_left : Bool) :
    List interval → List interval × Bool → Option (List interval × Bool)
  | [], st => some st
  | xi :: xs, st =>
    match bin_op_push (if is_non_top_left then op xi interval.top else op interval.top xi) st with
    | none => none
    | some st' => bin_op_one op is_non_top_left xs st'

/-- `dis_interval::apply_bin_op`. -/
def apply_bin_op (x y : dis_interval) (op : interval → interval → interval)
    (shortcut_top : Bool) : dis_interval :=
  if x.is_bottom || y.is_bottom then bottom
  else if x.is_top && y.is_top then top
  else if shortcut_top && (x.is_top || y.is_top) then top
  else
    let r :=
      if shortcut_top || (x.is_finite && y.is_finite) then
        bin_op_outer op x._list y._list ([], true)
      else
        let non_top_arg := if !x.is_top then x else y
        let is_non_top_left := !x.is_top
        bin_op_one op is_non_top_left non_top_arg._list ([], true)
    match r with
    | none => top
    | some (res, is_bot) => if is_bot then bottom else of_list res true

/-- `dis_interval::operator+`. -/
def add (a x : dis_interval) : dis_interval :=
  if a.is_bottom || x.is_bottom then bottom
  else apply_bin_op a x (fun a b => a.add b) true

/-- The binary `dis_interval::operator-`. -/
def sub (a x : dis_interval) : dis_interval :=
  if a.is_bottom || x.is_bottom then bottom
  else apply_bin_op a x (fun a b => a.sub b) true

/-- `dis_interval::operator*`. -/
def mul (a x : dis_interval) : dis_interval :=
  if a.is_bottom || x.is_bottom then bottom
  else apply_bin_op a x (fun a b => a.mul b) true

/-- The integer `n` is a value of the disjunctive interval: none for BOT, all
for TOP, and the integers of the intervals of the list for FINITE. -/
def contains (x : dis_interval) (n : Int) : Bool :=
  match x._state with
  | state_t.BOT => false
  | state_t.TOP => true
  | state_t.FINITE => x._list.any (fun i => i.contains n)

/-- The body of the loop of `trim_bound` over the intervals of `x`. -/
def trim_step (c : Int) (res : dis_interval) (i : interval) : dis_interval :=
  if !((interval.of_num c).leq i) then res.join (of_interval i)
  else if i.lb = bound.finite c then
    res.join (of_interval (interval.mk_interval (bound.finite (c + 1)) i.ub))
  else if i.ub = bound.finite c then
    res.join (of_interval (interval.mk_interval i.lb (bound.finite (c - 1))))
  else
    (res.join (of_interval (interval.mk_interval i.lb (bound.finite (c - 1))))).join
      (of_interval (interval.mk_interval (bound.finite (c + 1)) i.ub))

/-- `ikos::intervals_impl::trim_bound` for `dis_z_interval_t`. -/
def trim_bound (x : dis_interval) (c : Int) : dis_interval :=
  if x.is_bottom then x
  else
    let res := bottom
    if x.is_top then
      let res := res.join (of_interval (interval.of_num (c - 1)).lower_half_line)
      res.join (of_interval (interval.of_num (c + 1)).upper_half_line)
    else x._list.foldl (trim_step c) res

end dis_interval



/-!
# Environments of abstract values: separate domains, the interval domain and
# the domain of disjunctive intervals

The classes `separate_domain`, `linear_expression`, `interval_domain` and the
default `domain_traits` are not among the sources; they are modelled from the
spec ("Functor: variable → element-lattice", "Affine integer expression over
variables with integer coefficients").  Variables are numbers.
-/

/-- Modelled from the spec: a linear expression (linear_constraints.hpp is not
among the sources), a constant plus terms `coefficient * variable`. -/
structure linear_expression where
  _cst : Int
  _map : List (Int × Nat)
deriving DecidableEq, Repr

namespace linear_expression

/-- Modelled from the spec: the expression that is the number `n`. -/
def of_num (n : Int) : linear_expression := ⟨n, []⟩

/-- Modelled from the spec: the expression that is the variable `x`. -/
def of_var (x : Nat) : linear_expression := ⟨0, [(1, x)]⟩

/-- Modelled from the spec: `linear_expression::is_constant`. -/
def is_constant (e : linear_expression) : Bool := e._map.isEmpty

/-- Modelled from the spec: `linear_expression::constant`. -/
def constant (e : linear_expression) : Int := e._cst

/-- Modelled from the spec: `linear_expression::get_variable`, the variable
when the expression is a single variable with coefficient one and constant
zero. -/
def get_variable (e : linear_expression) : Option Nat :=
  match e._map with
  | [(k, x)] => if e._cst = 0 ∧ k = 1 then some x else none
  | _ => none

end linear_expression

/-- Modelled from the spec: `patricia_tree::remove`, on a tree given as an
association list. -/
def tree_remove {A : Type} (k : Nat) (t : List (Nat × A)) : List (Nat × A) :=
  t.filter (fun e => decide (e.1 ≠ k))

/-- Modelled from the spec: the class `separate_domain` (separate_domains.hpp
is not among the sources): a flag for bottom and a tree from variables to
values that are neither bottom nor top; a variable without entry is top. -/
structure separate_domain (A : Type) where
  _is_bottom : Bool
  _tree : List (Nat × A)
deriving DecidableEq, Repr

namespace separate_domain

variable {A : Type}

/-- Modelled from the spec: `separate_domain::top()`. -/
def top : separate_domain A := ⟨false, []⟩

/-- Modelled from the spec: `separate_domain::bottom()`. -/
def bottom : separate_domain A := ⟨true, []⟩

/-- Modelled from the spec: `separate_domain::is_bottom`. -/
def is_bottom (s : separate_domain A) : Bool := s._is_bottom

/-- Modelled from the spec: `separate_domain::is_top`. -/
def is_top (s : separate_domain A) : Bool := !s._is_bottom && s._tree.isEmpty

/-- Modelled from the spec: `separate_domain::operator[]`. -/
def get (ops : abs_dom_ops A) (s : separate_domain A) (k : Nat) : A :=
  if s._is_bottom then ops.bottom
  else
    match label_map_find k s._tree with
    | some v => v
    | none => ops.top

/-- Modelled from the spec: `separate_domain::set`: a bottom value makes the
environment bottom, a top value removes the entry. -/
def set (ops : abs_dom_ops A) (s : separate_domain A) (k : Nat) (v : A) : separate_domain A :=
  if !s._is_bottom then
    if ops.is_bottom v then ⟨true, []⟩
    else if ops.is_top v then ⟨false, tree_remove k s._tree⟩
    else ⟨false, label_map_set k v s._tree⟩
  else s

/-- Modelled from the spec: `separate_domain::operator-=`. -/
def forget (s : separate_domain A) (k : Nat) : separate_domain A :=
  if !s._is_bottom then { s with _tree := tree_remove k s._tree } else s

/-- Modelled from the spec: `separate_domain::operator|`, the join of the
values of the variables bound in both trees. -/
def join (ops : abs_dom_ops A) (jn : A → A → A) (a b : separate_domain A) :
    separate_domain A :=
  if a._is_bottom then b
  else if b._is_bottom then a
  else
    ⟨false, a._tree.filterMap (fun e =>
      match label_map_find e.1 b._tree with
      | some y => if ops.is_top (jn e.2 y) then none else some (e.1, jn e.2 y)
      | none => none)⟩

/-- Modelled from the spec: `separate_domain::operator<=`. -/
def leq (le : A → A → Bool) (a b : separate_domain A) : Bool :=
  if a._is_bottom then true
  else if b._is_bottom then false
  else b._tree.all (fun e =>
    match label_map_find e.1 a._tree with
    | some x => le x e.2
    | none => false)

/-- The invariant of the class: no value of the tree is bottom or top. -/
def well_formed (ops : abs_dom_ops A) (s : separate_domain A) : Prop :=
  ∀ e ∈ s._tree, ops.is_bottom e.2 = false ∧ ops.is_top e.2 = false

end separate_domain

/-- The operations `top`, `bottom`, `is_bottom`, `is_top` of the intervals. -/
def interval_ops : abs_dom_ops interval :=
  ⟨interval.top, interval.bottom, interval.is_bottom, interval.is_top⟩

/-- Modelled from the spec: the class `interval_domain` (intervals.hpp is not
among the sources), an environment of intervals. -/
structure interval_domain where
  _env : separate_domain interval
deriving DecidableEq, Repr

namespace interval_domain

/-- Modelled from the spec: `interval_domain::top()`. -/
def top : interval_domain := ⟨separate_domain.top⟩

/-- Modelled from the spec: `interval_domain::bottom()`. -/
def bottom : interval_domain := ⟨separate_domain.bottom⟩

/-- Modelled from the spec: `interval_domain::is_bottom`. -/
def is_bottom (s : interval_domain) : Bool := s._env.is_bottom

/-- Modelled from the spec: `interval_domain::operator[]` for a variable. -/
def get (s : interval_domain) (x : Nat) : interval := s._env.get interval_ops x

/-- Modelled from the spec: `interval_domain::set`. -/
def set (s : interval_domain) (x : Nat) (v : interval) : interval_domain :=
  ⟨s._env.set interval_ops x v⟩

/-- Modelled from the spec: `interval_domain::operator-=`. -/
def forget (s : interval_domain) (x : Nat) : interval_domain := ⟨s._env.forget x⟩

/-- Modelled from the spec: `interval_domain::operator|`. -/
def join (a b : interval_domain) : interval_domain :=
  ⟨a._env.join interval_ops interval.join b._env⟩

/-- Modelled from the spec: `interval_domain::operator<=`. -/
def leq (a b : interval_domain) : Bool := a._env.leq interval.leq b._env

/-- Modelled from the spec: the value of a linear expression, the constant
plus the products of the coefficients and the intervals of the variables. -/
def eval (s : interval_domain) (e : linear_expression) : interval :=
  e._map.foldl (fun r t => r.add ((interval.of_num t.1).mul (s.get t.2)))
    (interval.of_num e.constant)

/-- Modelled from the spec: `interval_domain::assign`. -/
def assign (s : interval_domain) (x : Nat) (e : linear_expression) : interval_domain :=
  match e.get_variable with
  | some v => s.set x (s.get v)
  | none => s.set x (s.eval e)

/-- Modelled from the spec: the default `domain_traits::expand`, which gives
the new variable the value of the old one. -/
def expand (s : interval_domain) (x new_x : Nat) : interval_domain := s.set new_x (s.get x)

end interval_domain

/-- The class `dis_interval_domain`: the field `_env`. -/
structure dis_interval_domain where
  _env : separate_domain dis_interval
deriving DecidableEq, Repr

namespace dis_interval_domain

/-- `dis_interval_domain::top()`. -/
def top : dis_interval_domain := ⟨separate_domain.top⟩

/-- `dis_interval_domain::bottom()`. -/
def bottom : dis_interval_domain := ⟨separate_domain.bottom⟩

/-- `dis_interval_domain::is_bottom`. -/
def is_bottom (s : dis_interval_domain) : Bool := s._env.is_bottom

/-- `dis_interval_domain::operator-=`. -/
def forget (s : dis_interval_domain) (v : Nat) : dis_interval_domain := ⟨s._env.forget v⟩

/-- `dis_interval_domain::operator[]`; none stands for the `CRAB_ERROR` of
`approx` on an empty list. -/
def get (s : dis_interval_domain) (v : Nat) : Option interval :=
  (s._env.get dis_interval_ops v).approx

/-- `dis_interval_domain::set`. -/
def set (s : dis_interval_domain) (v : Nat) (intv : interval) : dis_interval_domain :=
  ⟨s._env.set dis_interval_ops v (dis_interval.of_interval intv)⟩

/-- `dis_interval_domain::assign`. -/
def assign (s : dis_interval_domain) (x : Nat) (e : linear_expression) : dis_interval_domain :=
  match e.get_variable with
  | some v => ⟨s._env.set dis_interval_ops x (s._env.get dis_interval_ops v)⟩
  | none =>
    let r := dis_interval.of_interval (interval.of_num e.constant)
    let r := e._map.foldl (fun r t =>
      r.add ((dis_interval.of_interval (interval.of_num t.1)).mul
        (s._env.get dis_interval_ops t.2))) r
    ⟨s._env.set dis_interval_ops x r⟩

/-- `dis_interval_domain::expand`. -/
def expand (s : dis_interval_domain) (x new_x : Nat) : dis_interval_domain :=
  ⟨s._env.set dis_interval_ops new_x (s._env.get dis_interval_ops x)⟩

end dis_interval_domain

/-!
# Array smashing: `load` and `array_init`
-/

/-- The further operations of the template parameter `NumDomain` that `load`
and `array_init` use: `set`, `operator-=`, `domain_traits<NumDomain>::expand`,
and the linear expression that is a variable. -/
structure array_num_domain_ops (D V E : Type) extends num_domain_ops D V E where
  set : D → V → interval → D
  forget : D → V → D
  expand : D → V → V → D
  var_expr : V → E

namespace array_smashing

variable {D V E : Type}

/-- `array_smashing::top()`, with the top of `NumDomain` as argument. -/
def top (top_inv : D) : array_smashing D := ⟨top_inv⟩

/-- `array_smashing::array_init`. -/
def array_init (ops : array_num_domain_ops D V E) (s : array_smashing D) (a : V)
    (values : List Int) : array_smashing D :=
  if values.isEmpty then s
  else
    let init := values.foldl (fun init v => init.join (interval.of_num v)) interval.bottom
    ⟨ops.set s._inv a init⟩

/-- `array_smashing::load`; `a_prime` is the temporary variable returned by
`a.getVarFactory().get()`; the index and the size are not used. -/
def load (ops : array_num_domain_ops D V E) (s : array_smashing D) (lhs a _i : V)
    (_n_bytes : Int) (a_prime : V) : array_smashing D :=
  let inv := ops.expand s._inv a a_prime
  let inv := ops.assign inv lhs (ops.var_expr a_prime)
  ⟨ops.forget inv a_prime⟩

end array_smashing

/-- The operations of the interval domain that the array smashing uses. -/
def interval_domain_ops : array_num_domain_ops interval_domain Nat linear_expression :=
  { assign := interval_domain.assign
    join := interval_domain.join
    leq := interval_domain.leq
    set := interval_domain.set
    forget := interval_domain.forget
    expand := interval_domain.expand
    var_expr := linear_expression.of_var }



/-!
# The weighted array graph and its reduced product with a scalar domain
# (crab/domains/array_graph.hpp)

Vertex names are numbers.  The boost graph is given by the list of its
vertices and the list of its edges, both in the order of insertion; `edge (u,
v, g)` is the first edge from `u` to `v`.  `IKOS_ERROR` is an error value.
-/

/-- Modelled from the spec: the comparison of a linear constraint with zero
(linear_constraints.hpp is not among the sources). -/
inductive constraint_kind where
  | EQUALITY
  | DISEQUATION
  | INEQUALITY
deriving DecidableEq, Repr

/-- Modelled from the spec: a linear constraint, "an expression compared to
zero"; `INEQUALITY` is `_expr ≤ 0`. -/
structure linear_constraint where
  _expr : linear_expression
  _kind : constraint_kind
deriving DecidableEq, Repr

namespace linear_expression

/-- Modelled from the spec: `e + n` for a number `n`. -/
def add_num (e : linear_expression) (n : Int) : linear_expression := ⟨e._cst + n, e._map⟩

/-- Modelled from the spec: `e1 - e2`. -/
def sub (e1 e2 : linear_expression) : linear_expression :=
  ⟨e1._cst - e2._cst, e1._map ++ e2._map.map (fun t => (-t.1, t.2))⟩

end linear_expression

namespace linear_constraint

/-- Modelled from the spec: the constraint `e1 <= e2`. -/
def le (e1 e2 : linear_expression) : linear_constraint :=
  ⟨e1.sub e2, constraint_kind.INEQUALITY⟩

/-- Modelled from the spec: the constraint `e1 == e2`. -/
def eq (e1 e2 : linear_expression) : linear_constraint :=
  ⟨e1.sub e2, constraint_kind.EQUALITY⟩

end linear_constraint

/-- The operations of the template parameter `Weight`: `top()`, `bottom()`,
`is_bottom`, `operator<=`, `operator|`, `operator&` and `operator-=`. -/
structure weight_ops (W : Type) where
  top : W
  bottom : W
  is_bottom : W → Bool
  leq : W → W → Bool
  join : W → W → W
  meet : W → W → W
  forget : W → Nat → W

/-- The weight operations of a bounded lattice with a decidable order; the
removal of a variable from a weight is a parameter. -/
def lattice_weights (W : Type) [Lattice W] [BoundedOrder W] [∀ a b : W, Decidable (a ≤ b)]
    (forget : W → Nat → W) : weight_ops W :=
  { top := ⊤
    bottom := ⊥
    is_bottom := fun w => decide (w ≤ ⊥)
    leq := fun a b => decide (a ≤ b)
    join := fun a b => a ⊔ b
    meet := fun a b => a ⊓ b
    forget := forget }

/-- The operations of the template parameter `ScalarNumDomain`: `bottom()`,
`is_bottom`, `assign`, `operator+=` for one constraint, `operator-=` and
`domain_traits::normalize`. -/
structure scalar_ops (S : Type) where
  bottom : S
  is_bottom : S → Bool
  assign : S → Nat → linear_expression → S
  add_constraint : S → linear_constraint → S
  forget : S → Nat → S
  normalize : S → S

/-- The errors of the array graph: `IKOS_ERROR` with its message, and the
exhaustion of the fuel of the loop of `canonical`. -/
inductive graph_error where
  | ikos_error (msg : String)
  | out_of_fuel
deriving DecidableEq, Repr

/-- The class `array_graph`: the field `_is_bottom`, the vertices of `_graph`
and its edges with their weights; `_vertex_map` and `_vertices_set` hold the
names of the vertices. -/
structure array_graph (W : Type) where
  _is_bottom : Bool
  _vertices : List Nat
  _edges : List ((Nat × Nat) × W)

/-- The call `edge (u, v, g)` of boost: the weight of the first edge from `u`
to `v`, none when `.second` is false. -/
def edge_find {W : Type} (u v : Nat) : List ((Nat × Nat) × W) → Option W
  | [] => none
  | (k, w) :: es => if k = (u, v) then some w else edge_find u v es

/-- The assignment to the weight of the edge `edge (u, v, g).first`. -/
def edge_set {W : Type} (u v : Nat) (x : W) : List ((Nat × Nat) × W) → List ((Nat × Nat) × W)
  | [] => []
  | (k, w) :: es => if k = (u, v) then (k, x) :: es else (k, w) :: edge_set u v x es

namespace array_graph

variable {W S : Type}

/-- `array_graph::bottom()`. -/
def bottom : array_graph W := ⟨true, [], []⟩

/-- `array_graph::top()`. -/
def top : array_graph W := ⟨false, [], []⟩

/-- `array_graph::is_bottom`. -/
def is_bottom (g : array_graph W) : Bool := g._is_bottom

/-- `array_graph::find_vertex_map`. -/
def find_vertex_map (g : array_graph W) (v : Nat) : Bool := decide (v ∈ g._vertices)

/-- The body of the innermost loop of `oneStep`, for the vertices `k`, `i`
and `j`: the pair is the flag `change` and the edges. -/
def oneStep_j (ops : weight_ops W) (k i : Nat) (st : Bool × List ((Nat × Nat) × W)) (j : Nat) :
    Bool × List ((Nat × Nat) × W) :=
  match edge_find i j st.2, edge_find k j st.2, edge_find i k st.2 with
  | some Old, some w_kj, some w_ik =>
    let New := ops.meet Old (ops.join w_ik w_kj)
    (st.1 || !(ops.leq Old New && ops.leq New Old), edge_set i j New st.2)
  | _, _, _ => st

/-- The body of the middle loop of `oneStep`. -/
def oneStep_i (ops : weight_ops W) (vs : List Nat) (k : Nat)
    (st : Bool × List ((Nat × Nat) × W)) (i : Nat) : Bool × List ((Nat × Nat) × W) :=
  if (edge_find i k st.2).isSome then vs.foldl (oneStep_j ops k i) st else st

/-- The body of the outer loop of `oneStep`. -/
def oneStep_k (ops : weight_ops W) (vs : List Nat) (st : Bool × List ((Nat × Nat) × W))
    (k : Nat) : Bool × List ((Nat × Nat) × W) :=
  vs.foldl (oneStep_i ops vs k) st

/-- `array_graph::oneStep`: the returned flag and the graph after the call. -/
def oneStep (ops : weight_ops W) (g : array_graph W) : Bool × array_graph W :=
  let r := g._vertices.foldl (oneStep_k ops g._vertices) (false, g._edges)
  (r.1, { g with _edges := r.2 })

/-- The loop `while (change) change = oneStep ()` of `canonical`, with fuel. -/
def canonical_loop (ops : weight_ops W) : Nat → array_graph W → Option (array_graph W)
  | 0, _ => none
  | fuel + 1, g =>
    let r := oneStep ops g
    if r.1 then canonical_loop ops fuel r.2 else some r.2

/-- `array_graph::canonical`; `IsDistWeight` is the template parameter. -/
def canonical (ops : weight_ops W) (IsDistWeight : Bool) (fuel : Nat) (g : array_graph W) :
    Except graph_error (array_graph W) :=
  if IsDistWeight then Except.ok (oneStep ops g).2
  else
    match canonical_loop ops fuel g with
    | some g1 => Except.ok g1
    | none => Except.error graph_error.out_of_fuel

/-- `array_graph::insert_vertex_map`. -/
def insert_vertex_map (g : array_graph W) (key : Nat) : Except graph_error (array_graph W) :=
  if g.find_vertex_map key then
    Except.error (graph_error.ikos_error "already in the vertex map")
  else Except.ok { g with _vertices := g._vertices ++ [key] }

/-- The second loop of `array_graph::add`, for one edge: `lookup_vertex_map`
of both ends, then `add_edge`, which always inserts in a graph with lists of
edges. -/
def add_edge (g : array_graph W) (e : (Nat × Nat) × W) : Except graph_error (array_graph W) :=
  if g.find_vertex_map e.1.1 && g.find_vertex_map e.1.2 then
    Except.ok { g with _edges := g._edges ++ [e] }
  else Except.error (graph_error.ikos_error "No vertex with name found in the graph")

/-- `array_graph::add`. -/
def add (ops : weight_ops W) (IsDistWeight : Bool) (fuel : Nat) (g : array_graph W)
    (vertices : List Nat) (edges : List ((Nat × Nat) × W)) :
    Except graph_error (array_graph W) := do
  let g1 ← vertices.foldlM insert_vertex_map g
  let g2 ← edges.foldlM add_edge g1
  canonical ops IsDistWeight fuel g2

/-- `array_graph::insert_vertex`. -/
def insert_vertex (ops : weight_ops W) (IsDistWeight : Bool) (fuel : Nat) (g : array_graph W)
    (u : Nat) (val : W) : Except graph_error (array_graph W) :=
  if !g.is_bottom && !g.find_vertex_map u then
    let new_edges := g._vertices.foldl (fun es v => es ++ [((u, v), val), ((v, u), val)]) []
    add ops IsDistWeight fuel g [u] new_edges
  else Except.ok g

/-- `array_graph::set_incoming`. -/
def set_incoming (g : array_graph W) (v : Nat) (weight : W) :
    Except graph_error (array_graph W) :=
  if !g.is_bottom then
    if g.find_vertex_map v then
      Except.ok { g with _edges := g._edges.map (fun e => if e.1.2 = v then (e.1, weight) else e) }
    else Except.error (graph_error.ikos_error "No vertex with name found in the graph")
  else Except.ok g

/-- `array_graph::set_outgoing`. -/
def set_outgoing (g : array_graph W) (v : Nat) (weight : W) :
    Except graph_error (array_graph W) :=
  if !g.is_bottom then
    if g.find_vertex_map v then
      Except.ok { g with _edges := g._edges.map (fun e => if e.1.1 = v then (e.1, weight) else e) }
    else Except.error (graph_error.ikos_error "No vertex with name found in the graph")
  else Except.ok g

/-- The loop over the edges of `array_graph::reduce`: the weight of an edge
from `u` to `v` becomes bottom when `scalar` with `u <= v - 1` is bottom. -/
def reduce_edges (ops : weight_ops W) (sops : scalar_ops S) (scalar : S)
    (es : List ((Nat × Nat) × W)) : List ((Nat × Nat) × W) :=
  es.map (fun e =>
    let tmp := sops.add_constraint scalar
      (linear_constraint.le (linear_expression.of_var e.1.1)
        ((linear_expression.of_var e.1.2).add_num (-1)))
    if sops.is_bottom tmp then (e.1, ops.bottom) else e)

/-- `array_graph::reduce`. -/
def reduce (ops : weight_ops W) (sops : scalar_ops S) (IsDistWeight : Bool) (fuel : Nat)
    (g : array_graph W) (scalar : S) : Except graph_error (array_graph W) :=
  if g.is_bottom then Except.ok g
  else do
    let g1 ← canonical ops IsDistWeight fuel g
    let g2 : array_graph W := { g1 with _edges := reduce_edges ops sops scalar g1._edges }
    canonical ops IsDistWeight fuel g2

/-- `array_graph::meet_weight`. -/
def meet_weight (ops : weight_ops W) (IsDistWeight : Bool) (fuel : Nat) (g : array_graph W)
    (src dest : Nat) (weight : W) : Except graph_error (array_graph W) :=
  if g.find_vertex_map src && g.find_vertex_map dest then
    match edge_find src dest g._edges with
    | some w0 => Except.ok { g with _edges := edge_set src dest (ops.meet weight w0) g._edges }
    | none => add ops IsDistWeight fuel g [] [((src, dest), weight)]
  else Except.ok g

/-- `array_graph::set_weight`. -/
def set_weight (ops : weight_ops W) (IsDistWeight : Bool) (fuel : Nat) (g : array_graph W)
    (src dest : Nat) (weight : W) : Except graph_error (array_graph W) :=
  if g.find_vertex_map src && g.find_vertex_map dest then
    match edge_find src dest g._edges with
    | some _ => Except.ok { g with _edges := edge_set src dest weight g._edges }
    | none => add ops IsDistWeight fuel g [] [((src, dest), weight)]
  else Except.ok g

/-- `array_graph::get_weight`. -/
def get_weight (g : array_graph W) (src dest : Nat) : Except graph_error W :=
  if g.find_vertex_map src && g.find_vertex_map dest then
    match edge_find src dest g._edges with
    | some w => Except.ok w
    | none => Except.error (graph_error.ikos_error "No edge found with given vertices")
  else Except.error (graph_error.ikos_error "No edge found with given vertices")

end array_graph

/-- The template parameters of `array_graph_domain` and what the run needs:
the operations of the weights and of the scalar domain, `IsDistWeight`, the
fuel of each call of `canonical`, and the variable factory:
`v.getVarFactory ().get (v.index ())` and the variable named `v_n` of a
number `n`. -/
structure array_graph_params (S W : Type) where
  ops : weight_ops W
  sops : scalar_ops S
  IsDistWeight : Bool
  fuel : Nat
  vfac_get : Nat → Nat
  vfac_num : Int → Nat

/-- The class `array_graph_domain`: the fields `_is_bottom`, `_scalar`, `_g`
and `_succ_idx_map`. -/
structure array_graph_domain (S W : Type) where
  _is_bottom : Bool
  _scalar : S
  _g : array_graph W
  _succ_idx_map : List (Nat × Nat)

namespace array_graph_domain

variable {S W : Type}

/-- `array_graph_domain::is_bottom`. -/
def is_bottom (s : array_graph_domain S W) : Bool := s._is_bottom

/-- `array_graph_domain::get_succ_idx`. -/
def get_succ_idx (s : array_graph_domain S W) (v : Nat) : Option Nat :=
  label_map_find v s._succ_idx_map

/-- `array_graph_domain::set_to_bottom`. -/
def set_to_bottom (p : array_graph_params S W) (_s : array_graph_domain S W) :
    array_graph_domain S W :=
  ⟨true, p.sops.bottom, array_graph.bottom, []⟩

/-- `array_graph_domain::reduce`. -/
def reduce (p : array_graph_params S W) (s : array_graph_domain S W) :
    Except graph_error (array_graph_domain S W) :=
  if s.is_bottom then Except.ok s
  else
    let scalar := p.sops.normalize s._scalar
    if p.sops.is_bottom scalar || s._g.is_bottom then Except.ok (set_to_bottom p s)
    else do
      let g ← s._g.reduce p.ops p.sops p.IsDistWeight p.fuel scalar
      Except.ok { s with _scalar := scalar, _g := g }

/-- `array_graph_domain::abstract`. -/
def abstract (p : array_graph_params S W) (s : array_graph_domain S W) (v : Nat) :
    Except graph_error (array_graph_domain S W) :=
  if s._g.find_vertex_map v then do
    let g ← s._g.set_incoming v p.ops.top
    let g ← g.set_outgoing v p.ops.top
    match s.get_succ_idx v with
    | some succ_v => do
      let g ← g.set_incoming succ_v p.ops.top
      let g ← g.set_outgoing succ_v p.ops.top
      Except.ok { s with _g := g }
    | none => Except.ok { s with _g := g }
  else Except.ok s

/-- `array_graph_domain::add_variable (Number n, VariableFactory &vfac)`; the
returned name is `p.vfac_num n`. -/
def add_variable_num (p : array_graph_params S W) (s : array_graph_domain S W) (n : Int) :
    Except graph_error (array_graph_domain S W) :=
  let var_n := p.vfac_num n
  if n ≥ 0 then do
    let g ← s._g.insert_vertex p.ops p.IsDistWeight p.fuel var_n p.ops.top
    Except.ok { s with _g := g, _scalar := p.sops.assign s._scalar var_n (linear_expression.of_num n) }
  else Except.ok s

/-- `array_graph_domain::add_variable (VariableName v)`; `is_array_index` is
true of every variable. -/
def add_variable (p : array_graph_params S W) (s : array_graph_domain S W) (v : Nat) :
    Except graph_error (array_graph_domain S W) := do
  let v_succ := p.vfac_get v
  let g ← s._g.insert_vertex p.ops p.IsDistWeight p.fuel v p.ops.top
  let g ← g.insert_vertex p.ops p.IsDistWeight p.fuel v_succ p.ops.top
  let succ_idx_map := label_map_set v v_succ s._succ_idx_map
  let scalar := p.sops.add_constraint s._scalar
    (linear_constraint.eq (linear_expression.of_var v_succ)
      ((linear_expression.of_var v).add_num 1))
  let g ← g.set_weight p.ops p.IsDistWeight p.fuel v_succ v p.ops.bottom
  Except.ok { s with _scalar := scalar, _g := g, _succ_idx_map := succ_idx_map }

/-- `array_graph_domain::array_read`. -/
def array_read (p : array_graph_params S W) (s : array_graph_domain S W) (i : Nat) :
    Except graph_error W :=
  if s.is_bottom then Except.ok p.ops.bottom
  else
    match s.get_succ_idx i with
    | some i_succ => s._g.get_weight i i_succ
    | none =>
      Except.error (graph_error.ikos_error "There is no successor index associated with")

/-- The loop of the weak update of `array_write` over the edges; `new_w` is
the new weight of the edge from `i` to `i_succ`. -/
def weak_update_edges (p : array_graph_params S W) (scalar : S) (i i_succ : Nat) (new_w : W)
    (es : List ((Nat × Nat) × W)) : List ((Nat × Nat) × W) :=
  es.map (fun e =>
    if (e.1.1 = i ∧ e.1.2 = i_succ) ∨ p.ops.is_bottom e.2 = true then e
    else
      let tmp := p.sops.add_constraint scalar
        (linear_constraint.le (linear_expression.of_var e.1.1) (linear_expression.of_var i))
      let tmp := p.sops.add_constraint tmp
        (linear_constraint.le (linear_expression.of_var i_succ) (linear_expression.of_var e.1.2))
      if p.sops.is_bottom tmp then e
      else (e.1, p.ops.join e.2 new_w))

/-- The body of `array_graph_domain::array_write` before the final call of
`canonical`: the strong update of the edge from `i` to its successor and the
weak update of the other edges. -/
def array_write_edges (p : array_graph_params S W) (s : array_graph_domain S W) (arr i : Nat)
    (w : W) : Except graph_error (array_graph_domain S W) :=
  match s.get_succ_idx i with
  | none => Except.error (graph_error.ikos_error "There is no successor index associated with")
  | some i_succ => do
    let old_w ← s._g.get_weight i i_succ
    let g : array_graph W :=
      { s._g with _edges := edge_set i i_succ (p.ops.forget old_w arr) s._g._edges }
    let g ← g.meet_weight p.ops p.IsDistWeight p.fuel i i_succ w
    let new_w ← g.get_weight i i_succ
    Except.ok { s with _g :=
      { g with _edges := weak_update_edges p s._scalar i i_succ new_w g._edges } }

/-- `array_graph_domain::array_write`. -/
def array_write (p : array_graph_params S W) (s : array_graph_domain S W) (arr i : Nat)
    (w : W) : Except graph_error (array_graph_domain S W) :=
  if s.is_bottom then Except.ok s
  else do
    let s1 ← array_write_edges p s arr i w
    let g ← s1._g.canonical p.ops p.IsDistWeight p.fuel
    Except.ok { s1 with _g := g }

/-- `array_graph_domain::assign`. -/
def assign (p : array_graph_params S W) (s : array_graph_domain S W) (x : Nat)
    (e : linear_expression) : Except graph_error (array_graph_domain S W) :=
  if s.is_bottom then Except.ok s
  else if e.get_variable = some x then Except.ok s
  else do
    let s : array_graph_domain S W := { s with _scalar := p.sops.assign s._scalar x e }
    let s ← if e.is_constant && decide (e.constant = 0) then add_variable_num p s e.constant
      else Except.ok s
    let s ← if s._g.find_vertex_map x then do
        let s ← abstract p s x
        match s.get_succ_idx x with
        | some x_succ => do
          let scalar := p.sops.forget s._scalar x_succ
          let scalar := p.sops.add_constraint scalar
            (linear_constraint.eq (linear_expression.of_var x_succ)
              ((linear_expression.of_var x).add_num 1))
          let g ← s._g.set_weight p.ops p.IsDistWeight p.fuel x_succ x p.ops.bottom
          Except.ok { s with _scalar := scalar, _g := g }
        | none => Except.ok s
      else add_variable p s x
    reduce p s

end array_graph_domain

/-- The weight that the weak update of `array_write` gives to an edge from
`a` to `b` of weight `wt`, when the strong update has given `new_w`. -/
def weak_update_weight {S W : Type} (p : array_graph_params S W) (scalar : S)
    (i i_succ : Nat) (new_w : W) (a b : Nat) (wt : W) : W :=
  if p.ops.is_bottom wt = true ∨
      p.sops.is_bottom (p.sops.add_constraint
        (p.sops.add_constraint scalar
          (linear_constraint.le (linear_expression.of_var a) (linear_expression.of_var i)))
        (linear_constraint.le (linear_expression.of_var i_succ) (linear_expression.of_var b)))
        = true
  then wt else p.ops.join wt new_w



/-!
# Instances of the template parameters for the examples
-/

/-- The intervals as weights of the array graph; no variable occurs in an
interval, so that `operator-=` leaves it as it is. -/
def interval_weight_ops : weight_ops interval :=
  { top := interval.top
    bottom := interval.bottom
    is_bottom := interval.is_bottom
    leq := interval.leq
    join := interval.join
    meet := interval.meet
    forget := fun w _ => w }

/-- The value of a linear expression in an environment of known constants,
none when a variable of the expression is not bound. -/
def const_env_eval (m : List (Nat × Int)) (e : linear_expression) : Option Int :=
  e._map.foldl (fun r t =>
    match r, label_map_find t.2 m with
    | some a, some b => some (a + t.1 * b)
    | _, _ => none) (some e._cst)

/-- Whether the number `n` compares to zero as the kind of constraint asks. -/
def constraint_kind.holds (k : constraint_kind) (n : Int) : Bool :=
  match k with
  | constraint_kind.EQUALITY => decide (n = 0)
  | constraint_kind.DISEQUATION => decide (n ≠ 0)
  | constraint_kind.INEQUALITY => decide (n ≤ 0)

/-- A scalar domain for the examples: the environments of known constants,
none for bottom.  A constraint whose expression has a known value that does
not satisfy it gives bottom. -/
def const_env_ops : scalar_ops (Option (List (Nat × Int))) :=
  { bottom := none
    is_bottom := fun s => s.isNone
    assign := fun s x e => s.map (fun m =>
      match const_env_eval m e with
      | some n => label_map_set x n m
      | none => tree_remove x m)
    add_constraint := fun s c => s.bind (fun m =>
      match const_env_eval m c._expr with
      | some n => if c._kind.holds n then some m else none
      | none => some m)
    forget := fun s x => s.map (tree_remove x)
    normalize := fun s => s }

/-- The parameters of the examples: intervals as weights, environments of
constants as scalar domain, the successor index of `v` is named `v + 100`. -/
def example_params (IsDistWeight : Bool) (fuel : Nat) :
    array_graph_params (Option (List (Nat × Int))) interval :=
  { ops := interval_weight_ops
    sops := const_env_ops
    IsDistWeight := IsDistWeight
    fuel := fuel
    vfac_get := fun v => v + 100
    vfac_num := fun n => 1000 + n.toNat }

/-- An example state: the index 0 has the value 2 and the successor 1, the
variables 2 and 3 have the values 0 and 5; the array holds [1,1] between 0 and
1 and [7,9] between 2 and 3 and between 3 and 2. -/
def example_state : array_graph_domain (Option (List (Nat × Int))) interval :=
  { _is_bottom := false
    _scalar := some [(0, 2), (1, 3), (2, 0), (3, 5)]
    _g := ⟨false, [0, 1, 2, 3], [((0, 1), iv 1 1), ((2, 3), iv 7 9), ((3, 2), iv 7 9)]⟩
    _succ_idx_map := [(0, 1)] }



/-- The edges `es1` are those of `es` with weights that are not greater. -/
def edges_le {W : Type} [LE W] (es1 es : List ((Nat × Nat) × W)) : Prop :=
  ∀ u v, (edge_find u v es1 = none ∧ edge_find u v es = none) ∨
    ∃ w1 w, edge_find u v es1 = some w1 ∧ edge_find u v es = some w ∧ w1 ≤ w

/-- The graph satisfies the inequalities of the canonical form: for all
vertices `i`, `j`, `k` whose edges are there, the weight from `i` to `j` is at
most the join of the weights from `i` to `k` and from `k` to `j`. -/
def array_graph.transitively_tight {W : Type} [Lattice W] (g : array_graph W) : Prop :=
  ∀ k ∈ g._vertices, ∀ i ∈ g._vertices, ∀ j ∈ g._vertices, ∀ a b c,
    edge_find i j g._edges = some a → edge_find i k g._edges = some b →
    edge_find k j g._edges = some c → a ≤ b ⊔ c



/-- An example graph with weights in the chain 0 < 1 < 2 < 3: the weight 3
from 0 to 2 is above the join of the weights from 0 to 1 and from 1 to 2. -/
def example_graph : array_graph (Fin 4) :=
  ⟨false, [0, 1, 2], [((0, 1), 1), ((1, 2), 2), ((0, 2), 3)]⟩

/-- The example graph in canonical form. -/
def example_graph_canonical : array_graph (Fin 4) :=
  ⟨false, [0, 1, 2], [((0, 1), 1), ((1, 2), 2), ((0, 2), 2)]⟩



/-- Every two distinct vertices of the graph are joined by an edge in each
direction and no edge joins a vertex to itself: the shape of the graphs that
`insert_vertex` builds. -/
def array_graph.is_complete {W : Type} (g : array_graph W) : Bool :=
  g._vertices.all (fun i => g._vertices.all (fun j =>
    decide (i = j) || (edge_find i j g._edges).isSome)) &&
  g._edges.all (fun e => decide (e.1.1 ≠ e.1.2))

/-- The property `is_complete` for the vertices `V` and the edges `es`. -/
def complete_simple {W : Type} (V : List Nat) (es : List ((Nat × Nat) × W)) : Prop :=
  (∀ i ∈ V, ∀ j ∈ V, i ≠ j → (edge_find i j es).isSome = true) ∧ ∀ i, edge_find i i es = none

/-- The weights of the edges as a matrix: bottom on the diagonal and where
there is no edge. -/
def weight_matrix {W : Type} [Bot W] (es : List ((Nat × Nat) × W)) (i j : Nat) : W :=
  if i = j then ⊥ else (edge_find i j es).getD ⊥

/-- The weight from `a` to `b` after the pass of `oneStep` for the vertex `k`
over the matrix `M0`. -/
def fw_target {W : Type} [Lattice W] (M0 : Nat → Nat → W) (k a b : Nat) : W :=
  M0 a b ⊓ (M0 a k ⊔ M0 k b)

/-- A graph with weights in the chain 0 < 1 < 2 < 3 on three vertices, with
all the edges between distinct vertices. -/
def example_graph_complete : array_graph (Fin 4) :=
  ⟨false, [0, 1, 2],
    [((0, 1), 1), ((1, 0), 3), ((0, 2), 3), ((2, 0), 3), ((1, 2), 2), ((2, 1), 3)]⟩



/-- During the pass of `oneStep` for the vertex `k` over the matrix `M0`,
every entry is the old one or the new one. -/
def fw_phase_inv {W : Type} [Lattice W] [Bot W] (M0 : Nat → Nat → W) (k : Nat)
    (es : List ((Nat × Nat) × W)) : Prop :=
  ∀ a b, weight_matrix es a b = M0 a b ∨ weight_matrix es a b = fw_target M0 k a b

/-- The entries of `es` that are the new ones of the pass for `k` are still so
in `es1`. -/
def fw_phase_keep {W : Type} [Lattice W] [Bot W] (M0 : Nat → Nat → W) (k : Nat)
    (es es1 : List ((Nat × Nat) × W)) : Prop :=
  ∀ a b, weight_matrix es a b = fw_target M0 k a b → weight_matrix es1 a b = fw_target M0 k a b

/-- The inequalities of the canonical form for the matrix `M`, for the
vertices of `V` and the intermediate vertices of `K`. -/
def fw_tight {W : Type} [Lattice W] (V K : List Nat) (M : Nat → Nat → W) : Prop :=
  ∀ a ∈ V, ∀ b ∈ V, ∀ c ∈ K, M a b ≤ M a c ⊔ M c b



/-- An example graph for `reduce`, with weights in the chain 0 < 1 < 2 < 3. -/
def example_graph_reduce : array_graph (Fin 4) :=
  ⟨false, [0, 1], [((0, 1), 2), ((1, 0), 3)]⟩

/-- The example graph after `reduce` with a scalar state in which the
variable 0 is 5 and the variable 1 is 3. -/
def example_graph_reduced : array_graph (Fin 4) :=
  ⟨false, [0, 1], [((0, 1), 0), ((1, 0), 3)]⟩

/-!
## The list constructor with the sorted vector as a parameter
-/

namespace dis_interval

/-- The lists on which the theorem about `normalize ()` uses `sort` as the
result of `std::sort`: the ranges of at most 16 elements, which libstdc++
sorts with the insertion sort above, and the lists that hold no bottom and no
top interval.  The lists of the values that the constructors build are among
them, whatever the order in which `std::sort` leaves the vector. -/
def sort_exact (l : List interval) : Prop :=
  l.length ≤ 16 ∨ ∀ x ∈ l, x.is_bottom = false ∧ x.is_top = false

/-- `dis_interval::normalize (list_intervals_t l, bool& is_bottom)` with the
content `s` of the vector after the call of `std::sort` as a parameter: the
`for` loop runs over `s`, and `l.size ()` in `bottoms == l.size ()` is the
size of the sorted vector. -/
def normalize_sorted (l s : List interval) : List interval × Bool :=
  if l.length ≤ 1 then (l, false)
  else
    match normalize_loop s [] interval.top 0 with
    | none => ([], false)
    | some (res, bottoms) => (res.reverse, decide (bottoms = s.length))

/-- The constructor `dis_interval (list_intervals_t l, bool Normalize)` with
the content `s` of the vector after the call of `std::sort` in `normalize`
as a parameter. -/
def of_list_sorted (l s : List interval) (Normalize : Bool) : dis_interval :=
  let x : dis_interval :=
    if Normalize then
      match normalize_sorted l s with
      | (res, is_bottom) =>
        if is_bottom then ⟨state_t.BOT, []⟩
        else if res.isEmpty then ⟨state_t.TOP, []⟩
        else ⟨state_t.FINITE, res⟩
    else ⟨state_t.FINITE, l⟩
  if x.is_finite && decide (max_num_disjunctions ≤ x._list.length) then
    match approx_list x._list with
    | some alljoined => ⟨state_t.FINITE, [alljoined]⟩
    | none => x
  else x

end dis_interval
/-! ## The order of the end points -/

namespace bound

theorem leb_iff {a b : bound} : leb a b = true ↔ a ≤ b := Iff.rfl

theorem ltb_iff {a b : bound} : ltb a b = true ↔ a < b := Iff.rfl

theorem leb_false_iff {a b : bound} : leb a b = false ↔ b < a := by
  rw [← not_le, ← leb_iff]; simp

theorem ltb_false_iff {a b : bound} : ltb a b = false ↔ b ≤ a := by
  rw [← not_lt, ← ltb_iff]; simp

theorem bmin_eq (a b : bound) : bmin a b = min a b := rfl

theorem bmax_eq (a b : bound) : bmax a b = max a b := rfl

@[simp] theorem finite_le_finite {a b : Int} : finite a ≤ finite b ↔ a ≤ b := by
  rw [← leb_iff]; simp [leb]

@[simp] theorem finite_lt_finite {a b : Int} : finite a < finite b ↔ a < b := by
  rw [← ltb_iff]; simp [ltb, leb]; omega

@[simp] theorem not_finite_le_minus_infinity (a : Int) : ¬ finite a ≤ minus_infinity := by
  rw [← leb_iff]; simp [leb]

@[simp] theorem not_plus_infinity_le_finite (a : Int) : ¬ plus_infinity ≤ finite a := by
  rw [← leb_iff]; simp [leb]

@[simp] theorem not_plus_infinity_le_minus_infinity : ¬ plus_infinity ≤ minus_infinity := by
  rw [← leb_iff]; simp [leb]

@[simp] theorem minus_infinity_le (a : bound) : minus_infinity ≤ a := by
  rw [← leb_iff]; cases a <;> rfl

@[simp] theorem le_plus_infinity (a : bound) : a ≤ plus_infinity := by
  rw [← leb_iff]; cases a <;> rfl

@[simp] theorem not_lt_minus_infinity (a : bound) : ¬ a < minus_infinity :=
  not_lt.mpr (minus_infinity_le a)

@[simp] theorem not_plus_infinity_lt (a : bound) : ¬ plus_infinity < a :=
  not_lt.mpr (le_plus_infinity a)

theorem le_plus_one (a : bound) : a ≤ a.plus 1 := by
  cases a <;> simp [plus]

theorem plus_one_le_of_lt {a b : bound} (h : a < b) : a.plus 1 ≤ b := by
  cases a <;> cases b <;> simp_all [plus] <;> omega

theorem plus_one_le_plus_one {a b : bound} (h : a ≤ b) : a.plus 1 ≤ b.plus 1 := by
  cases a <;> cases b <;> simp_all [plus]

theorem le_neg_one_of_lt_zero {a : bound} (h : a < finite 0) : a ≤ finite (-1) := by
  cases a <;> simp_all <;> omega

theorem zero_le_of_neg_one_lt {a : bound} (h : finite (-1) < a) : finite 0 ≤ a := by
  cases a <;> simp_all <;> omega

end bound

/-! ## Intervals -/

namespace interval

theorem is_bottom_false_iff {x : interval} : x.is_bottom = false ↔ x.lb ≤ x.ub :=
  bound.ltb_false_iff

theorem is_bottom_iff {x : interval} : x.is_bottom = true ↔ x.ub < x.lb :=
  bound.ltb_iff

theorem bottom_is_bottom : bottom.is_bottom = true := by decide

theorem leq_iff {x y : interval} (hx : x.is_bottom = false) (hy : y.is_bottom = false) :
    x.leq y = true ↔ y.lb ≤ x.lb ∧ x.ub ≤ y.ub := by
  simp [leq, hx, hy, bound.leb_iff]

theorem leq_refl {x : interval} : x.leq x = true := by
  cases h : x.is_bottom <;> simp [leq, h, bound.leb_iff]

theorem eq_refl {x : interval} : x.eq x = true := by
  cases h : x.is_bottom <;> simp [eq, h]

theorem eq_iff {x y : interval} (hx : x.is_bottom = false) : x.eq y = true ↔ x = y := by
  cases x; cases y
  simp [eq, hx]

theorem mk_interval_of_le {l u : bound} (h : l ≤ u) : mk_interval l u = ⟨l, u⟩ := by
  simp [mk_interval, bound.ltb_false_iff.mpr h]

theorem join_eq {x y : interval} (hx : x.is_bottom = false) (hy : y.is_bottom = false) :
    x.join y = ⟨min x.lb y.lb, max x.ub y.ub⟩ := by
  have h : min x.lb y.lb ≤ max x.ub y.ub :=
    le_trans (min_le_left _ _) (le_trans (is_bottom_false_iff.mp hx) (le_max_left _ _))
  simp [join, hx, hy, bound.bmin_eq, bound.bmax_eq, mk_interval_of_le h]

theorem join_not_bottom {x y : interval} (hx : x.is_bottom = false)
    (hy : y.is_bottom = false) : (x.join y).is_bottom = false := by
  rw [join_eq hx hy, is_bottom_false_iff]
  exact le_trans (min_le_left _ _) (le_trans (is_bottom_false_iff.mp hx) (le_max_left _ _))

end interval

namespace dis_interval

theorem overlap_iff {x y : interval} : overlap x y = true ↔ y.lb ≤ x.ub ∧ x.lb ≤ y.ub := by
  simp [overlap, bound.leb_iff]

theorem IsOnTheLeft_iff {x y : interval} : IsOnTheLeft x y = true ↔ x.ub < y.lb := by
  simp [IsOnTheLeft, bound.leb_iff, lt_iff_le_and_ne]

theorem IsOnTheLeft_false_iff {x y : interval} : IsOnTheLeft x y = false ↔ y.lb ≤ x.ub := by
  rw [← not_lt, ← IsOnTheLeft_iff]; simp

theorem are_consecutive_iff {x y : interval} :
    are_consecutive x y = true ↔
      ((x.lb ≤ y.lb ∧ x.ub ≤ y.ub) ∧ x.ub.plus 1 = y.lb) ∨
      ((y.lb ≤ x.lb ∧ y.ub ≤ x.ub) ∧ y.ub.plus 1 = x.lb) := by
  simp [are_consecutive, bound.leb_iff]

/-- For intervals that are not bottom, `gap x y` says that more than one
integer lies between the end of `x` and the start of `y`. -/
theorem gap_iff {x y : interval} (hx : x.is_bottom = false) (hy : y.is_bottom = false) :
    gap x y ↔ x.ub.plus 1 < y.lb := by
  have hx' := interval.is_bottom_false_iff.mp hx
  have hy' := interval.is_bottom_false_iff.mp hy
  unfold gap
  rw [IsOnTheLeft_iff, ← Bool.not_eq_true, are_consecutive_iff]
  constructor
  · rintro ⟨h1, h2⟩
    refine lt_of_le_of_ne (bound.plus_one_le_of_lt h1) (fun h => h2 (Or.inl ⟨⟨?_, ?_⟩, h⟩))
    · exact le_trans hx' (le_of_lt h1)
    · exact le_trans (le_of_lt h1) hy'
  · intro h
    have h1 : x.ub < y.lb := lt_of_le_of_lt (bound.le_plus_one _) h
    refine ⟨h1, ?_⟩
    rintro (⟨_, h3⟩ | ⟨⟨h2, _⟩, _⟩)
    · exact absurd h3 (ne_of_lt h)
    · exact absurd (lt_of_le_of_lt (le_trans h2 hx') h1) (lt_irrefl _)


/-! ## The model of `std::sort` -/

theorem unguarded_linear_insert_perm (val : interval) (p : List interval) :
    List.Perm (unguarded_linear_insert val p) (val :: p) := by
  induction p with
  | nil => exact List.Perm.refl _
  | cons y ys ih =>
    unfold unguarded_linear_insert
    split
    · exact (List.Perm.cons y ih).trans (List.Perm.swap val y ys)
    · exact List.Perm.refl _

theorem insertion_sort_loop_perm (l p : List interval) :
    List.Perm (insertion_sort_loop p l) (p ++ l) := by
  induction l generalizing p with
  | nil => simp [insertion_sort_loop, List.reverse_perm]
  | cons x xs ih =>
    unfold insertion_sort_loop
    have hmid : List.Perm (x :: (p ++ xs)) (p ++ x :: xs) := List.perm_middle.symm
    split
    · rename_i h
      have hp : p = [] := List.getLast?_eq_none_iff.mp h
      subst hp
      exact ih [x]
    · split
      · refine (ih _).trans ?_
        simp
      · refine (ih _).trans ?_
        exact (List.Perm.append_right xs (unguarded_linear_insert_perm x p)).trans hmid

theorem sort_perm (l : List interval) : List.Perm (sort l) l := by
  simpa [sort] using insertion_sort_loop_perm l []

theorem mem_sort {l : List interval} {x : interval} : x ∈ sort l ↔ x ∈ l :=
  (sort_perm l).mem_iff

theorem length_sort (l : List interval) : (sort l).length = l.length :=
  (sort_perm l).length_eq

theorem adj_of_not_left {x y : interval} (h : IsOnTheLeft x y = false) : adj y x :=
  Or.inl (IsOnTheLeft_false_iff.mp h)

theorem adj_of_left {x y : interval} (cx : x.canonical) (cy : y.canonical)
    (h : IsOnTheLeft x y = true) : adj x y := by
  rw [IsOnTheLeft_iff] at h
  cases hx : x.is_bottom <;> cases hy : y.is_bottom
  · exact Or.inl (le_trans (interval.is_bottom_false_iff.mp hx)
      (le_trans (le_of_lt h) (interval.is_bottom_false_iff.mp hy)))
  · have := cy hy
    subst this
    refine Or.inl (le_trans (interval.is_bottom_false_iff.mp hx) ?_)
    exact bound.le_neg_one_of_lt_zero h
  · have := cx hx
    subst this
    exact Or.inl (le_trans (bound.zero_le_of_neg_one_lt h) (interval.is_bottom_false_iff.mp hy))
  · exact Or.inr ⟨hx, (cx hx).trans (cy hy).symm⟩

theorem unguarded_linear_insert_head (val : interval) (p : List interval) :
    (unguarded_linear_insert val p).head? = some val ∨
      ((unguarded_linear_insert val p).head? = p.head? ∧
        ∃ y, p.head? = some y ∧ IsOnTheLeft val y = true) := by
  cases p with
  | nil => left; rfl
  | cons y ys =>
    unfold unguarded_linear_insert
    split
    · right; exact ⟨rfl, y, rfl, by assumption⟩
    · left; rfl

theorem unguarded_linear_insert_chain (val : interval) (p : List interval)
    (hc : ∀ x ∈ val :: p, x.canonical)
    (h : List.Chain' (fun l e => adj e l) p) :
    List.Chain' (fun l e => adj e l) (unguarded_linear_insert val p) := by
  induction p with
  | nil => simp [unguarded_linear_insert]
  | cons y ys ih =>
    unfold unguarded_linear_insert
    split
    · rename_i hl
      rw [List.chain'_cons'] at h ⊢
      refine ⟨?_, ih (fun x hx => hc x (by
        rcases List.mem_cons.mp hx with h | h
        · exact h ▸ List.mem_cons_self _ _
        · exact List.mem_cons_of_mem _ (List.mem_cons_of_mem _ h))) h.2⟩
      intro z hz
      rcases unguarded_linear_insert_head val ys with h1 | ⟨h1, _⟩
      · rw [h1] at hz
        cases hz
        exact adj_of_left (hc _ (List.mem_cons_self _ _))
          (hc _ (List.mem_cons_of_mem _ (List.mem_cons_self _ _))) hl
      · rw [h1] at hz
        exact h.1 z hz
    · rename_i hl
      rw [List.chain'_cons']
      refine ⟨?_, h⟩
      intro z hz
      cases hz
      exact adj_of_not_left (by simpa using hl)

theorem insertion_sort_loop_chain (l p : List interval)
    (hc : ∀ x ∈ p ++ l, x.canonical)
    (h : List.Chain' (fun l e => adj e l) p) :
    List.Chain' adj (insertion_sort_loop p l) := by
  induction l generalizing p with
  | nil =>
    unfold insertion_sort_loop
    rw [List.chain'_reverse]
    exact h
  | cons x xs ih =>
    have hcx : x.canonical := hc x (by simp)
    unfold insertion_sort_loop
    split
    · rename_i hn
      have hp : p = [] := List.getLast?_eq_none_iff.mp hn
      subst hp
      exact ih [x] (by simpa using hc) (by simp)
    · rename_i first hf
      have hfm : first ∈ p := List.mem_of_getLast?_eq_some hf
      split
      · rename_i hl
        refine ih _ (fun y hy => hc y (by
          simp only [List.mem_append, List.mem_cons, List.mem_singleton, List.not_mem_nil,
            or_false] at hy ⊢
          tauto)) ?_
        rw [List.chain'_append]
        refine ⟨h, by simp, ?_⟩
        intro a ha b hb
        rw [hf] at ha
        cases ha
        simp only [List.head?_cons, Option.mem_def, Option.some.injEq] at hb
        subst hb
        exact adj_of_left hcx (hc _ (List.mem_append_left _ hfm)) hl
      · refine ih _ (fun y hy => hc y ?_) ?_
        · rcases List.mem_append.mp hy with hy | hy
          · have := (unguarded_linear_insert_perm x p).mem_iff.mp hy
            simp only [List.mem_append, List.mem_cons] at this ⊢
            tauto
          · simp only [List.mem_append, List.mem_cons]
            tauto
        · exact unguarded_linear_insert_chain x p (fun y hy => hc y (by
            simp only [List.mem_append, List.mem_cons] at hy ⊢
            tauto)) h

theorem sort_chain (l : List interval) (hc : ∀ x ∈ l, x.canonical) :
    List.Chain' adj (sort l) :=
  insertion_sort_loop_chain l [] (by simpa using hc) (by simp)


/-! ## The fusing loop -/

theorem gap_of_not_touch {h i : interval} (_hh : h.is_bottom = false)
    (ht : (overlap h i || are_consecutive h i) = false) (hle : h.lb ≤ i.ub) : gap h i := by
  rw [Bool.or_eq_false_iff] at ht
  refine ⟨?_, ht.2⟩
  rw [IsOnTheLeft_iff]
  by_contra hn
  have : overlap h i = true := overlap_iff.mpr ⟨not_lt.mp hn, hle⟩
  rw [ht.1] at this
  cases this

theorem not_leq_of_not_overlap {p i : interval} (hp : p.is_bottom = false)
    (hi : i.is_bottom = false) (ho : overlap p i = false) : i.leq p = false := by
  rw [← Bool.not_eq_true] at ho ⊢
  intro h
  rw [interval.leq_iff hi hp] at h
  exact ho (overlap_iff.mpr ⟨le_trans (interval.is_bottom_false_iff.mp hi) h.2,
    le_trans h.1 (interval.is_bottom_false_iff.mp hi)⟩)

/-- On intervals that are not bottom the fusing loop always ends with an
interval to push: it pops a prefix `popped` of the stack, the pushed interval
includes the given one and every popped one, and does not touch the new back
of the stack. -/
theorem fuse_spec (res : List interval) (intv : interval)
    (hnb : ∀ x ∈ res, x.is_bottom = false) (hi : intv.is_bottom = false) :
    ∃ popped res' intv', res = popped ++ res' ∧ fuse res intv = fused.push res' intv' ∧
      intv'.is_bottom = false ∧ (intv'.lb ≤ intv.lb ∧ intv.ub ≤ intv'.ub) ∧
      (∀ p ∈ popped, intv'.lb ≤ p.lb ∧ p.ub ≤ intv'.ub) ∧
      (∀ h ∈ res'.head?, (overlap h intv' || are_consecutive h intv') = false) ∧
      (popped = [] → intv' = intv) ∧
      (∀ P : interval → Prop,
        (∀ x y, P x → P y → (overlap x y || are_consecutive x y) = true → P (x.join y)) →
        P intv → (∀ p ∈ popped, P p) → P intv') := by
  induction res generalizing intv with
  | nil =>
    exact ⟨[], [], intv, rfl, rfl, hi, ⟨le_refl _, le_refl _⟩, by simp, by simp,
      fun _ => rfl, fun P _ h _ => h⟩
  | cons prev res ih =>
    have hp : prev.is_bottom = false := hnb prev (List.mem_cons_self _ _)
    cases ht : (overlap prev intv || are_consecutive prev intv)
    · refine ⟨[], prev :: res, intv, rfl, ?_, hi, ⟨le_refl _, le_refl _⟩, by simp, ?_,
        fun _ => rfl, fun P _ h _ => h⟩
      · have hl : intv.leq prev = false :=
          not_leq_of_not_overlap hp hi (Bool.or_eq_false_iff.mp ht).1
        simp [fuse, ht, hl]
      · intro h hh
        simp only [List.head?_cons, Option.mem_def, Option.some.injEq] at hh
        subst hh
        exact ht
    · have hj : (prev.join intv).is_bottom = false := interval.join_not_bottom hp hi
      obtain ⟨popped, res', intv', h1, h2, h3, h4, h5, h6, _, h8⟩ :=
        ih (prev.join intv) (fun x hx => hnb x (List.mem_cons_of_mem _ hx)) hj
      rw [interval.join_eq hp hi] at h4
      simp only at h4
      refine ⟨prev :: popped, res', intv', by simp [h1], ?_, h3, ?_, ?_, h6, by simp, ?_⟩
      · simp [fuse, ht, h2]
      · exact ⟨le_trans h4.1 (min_le_right _ _), le_trans (le_max_right _ _) h4.2⟩
      · intro p hpm
        rcases List.mem_cons.mp hpm with rfl | hpm
        · exact ⟨le_trans h4.1 (min_le_left _ _), le_trans (le_max_left _ _) h4.2⟩
        · exact h5 p hpm
      · intro P hP hPi hPp
        exact h8 P hP (hP _ _ (hPp prev (List.mem_cons_self _ _)) hPi ht)
          (fun p hpm => hPp p (List.mem_cons_of_mem _ hpm))


/-! ## The loop of `normalize` -/

theorem top_not_bottom : interval.top.is_bottom = false := by decide

theorem top_is_top : interval.top.is_top = true := by decide

theorem normalize_loop_spec (P : interval → Prop)
    (hP : ∀ x y, P x → P y → (overlap x y || are_consecutive x y) = true → P (x.join y))
    (l : List interval) :
    ∀ (res : List interval) (prev : interval) (bottoms : Nat),
      List.Chain' adj l → (∀ x ∈ l, x.is_bottom = false → P x) →
      loop_inv res prev → (∀ x ∈ res, P x) →
      (∀ h ∈ res.head?, ∀ x ∈ l.head?, h.lb ≤ x.ub) →
      ∀ r b, normalize_loop l res prev bottoms = some (r, b) →
        (∀ x ∈ r, x.is_bottom = false ∧ x.is_top = false) ∧
        List.Chain' (fun l e => gap e l) r ∧ (∀ x ∈ r, P x) := by
  induction l with
  | nil =>
    intro res prev bottoms _ _ hinv hPr _ r b hr
    simp only [normalize_loop, Option.some.injEq, Prod.mk.injEq] at hr
    obtain ⟨rfl, _⟩ := hr
    exact ⟨hinv.1, hinv.2.1, hPr⟩
  | cons intv l ih =>
    intro res prev bottoms hch hPl hinv hPr hJ r b hr
    have hch' : List.Chain' adj l := hch.tail
    have hPl' : ∀ x ∈ l, x.is_bottom = false → P x :=
      fun x hx => hPl x (List.mem_cons_of_mem _ hx)
    have hadj : ∀ x ∈ l.head?, adj intv x := (List.chain'_cons'.mp hch).1
    have hprev : prev.is_bottom = false := by
      rcases hinv.2.2 with ⟨_, h⟩ | h
      · rw [h]; exact top_not_bottom
      · exact (hinv.1 prev (List.mem_of_mem_head? h)).1
    unfold normalize_loop at hr
    split at hr
    · -- duplicate of prev
      rename_i heq
      have he : prev = intv := (interval.eq_iff hprev).mp heq
      subst he
      refine ih res prev bottoms hch' hPl' hinv hPr ?_ r b hr
      intro h hh x hx
      rcases hinv.2.2 with ⟨h0, _⟩ | h0
      · rw [h0] at hh; cases hh
      · rw [h0] at hh
        cases hh
        rcases hadj x hx with h1 | ⟨h1, _⟩
        · exact h1
        · rw [hprev] at h1; cases h1
    · split at hr
      · -- bottom interval
        rename_i _ hb
        refine ih res prev (bottoms + 1) hch' hPl' hinv hPr ?_ r b hr
        intro h hh x hx
        have h1 : h.lb ≤ intv.ub := hJ h hh intv rfl
        rcases hadj x hx with h2 | ⟨_, h2⟩
        · exact le_trans h1 (le_trans (le_of_lt (interval.is_bottom_iff.mp hb)) h2)
        · rw [← h2]; exact h1
      · split at hr
        · cases hr
        · rename_i _ hb ht
          simp only [Bool.not_eq_true] at hb ht
          have hfuse : (if (!prev.is_top) = true then fuse res intv else fused.push res intv)
              = fuse res intv := by
            cases hpt : prev.is_top
            · simp
            · rcases hinv.2.2 with ⟨h0, _⟩ | h0
              · subst h0; simp [fuse]
              · have := (hinv.1 prev (List.mem_of_mem_head? h0)).2
                rw [hpt] at this; cases this
          rw [hfuse] at hr
          obtain ⟨popped, res', intv', h1, h2, h3, h4, h5, h6, _, h8⟩ :=
            fuse_spec res intv (fun x hx => (hinv.1 x hx).1) hb
          rw [h2] at hr
          simp only at hr
          split at hr
          · cases hr
          · rename_i ht'
            simp only [Bool.not_eq_true] at ht'
            have hres' : ∀ x ∈ res', x ∈ res := fun x hx => by
              rw [h1]; exact List.mem_append_right _ hx
            have hpop : ∀ x ∈ popped, x ∈ res := fun x hx => by
              rw [h1]; exact List.mem_append_left _ hx
            have hPi : P intv' :=
              h8 P hP (hPl intv (List.mem_cons_self _ _) hb) (fun p hp => hPr p (hpop p hp))
            have hchain : List.Chain' (fun l e => gap e l) res' := by
              have := hinv.2.1
              rw [h1, List.chain'_append] at this
              exact this.2.1
            refine ih (intv' :: res') intv' bottoms hch' hPl' ⟨?_, ?_, Or.inr rfl⟩ ?_ ?_ r b hr
            · intro x hx
              rcases List.mem_cons.mp hx with rfl | hx
              · exact ⟨h3, ht'⟩
              · exact hinv.1 x (hres' x hx)
            · rw [List.chain'_cons']
              refine ⟨?_, hchain⟩
              intro h hh
              have hhm : h ∈ res' := List.mem_of_mem_head? hh
              have hhb : h.is_bottom = false := (hinv.1 h (hres' h hhm)).1
              refine gap_of_not_touch hhb (h6 h hh) ?_
              rcases List.eq_nil_or_concat popped with hp0 | ⟨ps, p, hp0⟩
              · subst hp0
                simp only [List.nil_append] at h1
                subst h1
                exact le_trans (hJ h hh intv rfl) h4.2
              · have hc := hinv.2.1
                rw [h1, List.chain'_append] at hc
                have hg : gap h p := hc.2.2 p (by rw [hp0]; simp) h hh
                have hpb : p.is_bottom = false := (hinv.1 p (hpop p (by rw [hp0]; simp))).1
                have hpi := h5 p (by rw [hp0]; simp)
                have := IsOnTheLeft_iff.mp hg.1
                exact le_trans (interval.is_bottom_false_iff.mp hhb)
                  (le_trans (le_of_lt this)
                    (le_trans (interval.is_bottom_false_iff.mp hpb) hpi.2))
            · intro x hx
              rcases List.mem_cons.mp hx with rfl | hx
              · exact hPi
              · exact hPr x (hres' x hx)
            · intro h hh x hx
              simp only [List.head?_cons, Option.mem_def, Option.some.injEq] at hh
              subst hh
              rcases hadj x hx with h9 | ⟨h9, _⟩
              · exact le_trans h4.1 h9
              · rw [hb] at h9; cases h9


/-! ## `normalize` and the list constructor -/

theorem sorted_with_gaps_iff_chain (l : List interval) :
    sorted_with_gaps l ↔ List.Chain' gap l := by
  induction l with
  | nil => simp [sorted_with_gaps]
  | cons x l ih =>
    cases l with
    | nil => simp [sorted_with_gaps]
    | cons y l =>
      rw [List.chain'_cons]
      unfold sorted_with_gaps
      rw [ih]

theorem strictly_sorted_of_sorted_with_gaps (l : List interval) (h : sorted_with_gaps l) :
    strictly_sorted l = true := by
  induction l with
  | nil => rfl
  | cons x l ih =>
    cases l with
    | nil => rfl
    | cons y l =>
      unfold sorted_with_gaps at h
      unfold strictly_sorted
      rw [h.1.1, ih h.2]
      rfl

theorem normalize_of_length_le_one (l : List interval) (h : l.length ≤ 1) :
    normalize l = (l, false) := by
  simp [normalize, h]

/-- The list returned by `normalize` for at least two intervals: no interval
is bottom or top, neighbours are separated by a gap, and every interval
satisfies each property of the non-bottom input intervals that is kept by the
join of two overlapping or consecutive intervals. -/
theorem normalize_spec (P : interval → Prop)
    (hP : ∀ x y, P x → P y → (overlap x y || are_consecutive x y) = true → P (x.join y))
    (l : List interval) (hlen : 2 ≤ l.length) (hc : ∀ x ∈ l, x.canonical)
    (hPl : ∀ x ∈ l, x.is_bottom = false → P x) :
    (∀ x ∈ (normalize l).1, x.is_bottom = false ∧ x.is_top = false) ∧
      sorted_with_gaps (normalize l).1 ∧ (∀ x ∈ (normalize l).1, P x) := by
  have hn : ¬ l.length ≤ 1 := by omega
  unfold normalize
  rw [if_neg hn]
  cases hr : normalize_loop (sort l) [] interval.top 0 with
  | none => simp [sorted_with_gaps]
  | some rb =>
    obtain ⟨r, b⟩ := rb
    have := normalize_loop_spec P hP (sort l) [] interval.top 0 (sort_chain l hc)
      (fun x hx => hPl x (mem_sort.mp hx)) ⟨by simp, by simp, Or.inl ⟨rfl, rfl⟩⟩ (by simp)
      (by simp) r b hr
    simp only [List.mem_reverse]
    refine ⟨this.1, ?_, this.2.2⟩
    rw [sorted_with_gaps_iff_chain, List.chain'_reverse]
    exact this.2.1

theorem of_list_eq (l : List interval) :
    of_list l true =
      if (normalize l).2 = true then ⟨state_t.BOT, []⟩
      else if (normalize l).1 = [] then ⟨state_t.TOP, []⟩
      else if max_num_disjunctions ≤ (normalize l).1.length then
        match approx_list (normalize l).1 with
        | some alljoined => ⟨state_t.FINITE, [alljoined]⟩
        | none => ⟨state_t.FINITE, (normalize l).1⟩
      else ⟨state_t.FINITE, (normalize l).1⟩ := by
  unfold of_list
  generalize normalize l = n
  obtain ⟨res, isb⟩ := n
  cases isb
  · cases res with
    | nil => simp [is_finite]
    | cons x xs =>
      by_cases hge : max_num_disjunctions ≤ xs.length + 1
      · simp only [is_finite, List.length_cons, hge, decide_True, Bool.and_self,
          Bool.false_eq_true, if_false, if_true, List.isEmpty_cons, reduceCtorEq]
      · simp [is_finite, hge]
  · simp [is_finite]

theorem well_formed_finite_iff (l : List interval) :
    well_formed ⟨state_t.FINITE, l⟩ ↔
      l ≠ [] ∧ (∀ i ∈ l, i.is_bottom = false ∧ i.is_top = false) ∧
        sorted_with_gaps l ∧ l.length < max_num_disjunctions := Iff.rfl

theorem check_well_formed_of_well_formed (x : dis_interval) (h : well_formed x) :
    check_well_formed x = true := by
  obtain ⟨s, l⟩ := x
  cases s with
  | BOT => rfl
  | TOP => rfl
  | FINITE =>
    obtain ⟨h1, h2, h3, _⟩ := h
    cases l with
    | nil => exact absurd rfl h1
    | cons a l =>
      cases l with
      | nil =>
        have := h2 a (List.mem_cons_self _ _)
        simp [check_well_formed, is_top, is_bottom, this.1, this.2]
      | cons b l =>
        simp only [check_well_formed, is_top, is_bottom]
        exact strictly_sorted_of_sorted_with_gaps _ h3

theorem approx_list_not_bottom (l : List interval) (hl : ∀ x ∈ l, x.is_bottom = false)
    (a : interval) (h : approx_list l = some a) : a.is_bottom = false := by
  cases l with
  | nil => cases h
  | cons x l =>
    cases l with
    | nil =>
      simp only [approx_list, Option.some.injEq] at h
      subst h
      exact hl _ (List.mem_cons_self _ _)
    | cons y l =>
      simp only [approx_list, Option.some.injEq] at h
      subst h
      exact interval.join_not_bottom (hl _ (List.mem_cons_self _ _))
        (hl _ (List.mem_cons_of_mem _ (List.getLast_mem _)))

/-- The list returned by `normalize` when the input is not a one-element list
holding top or bottom: no interval is bottom or top and neighbours are
separated by a gap. -/
theorem normalize_list_ok (l : List interval) (hc : ∀ x ∈ l, x.canonical)
    (h1 : ∀ x, l = [x] → x.is_bottom = false ∧ x.is_top = false) :
    (∀ x ∈ (normalize l).1, x.is_bottom = false ∧ x.is_top = false) ∧
      sorted_with_gaps (normalize l).1 := by
  by_cases hlen : l.length ≤ 1
  · rw [normalize_of_length_le_one l hlen]
    cases l with
    | nil => simp [sorted_with_gaps]
    | cons x l =>
      cases l with
      | nil =>
        have := h1 x rfl
        simp [sorted_with_gaps, this]
      | cons y l => simp at hlen
  · have := normalize_spec (fun _ => True) (fun _ _ _ _ _ => trivial) l (by omega) hc
      (fun _ _ _ => trivial)
    exact ⟨this.1, this.2.1⟩

theorem of_list_well_formed_aux (l : List interval) (hc : ∀ x ∈ l, x.canonical)
    (h1 : ∀ x, l = [x] → x.is_bottom = false ∧ x.is_top = false)
    (hcap : max_num_disjunctions ≤ (normalize l).1.length →
      ∀ a, approx_list (normalize l).1 = some a → a.is_top = false) :
    well_formed (of_list l true) := by
  obtain ⟨hn1, hn2⟩ := normalize_list_ok l hc h1
  rw [of_list_eq]
  split
  · rfl
  · split
    · rfl
    · rename_i hne
      split
      · rename_i hge
        cases ha : approx_list (normalize l).1 with
        | none =>
          cases hl : (normalize l).1 with
          | nil => exact absurd hl hne
          | cons x xs => rw [hl] at ha; cases xs <;> cases ha
        | some a =>
          simp only
          rw [well_formed_finite_iff]
          refine ⟨by simp, ?_, by simp [sorted_with_gaps], by simp [max_num_disjunctions]⟩
          intro i hi
          simp only [List.mem_singleton] at hi
          subst hi
          exact ⟨approx_list_not_bottom _ (fun x hx => (hn1 x hx).1) _ ha, hcap hge _ ha⟩
      · rename_i hlt
        rw [well_formed_finite_iff]
        exact ⟨hne, hn1, hn2, by omega⟩


/-! ## Lists that are already normalized -/

theorem pairwise_of_sorted_with_gaps (l : List interval)
    (hnb : ∀ x ∈ l, x.is_bottom = false) (h : sorted_with_gaps l) :
    List.Pairwise (fun a b => a.ub.plus 1 < b.lb) l := by
  induction l with
  | nil => exact List.Pairwise.nil
  | cons x l ih =>
    cases l with
    | nil => simp
    | cons y l =>
      unfold sorted_with_gaps at h
      have hx := hnb x (List.mem_cons_self _ _)
      have hy := hnb y (List.mem_cons_of_mem _ (List.mem_cons_self _ _))
      have ih' := ih (fun z hz => hnb z (List.mem_cons_of_mem _ hz)) h.2
      have hxy : x.ub.plus 1 < y.lb := (gap_iff hx hy).mp h.1
      refine List.Pairwise.cons ?_ ih'
      intro z hz
      rcases List.mem_cons.mp hz with rfl | hz
      · exact hxy
      · have hyz := List.rel_of_pairwise_cons ih' hz
        exact lt_trans hxy (lt_of_le_of_lt (le_trans (interval.is_bottom_false_iff.mp hy)
          (bound.le_plus_one _)) hyz)

theorem not_left_of_lt {a b : interval} (ha : a.is_bottom = false) (hb : b.is_bottom = false)
    (h : a.ub.plus 1 < b.lb) : IsOnTheLeft b a = false := by
  rw [IsOnTheLeft_false_iff]
  exact le_trans (interval.is_bottom_false_iff.mp ha)
    (le_trans (bound.le_plus_one _) (le_trans (le_of_lt h) (interval.is_bottom_false_iff.mp hb)))

theorem insertion_sort_loop_sorted (l p : List interval)
    (hnb : ∀ x ∈ p.reverse ++ l, x.is_bottom = false)
    (h : List.Pairwise (fun a b => a.ub.plus 1 < b.lb) (p.reverse ++ l)) :
    insertion_sort_loop p l = p.reverse ++ l := by
  induction l generalizing p with
  | nil => simp [insertion_sort_loop]
  | cons x xs ih =>
    have hx : x.is_bottom = false := hnb x (by simp)
    have hnext : ∀ q : List interval, q.reverse = p.reverse ++ [x] →
        insertion_sort_loop q xs = p.reverse ++ x :: xs := by
      intro q hq
      have := ih q (by rw [hq]; simpa using hnb) (by rw [hq]; simpa using h)
      rw [this, hq]; simp
    unfold insertion_sort_loop
    split
    · rename_i hn
      have hp : p = [] := List.getLast?_eq_none_iff.mp hn
      subst hp
      exact hnext [x] rfl
    · rename_i first hf
      have hfm : first ∈ p := List.mem_of_getLast?_eq_some hf
      have hlt : ∀ y ∈ p, y.ub.plus 1 < x.lb := by
        intro y hy
        rw [List.pairwise_append] at h
        exact h.2.2 y (List.mem_reverse.mpr hy) x (List.mem_cons_self _ _)
      have hnl : ∀ y ∈ p, IsOnTheLeft x y = false := fun y hy =>
        not_left_of_lt (hnb y (by simp [hy])) hx (hlt y hy)
      rw [hnl first hfm]
      simp only [Bool.false_eq_true, if_false]
      have hins : unguarded_linear_insert x p = x :: p := by
        cases p with
        | nil => rfl
        | cons y ys => simp [unguarded_linear_insert, hnl y (List.mem_cons_self _ _)]
      rw [hins]
      exact hnext (x :: p) (by simp)

theorem sort_of_sorted (l : List interval) (hnb : ∀ x ∈ l, x.is_bottom = false)
    (h : sorted_with_gaps l) : sort l = l := by
  have := insertion_sort_loop_sorted l [] (by simpa using hnb)
    (by simpa using pairwise_of_sorted_with_gaps l hnb h)
  simpa [sort] using this

theorem not_touch_of_gap {p i : interval} (h : gap p i) :
    (overlap p i || are_consecutive p i) = false := by
  rw [Bool.or_eq_false_iff]
  refine ⟨?_, h.2⟩
  rw [← Bool.not_eq_true, overlap_iff]
  intro ho
  exact absurd (IsOnTheLeft_iff.mp h.1) (not_lt.mpr ho.1)

theorem normalize_loop_sorted (l : List interval) :
    ∀ (res : List interval) (prev : interval) (b : Nat),
      (∀ x ∈ l, x.is_bottom = false ∧ x.is_top = false) → sorted_with_gaps l →
      ((res = [] ∧ prev = interval.top) ∨
        (res.head? = some prev ∧ prev.is_bottom = false ∧ prev.is_top = false ∧
          ∀ x ∈ l.head?, gap prev x)) →
      normalize_loop l res prev b = some (l.reverse ++ res, b) := by
  induction l with
  | nil => intro res prev b _ _ _; simp [normalize_loop]
  | cons intv l ih =>
    intro res prev b hp hs hinv
    obtain ⟨hib, hit⟩ := hp intv (List.mem_cons_self _ _)
    have hp' : ∀ x ∈ l, x.is_bottom = false ∧ x.is_top = false :=
      fun x hx => hp x (List.mem_cons_of_mem _ hx)
    have hs' : sorted_with_gaps l := by
      cases l with
      | nil => trivial
      | cons y l => exact hs.2
    have hg : ∀ x ∈ l.head?, gap intv x := by
      intro x hx
      cases l with
      | nil => cases hx
      | cons y l =>
        simp only [List.head?_cons, Option.mem_def, Option.some.injEq] at hx
        subst hx
        exact hs.1
    have hnext : normalize_loop l (intv :: res) intv b
        = some ((intv :: l).reverse ++ res, b) := by
      rw [ih (intv :: res) intv b hp' hs' (Or.inr ⟨rfl, hib, hit, hg⟩)]
      simp
    rcases hinv with ⟨h0, h1⟩ | ⟨h0, h1, h2, h3⟩
    · subst h0 h1
      have hne : interval.top.eq intv = false := by
        rw [← Bool.not_eq_true, interval.eq_iff top_not_bottom]
        intro h
        rw [← h] at hit
        cases hit
      unfold normalize_loop
      simp only [hne, hib, hit, top_is_top, Bool.false_eq_true, if_false, Bool.not_true]
      exact hnext
    · have hgap : gap prev intv := h3 intv rfl
      have hne : prev.eq intv = false := by
        rw [← Bool.not_eq_true, interval.eq_iff h1]
        intro h
        subst h
        exact absurd (IsOnTheLeft_iff.mp hgap.1)
          (not_lt.mpr (interval.is_bottom_false_iff.mp h1))
      obtain ⟨t, rfl⟩ : ∃ t, res = prev :: t := by
        cases res with
        | nil => cases h0
        | cons a t => simp only [List.head?_cons, Option.some.injEq] at h0; exact ⟨t, by rw [h0]⟩
      have hnt := not_touch_of_gap hgap
      have hnl : intv.leq prev = false :=
        not_leq_of_not_overlap h1 hib (Bool.or_eq_false_iff.mp hnt).1
      unfold normalize_loop
      simp only [hne, hib, hit, h2, fuse, hnt, hnl, Bool.false_eq_true, if_false,
        Bool.not_false, if_true]
      exact hnext

theorem normalize_of_sorted (l : List interval)
    (hp : ∀ x ∈ l, x.is_bottom = false ∧ x.is_top = false) (hs : sorted_with_gaps l) :
    normalize l = (l, false) := by
  by_cases hlen : l.length ≤ 1
  · exact normalize_of_length_le_one l hlen
  · unfold normalize
    rw [if_neg hlen, sort_of_sorted l (fun x hx => (hp x hx).1) hs,
      normalize_loop_sorted l [] interval.top 0 hp hs (Or.inl ⟨rfl, rfl⟩)]
    simp only [List.append_nil, List.reverse_reverse, Prod.mk.injEq, decide_eq_false_iff_not,
      true_and]
    omega

theorem overlap_comm (x y : interval) : overlap x y = overlap y x := by
  simp [overlap, Bool.and_comm]

theorem are_consecutive_comm (x y : interval) : are_consecutive x y = are_consecutive y x := by
  simp [are_consecutive, Bool.or_comm]

theorem touch_comm (x y : interval) :
    (overlap x y || are_consecutive x y) = (overlap y x || are_consecutive y x) := by
  rw [overlap_comm, are_consecutive_comm]

theorem interval_join_comm {x y : interval} (hx : x.is_bottom = false)
    (hy : y.is_bottom = false) : x.join y = y.join x := by
  rw [interval.join_eq hx hy, interval.join_eq hy hx, min_comm, max_comm]

theorem interval_eq_comm {x y : interval} (hx : x.is_bottom = false)
    (hy : y.is_bottom = false) : x.eq y = y.eq x := by
  rw [Bool.eq_iff_iff, interval.eq_iff hx, interval.eq_iff hy]
  exact eq_comm

theorem interval_leq_antisymm {x y : interval} (hx : x.is_bottom = false)
    (hy : y.is_bottom = false) (h1 : x.leq y = true) (h2 : y.leq x = true) : x = y := by
  rw [interval.leq_iff hx hy] at h1
  rw [interval.leq_iff hy hx] at h2
  cases x; cases y
  simp only [interval.mk.injEq]
  exact ⟨le_antisymm h2.1 h1.1, le_antisymm h1.2 h2.2⟩

theorem left_or_left {x y : interval} (_hx : x.is_bottom = false) (_hy : y.is_bottom = false)
    (ho : overlap x y = false) : IsOnTheLeft x y = true ∨ IsOnTheLeft y x = true := by
  rw [IsOnTheLeft_iff, IsOnTheLeft_iff]
  by_contra h
  rw [not_or, not_lt, not_lt] at h
  have : overlap x y = true := overlap_iff.mpr ⟨h.1, h.2⟩
  rw [ho] at this
  cases this

theorem not_left_of_left {x y : interval} (hx : x.is_bottom = false)
    (hy : y.is_bottom = false) (h : IsOnTheLeft x y = true) : IsOnTheLeft y x = false := by
  rw [IsOnTheLeft_iff] at h
  rw [IsOnTheLeft_false_iff]
  exact le_trans (interval.is_bottom_false_iff.mp hx)
    (le_trans (le_of_lt h) (interval.is_bottom_false_iff.mp hy))

theorem join_main_comm (n : Nat) :
    ∀ (a b res : List interval), (∀ x ∈ a, x.is_bottom = false) →
      (∀ y ∈ b, y.is_bottom = false) →
      join_main n b a res = (join_main n a b res).map (fun t => (t.2.1, t.1, t.2.2)) := by
  induction n with
  | zero => intro a b res _ _; simp [join_main]
  | succ n ih =>
    intro a b res ha hb
    cases a with
    | nil => cases b <;> simp [join_main]
    | cons x xs =>
      cases b with
      | nil => simp [join_main]
      | cons y ys =>
        have hx := ha x (List.mem_cons_self _ _)
        have hy := hb y (List.mem_cons_self _ _)
        have hxs : ∀ z ∈ xs, z.is_bottom = false := fun z hz => ha z (List.mem_cons_of_mem _ hz)
        have hys : ∀ z ∈ ys, z.is_bottom = false := fun z hz => hb z (List.mem_cons_of_mem _ hz)
        by_cases ht : (x.is_top || y.is_top) = true
        · have ht' : (y.is_top || x.is_top) = true := by rw [Bool.or_comm]; exact ht
          simp [join_main, ht, ht']
        · have ht' : ¬ (y.is_top || x.is_top) = true := by rw [Bool.or_comm]; exact ht
          by_cases he : x.eq y = true
          · have he' : y.eq x = true := by rw [← interval_eq_comm hx hy]; exact he
            have hxy : x = y := (interval.eq_iff hx).mp he
            simp only [join_main, ht, ht', hx, hy, he, he', Bool.false_eq_true, if_false,
              if_true]
            rw [hxy]
            exact ih xs ys _ hxs hys
          · have he' : ¬ y.eq x = true := by rw [← interval_eq_comm hx hy]; exact he
            by_cases h1 : x.leq y = true
            · have h2 : ¬ y.leq x = true := fun h2 =>
                he ((interval.eq_iff hx).mpr (interval_leq_antisymm hx hy h1 h2))
              simp only [join_main, ht, ht', hx, hy, he, he', h1, h2, Bool.false_eq_true,
                if_false, if_true]
              exact ih xs ys _ hxs hys
            · by_cases h2 : y.leq x = true
              · simp only [join_main, ht, ht', hx, hy, he, he', h1, h2, Bool.false_eq_true,
                  if_false, if_true]
                exact ih xs ys _ hxs hys
              · by_cases h3 : (overlap x y || are_consecutive x y) = true
                · have h3' : (overlap y x || are_consecutive y x) = true := by
                    rw [touch_comm]; exact h3
                  simp only [join_main, ht, ht', hx, hy, he, he', h1, h2, h3, h3',
                    Bool.false_eq_true, if_false, if_true]
                  rw [interval_join_comm hy hx]
                  exact ih xs ys _ hxs hys
                · have h3' : ¬ (overlap y x || are_consecutive y x) = true := by
                    rw [touch_comm]; exact h3
                  have ho : overlap x y = false := by
                    simp only [Bool.or_eq_true, not_or, Bool.not_eq_true] at h3
                    exact h3.1
                  by_cases h4 : IsOnTheLeft x y = true
                  · have h4' : ¬ IsOnTheLeft y x = true := by
                      rw [not_left_of_left hx hy h4]; simp
                    simp only [join_main, ht, ht', hx, hy, he, he', h1, h2, h3, h3', h4, h4',
                      Bool.false_eq_true, if_false, if_true]
                    exact ih xs (y :: ys) _ hxs hb
                  · have h4' : IsOnTheLeft y x = true := by
                      rcases left_or_left hx hy ho with h | h
                      · exact absurd h h4
                      · exact h
                    simp only [join_main, ht, ht', hx, hy, he, he', h1, h2, h3, h3', h4, h4',
                      Bool.false_eq_true, if_false, if_true]
                    exact ih (x :: xs) ys _ ha hys

theorem join_main_exhausts (n : Nat) :
    ∀ (a b res a' b' res' : List interval), a.length + b.length ≤ n →
      join_main n a b res = some (a', b', res') → a' = [] ∨ b' = [] := by
  induction n with
  | zero =>
    intro a b res a' b' res' hn h
    simp only [join_main, Option.some.injEq, Prod.mk.injEq] at h
    left
    rw [← h.1]
    exact List.length_eq_zero.mp (by omega)
  | succ n ih =>
    intro a b res a' b' res' hn h
    cases a with
    | nil =>
      simp only [join_main, Option.some.injEq, Prod.mk.injEq] at h
      exact Or.inl h.1.symm
    | cons x xs =>
      cases b with
      | nil =>
        simp only [join_main, Option.some.injEq, Prod.mk.injEq] at h
        exact Or.inr h.2.1.symm
      | cons y ys =>
        simp only [List.length_cons] at hn
        unfold join_main at h
        split at h
        · cases h
        · split at h
          · exact ih _ _ _ _ _ _ (by simp only [List.length_cons]; omega) h
          · split at h
            · exact ih _ _ _ _ _ _ (by simp only [List.length_cons]; omega) h
            · split at h
              · exact ih _ _ _ _ _ _ (by omega) h
              · split at h
                · exact ih _ _ _ _ _ _ (by omega) h
                · split at h
                  · exact ih _ _ _ _ _ _ (by omega) h
                  · split at h
                    · exact ih _ _ _ _ _ _ (by omega) h
                    · split at h
                      · exact ih _ _ _ _ _ _ (by simp only [List.length_cons]; omega) h
                      · exact ih _ _ _ _ _ _ (by simp only [List.length_cons]; omega) h

theorem join_rest_nil (res : List interval) : join_rest [] res = res := rfl

theorem join_list_comm (a b : List interval) (ha : ∀ x ∈ a, x.is_bottom = false)
    (hb : ∀ y ∈ b, y.is_bottom = false) : join_list b a = join_list a b := by
  unfold join_list
  rw [Nat.add_comm b.length a.length, join_main_comm _ a b [] ha hb]
  cases h : join_main (a.length + b.length) a b [] with
  | none => rfl
  | some t =>
    obtain ⟨a', b', res⟩ := t
    simp only [Option.map_some']
    rcases join_main_exhausts _ a b [] a' b' res (le_refl _) h with h0 | h0
    · subst h0; rfl
    · subst h0; rfl


theorem join_main_self (n : Nat) :
    ∀ (l res : List interval), l.length ≤ n →
      (∀ x ∈ l, x.is_bottom = false ∧ x.is_top = false) →
      join_main n l l res = some ([], [], l.reverse ++ res) := by
  induction n with
  | zero =>
    intro l res hn _
    have : l = [] := List.length_eq_zero.mp (by omega)
    subst this
    rfl
  | succ n ih =>
    intro l res hn hl
    cases l with
    | nil => rfl
    | cons x xs =>
      obtain ⟨hb, ht⟩ := hl x (List.mem_cons_self _ _)
      simp only [join_main, hb, ht, interval.eq_refl, Bool.or_self, Bool.false_eq_true,
        if_false, if_true]
      rw [ih xs (x :: res) (by simp only [List.length_cons] at hn; omega)
        (fun z hz => hl z (List.mem_cons_of_mem _ hz))]
      simp

theorem join_list_self (l : List interval)
    (hl : ∀ x ∈ l, x.is_bottom = false ∧ x.is_top = false) : join_list l l = some l := by
  unfold join_list
  rw [join_main_self _ l [] (by omega) hl]
  simp [join_rest]

theorem of_list_of_well_formed (l : List interval) (h : well_formed ⟨state_t.FINITE, l⟩) :
    of_list l true = ⟨state_t.FINITE, l⟩ := by
  obtain ⟨h1, h2, h3, h4⟩ := h
  simp only at h1 h2 h3 h4
  rw [of_list_eq, normalize_of_sorted l h2 h3]
  simp only [Bool.false_eq_true, if_false, h1]
  rw [if_neg (by omega)]

theorem eq_loop_refl (l : List interval) : eq_loop l l = true := by
  induction l with
  | nil => rfl
  | cons x l ih => simp [eq_loop, interval.eq_refl, ih]

theorem eq_self (x : dis_interval) : eq x x = true := by
  obtain ⟨s, l⟩ := x
  cases s <;> simp [eq, is_bottom, is_top, eq_loop_refl]

theorem well_formed_eq_top {x : dis_interval} (h : well_formed x)
    (hs : x._state = state_t.TOP) : x = ⟨state_t.TOP, []⟩ := by
  obtain ⟨s, l⟩ := x
  simp only at hs
  subst hs
  have : l = [] := h
  rw [this]

theorem well_formed_eq_bot {x : dis_interval} (h : well_formed x)
    (hs : x._state = state_t.BOT) : x = ⟨state_t.BOT, []⟩ := by
  obtain ⟨s, l⟩ := x
  simp only at hs
  subst hs
  have : l = [] := h
  rw [this]

theorem join_comm (a b : dis_interval) (ha : well_formed a) (hb : well_formed b) :
    join a b = join b a := by
  obtain ⟨sa, la⟩ := a
  obtain ⟨sb, lb⟩ := b
  cases sa <;> cases sb
  · rw [well_formed_eq_bot ha rfl, well_formed_eq_bot hb rfl]
  · rfl
  · rfl
  · rfl
  · have h := join_list_comm la lb (fun x hx => (ha.2.1 x hx).1) (fun x hx => (hb.2.1 x hx).1)
    simp only [join, is_bottom, is_top, h]
    rfl
  · rfl
  · rfl
  · rfl
  · rw [well_formed_eq_top ha rfl, well_formed_eq_top hb rfl]

theorem join_self (a : dis_interval) (ha : well_formed a) : join a a = a := by
  obtain ⟨s, l⟩ := a
  cases s
  · rfl
  · have hl := ha.2.1
    simp only at hl
    have h := join_list_self l hl
    cases l with
    | nil => exact absurd rfl ha.1
    | cons r rs =>
      have ht : r.is_top = false := (hl r (List.mem_cons_self _ _)).2
      simp only [join, is_bottom, is_top, h, ht]
      simp only [reduceCtorEq, decide_False, Bool.false_eq_true, if_false, Bool.and_false]
      exact of_list_of_well_formed _ ha
  · rfl


/-! ## The scan of `operator<=` -/

theorem leq_find_suffix {x : interval} {os os' : List interval}
    (h : leq_find x os = some os') :
    (∀ y ∈ os', y ∈ os) ∧ ∃ y post, os' = y :: post ∧ x.leq y = true := by
  induction os with
  | nil => cases h
  | cons y ys ih =>
    unfold leq_find at h
    split at h
    · rename_i hl
      simp only [Option.some.injEq] at h
      subst h
      exact ⟨fun _ hz => hz, y, ys, rfl, hl⟩
    · obtain ⟨h1, h2⟩ := ih h
      exact ⟨fun z hz => List.mem_cons_of_mem _ (h1 z hz), h2⟩

theorem leq_loop_sound (xs : List interval) :
    ∀ os, leq_loop xs os = true → ∀ x ∈ xs, ∃ y ∈ os, x.leq y = true := by
  induction xs with
  | nil => intro os _ x hx; cases hx
  | cons x xs ih =>
    intro os h z hz
    unfold leq_loop at h
    split at h
    · cases h
    · rename_i os' hf
      obtain ⟨h1, y, post, h2, h3⟩ := leq_find_suffix hf
      rcases List.mem_cons.mp hz with rfl | hz
      · exact ⟨y, h1 y (by rw [h2]; exact List.mem_cons_self _ _), h3⟩
      · obtain ⟨w, hw, hzw⟩ := ih os' h z hz
        exact ⟨w, h1 w hw, hzw⟩

theorem leq_find_of_mem {x : interval} (os : List interval)
    (h : ∃ y ∈ os, x.leq y = true) :
    ∃ pre y0 post, os = pre ++ y0 :: post ∧ leq_find x os = some (y0 :: post) ∧
      x.leq y0 = true := by
  induction os with
  | nil => obtain ⟨y, hy, _⟩ := h; cases hy
  | cons y ys ih =>
    by_cases hl : x.leq y = true
    · exact ⟨[], y, ys, rfl, by simp [leq_find, hl], hl⟩
    · obtain ⟨w, hw, hxw⟩ := h
      have hw' : w ∈ ys := by
        rcases List.mem_cons.mp hw with rfl | hw
        · exact absurd hxw hl
        · exact hw
      obtain ⟨pre, y0, post, h1, h2, h3⟩ := ih ⟨w, hw', hxw⟩
      exact ⟨y :: pre, y0, post, by rw [h1]; rfl, by simp [leq_find, hl, h2], h3⟩

theorem leq_loop_complete (xs : List interval) :
    ∀ os, (∀ x ∈ xs, x.is_bottom = false) →
      List.Pairwise (fun a b => a.ub.plus 1 < b.lb) xs →
      (∀ y ∈ os, y.is_bottom = false) →
      List.Pairwise (fun a b => a.ub.plus 1 < b.lb) os →
      (∀ x ∈ xs, ∃ y ∈ os, x.leq y = true) → leq_loop xs os = true := by
  induction xs with
  | nil => intro _ _ _ _ _ _; rfl
  | cons x xs ih =>
    intro os hx hxs ho hos hc
    obtain ⟨pre, y0, post, h1, h2, h3⟩ :=
      leq_find_of_mem os (hc x (List.mem_cons_self _ _))
    have hxb := hx x (List.mem_cons_self _ _)
    have hy0b : y0.is_bottom = false := ho y0 (by rw [h1]; simp)
    unfold leq_loop
    rw [h2]
    simp only
    rw [h1] at hos
    have hos' := List.pairwise_append.mp hos
    refine ih (y0 :: post) (fun z hz => hx z (List.mem_cons_of_mem _ hz))
      (List.Pairwise.of_cons hxs) (fun z hz => ho z (by rw [h1]; simp [List.mem_cons.mp hz]))
      hos'.2.1 ?_
    intro x' hx'
    obtain ⟨y', hy', hl'⟩ := hc x' (List.mem_cons_of_mem _ hx')
    refine ⟨y', ?_, hl'⟩
    rw [h1] at hy'
    rcases List.mem_append.mp hy' with hp | hp
    · exfalso
      have hx'b := hx x' (List.mem_cons_of_mem _ hx')
      have hy'b : y'.is_bottom = false := ho y' (by rw [h1]; simp [hp])
      have e1 : y'.ub.plus 1 < y0.lb := hos'.2.2 y' hp y0 (List.mem_cons_self _ _)
      have e2 := (interval.leq_iff hxb hy0b).mp h3
      have e3 := (interval.leq_iff hx'b hy'b).mp hl'
      have e4 : x.ub.plus 1 < x'.lb := List.rel_of_pairwise_cons hxs hx'
      have e5 := interval.is_bottom_false_iff.mp hxb
      have e6 := interval.is_bottom_false_iff.mp hx'b
      have : x'.lb < x'.lb :=
        calc x'.lb ≤ x'.ub := e6
          _ ≤ y'.ub := e3.2
          _ ≤ y'.ub.plus 1 := bound.le_plus_one _
          _ < y0.lb := e1
          _ ≤ x.lb := e2.1
          _ ≤ x.ub := e5
          _ ≤ x.ub.plus 1 := bound.le_plus_one _
          _ < x'.lb := e4
      exact lt_irrefl _ this
    · exact hp

/-! ## Intervals included in an interval of a well-formed list -/

theorem pairwise_mem_cases {α : Type} {R : α → α → Prop} {l : List α}
    (h : List.Pairwise R l) {a b : α} (ha : a ∈ l) (hb : b ∈ l) :
    a = b ∨ R a b ∨ R b a := by
  induction l with
  | nil => cases ha
  | cons x l ih =>
    rcases List.mem_cons.mp ha with rfl | ha' <;> rcases List.mem_cons.mp hb with rfl | hb'
    · exact Or.inl rfl
    · exact Or.inr (Or.inl (List.rel_of_pairwise_cons h hb'))
    · exact Or.inr (Or.inr (List.rel_of_pairwise_cons h ha'))
    · exact ih (List.Pairwise.of_cons h) ha' hb'

theorem not_touch_of_lt {x y c1 c2 : interval} (hx : x.is_bottom = false)
    (hy : y.is_bottom = false) (hc1 : c1.is_bottom = false) (hc2 : c2.is_bottom = false)
    (h1 : x.leq c1 = true) (h2 : y.leq c2 = true) (hlt : c1.ub.plus 1 < c2.lb) :
    (overlap x y || are_consecutive x y) = false := by
  have e1 := (interval.leq_iff hx hc1).mp h1
  have e2 := (interval.leq_iff hy hc2).mp h2
  have ex := interval.is_bottom_false_iff.mp hx
  have ey := interval.is_bottom_false_iff.mp hy
  have hxy : x.ub.plus 1 < y.lb :=
    lt_of_le_of_lt (bound.plus_one_le_plus_one e1.2) (lt_of_lt_of_le hlt e2.1)
  exact not_touch_of_gap ((gap_iff hx hy).mpr hxy)

theorem covered_join {c : List interval} (hc : ∀ y ∈ c, y.is_bottom = false)
    (hp : List.Pairwise (fun a b => a.ub.plus 1 < b.lb) c) {x y : interval}
    (hx : covered c x) (hy : covered c y)
    (ht : (overlap x y || are_consecutive x y) = true) : covered c (x.join y) := by
  obtain ⟨hxb, c1, hc1, h1⟩ := hx
  obtain ⟨hyb, c2, hc2, h2⟩ := hy
  have hc1b := hc c1 hc1
  have hc2b := hc c2 hc2
  refine ⟨interval.join_not_bottom hxb hyb, c1, hc1, ?_⟩
  have heq : c1 = c2 := by
    rcases pairwise_mem_cases hp hc1 hc2 with h | h | h
    · exact h
    · rw [not_touch_of_lt hxb hyb hc1b hc2b h1 h2 h] at ht; cases ht
    · rw [touch_comm, not_touch_of_lt hyb hxb hc2b hc1b h2 h1 h] at ht; cases ht
  subst heq
  have e1 := (interval.leq_iff hxb hc1b).mp h1
  have e2 := (interval.leq_iff hyb hc1b).mp h2
  rw [interval.leq_iff (interval.join_not_bottom hxb hyb) hc1b, interval.join_eq hxb hyb]
  exact ⟨le_min e1.1 e2.1, max_le e1.2 e2.2⟩


/-! ## Properties kept by the loops of the join -/

theorem join_main_closed (P : interval → Prop)
    (hP : ∀ x y, P x → P y → (overlap x y || are_consecutive x y) = true → P (x.join y))
    (n : Nat) :
    ∀ (a b res a' b' res' : List interval), (∀ x ∈ a, P x) → (∀ y ∈ b, P y) →
      (∀ r ∈ res, P r) → join_main n a b res = some (a', b', res') →
      (∀ x ∈ a', P x) ∧ (∀ y ∈ b', P y) ∧ (∀ r ∈ res', P r) := by
  induction n with
  | zero =>
    intro a b res a' b' res' ha hb hr h
    simp only [join_main, Option.some.injEq, Prod.mk.injEq] at h
    obtain ⟨rfl, rfl, rfl⟩ := h
    exact ⟨ha, hb, hr⟩
  | succ n ih =>
    intro a b res a' b' res' ha hb hr h
    cases a with
    | nil =>
      simp only [join_main, Option.some.injEq, Prod.mk.injEq] at h
      obtain ⟨rfl, rfl, rfl⟩ := h
      exact ⟨ha, hb, hr⟩
    | cons x xs =>
      cases b with
      | nil =>
        simp only [join_main, Option.some.injEq, Prod.mk.injEq] at h
        obtain ⟨rfl, rfl, rfl⟩ := h
        exact ⟨ha, hb, hr⟩
      | cons y ys =>
        have hx := ha x (List.mem_cons_self _ _)
        have hy := hb y (List.mem_cons_self _ _)
        have hxs : ∀ z ∈ xs, P z := fun z hz => ha z (List.mem_cons_of_mem _ hz)
        have hys : ∀ z ∈ ys, P z := fun z hz => hb z (List.mem_cons_of_mem _ hz)
        have hpush : ∀ z, P z → ∀ r ∈ z :: res, P r := fun z hz r hr' => by
          rcases List.mem_cons.mp hr' with rfl | hr'
          · exact hz
          · exact hr r hr'
        unfold join_main at h
        split at h
        · cases h
        · split at h
          · exact ih _ _ _ _ _ _ hxs hb hr h
          · split at h
            · exact ih _ _ _ _ _ _ ha hys hr h
            · split at h
              · exact ih _ _ _ _ _ _ hxs hys (hpush x hx) h
              · split at h
                · exact ih _ _ _ _ _ _ hxs hys (hpush y hy) h
                · split at h
                  · exact ih _ _ _ _ _ _ hxs hys (hpush x hx) h
                  · split at h
                    · rename_i ht
                      exact ih _ _ _ _ _ _ hxs hys (hpush _ (hP x y hx hy ht)) h
                    · split at h
                      · exact ih _ _ _ _ _ _ hxs hb (hpush x hx) h
                      · exact ih _ _ _ _ _ _ ha hys (hpush y hy) h

theorem join_rest_closed (P : interval → Prop)
    (hP : ∀ x y, P x → P y → (overlap x y || are_consecutive x y) = true → P (x.join y))
    (hPb : ∀ x, P x → x.is_bottom = false) (l : List interval) :
    ∀ res : List interval, (∀ x ∈ l, P x) → (∀ r ∈ res, P r) →
      ∀ r ∈ join_rest l res, P r := by
  induction l with
  | nil => intro res _ hr; exact hr
  | cons intv l ih =>
    intro res hl hr
    have hi := hl intv (List.mem_cons_self _ _)
    obtain ⟨popped, res', intv', h1, h2, _, _, _, _, _, h8⟩ :=
      fuse_spec res intv (fun x hx => hPb x (hr x hx)) (hPb intv hi)
    unfold join_rest
    rw [h2]
    simp only
    refine ih _ (fun x hx => hl x (List.mem_cons_of_mem _ hx)) ?_
    intro r hr'
    rcases List.mem_cons.mp hr' with rfl | hr'
    · exact h8 P hP hi (fun p hp => hr p (by rw [h1]; exact List.mem_append_left _ hp))
    · exact hr r (by rw [h1]; exact List.mem_append_right _ hr')

theorem join_list_closed (P : interval → Prop)
    (hP : ∀ x y, P x → P y → (overlap x y || are_consecutive x y) = true → P (x.join y))
    (hPb : ∀ x, P x → x.is_bottom = false) (a b res : List interval)
    (ha : ∀ x ∈ a, P x) (hb : ∀ y ∈ b, P y) (h : join_list a b = some res) :
    ∀ r ∈ res, P r := by
  unfold join_list at h
  cases hm : join_main (a.length + b.length) a b [] with
  | none => rw [hm] at h; cases h
  | some t =>
    obtain ⟨a', b', res'⟩ := t
    rw [hm] at h
    simp only [Option.some.injEq] at h
    subst h
    obtain ⟨h1, h2, h3⟩ := join_main_closed P hP _ a b [] a' b' res' ha hb (by simp) hm
    intro r hr
    rw [List.mem_reverse] at hr
    exact join_rest_closed P hP hPb b' _ h2 (join_rest_closed P hP hPb a' _ h1 h3) r hr

/-- The value built by the list constructor from intervals that are all
included in intervals of the well-formed list `c` is `<=` FINITE `c`, unless
the cap is reached. -/
theorem of_list_leq_of_covered (res c : List interval)
    (hc : ∀ y ∈ c, y.is_bottom = false)
    (hp : List.Pairwise (fun a b => a.ub.plus 1 < b.lb) c)
    (hres : ∀ r ∈ res, covered c r)
    (hcap : (normalize res).1.length < max_num_disjunctions) :
    leq (of_list res true) ⟨state_t.FINITE, c⟩ = true := by
  have hn : (∀ x ∈ (normalize res).1, x.is_bottom = false) ∧
      sorted_with_gaps (normalize res).1 ∧ (∀ x ∈ (normalize res).1, covered c x) := by
    by_cases hlen : res.length ≤ 1
    · rw [normalize_of_length_le_one res hlen]
      refine ⟨fun x hx => (hres x hx).1, ?_, hres⟩
      cases res with
      | nil => trivial
      | cons r rs =>
        cases rs with
        | nil => trivial
        | cons _ _ => simp at hlen
    · have := normalize_spec (covered c) (fun x y hx hy ht => covered_join hc hp hx hy ht) res
        (by omega) (fun x hx hb => by rw [(hres x hx).1] at hb; cases hb)
        (fun x hx _ => hres x hx)
      exact ⟨fun x hx => (this.1 x hx).1, this.2.1, this.2.2⟩
  rw [of_list_eq]
  split
  · rfl
  · split
    · rfl
    · rw [if_neg (by omega)]
      simp only [leq, is_bottom, reduceCtorEq, decide_False, Bool.false_eq_true, if_false]
      exact leq_loop_complete _ _ hn.1 (pairwise_of_sorted_with_gaps _ hn.1 hn.2.1) hc hp
        (fun x hx => (hn.2.2 x hx).2)

theorem well_formed_pairwise {l : List interval} (h : well_formed ⟨state_t.FINITE, l⟩) :
    (∀ y ∈ l, y.is_bottom = false) ∧ List.Pairwise (fun a b => a.ub.plus 1 < b.lb) l :=
  ⟨fun y hy => (h.2.1 y hy).1,
    pairwise_of_sorted_with_gaps l (fun y hy => (h.2.1 y hy).1) h.2.2.1⟩

theorem covered_of_leq {la lc : List interval} (ha : well_formed ⟨state_t.FINITE, la⟩)
    (h : leq ⟨state_t.FINITE, la⟩ ⟨state_t.FINITE, lc⟩ = true) :
    ∀ x ∈ la, covered lc x := by
  simp only [leq, is_bottom, reduceCtorEq, decide_False, Bool.false_eq_true, if_false] at h
  intro x hx
  exact ⟨(ha.2.1 x hx).1, leq_loop_sound la lc h x hx⟩

theorem join_least_aux (a b c : dis_interval) (ha : well_formed a) (hb : well_formed b)
    (hc : well_formed c) (hac : leq a c = true) (hbc : leq b c = true)
    (hcap : join_uncapped a b = true) : leq (join a b) c = true := by
  obtain ⟨sa, la⟩ := a
  obtain ⟨sb, lb⟩ := b
  cases sa
  · exact hbc
  · cases sb
    · exact hac
    · obtain ⟨sc, lc⟩ := c
      cases sc
      · cases hac
      · have hca := covered_of_leq ha hac
        have hcb := covered_of_leq hb hbc
        obtain ⟨hc1, hc2⟩ := well_formed_pairwise hc
        have hcl := join_list_closed (covered lc)
          (fun x y hx hy ht => covered_join hc1 hc2 hx hy ht) (fun x hx => hx.1) la lb
        simp only [join_uncapped] at hcap
        simp only [join, is_bottom, is_top, reduceCtorEq, decide_False, Bool.false_eq_true,
          if_false]
        cases hj : join_list la lb with
        | none => rfl
        | some res =>
          rw [hj] at hcap
          simp only [decide_eq_true_eq] at hcap
          cases res with
          | nil => rfl
          | cons r rs =>
            simp only
            split
            · rfl
            · exact of_list_leq_of_covered _ lc hc1 hc2 (hcl _ hca hcb hj) hcap
      · have hl : la ≠ [] := ha.1
        have hlc : lc = [] := hc
        subst hlc
        cases la with
        | nil => exact absurd rfl hl
        | cons x xs => cases hac
    · have hlb : lb = [] := hb
      subst hlb
      obtain ⟨sc, lc⟩ := c
      cases sc
      · cases hbc
      · rfl
      · rfl
  · have hla : la = [] := ha
    subst hla
    obtain ⟨sc, lc⟩ := c
    cases sb
    · cases sc
      · cases hac
      · rfl
      · rfl
    · cases sc
      · cases hac
      · rfl
      · rfl
    · cases sc
      · cases hac
      · rfl
      · rfl


/-! ## The intervals of the operands are included in intervals of the join -/

theorem interval_leq_trans {x y z : interval} (hx : x.is_bottom = false)
    (hy : y.is_bottom = false) (hz : z.is_bottom = false) (h1 : x.leq y = true)
    (h2 : y.leq z = true) : x.leq z = true := by
  rw [interval.leq_iff hx hy] at h1
  rw [interval.leq_iff hy hz] at h2
  rw [interval.leq_iff hx hz]
  exact ⟨le_trans h2.1 h1.1, le_trans h1.2 h2.2⟩

theorem covered_self {l : List interval} {x : interval} (hx : x ∈ l)
    (hb : x.is_bottom = false) : covered l x :=
  ⟨hb, x, hx, interval.leq_refl⟩

/-- If every interval of `l` that is not bottom is included in an interval of
`r`, then so is every interval included in an interval of `l`. -/
theorem covered_mono {l r : List interval} (hr : ∀ y ∈ r, y.is_bottom = false)
    (h : ∀ y ∈ l, y.is_bottom = false → covered r y) {z : interval} (hz : covered l z) :
    covered r z := by
  obtain ⟨hzb, y, hy, hzy⟩ := hz
  have hyb : y.is_bottom = false := by
    cases hb : y.is_bottom
    · rfl
    · simp [interval.leq, hzb, hb] at hzy
  obtain ⟨_, w, hw, hyw⟩ := h y hy hyb
  exact ⟨hzb, w, hw, interval_leq_trans hzb hyb (hr w hw) hzy hyw⟩

theorem leq_of_bounds {x y : interval} (hx : x.is_bottom = false) (hy : y.is_bottom = false)
    (h : y.lb ≤ x.lb ∧ x.ub ≤ y.ub) : x.leq y = true :=
  (interval.leq_iff hx hy).mpr h

theorem leq_join_left {x y : interval} (hx : x.is_bottom = false)
    (hy : y.is_bottom = false) : x.leq (x.join y) = true := by
  rw [interval.leq_iff hx (interval.join_not_bottom hx hy), interval.join_eq hx hy]
  exact ⟨min_le_left _ _, le_max_left _ _⟩

theorem leq_join_right {x y : interval} (hx : x.is_bottom = false)
    (hy : y.is_bottom = false) : y.leq (x.join y) = true := by
  rw [interval.leq_iff hy (interval.join_not_bottom hx hy), interval.join_eq hx hy]
  exact ⟨min_le_right _ _, le_max_right _ _⟩

theorem fuse_cover (res : List interval) (intv : interval)
    (hnb : ∀ x ∈ res, x.is_bottom = false) (hi : intv.is_bottom = false) :
    ∃ res' intv', fuse res intv = fused.push res' intv' ∧ intv'.is_bottom = false ∧
      (∀ x ∈ res', x ∈ res) ∧
      (∀ h ∈ res'.head?, (overlap h intv' || are_consecutive h intv') = false) ∧
      ∀ y ∈ intv :: res, covered (intv' :: res') y := by
  obtain ⟨popped, res', intv', h1, h2, h3, h4, h5, h6, _, _⟩ := fuse_spec res intv hnb hi
  refine ⟨res', intv', h2, h3, fun x hx => by rw [h1]; exact List.mem_append_right _ hx, h6, ?_⟩
  intro y hy
  rcases List.mem_cons.mp hy with rfl | hy
  · exact ⟨hi, intv', List.mem_cons_self _ _, leq_of_bounds hi h3 h4⟩
  · rw [h1] at hy
    have hyb : y.is_bottom = false := hnb y (by rw [h1]; exact hy)
    rcases List.mem_append.mp hy with hp | hp
    · exact ⟨hyb, intv', List.mem_cons_self _ _, leq_of_bounds hyb h3 (h5 y hp)⟩
    · exact covered_self (List.mem_cons_of_mem _ hp) hyb

theorem join_rest_cover (l : List interval) :
    ∀ res : List interval, (∀ x ∈ l, x.is_bottom = false) →
      (∀ x ∈ res, x.is_bottom = false) →
      (∀ x ∈ join_rest l res, x.is_bottom = false) ∧
        ∀ y ∈ l ++ res, covered (join_rest l res) y := by
  induction l with
  | nil => intro res _ hr; exact ⟨hr, fun y hy => covered_self hy (hr y hy)⟩
  | cons intv l ih =>
    intro res hl hr
    have hi := hl intv (List.mem_cons_self _ _)
    obtain ⟨res', intv', h1, h2, h3, _, h5⟩ := fuse_cover res intv hr hi
    have hnb' : ∀ x ∈ intv' :: res', x.is_bottom = false := by
      intro x hx
      rcases List.mem_cons.mp hx with rfl | hx
      · exact h2
      · exact hr x (h3 x hx)
    obtain ⟨i1, i2⟩ := ih (intv' :: res') (fun x hx => hl x (List.mem_cons_of_mem _ hx)) hnb'
    unfold join_rest
    rw [h1]
    simp only
    refine ⟨i1, ?_⟩
    intro y hy
    have hy' : y ∈ l ∨ y ∈ intv :: res := by
      simp only [List.cons_append, List.mem_cons, List.mem_append] at hy ⊢
      tauto
    rcases hy' with hy' | hy'
    · exact i2 y (List.mem_append_left _ hy')
    · exact covered_mono i1 (fun w hw _ => i2 w (List.mem_append_right _ hw)) (h5 y hy')

theorem join_main_cover (n : Nat) :
    ∀ (a b res a' b' res' : List interval), (∀ x ∈ a, x.is_bottom = false) →
      (∀ y ∈ b, y.is_bottom = false) → (∀ r ∈ res, r.is_bottom = false) →
      join_main n a b res = some (a', b', res') →
      (∀ x ∈ a' ++ (b' ++ res'), x.is_bottom = false) ∧
        ∀ y ∈ a ++ (b ++ res), covered (a' ++ (b' ++ res')) y := by
  induction n with
  | zero =>
    intro a b res a' b' res' ha hb hr h
    simp only [join_main, Option.some.injEq, Prod.mk.injEq] at h
    obtain ⟨rfl, rfl, rfl⟩ := h
    have hall : ∀ x ∈ a ++ (b ++ res), x.is_bottom = false := by
      intro x hx
      simp only [List.mem_append] at hx
      rcases hx with hx | hx | hx
      · exact ha x hx
      · exact hb x hx
      · exact hr x hx
    exact ⟨hall, fun y hy => covered_self hy (hall y hy)⟩
  | succ n ih =>
    intro a b res a' b' res' ha hb hr h
    have hall : ∀ x ∈ a ++ (b ++ res), x.is_bottom = false := by
      intro x hx
      simp only [List.mem_append] at hx
      rcases hx with hx | hx | hx
      · exact ha x hx
      · exact hb x hx
      · exact hr x hx
    cases a with
    | nil =>
      simp only [join_main, Option.some.injEq, Prod.mk.injEq] at h
      obtain ⟨rfl, rfl, rfl⟩ := h
      exact ⟨hall, fun y hy => covered_self hy (hall y hy)⟩
    | cons x xs =>
      cases b with
      | nil =>
        simp only [join_main, Option.some.injEq, Prod.mk.injEq] at h
        obtain ⟨rfl, rfl, rfl⟩ := h
        exact ⟨hall, fun y hy => covered_self hy (hall y hy)⟩
      | cons y ys =>
        have hx := ha x (List.mem_cons_self _ _)
        have hy := hb y (List.mem_cons_self _ _)
        have hxs : ∀ z ∈ xs, z.is_bottom = false := fun z hz => ha z (List.mem_cons_of_mem _ hz)
        have hys : ∀ z ∈ ys, z.is_bottom = false := fun z hz => hb z (List.mem_cons_of_mem _ hz)
        have hpush : ∀ z, z.is_bottom = false → ∀ r ∈ z :: res, r.is_bottom = false :=
          fun z hz r hr' => by
            rcases List.mem_cons.mp hr' with rfl | hr'
            · exact hz
            · exact hr r hr'
        -- one step: the state `(a1, b1, r1)` reached from `(x :: xs, y :: ys, res)`
        have step : ∀ a1 b1 r1 : List interval, (∀ z ∈ a1, z.is_bottom = false) →
            (∀ z ∈ b1, z.is_bottom = false) → (∀ z ∈ r1, z.is_bottom = false) →
            (∀ w ∈ (x :: xs) ++ ((y :: ys) ++ res), covered (a1 ++ (b1 ++ r1)) w) →
            join_main n a1 b1 r1 = some (a', b', res') →
            (∀ x ∈ a' ++ (b' ++ res'), x.is_bottom = false) ∧
              ∀ w ∈ (x :: xs) ++ ((y :: ys) ++ res), covered (a' ++ (b' ++ res')) w := by
          intro a1 b1 r1 h1 h2 h3 hcov hjm
          obtain ⟨i1, i2⟩ := ih a1 b1 r1 a' b' res' h1 h2 h3 hjm
          exact ⟨i1, fun w hw => covered_mono i1 (fun v hv _ => i2 v hv) (hcov w hw)⟩
        -- coverage of the old state by a new state that keeps every interval
        -- except `x` and `y`, which are included in the pushed `z`
        have cov : ∀ (a1 b1 : List interval) (z : interval), z.is_bottom = false →
            (∀ w ∈ x :: xs, w ∈ a1 ∨ w.leq z = true) →
            (∀ w ∈ y :: ys, w ∈ b1 ∨ w.leq z = true) →
            ∀ w ∈ (x :: xs) ++ ((y :: ys) ++ res), covered (a1 ++ (b1 ++ (z :: res))) w := by
          intro a1 b1 z hz hA hB w hw
          have hwb := hall w hw
          rcases List.mem_append.mp hw with hw | hw
          · rcases hA w hw with h | h
            · exact covered_self (List.mem_append_left _ h) hwb
            · exact ⟨hwb, z, by simp, h⟩
          · rcases List.mem_append.mp hw with hw | hw
            · rcases hB w hw with h | h
              · exact covered_self (by simp [h]) hwb
              · exact ⟨hwb, z, by simp, h⟩
            · exact covered_self (by simp [hw]) hwb
        have memA : ∀ w ∈ x :: xs, ∀ z : interval, x.leq z = true → w ∈ xs ∨ w.leq z = true :=
          fun w hw z hz => by
            rcases List.mem_cons.mp hw with rfl | hw
            · exact Or.inr hz
            · exact Or.inl hw
        have memB : ∀ w ∈ y :: ys, ∀ z : interval, y.leq z = true → w ∈ ys ∨ w.leq z = true :=
          fun w hw z hz => by
            rcases List.mem_cons.mp hw with rfl | hw
            · exact Or.inr hz
            · exact Or.inl hw
        unfold join_main at h
        split at h
        · cases h
        · split at h
          · rename_i hb'; rw [hx] at hb'; cases hb'
          · split at h
            · rename_i hb'; rw [hy] at hb'; cases hb'
            · split at h
              · rename_i he
                have hxy : x = y := (interval.eq_iff hx).mp he
                refine step xs ys (x :: res) hxs hys (hpush x hx)
                  (cov xs ys x hx (fun w hw => memA w hw x interval.leq_refl)
                    (fun w hw => memB w hw x (by rw [hxy]; exact interval.leq_refl))) h
              · split at h
                · rename_i hl
                  exact step xs ys (y :: res) hxs hys (hpush y hy)
                    (cov xs ys y hy (fun w hw => memA w hw y hl)
                      (fun w hw => memB w hw y interval.leq_refl)) h
                · split at h
                  · rename_i hl
                    exact step xs ys (x :: res) hxs hys (hpush x hx)
                      (cov xs ys x hx (fun w hw => memA w hw x interval.leq_refl)
                        (fun w hw => memB w hw x hl)) h
                  · split at h
                    · exact step xs ys (x.join y :: res) hxs hys
                        (hpush _ (interval.join_not_bottom hx hy))
                        (cov xs ys _ (interval.join_not_bottom hx hy)
                          (fun w hw => memA w hw _ (leq_join_left hx hy))
                          (fun w hw => memB w hw _ (leq_join_right hx hy))) h
                    · split at h
                      · exact step xs (y :: ys) (x :: res) hxs hb (hpush x hx)
                          (cov xs (y :: ys) x hx (fun w hw => memA w hw x interval.leq_refl)
                            (fun w hw => Or.inl hw)) h
                      · exact step (x :: xs) ys (y :: res) ha hys (hpush y hy)
                          (cov (x :: xs) ys y hy (fun w hw => Or.inl hw)
                            (fun w hw => memB w hw y interval.leq_refl)) h

theorem join_list_cover (a b res : List interval) (ha : ∀ x ∈ a, x.is_bottom = false)
    (hb : ∀ y ∈ b, y.is_bottom = false) (h : join_list a b = some res) :
    (∀ x ∈ res, x.is_bottom = false) ∧ ∀ y ∈ a ++ b, covered res y := by
  unfold join_list at h
  cases hm : join_main (a.length + b.length) a b [] with
  | none => rw [hm] at h; cases h
  | some t =>
    obtain ⟨a', b', res'⟩ := t
    rw [hm] at h
    simp only [Option.some.injEq] at h
    subst h
    obtain ⟨h1, h2⟩ := join_main_cover _ a b [] a' b' res' ha hb (by simp) hm
    obtain ⟨i1, i2⟩ := join_rest_cover a' res' (fun x hx => h1 x (by simp [hx]))
      (fun x hx => h1 x (by simp [hx]))
    obtain ⟨j1, j2⟩ := join_rest_cover b' (join_rest a' res') (fun x hx => h1 x (by simp [hx])) i1
    have hrev : ∀ z, covered (join_rest b' (join_rest a' res')) z →
        covered (join_rest b' (join_rest a' res')).reverse z := by
      rintro z ⟨hz, w, hw, hzw⟩
      exact ⟨hz, w, List.mem_reverse.mpr hw, hzw⟩
    refine ⟨fun x hx => j1 x (List.mem_reverse.mp hx), ?_⟩
    intro y hy
    apply hrev
    have hy0 := h2 y (by simpa using hy)
    refine covered_mono j1 ?_ hy0
    intro w hw _
    rcases List.mem_append.mp hw with hw | hw
    · exact covered_mono j1 (fun v hv _ => j2 v (List.mem_append_right _ hv))
        (i2 w (List.mem_append_left _ hw))
    · rcases List.mem_append.mp hw with hw | hw
      · exact j2 w (List.mem_append_left _ hw)
      · exact covered_mono j1 (fun v hv _ => j2 v (List.mem_append_right _ hv))
          (i2 w (List.mem_append_right _ hw))


/-! ## Top intervals in the vector built by the join -/

theorem proper_of_not_top {z : interval} (hb : z.is_bottom = false) (ht : z.is_top = false) :
    proper z := by
  have h := interval.is_bottom_false_iff.mp hb
  obtain ⟨l, u⟩ := z
  simp only [interval.is_top] at ht
  refine ⟨hb, ?_, ?_⟩
  · rintro rfl
    cases u <;> simp_all [bound.is_infinite]
  · rintro rfl
    cases l <;> simp_all [bound.is_infinite]

theorem proper_join {x y : interval} (hx : proper x) (hy : proper y) : proper (x.join y) := by
  refine ⟨interval.join_not_bottom hx.1 hy.1, ?_, ?_⟩
  · rw [interval.join_eq hx.1 hy.1]
    rcases min_choice x.lb y.lb with h | h <;> simp only [h]
    · exact hx.2.1
    · exact hy.2.1
  · rw [interval.join_eq hx.1 hy.1]
    rcases max_choice x.ub y.ub with h | h <;> simp only [h]
    · exact hx.2.2
    · exact hy.2.2

theorem top_bounds {z : interval} (hz : proper z) (ht : z.is_top = true) :
    z.lb = bound.minus_infinity ∧ z.ub = bound.plus_infinity := by
  obtain ⟨l, u⟩ := z
  obtain ⟨_, h1, h2⟩ := hz
  simp only at h1 h2
  simp only [interval.is_top, Bool.and_eq_true] at ht
  cases l <;> cases u <;> simp_all [bound.is_infinite]

theorem overlap_top {t z : interval} (ht : t.lb = bound.minus_infinity ∧
    t.ub = bound.plus_infinity) : overlap t z = true := by
  rw [overlap_iff, ht.1, ht.2]
  exact ⟨bound.le_plus_infinity _, bound.minus_infinity_le _⟩

theorem lb_ne_of_lt {a : bound} {z : interval} (h : a < z.lb) :
    z.lb ≠ bound.minus_infinity := by
  intro h0
  rw [h0] at h
  exact bound.not_lt_minus_infinity _ h

theorem tail_lb_ne {x : interval} {xs : List interval}
    (h : List.Pairwise (fun a b => a.ub.plus 1 < b.lb) (x :: xs)) :
    ∀ z ∈ xs, z.lb ≠ bound.minus_infinity :=
  fun _ hz => lb_ne_of_lt (List.rel_of_pairwise_cons h hz)

theorem tail_nil_of_ub {x : interval} {xs : List interval}
    (h : List.Pairwise (fun a b => a.ub.plus 1 < b.lb) (x :: xs))
    (hu : x.ub = bound.plus_infinity) : xs = [] := by
  cases xs with
  | nil => rfl
  | cons w ws =>
    have := List.rel_of_pairwise_cons h (List.mem_cons_self w ws)
    rw [hu] at this
    exact absurd this (bound.not_plus_infinity_lt _)

theorem join_main_done (n : Nat) (a b res : List interval) (h : a = [] ∨ b = []) :
    join_main n a b res = some (a, b, res) := by
  cases n with
  | zero => rfl
  | succ n =>
    cases a with
    | nil => rfl
    | cons x xs =>
      cases b with
      | nil => rfl
      | cons y ys => rcases h with h | h <;> cases h

/-- The stack left by the first loop of the join of two well-formed lists
holds no top interval, unless it is a single interval. -/
theorem join_main_tops (n : Nat) :
    ∀ (a b res a' b' res' : List interval),
      (∀ x ∈ a, proper x ∧ x.is_top = false) →
      List.Pairwise (fun a b => a.ub.plus 1 < b.lb) a →
      (∀ y ∈ b, proper y ∧ y.is_top = false) →
      List.Pairwise (fun a b => a.ub.plus 1 < b.lb) b →
      (∀ r ∈ res, r.is_top = false) →
      (res ≠ [] → (∀ z ∈ a, z.lb ≠ bound.minus_infinity) ∧
        (∀ z ∈ b, z.lb ≠ bound.minus_infinity)) →
      join_main n a b res = some (a', b', res') →
      (∀ r ∈ res', r.is_top = false) ∨ ∃ t, res' = [t] := by
  induction n with
  | zero =>
    intro a b res a' b' res' _ _ _ _ hr _ h
    simp only [join_main, Option.some.injEq, Prod.mk.injEq] at h
    obtain ⟨rfl, rfl, rfl⟩ := h
    exact Or.inl hr
  | succ n ih =>
    intro a b res a' b' res' ha hpa hb hpb hr hRm h
    cases a with
    | nil =>
      simp only [join_main, Option.some.injEq, Prod.mk.injEq] at h
      obtain ⟨rfl, rfl, rfl⟩ := h
      exact Or.inl hr
    | cons x xs =>
      cases b with
      | nil =>
        simp only [join_main, Option.some.injEq, Prod.mk.injEq] at h
        obtain ⟨rfl, rfl, rfl⟩ := h
        exact Or.inl hr
      | cons y ys =>
        obtain ⟨hx, hxt⟩ := ha x (List.mem_cons_self _ _)
        obtain ⟨hy, hyt⟩ := hb y (List.mem_cons_self _ _)
        have hxs : ∀ z ∈ xs, proper z ∧ z.is_top = false :=
          fun z hz => ha z (List.mem_cons_of_mem _ hz)
        have hys : ∀ z ∈ ys, proper z ∧ z.is_top = false :=
          fun z hz => hb z (List.mem_cons_of_mem _ hz)
        have hpxs := List.Pairwise.of_cons hpa
        have hpys := List.Pairwise.of_cons hpb
        have nxs := tail_lb_ne hpa
        have nys := tail_lb_ne hpb
        have hpush : ∀ z : interval, z.is_top = false → ∀ r ∈ z :: res, r.is_top = false :=
          fun z hz r hr' => by
            rcases List.mem_cons.mp hr' with rfl | hr'
            · exact hz
            · exact hr r hr'
        unfold join_main at h
        split at h
        · cases h
        · split at h
          · rename_i hb'; rw [hx.1] at hb'; cases hb'
          · split at h
            · rename_i hb'; rw [hy.1] at hb'; cases hb'
            · split at h
              · exact ih xs ys (x :: res) _ _ _ hxs hpxs hys hpys (hpush x hxt)
                  (fun _ => ⟨nxs, nys⟩) h
              · split at h
                · exact ih xs ys (y :: res) _ _ _ hxs hpxs hys hpys (hpush y hyt)
                    (fun _ => ⟨nxs, nys⟩) h
                · split at h
                  · exact ih xs ys (x :: res) _ _ _ hxs hpxs hys hpys (hpush x hxt)
                      (fun _ => ⟨nxs, nys⟩) h
                  · split at h
                    · cases hjt : (x.join y).is_top
                      · exact ih xs ys (x.join y :: res) _ _ _ hxs hpxs hys hpys
                          (hpush _ hjt) (fun _ => ⟨nxs, nys⟩) h
                      · have htb := top_bounds (proper_join hx hy) hjt
                        rw [interval.join_eq hx.1 hy.1] at htb
                        simp only at htb
                        have hres : res = [] := by
                          by_contra hne
                          obtain ⟨h1, h2⟩ := hRm hne
                          rcases min_choice x.lb y.lb with hm | hm
                          · exact h1 x (List.mem_cons_self _ _) (hm ▸ htb.1)
                          · exact h2 y (List.mem_cons_self _ _) (hm ▸ htb.1)
                        have hnil : xs = [] ∨ ys = [] := by
                          rcases max_choice x.ub y.ub with hm | hm
                          · exact Or.inl (tail_nil_of_ub hpa (hm ▸ htb.2))
                          · exact Or.inr (tail_nil_of_ub hpb (hm ▸ htb.2))
                        rw [join_main_done n xs ys _ hnil] at h
                        simp only [Option.some.injEq, Prod.mk.injEq] at h
                        obtain ⟨_, _, rfl⟩ := h
                        subst hres
                        exact Or.inr ⟨_, rfl⟩
                    · split at h
                      · rename_i hl
                        have ny : ∀ z ∈ y :: ys, z.lb ≠ bound.minus_infinity := by
                          intro z hz
                          rcases List.mem_cons.mp hz with rfl | hz
                          · exact lb_ne_of_lt (IsOnTheLeft_iff.mp hl)
                          · exact nys z hz
                        exact ih xs (y :: ys) (x :: res) _ _ _ hxs hpxs hb hpb (hpush x hxt)
                          (fun _ => ⟨nxs, ny⟩) h
                      · rename_i ht hl
                        have ho : overlap x y = false := by
                          simp only [Bool.or_eq_true, not_or, Bool.not_eq_true] at ht
                          exact ht.1
                        have hl' : IsOnTheLeft y x = true := by
                          rcases left_or_left hx.1 hy.1 ho with h0 | h0
                          · exact absurd h0 hl
                          · exact h0
                        have nx : ∀ z ∈ x :: xs, z.lb ≠ bound.minus_infinity := by
                          intro z hz
                          rcases List.mem_cons.mp hz with rfl | hz
                          · exact lb_ne_of_lt (IsOnTheLeft_iff.mp hl')
                          · exact nxs z hz
                        exact ih (x :: xs) ys (y :: res) _ _ _ ha hpa hys hpys (hpush y hyt)
                          (fun _ => ⟨nx, nys⟩) h

theorem join_rest_tops (l : List interval) :
    ∀ res : List interval, (∀ x ∈ l, proper x) → (∀ r ∈ res, proper r) →
      ((∀ r ∈ res, r.is_top = false) ∨ ∃ t, res = [t]) →
      (∀ r ∈ join_rest l res, proper r) ∧
        ((∀ r ∈ join_rest l res, r.is_top = false) ∨ ∃ t, join_rest l res = [t]) := by
  induction l with
  | nil => intro res _ hr ht; exact ⟨hr, ht⟩
  | cons intv l ih =>
    intro res hl hr ht
    have hi := hl intv (List.mem_cons_self _ _)
    obtain ⟨popped, res', intv', h1, h2, h3, _, _, h6, _, h8⟩ :=
      fuse_spec res intv (fun x hx => (hr x hx).1) hi.1
    have hp' : proper intv' :=
      h8 proper (fun x y hx hy _ => proper_join hx hy) hi
        (fun p hp => hr p (by rw [h1]; exact List.mem_append_left _ hp))
    have hres' : ∀ x ∈ res', x ∈ res := fun x hx => by
      rw [h1]; exact List.mem_append_right _ hx
    unfold join_rest
    rw [h2]
    simp only
    refine ih (intv' :: res') (fun x hx => hl x (List.mem_cons_of_mem _ hx)) ?_ ?_
    · intro r hr'
      rcases List.mem_cons.mp hr' with rfl | hr'
      · exact hp'
      · exact hr r (hres' r hr')
    · cases res' with
      | nil => exact Or.inr ⟨_, rfl⟩
      | cons h0 rest =>
        left
        have hnt := h6 h0 rfl
        rw [Bool.or_eq_false_iff] at hnt
        have hh0 : proper h0 := hr h0 (hres' h0 (List.mem_cons_self _ _))
        have ht0 : h0.is_top = false := by
          cases hc : h0.is_top
          · rfl
          · rw [overlap_top (top_bounds hh0 hc)] at hnt
            cases hnt.1
        have hti : intv'.is_top = false := by
          cases hc : intv'.is_top
          · rfl
          · rw [overlap_comm, overlap_top (top_bounds hp' hc)] at hnt
            cases hnt.1
        have hall : ∀ r ∈ res, r.is_top = false := by
          rcases ht with ht | ⟨t, ht⟩
          · exact ht
          · intro r hr'
            rw [ht] at hr' h1
            have hpop : popped = [] := by
              cases popped with
              | nil => rfl
              | cons p ps =>
                simp only [List.cons_append, List.cons.injEq] at h1
                have := h1.2
                simp at this
            subst hpop
            simp only [List.nil_append, List.cons.injEq] at h1
            simp only [List.mem_singleton] at hr'
            rw [hr', h1.1]
            exact ht0
        intro r hr'
        rcases List.mem_cons.mp hr' with rfl | hr'
        · exact hti
        · exact hall r (hres' r hr')

theorem join_list_tops (a b res : List interval)
    (ha : well_formed ⟨state_t.FINITE, a⟩) (hb : well_formed ⟨state_t.FINITE, b⟩)
    (h : join_list a b = some res) :
    (∀ r ∈ res, r.is_top = false) ∨ ∃ t, res = [t] := by
  have hpa : ∀ x ∈ a, proper x ∧ x.is_top = false := fun x hx =>
    ⟨proper_of_not_top (ha.2.1 x hx).1 (ha.2.1 x hx).2, (ha.2.1 x hx).2⟩
  have hpb : ∀ x ∈ b, proper x ∧ x.is_top = false := fun x hx =>
    ⟨proper_of_not_top (hb.2.1 x hx).1 (hb.2.1 x hx).2, (hb.2.1 x hx).2⟩
  unfold join_list at h
  cases hm : join_main (a.length + b.length) a b [] with
  | none => rw [hm] at h; cases h
  | some t =>
    obtain ⟨a', b', res'⟩ := t
    rw [hm] at h
    simp only [Option.some.injEq] at h
    subst h
    have ht := join_main_tops _ a b [] a' b' res' hpa (well_formed_pairwise ha).2 hpb
      (well_formed_pairwise hb).2 (by simp) (fun h0 => absurd rfl h0) hm
    obtain ⟨c1, c2, c3⟩ := join_main_closed proper (fun x y hx hy _ => proper_join hx hy) _
      a b [] a' b' res' (fun x hx => (hpa x hx).1) (fun x hx => (hpb x hx).1) (by simp) hm
    obtain ⟨i1, i2⟩ := join_rest_tops a' res' c1 c3 ht
    obtain ⟨_, j2⟩ := join_rest_tops b' _ c2 i1 i2
    rcases j2 with j2 | ⟨t, j2⟩
    · exact Or.inl (fun r hr => j2 r (List.mem_reverse.mp hr))
    · exact Or.inr ⟨t, by rw [j2]; rfl⟩


/-! ## What `normalize` keeps and when it returns the empty list -/

theorem loop_fuse_eq (res : List interval) (prev intv : interval)
    (hr : ∀ r ∈ res, r.is_top = false)
    (hprev : (res = [] ∧ prev = interval.top) ∨ res.head? = some prev) :
    (if (!prev.is_top) = true then fuse res intv else fused.push res intv) = fuse res intv := by
  cases hpt : prev.is_top
  · simp
  · rcases hprev with ⟨h0, _⟩ | h0
    · subst h0; simp [fuse]
    · have := hr prev (List.mem_of_mem_head? h0)
      rw [hpt] at this; cases this

theorem normalize_loop_cover (l : List interval) :
    ∀ (res : List interval) (prev : interval) (b : Nat),
      (∀ x ∈ l, x.is_bottom = false ∧ x.is_top = false) →
      (∀ r ∈ res, r.is_bottom = false ∧ r.is_top = false) →
      ((res = [] ∧ prev = interval.top) ∨ res.head? = some prev) →
      ∀ r b', normalize_loop l res prev b = some (r, b') →
        b' = b ∧ (∀ x ∈ r, x.is_bottom = false) ∧ ∀ y ∈ l ++ res, covered r y := by
  induction l with
  | nil =>
    intro res prev b _ hr _ r b' h
    simp only [normalize_loop, Option.some.injEq, Prod.mk.injEq] at h
    obtain ⟨rfl, rfl⟩ := h
    exact ⟨rfl, fun x hx => (hr x hx).1, fun y hy => covered_self (by simpa using hy)
      (hr y (by simpa using hy)).1⟩
  | cons intv l ih =>
    intro res prev b hl hr hprev r b' h
    obtain ⟨hib, hit⟩ := hl intv (List.mem_cons_self _ _)
    have hl' : ∀ x ∈ l, x.is_bottom = false ∧ x.is_top = false :=
      fun x hx => hl x (List.mem_cons_of_mem _ hx)
    have hpb : prev.is_bottom = false := by
      rcases hprev with ⟨_, h0⟩ | h0
      · rw [h0]; exact top_not_bottom
      · exact (hr prev (List.mem_of_mem_head? h0)).1
    unfold normalize_loop at h
    split at h
    · rename_i heq
      have he : prev = intv := (interval.eq_iff hpb).mp heq
      subst he
      rcases hprev with ⟨_, h0⟩ | h0
      · rw [h0] at hit; cases hit
      · obtain ⟨i1, i2, i3⟩ := ih res prev b hl' hr (Or.inr h0) r b' h
        refine ⟨i1, i2, ?_⟩
        intro y hy
        rcases List.mem_cons.mp hy with rfl | hy
        · exact i3 _ (List.mem_append_right _ (List.mem_of_mem_head? h0))
        · exact i3 y hy
    · split at h
      · rename_i _ hb'; rw [hib] at hb'; cases hb'
      · split at h
        · cases h
        · rw [loop_fuse_eq res prev intv (fun x hx => (hr x hx).2) hprev] at h
          obtain ⟨res', intv', h1, h2, h3, _, h5⟩ :=
            fuse_cover res intv (fun x hx => (hr x hx).1) hib
          rw [h1] at h
          simp only at h
          split at h
          · cases h
          · rename_i ht'
            simp only [Bool.not_eq_true] at ht'
            have hr' : ∀ x ∈ intv' :: res', x.is_bottom = false ∧ x.is_top = false := by
              intro x hx
              rcases List.mem_cons.mp hx with rfl | hx
              · exact ⟨h2, ht'⟩
              · exact hr x (h3 x hx)
            obtain ⟨i1, i2, i3⟩ := ih (intv' :: res') intv' b hl' hr' (Or.inr rfl) r b' h
            refine ⟨i1, i2, ?_⟩
            intro y hy
            have hy' : y ∈ l ∨ y ∈ intv :: res := by
              simp only [List.cons_append, List.mem_cons, List.mem_append] at hy ⊢
              tauto
            rcases hy' with hy' | hy'
            · exact i3 y (List.mem_append_left _ hy')
            · exact covered_mono i2 (fun w hw _ => i3 w (List.mem_append_right _ hw)) (h5 y hy')

/-- When the loop of `normalize` returns the empty list because of a top
interval, that interval is an input interval or a join of overlapping or
consecutive input intervals. -/
theorem normalize_loop_none (P : interval → Prop)
    (hP : ∀ x y, P x → P y → (overlap x y || are_consecutive x y) = true → P (x.join y))
    (l : List interval) :
    ∀ (res : List interval) (prev : interval) (b : Nat),
      (∀ x ∈ l, x.is_bottom = false → P x) → (∀ r ∈ res, P r ∧ r.is_bottom = false) →
      normalize_loop l res prev b = none → ∃ z, P z ∧ z.is_top = true := by
  induction l with
  | nil => intro res prev b _ _ h; cases h
  | cons intv l ih =>
    intro res prev b hl hr h
    have hl' : ∀ x ∈ l, x.is_bottom = false → P x :=
      fun x hx => hl x (List.mem_cons_of_mem _ hx)
    unfold normalize_loop at h
    split at h
    · exact ih res prev b hl' hr h
    · split at h
      · exact ih res prev _ hl' hr h
      · rename_i _ hb
        simp only [Bool.not_eq_true] at hb
        have hPi : P intv := hl intv (List.mem_cons_self _ _) hb
        split at h
        · rename_i ht
          exact ⟨intv, hPi, ht⟩
        · obtain ⟨popped, res', intv', h1, h2, h3, _, _, _, _, h8⟩ :=
            fuse_spec res intv (fun x hx => (hr x hx).2) hb
          have hPi' : P intv' := h8 P hP hPi
            (fun p hp => (hr p (by rw [h1]; exact List.mem_append_left _ hp)).1)
          have hres' : ∀ x ∈ res', P x ∧ x.is_bottom = false :=
            fun x hx => hr x (by rw [h1]; exact List.mem_append_right _ hx)
          have key : ∀ (rs : List interval) (iv : interval), P iv → iv.is_bottom = false →
              (∀ x ∈ rs, P x ∧ x.is_bottom = false) →
              (if iv.is_top = true then none
                else normalize_loop l (iv :: rs) iv b) = none →
              ∃ z, P z ∧ z.is_top = true := by
            intro rs iv hiv hivb hrs hh
            split at hh
            · rename_i ht; exact ⟨iv, hiv, ht⟩
            · refine ih (iv :: rs) iv b hl' ?_ hh
              intro x hx
              rcases List.mem_cons.mp hx with rfl | hx
              · exact ⟨hiv, hivb⟩
              · exact hrs x hx
          cases hpt : prev.is_top
          · simp only [hpt, Bool.not_false, if_true, h2] at h
            exact key res' intv' hPi' h3 hres' h
          · simp only [hpt, Bool.not_true, Bool.false_eq_true, if_false] at h
            exact key res intv hPi hb hr h

/-- The list returned by `normalize` for intervals that are neither bottom nor
top: `is_bottom` is false, and either every input interval is included in
an interval of the list, or the list is empty and a top interval was reached
by joining overlapping or consecutive input intervals. -/
theorem normalize_cover (l : List interval)
    (hl : ∀ x ∈ l, x.is_bottom = false ∧ x.is_top = false) :
    (normalize l).2 = false ∧
      ((∀ y ∈ l, covered (normalize l).1 y) ∨
        ((normalize l).1 = [] ∧ ∀ P : interval → Prop,
          (∀ x y, P x → P y → (overlap x y || are_consecutive x y) = true → P (x.join y)) →
          (∀ x ∈ l, P x) → ∃ z, P z ∧ z.is_top = true)) := by
  by_cases hlen : l.length ≤ 1
  · rw [normalize_of_length_le_one l hlen]
    exact ⟨rfl, Or.inl (fun y hy => covered_self hy (hl y hy).1)⟩
  · unfold normalize
    rw [if_neg hlen]
    cases hr : normalize_loop (sort l) [] interval.top 0 with
    | none =>
      refine ⟨rfl, Or.inr ⟨rfl, ?_⟩⟩
      intro P hP hPl
      exact normalize_loop_none P hP (sort l) [] interval.top 0
        (fun x hx _ => hPl x (mem_sort.mp hx)) (by simp) hr
    | some rb =>
      obtain ⟨r, b⟩ := rb
      obtain ⟨i1, _, i3⟩ := normalize_loop_cover (sort l) [] interval.top 0
        (fun x hx => hl x (mem_sort.mp hx)) (by simp) (Or.inl ⟨rfl, rfl⟩) r b hr
      subst i1
      simp only [decide_eq_false_iff_not]
      refine ⟨by omega, Or.inl ?_⟩
      intro y hy
      obtain ⟨hyb, w, hw, hyw⟩ := i3 y (by simpa using mem_sort.mpr hy)
      exact ⟨hyb, w, List.mem_reverse.mpr hw, hyw⟩


/-! ## The join as a least upper bound of the inclusion order -/

theorem join_main_ne_none (n : Nat) :
    ∀ (a b res : List interval), (∀ x ∈ a, x.is_top = false) → (∀ y ∈ b, y.is_top = false) →
      join_main n a b res ≠ none := by
  induction n with
  | zero => intro a b res _ _; simp [join_main]
  | succ n ih =>
    intro a b res ha hb
    cases a with
    | nil => simp [join_main]
    | cons x xs =>
      cases b with
      | nil => simp [join_main]
      | cons y ys =>
        have hx := ha x (List.mem_cons_self _ _)
        have hy := hb y (List.mem_cons_self _ _)
        have hxs : ∀ z ∈ xs, z.is_top = false := fun z hz => ha z (List.mem_cons_of_mem _ hz)
        have hys : ∀ z ∈ ys, z.is_top = false := fun z hz => hb z (List.mem_cons_of_mem _ hz)
        unfold join_main
        simp only [hx, hy, Bool.or_self, Bool.false_eq_true, if_false]
        split
        · exact ih _ _ _ hxs hb
        · split
          · exact ih _ _ _ ha hys
          · split
            · exact ih _ _ _ hxs hys
            · split
              · exact ih _ _ _ hxs hys
              · split
                · exact ih _ _ _ hxs hys
                · split
                  · exact ih _ _ _ hxs hys
                  · split
                    · exact ih _ _ _ hxs hb
                    · exact ih _ _ _ ha hys

theorem normalize_closed (P : interval → Prop)
    (hP : ∀ x y, P x → P y → (overlap x y || are_consecutive x y) = true → P (x.join y))
    (l : List interval) (hb : ∀ x ∈ l, x.is_bottom = false) (hl : ∀ x ∈ l, P x) :
    ∀ z ∈ (normalize l).1, P z := by
  by_cases hlen : l.length ≤ 1
  · rw [normalize_of_length_le_one l hlen]
    exact hl
  · exact (normalize_spec P hP l (by omega)
      (fun x hx h => by rw [hb x hx] at h; cases h) (fun x hx _ => hl x hx)).2.2

/-- The join of two well-formed FINITE values that stays below the cap: it is
top, and a top interval is reached by joining overlapping or consecutive
intervals of the operands, or it is a well-formed FINITE value whose
intervals include those of the operands and are joins of overlapping or
consecutive intervals of the operands. -/
theorem join_spec (la lb : List interval) (ha : well_formed ⟨state_t.FINITE, la⟩)
    (hb : well_formed ⟨state_t.FINITE, lb⟩)
    (hcap : join_uncapped ⟨state_t.FINITE, la⟩ ⟨state_t.FINITE, lb⟩ = true) :
    (join ⟨state_t.FINITE, la⟩ ⟨state_t.FINITE, lb⟩ = ⟨state_t.TOP, []⟩ ∧
      ∀ P : interval → Prop,
        (∀ x y, P x → P y → (overlap x y || are_consecutive x y) = true → P (x.join y)) →
        (∀ x, P x → x.is_bottom = false) → (∀ x ∈ la ++ lb, P x) →
        ∃ z, P z ∧ z.is_top = true) ∨
    (∃ r, join ⟨state_t.FINITE, la⟩ ⟨state_t.FINITE, lb⟩ = ⟨state_t.FINITE, r⟩ ∧
      well_formed ⟨state_t.FINITE, r⟩ ∧ (∀ y ∈ la ++ lb, covered r y) ∧
      ∀ P : interval → Prop,
        (∀ x y, P x → P y → (overlap x y || are_consecutive x y) = true → P (x.join y)) →
        (∀ x, P x → x.is_bottom = false) → (∀ x ∈ la ++ lb, P x) → ∀ z ∈ r, P z) := by
  have hab : ∀ x ∈ la, x.is_bottom = false := fun x hx => (ha.2.1 x hx).1
  have hbb : ∀ x ∈ lb, x.is_bottom = false := fun x hx => (hb.2.1 x hx).1
  simp only [join_uncapped] at hcap
  simp only [join, is_bottom, is_top, reduceCtorEq, decide_False, Bool.false_eq_true, if_false]
  cases hj : join_list la lb with
  | none =>
    exfalso
    unfold join_list at hj
    have := join_main_ne_none (la.length + lb.length) la lb []
      (fun x hx => (ha.2.1 x hx).2) (fun x hx => (hb.2.1 x hx).2)
    cases hm : join_main (la.length + lb.length) la lb [] with
    | none => exact this hm
    | some t => rw [hm] at hj; cases hj
  | some res =>
    rw [hj] at hcap
    simp only [decide_eq_true_eq] at hcap
    obtain ⟨c1, c2⟩ := join_list_cover la lb res hab hbb hj
    have hcl : ∀ P : interval → Prop,
        (∀ x y, P x → P y → (overlap x y || are_consecutive x y) = true → P (x.join y)) →
        (∀ x, P x → x.is_bottom = false) → (∀ x ∈ la ++ lb, P x) → ∀ z ∈ res, P z :=
      fun P hP hPb hPl => join_list_closed P hP hPb la lb res
        (fun x hx => hPl x (List.mem_append_left _ hx))
        (fun x hx => hPl x (List.mem_append_right _ hx)) hj
    cases res with
    | nil =>
      exfalso
      cases la with
      | nil => exact ha.1 rfl
      | cons x xs =>
        obtain ⟨_, w, hw, _⟩ := c2 x (by simp)
        cases hw
    | cons r rs =>
      simp only
      split
      · rename_i htest
        simp only [Bool.and_eq_true] at htest
        left
        exact ⟨rfl, fun P hP hPb hPl => ⟨r, hcl P hP hPb hPl r (List.mem_cons_self _ _), htest.2⟩⟩
      · rename_i htest
        have hnt : ∀ z ∈ r :: rs, z.is_top = false := by
          rcases join_list_tops la lb (r :: rs) ha hb hj with h | ⟨t, h⟩
          · exact h
          · simp only [List.cons.injEq] at h
            obtain ⟨rfl, rfl⟩ := h
            intro z hz
            simp only [List.mem_singleton] at hz
            subst hz
            simpa using htest
        have hres : ∀ z ∈ r :: rs, z.is_bottom = false ∧ z.is_top = false :=
          fun z hz => ⟨c1 z hz, hnt z hz⟩
        obtain ⟨n1, n2⟩ := normalize_cover (r :: rs) hres
        have hwf := of_list_well_formed_aux (r :: rs)
          (fun x hx h => by rw [(hres x hx).1] at h; cases h)
          (fun x hx => hres x (by rw [hx]; exact List.mem_cons_self _ _))
          (fun h => by
            simp only [max_num_disjunctions] at h hcap
            omega)
        rw [of_list_eq] at hwf ⊢
        simp only [n1, Bool.false_eq_true, if_false] at hwf ⊢
        rcases n2 with n2 | ⟨n2, n3⟩
        · have hne : (normalize (r :: rs)).1 ≠ [] := by
            intro h0
            obtain ⟨_, w, hw, _⟩ := n2 r (List.mem_cons_self _ _)
            rw [h0] at hw
            cases hw
          rw [if_neg hne, if_neg (by omega)] at hwf ⊢
          right
          refine ⟨_, rfl, hwf, ?_, ?_⟩
          · intro y hy
            exact covered_mono (fun z hz => (hwf.2.1 z hz).1) (fun w hw _ => n2 w hw) (c2 y hy)
          · intro P hP hPb hPl
            exact normalize_closed P hP (r :: rs) c1 (hcl P hP hPb hPl)
        · rw [if_pos n2]
          left
          exact ⟨rfl, fun P hP hPb hPl => n3 P hP (hcl P hP hPb hPl)⟩

theorem below_bot (l : List interval) (o : dis_interval) : below ⟨state_t.BOT, l⟩ o := by
  obtain ⟨s, lo⟩ := o
  cases s <;> trivial

theorem below_top (x : dis_interval) (l : List interval) : below x ⟨state_t.TOP, l⟩ := by
  obtain ⟨s, lx⟩ := x
  cases s <;> trivial

theorem below_refl (x : dis_interval) (hx : well_formed x) : below x x := by
  obtain ⟨s, l⟩ := x
  cases s
  · trivial
  · exact fun i hi => covered_self hi (hx.2.1 i hi).1
  · trivial

theorem below_trans {x y z : dis_interval} (hz : well_formed z)
    (h1 : below x y) (h2 : below y z) : below x z := by
  obtain ⟨sx, lx⟩ := x
  obtain ⟨sy, ly⟩ := y
  obtain ⟨sz, lz⟩ := z
  cases sx <;> cases sy <;> cases sz <;>
    first
    | trivial
    | exact h1.elim
    | exact h2.elim
    | exact fun i hi => covered_mono (fun w hw => (hz.2.1 w hw).1)
        (fun w hw _ => h2 w hw) (h1 i hi)

theorem not_covered_top {c : List interval} (hc : ∀ y ∈ c, y.is_bottom = false ∧ y.is_top = false)
    {z : interval} (hz : covered c z) (hp : proper z) (ht : z.is_top = true) : False := by
  obtain ⟨hzb, y, hy, hzy⟩ := hz
  obtain ⟨hyb, hyt⟩ := hc y hy
  have hb := top_bounds hp ht
  rw [interval.leq_iff hzb hyb, hb.1, hb.2] at hzy
  have h1 : y.lb = bound.minus_infinity := le_antisymm hzy.1 (bound.minus_infinity_le _)
  have h2 : y.ub = bound.plus_infinity := le_antisymm (bound.le_plus_infinity _) hzy.2
  simp [interval.is_top, h1, h2, bound.is_infinite] at hyt

theorem join_below (a b c : dis_interval) (ha : well_formed a) (hb : well_formed b)
    (hc : well_formed c) (hcap : join_uncapped a b = true) (hac : below a c)
    (hbc : below b c) : below (join a b) c := by
  obtain ⟨sa, la⟩ := a
  obtain ⟨sb, lb⟩ := b
  cases sa
  · exact hbc
  · cases sb
    · exact hac
    · obtain ⟨sc, lc⟩ := c
      cases sc
      · exact hac.elim
      · obtain ⟨hc1, hc2⟩ := well_formed_pairwise hc
        have hPc : ∀ x y, (covered lc x ∧ proper x) → (covered lc y ∧ proper y) →
            (overlap x y || are_consecutive x y) = true →
            (covered lc (x.join y) ∧ proper (x.join y)) :=
          fun x y hx hy ht => ⟨covered_join hc1 hc2 hx.1 hy.1 ht, proper_join hx.2 hy.2⟩
        have hPl : ∀ x ∈ la ++ lb, covered lc x ∧ proper x := by
          intro x hx
          rcases List.mem_append.mp hx with h | h
          · exact ⟨hac x h, proper_of_not_top (ha.2.1 x h).1 (ha.2.1 x h).2⟩
          · exact ⟨hbc x h, proper_of_not_top (hb.2.1 x h).1 (hb.2.1 x h).2⟩
        rcases join_spec la lb ha hb hcap with ⟨_, h2⟩ | ⟨r, h1, _, _, h4⟩
        · exfalso
          obtain ⟨z, hz, hzt⟩ := h2 _ hPc (fun x hx => hx.1.1) hPl
          exact not_covered_top hc.2.1 hz.1 hz.2 hzt
        · rw [h1]
          exact fun i hi => (h4 _ hPc (fun x hx => hx.1.1) hPl i hi).1
      · exact below_top _ _
    · have hlb : lb = [] := hb
      subst hlb
      exact hbc
  · have hla : la = [] := ha
    subst hla
    cases sb
    · exact hac
    · exact hac
    · exact hac

theorem below_join (a b : dis_interval) (ha : well_formed a) (hb : well_formed b)
    (hcap : join_uncapped a b = true) :
    well_formed (join a b) ∧ below a (join a b) ∧ below b (join a b) := by
  obtain ⟨sa, la⟩ := a
  obtain ⟨sb, lb⟩ := b
  cases sa
  · exact ⟨hb, below_bot _ _, below_refl _ hb⟩
  · cases sb
    · exact ⟨ha, below_refl _ ha, below_bot _ _⟩
    · rcases join_spec la lb ha hb hcap with ⟨h1, _⟩ | ⟨r, h1, h2, h3, _⟩
      · rw [h1]
        exact ⟨rfl, below_top _ _, below_top _ _⟩
      · rw [h1]
        exact ⟨h2, fun i hi => h3 i (List.mem_append_left _ hi),
          fun i hi => h3 i (List.mem_append_right _ hi)⟩
    · exact ⟨hb, below_top _ _, below_refl _ hb⟩
  · cases sb
    · exact ⟨ha, below_refl _ ha, below_bot _ _⟩
    · exact ⟨ha, below_refl _ ha, below_top _ _⟩
    · exact ⟨ha, below_refl _ ha, below_top _ _⟩

theorem mem_of_mutually_covered {lx ly : List interval}
    (hx : well_formed ⟨state_t.FINITE, lx⟩) (_hy : well_formed ⟨state_t.FINITE, ly⟩)
    (h1 : ∀ i ∈ lx, covered ly i) (h2 : ∀ i ∈ ly, covered lx i) :
    ∀ i ∈ lx, i ∈ ly := by
  intro x hxm
  obtain ⟨hxb, y, hym, hxy⟩ := h1 x hxm
  obtain ⟨hyb, x', hxm', hyx'⟩ := h2 y hym
  have hx'b : x'.is_bottom = false := (hx.2.1 x' hxm').1
  have hxx' := (interval.leq_iff hxb hx'b).mp (interval_leq_trans hxb hyb hx'b hxy hyx')
  have ex := interval.is_bottom_false_iff.mp hxb
  have heq : x = x' := by
    rcases pairwise_mem_cases (well_formed_pairwise hx).2 hxm hxm' with h | h | h
    · exact h
    · exfalso
      have : x.lb < x.lb :=
        calc x.lb ≤ x.ub := ex
          _ ≤ x.ub.plus 1 := bound.le_plus_one _
          _ < x'.lb := h
          _ ≤ x.lb := hxx'.1
      exact lt_irrefl _ this
    · exfalso
      have : x.lb < x.lb :=
        calc x.lb ≤ x.ub := ex
          _ ≤ x'.ub := hxx'.2
          _ ≤ x'.ub.plus 1 := bound.le_plus_one _
          _ < x.lb := h
      exact lt_irrefl _ this
  subst heq
  rw [interval_leq_antisymm hxb hyb hxy hyx']
  exact hym

theorem below_antisymm (x y : dis_interval) (hx : well_formed x) (hy : well_formed y)
    (h1 : below x y) (h2 : below y x) : x = y := by
  obtain ⟨sx, lx⟩ := x
  obtain ⟨sy, ly⟩ := y
  cases sx <;> cases sy
  · rw [well_formed_eq_bot hx rfl, well_formed_eq_bot hy rfl]
  · exact h2.elim
  · exact h2.elim
  · exact h1.elim
  · have m1 := mem_of_mutually_covered hx hy h1 h2
    have m2 := mem_of_mutually_covered hy hx h2 h1
    have px := well_formed_pairwise hx
    have py := well_formed_pairwise hy
    let r : interval → interval → Prop :=
      fun a b => a.is_bottom = false ∧ b.is_bottom = false ∧ a.ub.plus 1 < b.lb
    have hr : ∀ a b, r a b → r b a → False := by
      rintro a b ⟨ha, hb, h⟩ ⟨_, _, h'⟩
      have : a.lb < a.lb :=
        calc a.lb ≤ a.ub := interval.is_bottom_false_iff.mp ha
          _ ≤ a.ub.plus 1 := bound.le_plus_one _
          _ < b.lb := h
          _ ≤ b.ub := interval.is_bottom_false_iff.mp hb
          _ ≤ b.ub.plus 1 := bound.le_plus_one _
          _ < a.lb := h'
      exact lt_irrefl _ this
    haveI : IsAntisymm interval r := ⟨fun a b h h' => (hr a b h h').elim⟩
    haveI : IsIrrefl interval r := ⟨fun a h => hr a a h h⟩
    have sx : List.Sorted r lx :=
      List.Pairwise.imp_of_mem (fun {a b} ha hb h => ⟨px.1 a ha, px.1 b hb, h⟩) px.2
    have sy : List.Sorted r ly :=
      List.Pairwise.imp_of_mem (fun {a b} ha hb h => ⟨py.1 a ha, py.1 b hb, h⟩) py.2
    have hperm : List.Perm lx ly :=
      (List.perm_ext_iff_of_nodup sx.nodup sy.nodup).mpr (fun a => ⟨m1 a, m2 a⟩)
    rw [List.eq_of_perm_of_sorted hperm sx sy]
  · exact h2.elim
  · exact h1.elim
  · exact h1.elim
  · rw [well_formed_eq_top hx rfl, well_formed_eq_top hy rfl]

/-- Associativity of the join when none of the four joins reaches the cap. -/
theorem join_assoc_aux (a b c : dis_interval) (ha : well_formed a) (hb : well_formed b)
    (hc : well_formed c) (h1 : join_uncapped a b = true)
    (h2 : join_uncapped (join a b) c = true) (h3 : join_uncapped b c = true)
    (h4 : join_uncapped a (join b c) = true) :
    join (join a b) c = join a (join b c) := by
  obtain ⟨wab, aab, bab⟩ := below_join a b ha hb h1
  obtain ⟨wbc, bbc, cbc⟩ := below_join b c hb hc h3
  obtain ⟨wl, abl, cl⟩ := below_join (join a b) c wab hc h2
  obtain ⟨wr, ar, bcr⟩ := below_join a (join b c) ha wbc h4
  refine below_antisymm _ _ wl wr ?_ ?_
  · exact join_below _ _ _ wab hc wr h2
      (join_below _ _ _ ha hb wr h1 ar (below_trans wr bbc bcr)) (below_trans wr cbc bcr)
  · exact join_below _ _ _ ha wbc wl h4 (below_trans wl aab abl)
      (join_below _ _ _ hb hc wl h3 (below_trans wl bab abl) cl)


/-! ## The meet -/

theorem interval_meet_leq {x y : interval} (h : (x.meet y).is_bottom = false) :
    (x.meet y).leq x = true ∧ (x.meet y).leq y = true := by
  have hxy : (x.is_bottom || y.is_bottom) = false := by
    cases hc : (x.is_bottom || y.is_bottom)
    · rfl
    · simp [interval.meet, hc, interval.bottom_is_bottom] at h
  obtain ⟨hx, hy⟩ := Bool.or_eq_false_iff.mp hxy
  have hle : max x.lb y.lb ≤ min x.ub y.ub := by
    by_contra hn
    have hlt : bound.ltb (bound.bmin x.ub y.ub) (bound.bmax x.lb y.lb) = true :=
      bound.ltb_iff.mpr (not_le.mp hn)
    simp [interval.meet, hxy, interval.mk_interval, hlt, interval.bottom_is_bottom] at h
  have hm : x.meet y = ⟨max x.lb y.lb, min x.ub y.ub⟩ := by
    simp [interval.meet, hxy, bound.bmin_eq, bound.bmax_eq, interval.mk_interval_of_le hle]
  rw [interval.leq_iff h hx, interval.leq_iff h hy, hm]
  exact ⟨⟨le_max_left _ _, min_le_left _ _⟩, ⟨le_max_right _ _, min_le_right _ _⟩⟩

theorem mem_meet_loop (a b : List interval) (r : interval) (h : r ∈ meet_loop a b) :
    r.is_bottom = false ∧ ∃ x ∈ a, ∃ y ∈ b, r = x.meet y := by
  induction a with
  | nil => cases h
  | cons x xs ih =>
    unfold meet_loop at h
    rcases List.mem_append.mp h with h | h
    · rw [List.mem_filter, List.mem_map] at h
      obtain ⟨⟨y, hy, rfl⟩, hb⟩ := h
      exact ⟨by simpa using hb, x, List.mem_cons_self _ _, y, hy, rfl⟩
    · obtain ⟨h1, x', hx', y, hy, h2⟩ := ih h
      exact ⟨h1, x', List.mem_cons_of_mem _ hx', y, hy, h2⟩

theorem meet_loop_covered (a b : List interval) :
    (∀ r ∈ meet_loop a b, covered a r) ∧ (∀ r ∈ meet_loop a b, covered b r) := by
  constructor
  · intro r hr
    obtain ⟨h1, x, hx, y, _, rfl⟩ := mem_meet_loop a b r hr
    exact ⟨h1, x, hx, (interval_meet_leq h1).1⟩
  · intro r hr
    obtain ⟨h1, x, _, y, hy, rfl⟩ := mem_meet_loop a b r hr
    exact ⟨h1, y, hy, (interval_meet_leq h1).2⟩

theorem meet_top_eq (a : dis_interval) : eq (meet a top) a = true := by
  obtain ⟨s, l⟩ := a
  cases s
  · rfl
  · exact eq_self _
  · rfl

theorem meet_lower_aux (a b : dis_interval) (ha : well_formed a) (hb : well_formed b)
    (h1 : a.is_top = true → b.is_finite = false)
    (h2 : b.is_top = true → a.is_finite = false)
    (hcap : meet_uncapped a b = true) :
    leq (meet a b) a = true ∧ leq (meet a b) b = true := by
  obtain ⟨sa, la⟩ := a
  obtain ⟨sb, lb⟩ := b
  cases sa
  · exact ⟨rfl, rfl⟩
  · cases sb
    · exact ⟨rfl, rfl⟩
    · simp only [meet_uncapped, decide_eq_true_eq] at hcap
      obtain ⟨c1, c2⟩ := meet_loop_covered la lb
      obtain ⟨pa1, pa2⟩ := well_formed_pairwise ha
      obtain ⟨pb1, pb2⟩ := well_formed_pairwise hb
      simp only [meet, is_bottom, is_top, reduceCtorEq, decide_False, Bool.or_self,
        Bool.false_eq_true, if_false]
      split
      · exact ⟨rfl, rfl⟩
      · exact ⟨of_list_leq_of_covered _ la pa1 pa2 c1 hcap,
          of_list_leq_of_covered _ lb pb1 pb2 c2 hcap⟩
    · have := h2 rfl
      simp [is_finite] at this
  · cases sb
    · exact ⟨rfl, rfl⟩
    · have := h1 rfl
      simp [is_finite] at this
    · have hla : la = [] := ha
      have hlb : lb = [] := hb
      subst hla hlb
      exact ⟨rfl, rfl⟩

/-- The counter `bottoms` of the normalize loop grows by at most one per
element, and when every element was counted the result list is untouched. -/
theorem normalize_loop_bottoms (l : List interval) :
    ∀ (res : List interval) (prev : interval) (b : Nat) (r : List interval) (b' : Nat),
      normalize_loop l res prev b = some (r, b') →
        b' ≤ b + l.length ∧ (b' = b + l.length → r = res) := by
  induction l with
  | nil =>
    intro res prev b r b' h
    simp only [normalize_loop, Option.some.injEq, Prod.mk.injEq] at h
    obtain ⟨h1, h2⟩ := h
    subst h1; subst h2
    simp
  | cons intv l ih =>
    intro res prev b r b' h
    simp only [normalize_loop] at h
    simp only [List.length_cons]
    split at h
    · have := (ih _ _ _ _ _ h).1
      exact ⟨by omega, fun hb => by omega⟩
    · split at h
      · have := ih _ _ _ _ _ h
        exact ⟨by omega, fun hb => this.2 (by omega)⟩
      · split at h
        · cases h
        · split at h
          · have := (ih _ _ _ _ _ h).1
            exact ⟨by omega, fun hb => by omega⟩
          · split at h
            · cases h
            · have := (ih _ _ _ _ _ h).1
              exact ⟨by omega, fun hb => by omega⟩

/-- A non-empty result of `normalize` is never flagged as bottom. -/
theorem normalize_snd_of_ne_nil (l : List interval) (h : (normalize l).1 ≠ []) :
    (normalize l).2 = false := by
  by_cases hlen : l.length ≤ 1
  · simp [normalize, hlen]
  · simp only [normalize, if_neg hlen] at h ⊢
    cases hr : normalize_loop (sort l) [] interval.top 0 with
    | none => rfl
    | some rb =>
      obtain ⟨r, b⟩ := rb
      rw [hr] at h
      simp only at h ⊢
      have hb := normalize_loop_bottoms (sort l) [] interval.top 0 r b hr
      rw [length_sort] at hb
      simp only [decide_eq_false_iff_not]
      intro hbl
      apply h
      rw [hb.2 (by omega)]
      rfl

/-- On two or more intervals `approx` is the hull of the first and the last. -/
theorem approx_list_of_two_le (l : List interval) (hne : l ≠ []) (h : 2 ≤ l.length) :
    approx_list l = some ((l.head hne).join (l.getLast hne)) := by
  match l, hne, h with
  | x :: y :: ys, _, _ => simp [approx_list, List.getLast_cons]

/-- On a non-empty list `approx` does not fail. -/
theorem approx_list_ne_none (l : List interval) (hne : l ≠ []) :
    ∃ a, approx_list l = some a := by
  match l, hne with
  | [x], _ => exact ⟨_, rfl⟩
  | x :: y :: ys, _ => exact ⟨_, rfl⟩

/-- The last step of the list constructor leaves fewer than
`max_num_disjunctions` intervals in a FINITE value. -/
theorem cap_length_lt (s : dis_interval)
    (h : (if (s.is_finite && decide (max_num_disjunctions ≤ s._list.length)) = true then
        match approx_list s._list with
        | some alljoined => (⟨state_t.FINITE, [alljoined]⟩ : dis_interval)
        | none => s
      else s).is_finite = true) :
    (if (s.is_finite && decide (max_num_disjunctions ≤ s._list.length)) = true then
        match approx_list s._list with
        | some alljoined => (⟨state_t.FINITE, [alljoined]⟩ : dis_interval)
        | none => s
      else s)._list.length < max_num_disjunctions := by
  split
  · rename_i hc
    simp only [Bool.and_eq_true, decide_eq_true_eq] at hc
    have hne : s._list ≠ [] := by
      intro h0
      rw [h0] at hc
      simp [max_num_disjunctions] at hc
    obtain ⟨a, ha⟩ := approx_list_ne_none _ hne
    rw [ha]
    simp [max_num_disjunctions]
  · rename_i hc
    rw [if_neg hc] at h
    simp only [Bool.and_eq_true, decide_eq_true_eq, not_and, not_le] at hc
    exact hc h

end dis_interval

/-- A label without an entry is not found in an invariant map. -/
theorem invariant_map_find_none {L D : Type} [DecidableEq L] (b : L) (m : List (L × D))
    (h : ∀ x, (b, x) ∉ m) : invariant_map_find b m = none := by
  induction m with
  | nil => rfl
  | cons e m ih =>
    obtain ⟨k, x⟩ := e
    have hk : k ≠ b := by
      intro hk
      exact h x (by simp [hk])
    simp only [invariant_map_find, if_neg hk]
    exact ih (fun y hy => h y (List.mem_cons_of_mem _ hy))

/-- The hull of two intervals includes the first one. -/
theorem interval_leq_join (x y : interval) : x.leq (x.join y) = true := by
  cases hx : x.is_bottom
  · cases hy : y.is_bottom
    · exact dis_interval.leq_join_left hx hy
    · simp only [interval.join, hx, hy, Bool.false_eq_true, if_false, if_true]
      exact interval.leq_refl
  · simp [interval.leq, hx]

/-! ## Pointer analysis -/

theorem map_find_map_set {β : Type} (v v' : vname) (x : β) (m : List (vname × β)) :
    map_find v' (map_set v x m) = if v' = v then some x else map_find v' m := by
  induction m with
  | nil =>
    by_cases h : v' = v
    · simp [map_set, map_find, h]
    · have h' : ¬ v = v' := fun e => h e.symm
      simp [map_set, map_find, h, h']
  | cons e m ih =>
    obtain ⟨k, y⟩ := e
    by_cases hk : k = v
    · subst hk
      by_cases h : v' = k
      · subst h
        simp [map_set, map_find]
      · have h' : ¬ k = v' := fun e => h e.symm
        simp [map_set, map_find, h, h']
    · by_cases h : v' = v
      · subst h
        simp only [map_set, if_neg hk, map_find, ih, if_true]
      · by_cases hk' : k = v'
        · simp [map_set, map_find, hk, hk', h]
        · simp [map_set, map_find, hk, hk', h, ih]

theorem map_find_mem {β : Type} (v : vname) (x : β) (m : List (vname × β))
    (h : map_find v m = some x) : (v, x) ∈ m := by
  induction m with
  | nil => simp [map_find] at h
  | cons e m ih =>
    obtain ⟨k, y⟩ := e
    simp only [map_find] at h
    split at h
    · rename_i hk
      subst hk
      simp only [Option.some.injEq] at h
      subst h
      simp
    · exact List.mem_cons_of_mem _ (ih h)

namespace address_set

theorem mem_insert (a x : Nat) (s : List Nat) :
    x ∈ insert a s ↔ x = a ∨ x ∈ s := by
  induction s with
  | nil => simp [insert]
  | cons y ys ih =>
    simp only [insert]
    split
    · simp
    · split
      · rename_i h
        subst h
        simp
      · simp only [List.mem_cons, ih]
        tauto

theorem insert_of_mem (a : Nat) (s : List Nat) (hs : s.Sorted (· < ·)) (h : a ∈ s) :
    insert a s = s := by
  induction s with
  | nil => simp at h
  | cons y ys ih =>
    simp only [insert]
    rw [List.sorted_cons] at hs
    rcases List.mem_cons.mp h with h | h
    · subst h
      simp
    · have hy : y < a := hs.1 a h
      have h1 : ¬ a < y := by omega
      have h2 : ¬ a = y := by omega
      simp only [h1, h2, if_false]
      rw [ih hs.2 h]

theorem sorted_insert (a : Nat) (s : List Nat) (hs : s.Sorted (· < ·)) :
    (insert a s).Sorted (· < ·) := by
  induction s with
  | nil => simp [insert]
  | cons y ys ih =>
    simp only [insert]
    by_cases h1 : a < y
    · simp only [h1, if_true]
      rw [List.sorted_cons]
      refine ⟨?_, hs⟩
      intro b hb
      show a < b
      rcases List.mem_cons.mp hb with hb | hb
      · rw [hb]; exact h1
      · have : y < b := (List.sorted_cons.mp hs).1 b hb
        omega
    · by_cases h2 : a = y
      · subst h2
        simp only [lt_self_iff_false, if_true, if_false]
        exact hs
      · simp only [h1, h2, if_false]
        rw [List.sorted_cons] at hs ⊢
        refine ⟨?_, ih hs.2⟩
        intro b hb
        show y < b
        rcases (mem_insert a b ys).mp hb with hb | hb
        · omega
        · exact hs.1 b hb

theorem next_mem (s : List Nat) (a b : Nat) (h : next s a = some b) : b ∈ s ∧ a < b := by
  unfold next at h
  have h1 := List.find?_some h
  have h2 := List.mem_of_find?_eq_some h
  simp only [decide_eq_true_eq] at h1
  exact ⟨h2, h1⟩

theorem first_mem (s : List Nat) (a : Nat) (h : first s = some a) : a ∈ s := by
  unfold first at h
  exact List.mem_of_mem_head? h

end address_set

namespace pta_system

theorem get_offset_eq (s : pta_system) (v : vname) :
    s.get_offset v = (map_find v s._offset_map).getD interval.bottom := by
  unfold get_offset
  cases map_find v s._offset_map <;> rfl

theorem get_address_set_eq (s : pta_system) (v : vname) :
    s.get_address_set v = (map_find v s._address_map).getD [] := by
  unfold get_address_set
  cases map_find v s._address_map <;> rfl

theorem get_address_set_add_offset (s : pta_system) (v : vname) (o : interval) (op : binary_op)
    (v' : vname) : (s.add_offset v o op).get_address_set v' = s.get_address_set v' := by
  unfold add_offset
  simp only
  split <;> rfl

theorem csts_add_offset (s : pta_system) (v : vname) (o : interval) (op : binary_op) :
    (s.add_offset v o op)._csts = s._csts := by
  unfold add_offset
  simp only
  split <;> rfl

theorem iteration_add_offset (s : pta_system) (v : vname) (o : interval) (op : binary_op) :
    (s.add_offset v o op).iteration = s.iteration := by
  unfold add_offset
  simp only
  split <;> rfl

theorem change_seen_add_offset (s : pta_system) (v : vname) (o : interval) (op : binary_op) :
    (s.add_offset v o op).change_seen =
      (s.change_seen || !op.convergence_achieved (s.get_offset v) o) := by
  unfold add_offset
  simp only
  split
  · rename_i h
    simp [h]
  · rename_i h
    simp only [Bool.not_eq_true] at h
    simp [h]

theorem add_offset_of_converged (s : pta_system) (v : vname) (o : interval) (op : binary_op)
    (h : op.convergence_achieved (s.get_offset v) o = true) : s.add_offset v o op = s := by
  unfold add_offset
  simp [h]

theorem get_offset_add_offset (s : pta_system) (v : vname) (o : interval) (op : binary_op)
    (v' : vname) :
    (s.add_offset v o op).get_offset v' =
      if v' = v ∧ op.convergence_achieved (s.get_offset v) o = false then
        op.apply (s.get_offset v) o s.iteration
      else s.get_offset v' := by
  cases h : op.convergence_achieved (s.get_offset v) o
  · simp only [and_true]
    have e : s.add_offset v o op =
        { s with
          change_seen := true
          _offset_map := map_set v (op.apply (s.get_offset v) o s.iteration) s._offset_map } := by
      unfold add_offset
      simp [h]
    rw [e]
    by_cases hv : v' = v
    · rw [if_pos hv, get_offset_eq]
      simp [map_find_map_set, hv]
    · rw [if_neg hv, get_offset_eq]
      simp only [map_find_map_set, hv, if_false]
      exact (get_offset_eq s v').symm
  · rw [add_offset_of_converged s v o op h]
    simp

theorem get_offset_add_address (s : pta_system) (v : vname) (a : index_t) (v' : vname) :
    (s.add_address v a).get_offset v' = s.get_offset v' := by
  unfold add_address
  split <;> rfl

theorem csts_add_address (s : pta_system) (v : vname) (a : index_t) :
    (s.add_address v a)._csts = s._csts := by
  unfold add_address
  split <;> rfl

theorem iteration_add_address (s : pta_system) (v : vname) (a : index_t) :
    (s.add_address v a).iteration = s.iteration := by
  unfold add_address
  split <;> rfl

theorem change_seen_add_address (s : pta_system) (v : vname) (a : index_t) :
    (s.add_address v a).change_seen = (s.change_seen || decide (a ∉ s.get_address_set v)) := by
  unfold add_address
  split
  · rename_i h
    simp only [address_set.contains, Bool.not_eq_true', decide_eq_false_iff_not] at h
    simp [h]
  · rename_i h
    simp only [address_set.contains, Bool.not_eq_true, Bool.not_eq_false,
      decide_eq_true_eq] at h
    simp [h]

theorem add_address_of_mem (s : pta_system) (v : vname) (a : index_t)
    (h : a ∈ s.get_address_set v) : s.add_address v a = s := by
  unfold add_address
  simp [address_set.contains, h]

theorem get_address_set_add_address (s : pta_system) (v : vname) (a : index_t) (v' : vname) :
    (s.add_address v a).get_address_set v' =
      if v' = v ∧ a ∉ s.get_address_set v then address_set.insert a (s.get_address_set v)
      else s.get_address_set v' := by
  by_cases h : a ∈ s.get_address_set v
  · rw [add_address_of_mem s v a h]
    simp [h]
  · have e : s.add_address v a =
        { s with
          change_seen := true
          _address_map :=
            map_set v (address_set.insert a (s.get_address_set v)) s._address_map } := by
      unfold add_address
      simp [address_set.contains, h]
    rw [e]
    by_cases hv : v' = v
    · rw [if_pos ⟨hv, h⟩, get_address_set_eq]
      simp [map_find_map_set, hv]
    · rw [if_neg (fun hh => hv hh.1), get_address_set_eq]
      simp only [map_find_map_set, hv, if_false]
      exact (get_address_set_eq s v').symm

theorem mem_add_address (s : pta_system) (v : vname) (a : index_t) (v' : vname) (x : index_t) :
    x ∈ (s.add_address v a).get_address_set v' ↔
      x ∈ s.get_address_set v' ∨ (v' = v ∧ x = a) := by
  rw [get_address_set_add_address]
  split
  · rename_i h
    rw [address_set.mem_insert, h.1]
    constructor
    · rintro (h1 | h1)
      · exact Or.inr ⟨rfl, h1⟩
      · exact Or.inl h1
    · rintro (h1 | h1)
      · exact Or.inr h1
      · exact Or.inl h1.2
  · rename_i h
    constructor
    · exact Or.inl
    · rintro (h1 | ⟨h1, h2⟩)
      · exact h1
      · subst h1 h2
        by_contra hx
        exact h ⟨rfl, hx⟩

theorem get_offset_add_address_set (s : pta_system) (v : vname) (l : address_set)
    (v' : vname) : (s.add_address_set v l).get_offset v' = s.get_offset v' := by
  unfold add_address_set
  induction l generalizing s with
  | nil => rfl
  | cons a l ih => rw [List.foldl_cons, ih, get_offset_add_address]

theorem csts_add_address_set (s : pta_system) (v : vname) (l : address_set) :
    (s.add_address_set v l)._csts = s._csts := by
  unfold add_address_set
  induction l generalizing s with
  | nil => rfl
  | cons a l ih => rw [List.foldl_cons, ih, csts_add_address]

theorem iteration_add_address_set (s : pta_system) (v : vname) (l : address_set) :
    (s.add_address_set v l).iteration = s.iteration := by
  unfold add_address_set
  induction l generalizing s with
  | nil => rfl
  | cons a l ih => rw [List.foldl_cons, ih, iteration_add_address]

theorem mem_add_address_set (s : pta_system) (v : vname) (l : address_set) (v' : vname)
    (x : index_t) :
    x ∈ (s.add_address_set v l).get_address_set v' ↔
      x ∈ s.get_address_set v' ∨ (v' = v ∧ x ∈ l) := by
  unfold add_address_set
  induction l generalizing s with
  | nil => simp
  | cons a l ih =>
    rw [List.foldl_cons, ih, mem_add_address]
    simp only [List.mem_cons]
    tauto

theorem add_address_set_of_subset (s : pta_system) (v : vname) (l : address_set)
    (h : ∀ x ∈ l, x ∈ s.get_address_set v) : s.add_address_set v l = s := by
  unfold add_address_set
  induction l with
  | nil => rfl
  | cons a l ih =>
    rw [List.foldl_cons, add_address_of_mem s v a (h a (List.mem_cons_self _ _))]
    exact ih (fun x hx => h x (List.mem_cons_of_mem _ hx))

theorem change_seen_add_address_set (s : pta_system) (v : vname) (l : address_set) :
    (s.add_address_set v l).change_seen =
      (s.change_seen || decide (∃ x ∈ l, x ∉ s.get_address_set v)) := by
  unfold add_address_set
  induction l generalizing s with
  | nil => simp
  | cons a l ih =>
    rw [List.foldl_cons, ih, change_seen_add_address]
    by_cases ha : a ∈ s.get_address_set v
    · rw [add_address_of_mem s v a ha]
      simp [ha]
    · simp [ha]

end pta_system

namespace address_set

theorem next_of_sorted (pre : List Nat) (a : Nat) (rest : List Nat)
    (h : (pre ++ a :: rest).Sorted (· < ·)) : next (pre ++ a :: rest) a = rest.head? := by
  unfold next
  have hp : ∀ x ∈ pre, x < a := by
    intro x hx
    have := List.pairwise_append.mp h
    exact this.2.2 x hx a (List.mem_cons_self _ _)
  have hr : ∀ x ∈ rest, a < x := by
    have := (List.pairwise_append.mp h).2.1
    exact (List.sorted_cons.mp this).1
  rw [List.find?_append]
  have h1 : List.find? (fun x => decide (a < x)) pre = none := by
    rw [List.find?_eq_none]
    intro x hx
    have := hp x hx
    simp only [decide_eq_true_eq]
    omega
  rw [h1]
  simp only [Option.none_or, List.find?_cons, lt_self_iff_false, decide_False]
  cases rest with
  | nil => rfl
  | cons b rest =>
    have := hr b (List.mem_cons_self _ _)
    simp [this]

end address_set

namespace pta_system

/-- An invariant of the body of a loop over an address set holds when the
loop is left. -/
theorem for_each_address_induction (v : vname) (body : index_t → pta_system → pta_system)
    (Inv : pta_system → Prop)
    (hbody : ∀ st a, Inv st → a ∈ st.get_address_set v → Inv (body a st)) :
    ∀ (fuel : Nat) (cur : Option index_t) (s s' : pta_system),
      (∀ a, cur = some a → a ∈ s.get_address_set v) → Inv s →
      for_each_address v body fuel cur s = Except.ok s' → Inv s' := by
  intro fuel
  induction fuel with
  | zero =>
    intro cur s s' hcur hs h
    cases cur with
    | none =>
      simp only [for_each_address, Except.ok.injEq] at h
      exact h ▸ hs
    | some a => simp [for_each_address] at h
  | succ n ih =>
    intro cur s s' hcur hs h
    cases cur with
    | none =>
      simp only [for_each_address, Except.ok.injEq] at h
      exact h ▸ hs
    | some a =>
      simp only [for_each_address] at h
      refine ih _ _ _ ?_ (hbody s a hs (hcur a rfl)) h
      intro b hb
      exact (address_set.next_mem _ _ _ hb).1

/-- A loop over an address set whose elements stay below `m` comes to its
end when the fuel exceeds the distance from the current element to `m`. -/
theorem for_each_address_terminates (v : vname) (body : index_t → pta_system → pta_system)
    (m : Nat) (Inv : pta_system → Prop)
    (hbody : ∀ st a, Inv st → a ∈ st.get_address_set v → Inv (body a st))
    (hbound : ∀ st, Inv st → ∀ a : Nat, a ∈ st.get_address_set v → a ≤ m) :
    ∀ (fuel : Nat) (cur : Option Nat) (s : pta_system),
      (∀ a, cur = some a → a ∈ s.get_address_set v) → Inv s →
      (∀ a : Nat, cur = some a → m < a + fuel) →
      ∃ s', for_each_address v body fuel cur s = Except.ok s' := by
  intro fuel
  induction fuel with
  | zero =>
    intro cur s hcur hs hf
    cases cur with
    | none => exact ⟨s, rfl⟩
    | some a =>
      have h1 : a ≤ m := hbound s hs a (hcur a rfl)
      have h2 : m < a + 0 := hf a rfl
      omega
  | succ n ih =>
    intro cur s hcur hs hf
    cases cur with
    | none => exact ⟨s, rfl⟩
    | some a =>
      simp only [for_each_address]
      refine ih _ _ ?_ (hbody s a hs (hcur a rfl)) ?_
      · intro b hb
        exact (address_set.next_mem _ _ _ hb).1
      · intro b hb
        have h1 : a < b := (address_set.next_mem _ _ _ hb).2
        have h2 : m < a + (n + 1) := hf a rfl
        omega

/-- When a loop over a sorted address set leaves `change_seen` false, its
body has changed nothing at any element of the set. -/
theorem for_each_address_no_change (v : vname) (body : index_t → pta_system → pta_system)
    (hmono : ∀ st a, st.change_seen = true → (body a st).change_seen = true)
    (hsame : ∀ st a, (body a st).change_seen = false → body a st = st)
    (s : pta_system) (hsorted : (s.get_address_set v).Sorted (· < ·)) :
    ∀ (fuel : Nat) (pre l : List Nat) (s' : pta_system),
      s.get_address_set v = pre ++ l →
      for_each_address v body fuel l.head? s = Except.ok s' → s'.change_seen = false →
      s' = s ∧ ∀ a ∈ l, body a s = s := by
  intro fuel
  induction fuel with
  | zero =>
    intro pre l s' hl h hcs
    cases l with
    | nil =>
      simp only [List.head?_nil, for_each_address, Except.ok.injEq] at h
      exact ⟨h.symm, by simp⟩
    | cons a l => simp [for_each_address] at h
  | succ n ih =>
    intro pre l s' hl h hcs
    cases l with
    | nil =>
      simp only [List.head?_nil, for_each_address, Except.ok.injEq] at h
      exact ⟨h.symm, by simp⟩
    | cons a l =>
      simp only [List.head?_cons, for_each_address] at h
      have hcs1 : (body a s).change_seen = false := by
        by_contra hne
        have ht : (body a s).change_seen = true := by
          cases hb : (body a s).change_seen
          · exact absurd hb hne
          · rfl
        have : s'.change_seen = true :=
          for_each_address_induction v body (fun st => st.change_seen = true)
          (fun st b hst _ => hmono st b hst) n _ _ s'
          (fun b hb => (address_set.next_mem _ _ _ hb).1) ht h
        rw [hcs] at this
        exact Bool.false_ne_true this
      have he := hsame s a hcs1
      rw [he] at h
      rw [hl] at hsorted
      rw [hl, address_set.next_of_sorted pre a l hsorted] at h
      have := ih (pre ++ [a]) l s' (by rw [hl]; simp) h hcs
      refine ⟨this.1, ?_⟩
      intro b hb
      rcases List.mem_cons.mp hb with hb | hb
      · rw [hb]; exact he
      · exact this.2 b hb

end pta_system

namespace pta_system

theorem process_constraint_assign (fuel : Nat) (lhs : pointer_var) (rhs : pta_ref)
    (op : binary_op) (s : pta_system) :
    process_constraint fuel (pta_constraint.pta_assign lhs rhs) op s =
      Except.ok (s.add_info lhs.str (s.process_ref rhs).1 (s.process_ref rhs).2 op) := rfl

theorem load_body_eq (key : index_t → vname) (lhs : vname) (op : binary_op) (a : index_t)
    (st : pta_system) :
    (st.add_address_set lhs (st.get_address_set (key a))).add_offset lhs
        ((st.add_address_set lhs (st.get_address_set (key a))).get_offset (key a)) op =
      load_body key lhs op a st := by
  rw [get_offset_add_address_set]
  rfl

theorem process_constraint_store (fuel : Nat) (ref : pta_ref) (rhs : pointer_var)
    (op : binary_op) (s : pta_system) (v : vname) (key : index_t → vname)
    (h : ref.deref = some (v, key)) :
    process_constraint fuel (pta_constraint.pta_store ref rhs) op s =
      for_each_address v (store_body key rhs.str (s.get_offset rhs.str) op) fuel
        (address_set.first (s.get_address_set v)) s := by
  cases ref <;> simp only [pta_ref.deref, Option.some.injEq, Prod.mk.injEq, reduceCtorEq] at h
  all_goals
    obtain ⟨h1, h2⟩ := h
    subst h1 h2
    rfl

theorem process_constraint_load (fuel : Nat) (lhs : pointer_var) (ref : pta_ref)
    (op : binary_op) (s : pta_system) (v : vname) (key : index_t → vname)
    (h : ref.deref = some (v, key)) :
    process_constraint fuel (pta_constraint.pta_load lhs ref) op s =
      for_each_address v (load_body key lhs.str op) fuel
        (address_set.first (s.get_address_set v)) s := by
  have hb : ∀ key : index_t → vname,
      (fun a st =>
        (add_address_set st lhs.str (st.get_address_set (key a))).add_offset lhs.str
          ((add_address_set st lhs.str (st.get_address_set (key a))).get_offset (key a)) op) =
        load_body key lhs.str op := by
    intro key
    funext a st
    exact load_body_eq key lhs.str op a st
  cases ref <;> simp only [pta_ref.deref, Option.some.injEq, Prod.mk.injEq, reduceCtorEq] at h
  all_goals
    obtain ⟨h1, h2⟩ := h
    subst h1 h2
    simp only [process_constraint]
    rw [hb]

theorem process_constraint_store_error (fuel : Nat) (ref : pta_ref) (rhs : pointer_var)
    (op : binary_op) (s : pta_system) (h : ref.deref = none) :
    ∃ msg, process_constraint fuel (pta_constraint.pta_store ref rhs) op s =
      Except.error (pta_error.crab_error msg) := by
  cases ref <;> simp only [pta_ref.deref, reduceCtorEq] at h
  · exact ⟨_, rfl⟩
  · exact ⟨_, rfl⟩

theorem process_constraint_load_error (fuel : Nat) (lhs : pointer_var) (ref : pta_ref)
    (op : binary_op) (s : pta_system) (h : ref.deref = none) :
    ∃ msg, process_constraint fuel (pta_constraint.pta_load lhs ref) op s =
      Except.error (pta_error.crab_error msg) := by
  cases ref <;> simp only [pta_ref.deref, reduceCtorEq] at h
  · exact ⟨_, rfl⟩
  · exact ⟨_, rfl⟩

/-! ### `add_info` -/

theorem csts_add_info (s : pta_system) (dst : vname) (l : address_set) (o : interval)
    (op : binary_op) : (s.add_info dst l o op)._csts = s._csts := by
  unfold add_info
  rw [csts_add_offset, csts_add_address_set]

theorem iteration_add_info (s : pta_system) (dst : vname) (l : address_set) (o : interval)
    (op : binary_op) : (s.add_info dst l o op).iteration = s.iteration := by
  unfold add_info
  rw [iteration_add_offset, iteration_add_address_set]

theorem mem_add_info (s : pta_system) (dst : vname) (l : address_set) (o : interval)
    (op : binary_op) (v : vname) (x : index_t) :
    x ∈ (s.add_info dst l o op).get_address_set v ↔
      x ∈ s.get_address_set v ∨ (v = dst ∧ x ∈ l) := by
  unfold add_info
  rw [get_address_set_add_offset, mem_add_address_set]

theorem get_offset_add_info (s : pta_system) (dst : vname) (l : address_set) (o : interval)
    (op : binary_op) (v : vname) :
    (s.add_info dst l o op).get_offset v =
      if v = dst ∧ op.convergence_achieved (s.get_offset dst) o = false then
        op.apply (s.get_offset dst) o s.iteration
      else s.get_offset v := by
  unfold add_info
  rw [get_offset_add_offset, get_offset_add_address_set, get_offset_add_address_set,
    iteration_add_address_set]

theorem change_seen_add_info (s : pta_system) (dst : vname) (l : address_set) (o : interval)
    (op : binary_op) :
    (s.add_info dst l o op).change_seen =
      (s.change_seen || decide (∃ x ∈ l, x ∉ s.get_address_set dst) ||
        !op.convergence_achieved (s.get_offset dst) o) := by
  unfold add_info
  rw [change_seen_add_offset, change_seen_add_address_set, get_offset_add_address_set]

theorem add_info_of_no_change (s : pta_system) (dst : vname) (l : address_set) (o : interval)
    (op : binary_op) (h : (s.add_info dst l o op).change_seen = false) :
    s.add_info dst l o op = s ∧ (∀ x ∈ l, x ∈ s.get_address_set dst) := by
  rw [change_seen_add_info] at h
  simp only [Bool.or_eq_false_iff, decide_eq_false_iff_not, not_exists, not_and,
    Decidable.not_not, Bool.not_eq_false'] at h
  obtain ⟨⟨_, h2⟩, h3⟩ := h
  refine ⟨?_, h2⟩
  unfold add_info
  rw [add_address_set_of_subset s dst l h2]
  exact add_offset_of_converged s dst o op h3

theorem change_seen_add_info_mono (s : pta_system) (dst : vname) (l : address_set)
    (o : interval) (op : binary_op) (h : s.change_seen = true) :
    (s.add_info dst l o op).change_seen = true := by
  rw [change_seen_add_info, h]
  rfl

theorem get_address_set_add_info_of_subset (s : pta_system) (dst : vname) (l : address_set)
    (o : interval) (op : binary_op) (h : ∀ x ∈ l, x ∈ s.get_address_set dst) (v : vname) :
    (s.add_info dst l o op).get_address_set v = s.get_address_set v := by
  unfold add_info
  rw [get_address_set_add_offset, add_address_set_of_subset s dst l h]

theorem sorted_add_address (s : pta_system) (v : vname) (a : index_t) (h : s.sorted) :
    (s.add_address v a).sorted := by
  intro v'
  rw [get_address_set_add_address]
  split
  · exact address_set.sorted_insert _ _ (h v)
  · exact h v'

theorem sorted_add_address_set (s : pta_system) (v : vname) (l : address_set) (h : s.sorted) :
    (s.add_address_set v l).sorted := by
  unfold add_address_set
  induction l generalizing s with
  | nil => exact h
  | cons a l ih =>
    rw [List.foldl_cons]
    exact ih _ (sorted_add_address s v a h)

theorem sorted_add_info (s : pta_system) (dst : vname) (l : address_set) (o : interval)
    (op : binary_op) (h : s.sorted) : (s.add_info dst l o op).sorted := by
  intro v
  unfold add_info
  rw [get_address_set_add_offset]
  exact sorted_add_address_set s dst l h v

end pta_system

namespace pta_system

theorem writes_store (st : pta_system) (ref : pta_ref) (rhs : pointer_var) (dst : vname)
    (l : address_set) (v : vname) (key : index_t → vname) (hd : ref.deref = some (v, key)) :
    writes st (pta_constraint.pta_store ref rhs) dst l ↔
      ∃ a ∈ st.get_address_set v, dst = key a ∧ l = st.get_address_set rhs.str := by
  simp only [writes, hd]

theorem writes_load (st : pta_system) (lhs : pointer_var) (ref : pta_ref) (dst : vname)
    (l : address_set) (v : vname) (key : index_t → vname) (hd : ref.deref = some (v, key)) :
    writes st (pta_constraint.pta_load lhs ref) dst l ↔
      ∃ a ∈ st.get_address_set v, dst = lhs.str ∧ l = st.get_address_set (key a) := by
  simp only [writes, hd]

/-- An invariant kept by every pair of calls that a constraint can make holds
after the constraint is processed. -/
theorem process_constraint_induction (cst : pta_constraint) (op : binary_op)
    (Inv : pta_system → Prop)
    (hinfo : ∀ st dst l o, Inv st → writes st cst dst l → Inv (st.add_info dst l o op))
    (fuel : Nat) (s s' : pta_system) (hs : Inv s)
    (h : process_constraint fuel cst op s = Except.ok s') : Inv s' := by
  cases cst with
  | pta_assign lhs rhs =>
    rw [process_constraint_assign] at h
    simp only [Except.ok.injEq] at h
    rw [← h]
    exact hinfo s _ _ _ hs ⟨rfl, rfl⟩
  | pta_store ref rhs =>
    cases hd : ref.deref with
    | none =>
      obtain ⟨msg, he⟩ := process_constraint_store_error fuel ref rhs op s hd
      rw [he] at h
      cases h
    | some vk =>
      obtain ⟨v, key⟩ := vk
      rw [process_constraint_store fuel ref rhs op s v key hd] at h
      refine for_each_address_induction v _ Inv ?_ fuel _ s s'
        (fun a ha => address_set.first_mem _ _ ha) hs h
      intro st a hst ha
      exact hinfo st _ _ _ hst ((writes_store _ _ _ _ _ v key hd).mpr ⟨a, ha, rfl, rfl⟩)
  | pta_load lhs ref =>
    cases hd : ref.deref with
    | none =>
      obtain ⟨msg, he⟩ := process_constraint_load_error fuel lhs ref op s hd
      rw [he] at h
      cases h
    | some vk =>
      obtain ⟨v, key⟩ := vk
      rw [process_constraint_load fuel lhs ref op s v key hd] at h
      refine for_each_address_induction v _ Inv ?_ fuel _ s s'
        (fun a ha => address_set.first_mem _ _ ha) hs h
      intro st a hst ha
      exact hinfo st _ _ _ hst ((writes_load _ _ _ _ _ v key hd).mpr ⟨a, ha, rfl, rfl⟩)

/-- With an invariant that bounds the addresses by `m`, processing a
constraint that dereferences no object or function with more than `m` units
of fuel gives a state. -/
theorem process_constraint_terminates (cst : pta_constraint) (op : binary_op)
    (Inv : pta_system → Prop) (m : Nat)
    (hinfo : ∀ st dst l o, Inv st → writes st cst dst l → Inv (st.add_info dst l o op))
    (hbound : ∀ st, Inv st → ∀ (v : vname) (a : Nat), a ∈ st.get_address_set v → a ≤ m)
    (fuel : Nat) (hf : m < fuel) (s : pta_system) (hs : Inv s) (hd : deref_ok cst = true) :
    ∃ s', process_constraint fuel cst op s = Except.ok s' := by
  cases cst with
  | pta_assign lhs rhs => exact ⟨_, process_constraint_assign fuel lhs rhs op s⟩
  | pta_store ref rhs =>
    simp only [deref_ok, Option.isSome_iff_exists] at hd
    obtain ⟨⟨v, key⟩, hd⟩ := hd
    rw [process_constraint_store fuel ref rhs op s v key hd]
    refine for_each_address_terminates v _ m Inv ?_ (fun st hst a ha => hbound st hst v a ha)
      fuel _ s (fun a ha => address_set.first_mem _ _ ha) hs (fun a _ => by omega)
    intro st a hst ha
    exact hinfo st _ _ _ hst ((writes_store _ _ _ _ _ v key hd).mpr ⟨a, ha, rfl, rfl⟩)
  | pta_load lhs ref =>
    simp only [deref_ok, Option.isSome_iff_exists] at hd
    obtain ⟨⟨v, key⟩, hd⟩ := hd
    rw [process_constraint_load fuel lhs ref op s v key hd]
    refine for_each_address_terminates v _ m Inv ?_ (fun st hst a ha => hbound st hst v a ha)
      fuel _ s (fun a ha => address_set.first_mem _ _ ha) hs (fun a _ => by omega)
    intro st a hst ha
    exact hinfo st _ _ _ hst ((writes_load _ _ _ _ _ v key hd).mpr ⟨a, ha, rfl, rfl⟩)

/-- A store or load through an object or function reference is an error. -/
theorem process_constraint_deref_error (cst : pta_constraint) (op : binary_op) (fuel : Nat)
    (s : pta_system) (hd : deref_ok cst = false) :
    ∃ msg, process_constraint fuel cst op s = Except.error (pta_error.crab_error msg) := by
  cases cst with
  | pta_assign lhs rhs => simp [deref_ok] at hd
  | pta_store ref rhs =>
    simp only [deref_ok] at hd
    exact process_constraint_store_error fuel ref rhs op s (by
      cases hr : ref.deref with
      | none => rfl
      | some x => rw [hr] at hd; cases hd)
  | pta_load lhs ref =>
    simp only [deref_ok] at hd
    exact process_constraint_load_error fuel lhs ref op s (by
      cases hr : ref.deref with
      | none => rfl
      | some x => rw [hr] at hd; cases hd)

/-- When processing a constraint in a state with sorted address sets leaves
`change_seen` false, the state is unchanged and solves the constraint. -/
theorem process_constraint_no_change (cst : pta_constraint) (op : binary_op) (fuel : Nat)
    (s s' : pta_system) (hsorted : s.sorted)
    (h : process_constraint fuel cst op s = Except.ok s') (hcs : s'.change_seen = false) :
    s' = s ∧ solution s cst := by
  cases cst with
  | pta_assign lhs rhs =>
    rw [process_constraint_assign] at h
    simp only [Except.ok.injEq] at h
    rw [← h] at hcs ⊢
    obtain ⟨h1, h2⟩ := add_info_of_no_change _ _ _ _ _ hcs
    exact ⟨h1, h2⟩
  | pta_store ref rhs =>
    cases hd : ref.deref with
    | none =>
      obtain ⟨msg, he⟩ := process_constraint_store_error fuel ref rhs op s hd
      rw [he] at h
      cases h
    | some vk =>
      obtain ⟨v, key⟩ := vk
      rw [process_constraint_store fuel ref rhs op s v key hd] at h
      have := for_each_address_no_change v _
        (fun st a hst => change_seen_add_info_mono st _ _ _ _ hst)
        (fun st a hst => (add_info_of_no_change st _ _ _ _ hst).1)
        s (hsorted v) fuel [] (s.get_address_set v) s' rfl h hcs
      refine ⟨this.1, ?_⟩
      simp only [solution, hd]
      intro a ha x hx
      have h1 := this.2 a ha
      have h2 : (store_body key rhs.str (s.get_offset rhs.str) op a s).change_seen = false := by
        show (s.add_info (key a) (s.get_address_set rhs.str) (s.get_offset rhs.str)
          op).change_seen = false
        rw [h1, ← this.1]
        exact hcs
      exact (add_info_of_no_change _ _ _ _ _ h2).2 x hx
  | pta_load lhs ref =>
    cases hd : ref.deref with
    | none =>
      obtain ⟨msg, he⟩ := process_constraint_load_error fuel lhs ref op s hd
      rw [he] at h
      cases h
    | some vk =>
      obtain ⟨v, key⟩ := vk
      rw [process_constraint_load fuel lhs ref op s v key hd] at h
      have := for_each_address_no_change v _
        (fun st a hst => change_seen_add_info_mono st _ _ _ _ hst)
        (fun st a hst => (add_info_of_no_change st _ _ _ _ hst).1)
        s (hsorted v) fuel [] (s.get_address_set v) s' rfl h hcs
      refine ⟨this.1, ?_⟩
      simp only [solution, hd]
      intro a ha x hx
      have h1 := this.2 a ha
      have h2 : (load_body key lhs.str op a s).change_seen = false := by
        show (s.add_info lhs.str (s.get_address_set (key a)) (s.get_offset (key a))
          op).change_seen = false
        rw [h1, ← this.1]
        exact hcs
      exact (add_info_of_no_change _ _ _ _ _ h2).2 x hx

end pta_system

namespace pta_system

theorem le_foldr_max (l : List Nat) (a : Nat) (h : a ∈ l) : a ≤ l.foldr max 0 := by
  induction l with
  | nil => simp at h
  | cons x xs ih =>
    simp only [List.foldr_cons]
    rcases List.mem_cons.mp h with h | h
    · rw [h]; exact le_max_left _ _
    · exact le_trans (ih h) (le_max_right _ _)

theorem le_max_address (s : pta_system) (v : vname) (a : Nat)
    (h : a ∈ s.get_address_set v) : a ≤ s.max_address := by
  unfold get_address_set at h
  cases hf : map_find v s._address_map with
  | none => rw [hf] at h; simp at h
  | some x =>
    rw [hf] at h
    have hm := map_find_mem v x _ hf
    unfold max_address
    refine le_trans (le_foldr_max x a h) (le_foldr_max _ _ ?_)
    exact List.mem_map.mpr ⟨(v, x), hm, rfl⟩

/-- A loop over an address set raises no `CRAB_ERROR`. -/
theorem for_each_address_error (v : vname) (body : index_t → pta_system → pta_system) :
    ∀ (fuel : Nat) (cur : Option index_t) (s : pta_system) (e : pta_error),
      for_each_address v body fuel cur s = Except.error e → e = pta_error.out_of_fuel := by
  intro fuel
  induction fuel with
  | zero =>
    intro cur s e h
    cases cur with
    | none => simp [for_each_address] at h
    | some a =>
      simp only [for_each_address, Except.error.injEq] at h
      exact h.symm
  | succ n ih =>
    intro cur s e h
    cases cur with
    | none => simp [for_each_address] at h
    | some a =>
      simp only [for_each_address] at h
      exact ih _ _ _ h

/-- A constraint that dereferences no object or function raises no
`CRAB_ERROR`. -/
theorem process_constraint_no_crab_error (cst : pta_constraint) (op : binary_op) (fuel : Nat)
    (s : pta_system) (hd : deref_ok cst = true) (msg : String) :
    process_constraint fuel cst op s ≠ Except.error (pta_error.crab_error msg) := by
  intro h
  cases cst with
  | pta_assign lhs rhs =>
    rw [process_constraint_assign] at h
    cases h
  | pta_store ref rhs =>
    simp only [deref_ok, Option.isSome_iff_exists] at hd
    obtain ⟨⟨v, key⟩, hd⟩ := hd
    rw [process_constraint_store fuel ref rhs op s v key hd] at h
    have := for_each_address_error _ _ _ _ _ _ h
    cases this
  | pta_load lhs ref =>
    simp only [deref_ok, Option.isSome_iff_exists] at hd
    obtain ⟨⟨v, key⟩, hd⟩ := hd
    rw [process_constraint_load fuel lhs ref op s v key hd] at h
    have := for_each_address_error _ _ _ _ _ _ h
    cases this

/-- A store or load copies addresses between the sets of the state, so it
keeps any bound on the addresses. -/
theorem bound_add_info (st : pta_system) (m : Nat) (dst : vname) (l : address_set)
    (o : interval) (op : binary_op)
    (hst : ∀ (v : vname) (a : Nat), a ∈ st.get_address_set v → a ≤ m)
    (hl : ∀ a : Nat, a ∈ l → a ≤ m) :
    ∀ (v : vname) (a : Nat), a ∈ (st.add_info dst l o op).get_address_set v → a ≤ m := by
  intro v a ha
  rcases (mem_add_info st dst l o op v a).mp ha with h | h
  · exact hst v a h
  · exact hl a h.2

theorem process_constraint_deref_terminates (cst : pta_constraint) (op : binary_op)
    (fuel : Nat) (s : pta_system) (hf : s.max_address < fuel)
    (hd : deref_ok cst = true) :
    ∃ s', process_constraint fuel cst op s = Except.ok s' := by
  cases cst with
  | pta_assign lhs rhs => exact ⟨_, process_constraint_assign fuel lhs rhs op s⟩
  | pta_store ref rhs =>
    refine process_constraint_terminates _ op
      (fun st => ∀ (v : vname) (a : Nat), a ∈ st.get_address_set v → a ≤ s.max_address)
      s.max_address ?_ (fun st hst => hst) fuel hf s (le_max_address s) hd
    intro st dst l o hst hw
    simp only [deref_ok, Option.isSome_iff_exists] at hd
    obtain ⟨⟨v, key⟩, hd⟩ := hd
    obtain ⟨a, _, _, hl⟩ := (writes_store _ _ _ _ _ v key hd).mp hw
    exact bound_add_info st _ dst l o op hst (fun x hx => hst _ x (hl ▸ hx))
  | pta_load lhs ref =>
    refine process_constraint_terminates _ op
      (fun st => ∀ (v : vname) (a : Nat), a ∈ st.get_address_set v → a ≤ s.max_address)
      s.max_address ?_ (fun st hst => hst) fuel hf s (le_max_address s) hd
    intro st dst l o hst hw
    simp only [deref_ok, Option.isSome_iff_exists] at hd
    obtain ⟨⟨v, key⟩, hd⟩ := hd
    obtain ⟨a, _, _, hl⟩ := (writes_load _ _ _ _ _ v key hd).mp hw
    exact bound_add_info st _ dst l o op hst (fun x hx => hst _ x (hl ▸ hx))

end pta_system

namespace interval

theorem rank_le_three (x : interval) : x.rank ≤ 3 := by
  unfold rank
  split
  · omega
  · split <;> split <;> omega

theorem rank_of_bottom {x : interval} (h : x.is_bottom = true) : x.rank = 0 := by
  simp [rank, h]

theorem rank_pos {x : interval} (h : x.is_bottom = false) : 0 < x.rank := by
  simp only [rank, h, Bool.false_eq_true, if_false]
  omega

theorem eq_minus_infinity_of_le {a b : bound} (h : a ≤ b) (hb : b = bound.minus_infinity) :
    a = bound.minus_infinity := by
  subst hb
  exact le_antisymm h (bound.minus_infinity_le a)

theorem eq_plus_infinity_of_le {a b : bound} (h : a ≤ b) (ha : a = bound.plus_infinity) :
    b = bound.plus_infinity := by
  subst ha
  exact le_antisymm (bound.le_plus_infinity b) h

theorem rank_mono {x z : interval} (hx : x.is_bottom = false) (hz : z.is_bottom = false)
    (hl : z.lb ≤ x.lb) (hu : x.ub ≤ z.ub) : x.rank ≤ z.rank := by
  simp only [rank, hx, hz, Bool.false_eq_true, if_false]
  have h1 : x.lb = bound.minus_infinity → z.lb = bound.minus_infinity :=
    eq_minus_infinity_of_le hl
  have h2 : x.ub = bound.plus_infinity → z.ub = bound.plus_infinity :=
    eq_plus_infinity_of_le hu
  by_cases e1 : x.lb = bound.minus_infinity <;> by_cases e2 : x.ub = bound.plus_infinity
  · simp [e1, e2, h1 e1, h2 e2]
  · simp only [e1, h1 e1, e2, if_true, if_false]
    split <;> omega
  · simp only [e1, e2, h2 e2, if_true, if_false]
    split <;> omega
  · simp only [e1, e2, if_false]
    split <;> split <;> omega

theorem rank_strict {x z : interval} (hx : x.is_bottom = false) (hz : z.is_bottom = false)
    (hl : z.lb ≤ x.lb) (hu : x.ub ≤ z.ub)
    (h : (x.lb ≠ bound.minus_infinity ∧ z.lb = bound.minus_infinity) ∨
      (x.ub ≠ bound.plus_infinity ∧ z.ub = bound.plus_infinity)) : x.rank < z.rank := by
  simp only [rank, hx, hz, Bool.false_eq_true, if_false]
  have h1 : x.lb = bound.minus_infinity → z.lb = bound.minus_infinity :=
    eq_minus_infinity_of_le hl
  have h2 : x.ub = bound.plus_infinity → z.ub = bound.plus_infinity :=
    eq_plus_infinity_of_le hu
  rcases h with ⟨e1, e1'⟩ | ⟨e2, e2'⟩
  · by_cases e2 : x.ub = bound.plus_infinity
    · simp [e1, e1', e2, h2 e2]
    · simp only [e1, e1', e2, if_true, if_false]
      split <;> omega
  · by_cases e1 : x.lb = bound.minus_infinity
    · simp [e1, h1 e1, e2, e2']
    · simp only [e1, e2, e2', if_true, if_false]
      split <;> omega

theorem rank_le_join (x y : interval) : x.rank ≤ (x.join y).rank := by
  cases hx : x.is_bottom
  · cases hy : y.is_bottom
    · refine rank_mono hx (join_not_bottom hx hy) ?_ ?_
      · rw [join_eq hx hy]; exact min_le_left _ _
      · rw [join_eq hx hy]; exact le_max_left _ _
    · simp [join, hx, hy]
  · rw [rank_of_bottom hx]
    exact Nat.zero_le _

theorem widening_eq {x y : interval} (hx : x.is_bottom = false) (hy : y.is_bottom = false) :
    x.widening y =
      ⟨if y.lb < x.lb then bound.minus_infinity else x.lb,
       if x.ub < y.ub then bound.plus_infinity else x.ub⟩ := by
  have h1 : (if y.lb < x.lb then bound.minus_infinity else x.lb) ≤ x.lb := by
    split
    · exact bound.minus_infinity_le _
    · exact le_refl _
  have h2 : x.ub ≤ (if x.ub < y.ub then bound.plus_infinity else x.ub) := by
    split
    · exact bound.le_plus_infinity _
    · exact le_refl _
  have h := le_trans h1 (le_trans (is_bottom_false_iff.mp hx) h2)
  simp only [widening, hx, hy, Bool.false_eq_true, if_false, bound.ltb_iff]
  exact mk_interval_of_le h

theorem widening_not_bottom {x y : interval} (hx : x.is_bottom = false)
    (hy : y.is_bottom = false) : (x.widening y).is_bottom = false := by
  rw [widening_eq hx hy, is_bottom_false_iff]
  simp only
  refine le_trans ?_ (le_trans (is_bottom_false_iff.mp hx) ?_)
  · split
    · exact bound.minus_infinity_le _
    · exact le_refl _
  · split
    · exact bound.le_plus_infinity _
    · exact le_refl _

theorem widening_lb_le {x y : interval} (hx : x.is_bottom = false) (hy : y.is_bottom = false) :
    (x.widening y).lb ≤ x.lb := by
  rw [widening_eq hx hy]
  simp only
  split
  · exact bound.minus_infinity_le _
  · exact le_refl _

theorem le_widening_ub {x y : interval} (hx : x.is_bottom = false) (hy : y.is_bottom = false) :
    x.ub ≤ (x.widening y).ub := by
  rw [widening_eq hx hy]
  simp only
  split
  · exact bound.le_plus_infinity _
  · exact le_refl _

theorem rank_le_widening (x y : interval) : x.rank ≤ (x.widening y).rank := by
  cases hx : x.is_bottom
  · cases hy : y.is_bottom
    · exact rank_mono hx (widening_not_bottom hx hy) (widening_lb_le hx hy)
        (le_widening_ub hx hy)
    · simp [widening, hx, hy]
  · rw [rank_of_bottom hx]
    exact Nat.zero_le _

theorem rank_lt_widening (x y : interval) (h : y.leq x = false) :
    x.rank < (x.widening y).rank := by
  have hy : y.is_bottom = false := by
    cases hy : y.is_bottom
    · rfl
    · simp [leq, hy] at h
  cases hx : x.is_bottom
  · refine rank_strict hx (widening_not_bottom hx hy) (widening_lb_le hx hy)
      (le_widening_ub hx hy) ?_
    have hn : ¬ (x.lb ≤ y.lb ∧ y.ub ≤ x.ub) := by
      intro hc
      rw [(leq_iff hy hx).mpr hc] at h
      cases h
    rw [widening_eq hx hy]
    simp only
    by_cases h1 : y.lb < x.lb
    · left
      refine ⟨?_, by simp [h1]⟩
      intro e
      rw [e] at h1
      exact bound.not_lt_minus_infinity _ h1
    · right
      have h2 : x.ub < y.ub := by
        by_contra h2
        exact hn ⟨not_lt.mp h1, not_lt.mp h2⟩
      refine ⟨?_, by simp [h2]⟩
      intro e
      rw [e] at h2
      exact bound.not_plus_infinity_lt _ h2
  · rw [rank_of_bottom hx]
    have : x.widening y = y := by simp [widening, hx]
    rw [this]
    exact rank_pos hy

end interval

namespace binary_op

theorem rank_le_apply_extrapolate (W : Nat) (off o : interval) (it : Nat) :
    off.rank ≤ ((extrapolate W).apply off o it).rank := by
  simp only [apply]
  split
  · exact interval.rank_le_join off o
  · exact interval.rank_le_widening off o

theorem rank_lt_apply_extrapolate (W : Nat) (off o : interval) (it : Nat) (hw : ¬ it < W)
    (h : (extrapolate W).convergence_achieved off o = false) :
    off.rank < ((extrapolate W).apply off o it).rank := by
  simp only [apply, hw, if_false]
  exact interval.rank_lt_widening off o h

end binary_op

namespace address_set

theorem mem_insert_all (ptrs addrs : List Nat) (x : Nat) :
    x ∈ insert_all ptrs addrs ↔ x ∈ addrs ∨ x ∈ ptrs := by
  unfold insert_all
  induction ptrs generalizing addrs with
  | nil => simp
  | cons a l ih =>
    rw [List.foldl_cons, ih, mem_insert]
    simp only [List.mem_cons]
    tauto

end address_set

namespace pta_system

theorem mem_process_ref_loop (s : pta_system) (str : index_t → vname) (fptrs : address_set)
    (acc : pta_info) (x : index_t) :
    x ∈ (process_ref_loop s str fptrs acc).1 ↔
      x ∈ acc.1 ∨ ∃ f ∈ fptrs, x ∈ s.get_address_set (str f) := by
  induction fptrs generalizing acc with
  | nil =>
    simp [process_ref_loop]
  | cons f fptrs ih =>
    obtain ⟨addrs, offset⟩ := acc
    simp only [process_ref_loop]
    rw [ih, address_set.mem_insert_all]
    simp only [List.mem_cons, exists_eq_or_imp]
    tauto

/-- The addresses of a reference are in the universe. -/
theorem process_ref_within (U : Finset Nat) (s : pta_system) (ref : pta_ref)
    (hs : within U s) (hc : ∀ a ∈ ref_constants ref, a ∈ U) :
    ∀ x ∈ (s.process_ref ref).1, x ∈ U := by
  intro x hx
  cases ref with
  | pointer_ref p o => exact hs _ x hx
  | object_ref a o =>
    simp only [process_ref, address_set.insert, List.mem_singleton] at hx
    exact hc x (by simp [ref_constants, hx])
  | function_ref f =>
    simp only [process_ref, address_set.insert, List.mem_singleton] at hx
    exact hc x (by simp [ref_constants, hx])
  | param_ref fptr k =>
    simp only [process_ref] at hx
    rcases (mem_process_ref_loop _ _ _ _ _).mp hx with h | ⟨f, _, h⟩
    · simp at h
    · exact hs _ x h
  | return_ref fptr =>
    simp only [process_ref] at hx
    rcases (mem_process_ref_loop _ _ _ _ _).mp hx with h | ⟨f, _, h⟩
    · simp at h
    · exact hs _ x h

theorem mem_keys (csts : List pta_constraint) (U : Finset Nat) (cst : pta_constraint)
    (hc : cst ∈ csts) (v : vname) (hv : v ∈ written U cst) : v ∈ keys csts U := by
  unfold keys
  rw [Finset.mem_biUnion]
  exact ⟨cst, List.mem_toFinset.mpr hc, hv⟩

/-- What a constraint passes to `add_address_set` is a bound name and a set
of addresses of the universe. -/
theorem writes_within (U : Finset Nat) (csts : List pta_constraint)
    (cst : pta_constraint) (hc : cst ∈ csts) (hU : ∀ a ∈ cst_constants cst, a ∈ U)
    (st : pta_system) (hs : within U st) (dst : vname) (l : address_set)
    (hw : writes st cst dst l) : (∀ a ∈ l, a ∈ U) ∧ dst ∈ keys csts U := by
  cases cst with
  | pta_assign lhs rhs =>
    obtain ⟨h1, h2⟩ := hw
    subst h1 h2
    refine ⟨process_ref_within U st rhs hs hU, mem_keys csts U _ hc _ ?_⟩
    simp [written]
  | pta_store ref rhs =>
    cases hd : ref.deref with
    | none => simp [writes, hd] at hw
    | some vk =>
      obtain ⟨v, key⟩ := vk
      obtain ⟨a, ha, h1, h2⟩ := (writes_store _ _ _ _ _ v key hd).mp hw
      subst h1 h2
      refine ⟨fun x hx => hs _ x hx, mem_keys csts U _ hc _ ?_⟩
      simp only [written, hd, Finset.mem_image]
      exact ⟨a, hs _ a ha, rfl⟩
  | pta_load lhs ref =>
    cases hd : ref.deref with
    | none => simp [writes, hd] at hw
    | some vk =>
      obtain ⟨v, key⟩ := vk
      obtain ⟨a, ha, h1, h2⟩ := (writes_load _ _ _ _ _ v key hd).mp hw
      subst h1 h2
      refine ⟨fun x hx => hs _ x hx, mem_keys csts U _ hc _ ?_⟩
      simp [written]

theorem within_add_info (U : Finset Nat) (st : pta_system) (dst : vname)
    (l : address_set) (o : interval) (op : binary_op) (hs : within U st)
    (hl : ∀ a ∈ l, a ∈ U) : within U (st.add_info dst l o op) := by
  intro v a ha
  rcases (mem_add_info st dst l o op v a).mp ha with h | h
  · exact hs v a h
  · exact hl a h.2

theorem grows_refl (K : Finset vname) (W : Nat) (s : pta_system) : grows K W s s := by
  refine ⟨fun v => le_refl _, fun h => h, ?_⟩
  intro _ h1 h2
  rw [h1] at h2
  cases h2

theorem grows_trans (K : Finset vname) (W : Nat) (s s' s'' : pta_system)
    (hi : s'.iteration = s.iteration) (h1 : grows K W s s') (h2 : grows K W s' s'') :
    grows K W s s'' := by
  refine ⟨fun v => le_trans (h1.1 v) (h2.1 v), fun h => h2.2.1 (h1.2.1 h), ?_⟩
  intro hw hs hs''
  cases hc : s'.change_seen
  · obtain ⟨v, hv, hlt⟩ := h2.2.2 (by rw [hi]; exact hw) hc hs''
    exact ⟨v, hv, lt_of_le_of_lt (h1.1 v) hlt⟩
  · obtain ⟨v, hv, hlt⟩ := h1.2.2 hw hs hc
    exact ⟨v, hv, lt_of_lt_of_le hlt (h2.1 v)⟩

theorem toFinset_get_address_set_add_info (st : pta_system) (dst : vname) (l : address_set)
    (o : interval) (op : binary_op) (v : vname) :
    (st.get_address_set v).toFinset ⊆ ((st.add_info dst l o op).get_address_set v).toFinset := by
  intro x hx
  rw [List.mem_toFinset] at hx ⊢
  exact (mem_add_info st dst l o op v x).mpr (Or.inl hx)

theorem potential_at_add_info_le (W : Nat) (st : pta_system) (dst : vname) (l : address_set)
    (o : interval) (v : vname) :
    potential_at st v ≤ potential_at (st.add_info dst l o (binary_op.extrapolate W)) v := by
  unfold potential_at
  refine Nat.add_le_add (Finset.card_le_card (toFinset_get_address_set_add_info _ _ _ _ _ _)) ?_
  rw [get_offset_add_info]
  split
  · rename_i h
    rw [h.1]
    exact binary_op.rank_le_apply_extrapolate W _ _ _
  · exact le_refl _

/-- A pair of calls of the extrapolation pass makes the state grow. -/
theorem grows_add_info (K : Finset vname) (W : Nat) (st : pta_system) (dst : vname)
    (l : address_set) (o : interval) (hd : dst ∈ K) :
    grows K W st (st.add_info dst l o (binary_op.extrapolate W)) := by
  refine ⟨potential_at_add_info_le W st dst l o, change_seen_add_info_mono st dst l o _, ?_⟩
  intro hw hcs hcs'
  refine ⟨dst, hd, ?_⟩
  rw [change_seen_add_info, hcs] at hcs'
  simp only [Bool.false_or, Bool.or_eq_true, decide_eq_true_eq, Bool.not_eq_true'] at hcs'
  unfold potential_at
  rcases hcs' with ⟨x, hx, hnx⟩ | hconv
  · refine Nat.add_lt_add_of_lt_of_le (Finset.card_lt_card ?_) ?_
    · rw [Finset.ssubset_iff_of_subset (toFinset_get_address_set_add_info _ _ _ _ _ _)]
      refine ⟨x, ?_, ?_⟩
      · rw [List.mem_toFinset]
        exact (mem_add_info st dst l o _ dst x).mpr (Or.inr ⟨rfl, hx⟩)
      · rw [List.mem_toFinset]
        exact hnx
    · rw [get_offset_add_info]
      split
      · exact binary_op.rank_le_apply_extrapolate W _ _ _
      · exact le_refl _
  · refine Nat.add_lt_add_of_le_of_lt
      (Finset.card_le_card (toFinset_get_address_set_add_info _ _ _ _ _ _)) ?_
    rw [get_offset_add_info, if_pos ⟨rfl, hconv⟩]
    exact binary_op.rank_lt_apply_extrapolate W _ _ _ hw hconv

end pta_system

namespace pta_system

/-- An invariant kept by every constraint of the list holds after the loop of
`step`. -/
theorem step_loop_induction (op : binary_op) (Inv : pta_system → Prop) (fuel : Nat)
    (csts : List pta_constraint)
    (hcst : ∀ cst ∈ csts, ∀ s s', Inv s → process_constraint fuel cst op s = Except.ok s' →
      Inv s') :
    ∀ s s', Inv s → step_loop fuel op csts s = Except.ok s' → Inv s' := by
  induction csts with
  | nil =>
    intro s s' hs h
    simp only [step_loop, Except.ok.injEq] at h
    exact h ▸ hs
  | cons cst csts ih =>
    intro s s' hs h
    simp only [step_loop] at h
    cases hp : process_constraint fuel cst op s with
    | error e => rw [hp] at h; cases h
    | ok s1 =>
      rw [hp] at h
      exact ih (fun c hc => hcst c (List.mem_cons_of_mem _ hc)) s1 s'
        (hcst cst (List.mem_cons_self _ _) s s1 hs hp) h

/-- The loop of `step` does not use up the fuel when no constraint does. -/
theorem step_loop_terminates (op : binary_op) (Inv : pta_system → Prop) (fuel : Nat)
    (csts : List pta_constraint)
    (hcst : ∀ cst ∈ csts, ∀ s s', Inv s → process_constraint fuel cst op s = Except.ok s' →
      Inv s')
    (hterm : ∀ cst ∈ csts, ∀ s, Inv s → deref_ok cst = true →
      ∃ s', process_constraint fuel cst op s = Except.ok s') :
    ∀ s, Inv s →
      step_loop fuel op csts s ≠ Except.error pta_error.out_of_fuel ∧
      (deref_free csts = true → ∃ s', step_loop fuel op csts s = Except.ok s') := by
  induction csts with
  | nil =>
    intro s _
    exact ⟨by simp [step_loop], fun _ => ⟨s, rfl⟩⟩
  | cons cst csts ih =>
    intro s hs
    simp only [step_loop]
    cases hd : deref_ok cst
    · obtain ⟨msg, he⟩ := process_constraint_deref_error cst op fuel s hd
      rw [he]
      refine ⟨by simp, ?_⟩
      intro hf
      simp [deref_free, hd] at hf
    · obtain ⟨s1, h1⟩ := hterm cst (List.mem_cons_self _ _) s hs hd
      rw [h1]
      have := ih (fun c hc => hcst c (List.mem_cons_of_mem _ hc))
        (fun c hc => hterm c (List.mem_cons_of_mem _ hc)) s1
        (hcst cst (List.mem_cons_self _ _) s s1 hs h1)
      refine ⟨this.1, ?_⟩
      intro hf
      apply this.2
      simp only [deref_free, List.all_cons, Bool.and_eq_true] at hf
      exact hf.2

theorem potential_at_le (U : Finset Nat) (s : pta_system) (hs : within U s) (v : vname) :
    potential_at s v ≤ U.card + 3 := by
  unfold potential_at
  refine Nat.add_le_add (Finset.card_le_card ?_) (interval.rank_le_three _)
  intro x hx
  rw [List.mem_toFinset] at hx
  exact hs v x hx

theorem potential_le (U : Finset Nat) (K : Finset vname) (s : pta_system)
    (hs : within U s) : potential K s ≤ K.card * (U.card + 3) := by
  unfold potential
  have := Finset.sum_le_card_nsmul K (potential_at s) (U.card + 3)
    (fun v _ => potential_at_le U s hs v)
  simpa using this

theorem within_address_universe (s : pta_system) : within s.address_universe s := by
  intro v a ha
  unfold address_universe
  rw [List.mem_toFinset, List.mem_append]
  right
  unfold get_address_set at ha
  cases hf : map_find v s._address_map with
  | none => rw [hf] at ha; simp at ha
  | some x =>
    rw [hf] at ha
    exact List.mem_flatMap.mpr ⟨(v, x), map_find_mem v x _ hf, ha⟩

theorem constants_address_universe (s : pta_system) (cst : pta_constraint)
    (hc : cst ∈ s._csts) : ∀ a ∈ cst_constants cst, a ∈ s.address_universe := by
  intro a ha
  unfold address_universe
  rw [List.mem_toFinset, List.mem_append]
  left
  exact List.mem_flatMap.mpr ⟨cst, hc, ha⟩

theorem le_sup_of_within (U : Finset Nat) (s : pta_system) (hs : within U s) (v : vname)
    (a : Nat) (ha : a ∈ s.get_address_set v) : a ≤ U.sup id :=
  Finset.le_sup (f := id) (hs v a ha)

/-- The invariant of a pass with the extrapolation operator that starts in
the state `s0`. -/
theorem extrapolate_pass_inv (csts : List pta_constraint) (U : Finset Nat) (W : Nat)
    (hU : ∀ cst ∈ csts, ∀ a ∈ cst_constants cst, a ∈ U) (s0 : pta_system) (cst : pta_constraint)
    (hc : cst ∈ csts) (st : pta_system) (dst : vname) (l : address_set) (o : interval)
    (hst : st._csts = s0._csts ∧ st.iteration = s0.iteration ∧ within U st ∧
      grows (keys csts U) W s0 st)
    (hw : writes st cst dst l) :
    (st.add_info dst l o (binary_op.extrapolate W))._csts = s0._csts ∧
    (st.add_info dst l o (binary_op.extrapolate W)).iteration = s0.iteration ∧
    within U (st.add_info dst l o (binary_op.extrapolate W)) ∧
    grows (keys csts U) W s0 (st.add_info dst l o (binary_op.extrapolate W)) := by
  obtain ⟨h1, h2, h3, h4⟩ := hst
  obtain ⟨hl, hk⟩ := writes_within U csts cst hc (hU cst hc) st h3 dst l hw
  refine ⟨by rw [csts_add_info, h1], by rw [iteration_add_info, h2],
    within_add_info U st dst l o _ h3 hl, ?_⟩
  exact grows_trans _ W s0 st _ h2 h4 (grows_add_info _ W st dst l o hk)

end pta_system

namespace pta_system

/-- One pass of the extrapolation loop: it does not use up the fuel, keeps
the constraints and the universe, and makes the potential grow, strictly when
it widens and sees a change. -/
theorem extrapolate_pass (s : pta_system) (U : Finset Nat) (W fuel i : Nat)
    (hU : ∀ cst ∈ s._csts, ∀ a ∈ cst_constants cst, a ∈ U) (hs : within U s)
    (hf : U.sup id < fuel) :
    step fuel (binary_op.extrapolate W) { s with iteration := i, change_seen := false } ≠
        Except.error pta_error.out_of_fuel ∧
    (deref_free s._csts = true → ∃ s',
      step fuel (binary_op.extrapolate W) { s with iteration := i, change_seen := false } =
        Except.ok s') ∧
    ∀ s', step fuel (binary_op.extrapolate W) { s with iteration := i, change_seen := false } =
        Except.ok s' →
      s'._csts = s._csts ∧ s'.iteration = i ∧ within U s' ∧
      potential (keys s._csts U) s ≤ potential (keys s._csts U) s' ∧
      (¬ i < W → s'.change_seen = true →
        potential (keys s._csts U) s < potential (keys s._csts U) s') := by
  have hinv : ∀ cst ∈ s._csts, ∀ st st',
      (st._csts = s._csts ∧ st.iteration = i ∧ within U st ∧
        grows (keys s._csts U) W { s with iteration := i, change_seen := false } st) →
      process_constraint fuel cst (binary_op.extrapolate W) st = Except.ok st' →
      (st'._csts = s._csts ∧ st'.iteration = i ∧ within U st' ∧
        grows (keys s._csts U) W { s with iteration := i, change_seen := false } st') := by
    intro cst hc st st' hst h
    exact process_constraint_induction cst _ _
      (fun st dst l o hst hw =>
        extrapolate_pass_inv s._csts U W hU { s with iteration := i, change_seen := false }
          cst hc st dst l o hst hw)
      fuel st st' hst h
  have hterm : ∀ cst ∈ s._csts, ∀ st,
      (st._csts = s._csts ∧ st.iteration = i ∧ within U st ∧
        grows (keys s._csts U) W { s with iteration := i, change_seen := false } st) →
      deref_ok cst = true →
      ∃ st', process_constraint fuel cst (binary_op.extrapolate W) st = Except.ok st' := by
    intro cst hc st hst hd
    exact process_constraint_terminates cst _ _ (U.sup id)
      (fun st dst l o hst hw =>
        extrapolate_pass_inv s._csts U W hU { s with iteration := i, change_seen := false }
          cst hc st dst l o hst hw)
      (fun st hst v a ha => le_sup_of_within U st hst.2.2.1 v a ha) fuel hf st hst hd
  have h0 : ({ s with iteration := i, change_seen := false } : pta_system)._csts = s._csts ∧
      ({ s with iteration := i, change_seen := false } : pta_system).iteration = i ∧
      within U { s with iteration := i, change_seen := false } ∧
      grows (keys s._csts U) W { s with iteration := i, change_seen := false }
        { s with iteration := i, change_seen := false } :=
    ⟨rfl, rfl, hs, grows_refl _ _ _⟩
  have ht := step_loop_terminates _ _ fuel s._csts hinv hterm _ h0
  refine ⟨ht.1, ht.2, ?_⟩
  intro s' h
  obtain ⟨h1, h2, h3, h4⟩ := step_loop_induction _ _ fuel s._csts hinv _ s' h0 h
  refine ⟨h1, h2, h3, ?_, ?_⟩
  · exact Finset.sum_le_sum (fun v _ => h4.1 v)
  · intro hw hcs
    obtain ⟨v, hv, hlt⟩ := h4.2.2 hw rfl hcs
    exact Finset.sum_lt_sum (fun v _ => h4.1 v) ⟨v, hv, hlt⟩

theorem passes_to_widening_le (W i : Nat) : passes_to_widening W i ≤ W := by
  unfold passes_to_widening
  split <;> omega

theorem passes_to_widening_succ (W i : Nat) (hW : W < size_t_modulus)
    (h : (i + 1) % size_t_modulus < W) :
    passes_to_widening W ((i + 1) % size_t_modulus) + 1 = passes_to_widening W i := by
  unfold passes_to_widening
  rw [if_pos h]
  have e : ((i + 1) % size_t_modulus + 1) % size_t_modulus = (i + 1) % size_t_modulus + 1 :=
    Nat.mod_eq_of_lt (by omega)
  rw [e]
  split <;> omega

/-- The extrapolation loop does not use up its passes when their number is
above a bound computed from the potential that is left. -/
theorem extrapolate_loop_terminates (csts : List pta_constraint) (U : Finset Nat)
    (W fuel : Nat) (hW : W < size_t_modulus)
    (hU : ∀ cst ∈ csts, ∀ a ∈ cst_constants cst, a ∈ U) (hf : U.sup id < fuel) :
    ∀ (n : Nat) (s : pta_system), s._csts = csts → within U s →
      ((keys csts U).card * (U.card + 3) - potential (keys csts U) s) * (W + 1) +
        passes_to_widening W s.iteration + 1 ≤ n →
      extrapolate_loop fuel W n s ≠ Except.error pta_error.out_of_fuel ∧
      (deref_free csts = true → ∃ s', extrapolate_loop fuel W n s = Except.ok s') := by
  intro n
  induction n with
  | zero =>
    intro s _ _ hn
    omega
  | succ n ih =>
    intro s hc hs hn
    subst hc
    obtain ⟨h1, h2, h3⟩ := extrapolate_pass s U W fuel ((s.iteration + 1) % size_t_modulus)
      hU hs hf
    simp only [extrapolate_loop]
    cases hstep : step fuel (binary_op.extrapolate W)
        { s with iteration := (s.iteration + 1) % size_t_modulus, change_seen := false } with
    | error e =>
      rw [hstep] at h1 h2
      refine ⟨h1, ?_⟩
      intro hd
      obtain ⟨s', hs'⟩ := h2 hd
      cases hs'
    | ok s' =>
      obtain ⟨hc', hi', hw', hle, hlt⟩ := h3 s' hstep
      simp only
      cases hcs : s'.change_seen
      · simp only [Bool.false_eq_true, if_false]
        exact ⟨by simp, fun _ => ⟨s', rfl⟩⟩
      · simp only [if_true]
        refine ih s' hc' hw' ?_
        have hB := potential_le U (keys s._csts U) s' hw'
        by_cases hjoin : (s.iteration + 1) % size_t_modulus < W
        · have hd := passes_to_widening_succ W s.iteration hW hjoin
          rw [hi']
          have hmul := Nat.mul_le_mul_right (W + 1)
            (Nat.sub_le_sub_left hle ((keys s._csts U).card * (U.card + 3)))
          omega
        · have hlt' := hlt hjoin hcs
          have hd0 : passes_to_widening W s.iteration = 0 := by
            unfold passes_to_widening
            rw [if_neg hjoin]
          have hd1 := passes_to_widening_le W s'.iteration
          have hx : (keys s._csts U).card * (U.card + 3) - potential (keys s._csts U) s' + 1 ≤
              (keys s._csts U).card * (U.card + 3) - potential (keys s._csts U) s := by
            omega
          have hmul := Nat.mul_le_mul_right (W + 1) hx
          rw [Nat.succ_mul] at hmul
          omega

end pta_system

namespace pta_system

/-- What every pass keeps, whatever the operator: the constraints, the
counter, the universe of the addresses and the order of the address sets. -/
theorem step_frame (s : pta_system) (U : Finset Nat) (op : binary_op) (fuel : Nat)
    (hU : ∀ cst ∈ s._csts, ∀ a ∈ cst_constants cst, a ∈ U) (hs : within U s)
    (hf : U.sup id < fuel) :
    step fuel op s ≠ Except.error pta_error.out_of_fuel ∧
    (deref_free s._csts = true → ∃ s', step fuel op s = Except.ok s') ∧
    ∀ s', step fuel op s = Except.ok s' →
      s'._csts = s._csts ∧ s'.iteration = s.iteration ∧ within U s' ∧
      (s.sorted → s'.sorted) ∧ (s.change_seen = true → s'.change_seen = true) := by
  have hinfo : ∀ cst ∈ s._csts, ∀ st dst l o,
      (st._csts = s._csts ∧ st.iteration = s.iteration ∧ within U st ∧
        (s.sorted → st.sorted) ∧ (s.change_seen = true → st.change_seen = true)) →
      writes st cst dst l →
      ((st.add_info dst l o op)._csts = s._csts ∧
        (st.add_info dst l o op).iteration = s.iteration ∧
        within U (st.add_info dst l o op) ∧
        (s.sorted → (st.add_info dst l o op).sorted) ∧
        (s.change_seen = true → (st.add_info dst l o op).change_seen = true)) := by
    intro cst hc st dst l o hst hw
    obtain ⟨h1, h2, h3, h4, h5⟩ := hst
    obtain ⟨hl, _⟩ := writes_within U s._csts cst hc (hU cst hc) st h3 dst l hw
    exact ⟨by rw [csts_add_info, h1], by rw [iteration_add_info, h2],
      within_add_info U st dst l o _ h3 hl, fun h => sorted_add_info st dst l o op (h4 h),
      fun h => change_seen_add_info_mono st dst l o op (h5 h)⟩
  have hinv : ∀ cst ∈ s._csts, ∀ st st',
      (st._csts = s._csts ∧ st.iteration = s.iteration ∧ within U st ∧
        (s.sorted → st.sorted) ∧ (s.change_seen = true → st.change_seen = true)) →
      process_constraint fuel cst op st = Except.ok st' →
      (st'._csts = s._csts ∧ st'.iteration = s.iteration ∧ within U st' ∧
        (s.sorted → st'.sorted) ∧ (s.change_seen = true → st'.change_seen = true)) := by
    intro cst hc st st' hst h
    exact process_constraint_induction cst _ _ (hinfo cst hc) fuel st st' hst h
  have hterm : ∀ cst ∈ s._csts, ∀ st,
      (st._csts = s._csts ∧ st.iteration = s.iteration ∧ within U st ∧
        (s.sorted → st.sorted) ∧ (s.change_seen = true → st.change_seen = true)) →
      deref_ok cst = true →
      ∃ st', process_constraint fuel cst op st = Except.ok st' := by
    intro cst hc st hst hd
    exact process_constraint_terminates cst _ _ (U.sup id) (hinfo cst hc)
      (fun st hst v a ha => le_sup_of_within U st hst.2.2.1 v a ha) fuel hf st hst hd
  have h0 : s._csts = s._csts ∧ s.iteration = s.iteration ∧ within U s ∧
      (s.sorted → s.sorted) ∧ (s.change_seen = true → s.change_seen = true) :=
    ⟨rfl, rfl, hs, fun h => h, fun h => h⟩
  have ht := step_loop_terminates _ _ fuel s._csts hinv hterm _ h0
  exact ⟨ht.1, ht.2, fun s' h => step_loop_induction _ _ fuel s._csts hinv _ s' h0 h⟩

/-- An invariant of the passes holds for the state that the extrapolation
loop returns, and that state is left by a pass that has seen no change. -/
theorem extrapolate_loop_induction (fuel W : Nat) (Inv : pta_system → Prop)
    (hpass : ∀ s s', Inv s →
      step fuel (binary_op.extrapolate W)
        { s with iteration := (s.iteration + 1) % size_t_modulus, change_seen := false } =
          Except.ok s' → Inv s') :
    ∀ (n : Nat) (s s' : pta_system), Inv s → extrapolate_loop fuel W n s = Except.ok s' →
      Inv s' ∧ s'.change_seen = false ∧ ∃ s1, Inv s1 ∧
        step fuel (binary_op.extrapolate W)
          { s1 with iteration := (s1.iteration + 1) % size_t_modulus, change_seen := false } =
            Except.ok s' := by
  intro n
  induction n with
  | zero =>
    intro s s' _ h
    simp [extrapolate_loop] at h
  | succ n ih =>
    intro s s' hs h
    simp only [extrapolate_loop] at h
    cases hstep : step fuel (binary_op.extrapolate W)
        { s with iteration := (s.iteration + 1) % size_t_modulus, change_seen := false } with
    | error e => rw [hstep] at h; cases h
    | ok s2 =>
      rw [hstep] at h
      simp only at h
      cases hcs : s2.change_seen
      · rw [hcs] at h
        simp only [Bool.false_eq_true, if_false, Except.ok.injEq] at h
        subst h
        exact ⟨hpass s s2 hs hstep, hcs, s, hs, hstep⟩
      · rw [hcs] at h
        simp only [if_true] at h
        exact ih s2 s' (hpass s s2 hs hstep) h

theorem step_iteration (fuel : Nat) (op : binary_op) (s s' : pta_system)
    (h : step fuel op s = Except.ok s') : s'.iteration = s.iteration ∧ s'._csts = s._csts := by
  refine step_loop_induction op (fun st => st.iteration = s.iteration ∧ st._csts = s._csts)
    fuel s._csts ?_ s s' ⟨rfl, rfl⟩ h
  intro cst _ st st' hst hp
  refine process_constraint_induction cst op
    (fun st => st.iteration = s.iteration ∧ st._csts = s._csts) ?_ fuel st st' hst hp
  intro st dst l o hst _
  exact ⟨by rw [iteration_add_info, hst.1], by rw [csts_add_info, hst.2]⟩

/-- The refinement loop started with the counter at 0 runs exactly
`narrowing_threshold` passes. -/
theorem refine_loop_eq_passes (fuel N : Nat) (hN : N < size_t_modulus) :
    ∀ (k n : Nat) (s : pta_system), s.iteration + k = N → k < n →
      refine_loop fuel N n s = passes fuel binary_op.refine k s := by
  intro k
  induction k with
  | zero =>
    intro n s hs hn
    cases n with
    | zero => omega
    | succ n =>
      simp only [refine_loop, passes]
      rw [if_neg (by omega)]
  | succ k ih =>
    intro n s hs hn
    cases n with
    | zero => omega
    | succ n =>
      simp only [refine_loop, passes]
      rw [if_pos (by omega)]
      cases hstep : step fuel binary_op.refine s with
      | error e => rfl
      | ok s' =>
        simp only
        have hi := (step_iteration fuel _ s s' hstep).1
        refine ih n _ ?_ (by omega)
        simp only
        rw [hi, Nat.mod_eq_of_lt (by omega)]
        omega

end pta_system

namespace pta_system

/-- The passes of `passes` do not use up the fuel and keep the constraints,
the universe and the order of the address sets. -/
theorem passes_frame (U : Finset Nat) (op : binary_op) (fuel : Nat)
    (hf : U.sup id < fuel) :
    ∀ (k : Nat) (s : pta_system), (∀ cst ∈ s._csts, ∀ a ∈ cst_constants cst, a ∈ U) →
      within U s →
      passes fuel op k s ≠ Except.error pta_error.out_of_fuel ∧
      (deref_free s._csts = true → ∃ s', passes fuel op k s = Except.ok s') ∧
      ∀ s', passes fuel op k s = Except.ok s' →
        s'._csts = s._csts ∧ within U s' ∧ (s.sorted → s'.sorted) := by
  intro k
  induction k with
  | zero =>
    intro s _ hs
    refine ⟨by simp [passes], fun _ => ⟨s, rfl⟩, ?_⟩
    intro s' h
    simp only [passes, Except.ok.injEq] at h
    subst h
    exact ⟨rfl, hs, fun h => h⟩
  | succ k ih =>
    intro s hU hs
    obtain ⟨h1, h2, h3⟩ := step_frame s U op fuel hU hs hf
    simp only [passes]
    cases hstep : step fuel op s with
    | error e =>
      rw [hstep] at h1 h2
      refine ⟨h1, ?_, ?_⟩
      · intro hd
        obtain ⟨s', hs'⟩ := h2 hd
        cases hs'
      · intro s' h
        cases h
    | ok s1 =>
      obtain ⟨hc, _, hw, hso, _⟩ := h3 s1 hstep
      simp only
      have := ih { s1 with iteration := (s1.iteration + 1) % size_t_modulus }
        (by rw [show ({ s1 with iteration := (s1.iteration + 1) % size_t_modulus } :
          pta_system)._csts = s1._csts from rfl, hc]; exact hU) hw
      refine ⟨this.1, ?_, ?_⟩
      · intro hd
        exact this.2.1 (by
          rw [show ({ s1 with iteration := (s1.iteration + 1) % size_t_modulus } :
            pta_system)._csts = s1._csts from rfl, hc]
          exact hd)
      · intro s' h
        obtain ⟨g1, g2, g3⟩ := this.2.2 s' h
        exact ⟨g1.trans hc, g2, fun hh => g3 (hso hh)⟩

/-- The state that the extrapolation loop returns has the constraints, the
universe and the order of the address sets of the state it started from, and
a pass from a state with these properties has left it without a change. -/
theorem extrapolate_loop_frame (csts : List pta_constraint) (U : Finset Nat)
    (W fuel : Nat) (hU : ∀ cst ∈ csts, ∀ a ∈ cst_constants cst, a ∈ U)
    (hf : U.sup id < fuel) (n : Nat) (s s' : pta_system) (hc : s._csts = csts)
    (hs : within U s) (h : extrapolate_loop fuel W n s = Except.ok s') :
    (s'._csts = csts ∧ within U s' ∧ (s.sorted → s'.sorted)) ∧ s'.change_seen = false ∧
    ∃ s1, (s1._csts = csts ∧ within U s1 ∧ (s.sorted → s1.sorted)) ∧
      step fuel (binary_op.extrapolate W)
        { s1 with iteration := (s1.iteration + 1) % size_t_modulus, change_seen := false } =
          Except.ok s' := by
  refine extrapolate_loop_induction fuel W
    (fun st => st._csts = csts ∧ within U st ∧ (s.sorted → st.sorted)) ?_ n s s'
    ⟨hc, hs, fun h => h⟩ h
  intro st st' hst hstep
  obtain ⟨h1, h2, h3⟩ := hst
  have hf' := (step_frame
    { st with iteration := (st.iteration + 1) % size_t_modulus, change_seen := false } U _ fuel
    (by
      intro cst hcst
      have hcst' : cst ∈ st._csts := hcst
      rw [h1] at hcst'
      exact hU cst hcst')
    h2 hf).2.2 st' hstep
  exact ⟨hf'.1.trans h1, hf'.2.2.1, fun hh => hf'.2.2.2.1 (h3 hh)⟩

/-- With enough fuel `solve` does not use up the fuel; when no constraint
dereferences an object or a function, the extrapolation loop returns a state
left by a pass without change, exactly `N` refinement passes follow, and
`solve` returns a state. -/
theorem solve_total (s : pta_system) (W N : Nat) (hW : W < size_t_modulus)
    (hN : N < size_t_modulus) (fuel : Nat) (hfuel : s.enough_fuel W N ≤ fuel) :
    solve fuel s W N ≠ Except.error pta_error.out_of_fuel ∧
    (deref_free s._csts = true →
      ∃ s1 s', extrapolate_loop fuel W fuel { s with iteration := 0 } = Except.ok s1 ∧
        s1.change_seen = false ∧
        solve fuel s W N = passes fuel binary_op.refine N { s1 with iteration := 0 } ∧
        solve fuel s W N = Except.ok s') := by
  have hU : ∀ cst ∈ s._csts, ∀ a ∈ cst_constants cst, a ∈ s.address_universe :=
    constants_address_universe s
  have hs : within s.address_universe { s with iteration := 0 } := within_address_universe s
  have hB := potential_le s.address_universe (keys s._csts s.address_universe) s
    (within_address_universe s)
  have hsup : s.address_universe.sup id < fuel := by
    unfold enough_fuel at hfuel
    generalize (keys s._csts s.address_universe).card * (s.address_universe.card + 3) *
      (W + 1) = Y at hfuel
    omega
  have hd := passes_to_widening_le W 0
  have hmul := Nat.mul_le_mul_right (W + 1)
    (Nat.sub_le ((keys s._csts s.address_universe).card * (s.address_universe.card + 3))
      (potential (keys s._csts s.address_universe) s))
  have hterm := extrapolate_loop_terminates s._csts s.address_universe W fuel hW hU hsup fuel
    { s with iteration := 0 } rfl hs (by
      unfold enough_fuel at hfuel
      have e : potential (keys s._csts s.address_universe) { s with iteration := 0 } =
        potential (keys s._csts s.address_universe) s := rfl
      rw [e]
      show _ + passes_to_widening W 0 + 1 ≤ fuel
      refine Nat.le_trans (Nat.add_le_add (Nat.add_le_add hmul hd) (Nat.le_refl 1)) ?_
      generalize (keys s._csts s.address_universe).card * (s.address_universe.card + 3) *
        (W + 1) = Y at hfuel ⊢
      omega)
  unfold solve
  cases hloop : extrapolate_loop fuel W fuel { s with iteration := 0 } with
  | error e =>
    rw [hloop] at hterm
    refine ⟨hterm.1, ?_⟩
    intro hdf
    obtain ⟨s', hs'⟩ := hterm.2 hdf
    cases hs'
  | ok s1 =>
    simp only
    obtain ⟨⟨hc1, hw1, _⟩, hcs1, _⟩ := extrapolate_loop_frame s._csts s.address_universe W fuel
      hU hsup fuel { s with iteration := 0 } s1 rfl hs hloop
    have hr := refine_loop_eq_passes fuel N hN N fuel { s1 with iteration := 0 }
      (by simp) (by
        unfold enough_fuel at hfuel
        generalize (keys s._csts s.address_universe).card * (s.address_universe.card + 3) *
          (W + 1) = Y at hfuel
        omega)
    rw [hr]
    have hp := passes_frame s.address_universe binary_op.refine fuel hsup N
      { s1 with iteration := 0 } (by
        rw [show ({ s1 with iteration := 0 } : pta_system)._csts = s1._csts from rfl, hc1]
        exact hU) hw1
    refine ⟨hp.1, ?_⟩
    intro hdf
    obtain ⟨s', hs'⟩ := hp.2.1 (by
      rw [show ({ s1 with iteration := 0 } : pta_system)._csts = s1._csts from rfl, hc1]
      exact hdf)
    exact ⟨s1, s', rfl, hcs1, rfl, hs'⟩

end pta_system

namespace pta_system

theorem mem_process_ref_congr (s t : pta_system) (h : ∀ v, t.get_address_set v = s.get_address_set v)
    (ref : pta_ref) (x : index_t) :
    x ∈ (t.process_ref ref).1 ↔ x ∈ (s.process_ref ref).1 := by
  cases ref with
  | pointer_ref p o => simp only [process_ref, h]
  | object_ref a o => simp only [process_ref]
  | function_ref f => simp only [process_ref]
  | param_ref fptr k =>
    simp only [process_ref, mem_process_ref_loop, h]
  | return_ref fptr =>
    simp only [process_ref, mem_process_ref_loop, h]

/-- Whether a state solves a constraint depends on its address sets only. -/
theorem solution_congr (s t : pta_system) (h : ∀ v, t.get_address_set v = s.get_address_set v)
    (cst : pta_constraint) : solution t cst ↔ solution s cst := by
  cases cst with
  | pta_assign lhs rhs =>
    simp only [solution, h, mem_process_ref_congr s t h]
  | pta_store ref rhs =>
    simp only [solution, h]
  | pta_load lhs ref =>
    simp only [solution, h]

theorem solution_with_iteration (s : pta_system) (i : Nat) (cst : pta_constraint) :
    solution { s with iteration := i } cst ↔ solution s cst :=
  solution_congr s { s with iteration := i } (fun _ => rfl) cst

theorem step_loop_change_seen (fuel : Nat) (op : binary_op) (csts : List pta_constraint)
    (s s' : pta_system) (hs : s.change_seen = true) (h : step_loop fuel op csts s = Except.ok s') :
    s'.change_seen = true := by
  refine step_loop_induction op (fun st => st.change_seen = true) fuel csts ?_ s s' hs h
  intro cst _ st st' hst hp
  exact process_constraint_induction cst op (fun st => st.change_seen = true)
    (fun st dst l o hst _ => change_seen_add_info_mono st dst l o op hst) fuel st st' hst hp

/-- When a pass over the constraints of a state with sorted address sets
leaves `change_seen` false, the state is unchanged and solves them all. -/
theorem step_loop_no_change (fuel : Nat) (op : binary_op) (csts : List pta_constraint) :
    ∀ (s s' : pta_system), s.sorted → step_loop fuel op csts s = Except.ok s' →
      s'.change_seen = false → s' = s ∧ ∀ cst ∈ csts, solution s cst := by
  induction csts with
  | nil =>
    intro s s' _ h _
    simp only [step_loop, Except.ok.injEq] at h
    exact ⟨h.symm, by simp⟩
  | cons cst csts ih =>
    intro s s' hso h hcs
    simp only [step_loop] at h
    cases hp : process_constraint fuel cst op s with
    | error e => rw [hp] at h; cases h
    | ok s1 =>
      rw [hp] at h
      simp only at h
      have hcs1 : s1.change_seen = false := by
        cases hc : s1.change_seen
        · rfl
        · have := step_loop_change_seen fuel op csts s1 s' hc h
          rw [hcs] at this
          cases this
      obtain ⟨e1, hsol⟩ := process_constraint_no_change cst op fuel s s1 hso hp hcs1
      subst e1
      obtain ⟨e2, hrest⟩ := ih s1 s' hso h hcs
      refine ⟨e2, ?_⟩
      intro c hc
      rcases List.mem_cons.mp hc with hc | hc
      · rw [hc]; exact hsol
      · exact hrest c hc

/-- Processing a constraint that the state solves leaves the address sets
as they are, whatever the operator. -/
theorem process_constraint_stable (cst : pta_constraint) (op : binary_op) (fuel : Nat)
    (s s' : pta_system) (hsol : solution s cst)
    (h : process_constraint fuel cst op s = Except.ok s') :
    ∀ v, s'.get_address_set v = s.get_address_set v := by
  refine process_constraint_induction cst op
    (fun st => ∀ v, st.get_address_set v = s.get_address_set v) ?_ fuel s s' (fun _ => rfl) h
  intro st dst l o hst hw v
  rw [get_address_set_add_info_of_subset st dst l o op ?_ v]
  · exact hst v
  · have hsol' : solution st cst := (solution_congr s st hst cst).mpr hsol
    cases cst with
    | pta_assign lhs rhs =>
      obtain ⟨h1, h2⟩ := hw
      subst h1 h2
      exact hsol'
    | pta_store ref rhs =>
      cases hd : ref.deref with
      | none => simp [writes, hd] at hw
      | some vk =>
        obtain ⟨v', key⟩ := vk
        obtain ⟨a, ha, h1, h2⟩ := (writes_store _ _ _ _ _ v' key hd).mp hw
        subst h1 h2
        simp only [solution, hd] at hsol'
        exact hsol' a ha
    | pta_load lhs ref =>
      cases hd : ref.deref with
      | none => simp [writes, hd] at hw
      | some vk =>
        obtain ⟨v', key⟩ := vk
        obtain ⟨a, ha, h1, h2⟩ := (writes_load _ _ _ _ _ v' key hd).mp hw
        subst h1 h2
        simp only [solution, hd] at hsol'
        exact hsol' a ha

/-- A pass over constraints that the state solves leaves the address sets as
they are, whatever the operator. -/
theorem step_loop_stable (fuel : Nat) (op : binary_op) (csts : List pta_constraint) :
    ∀ (s s' : pta_system), (∀ cst ∈ csts, solution s cst) →
      step_loop fuel op csts s = Except.ok s' →
      ∀ v, s'.get_address_set v = s.get_address_set v := by
  induction csts with
  | nil =>
    intro s s' _ h v
    simp only [step_loop, Except.ok.injEq] at h
    rw [h]
  | cons cst csts ih =>
    intro s s' hsol h v
    simp only [step_loop] at h
    cases hp : process_constraint fuel cst op s with
    | error e => rw [hp] at h; cases h
    | ok s1 =>
      rw [hp] at h
      simp only at h
      have h1 := process_constraint_stable cst op fuel s s1 (hsol cst (List.mem_cons_self _ _)) hp
      have h2 := ih s1 s'
        (fun c hc => (solution_congr s s1 h1 c).mpr (hsol c (List.mem_cons_of_mem _ hc))) h
      rw [h2 v, h1 v]

theorem step_sorted (fuel : Nat) (op : binary_op) (s s' : pta_system) (hs : s.sorted)
    (h : step fuel op s = Except.ok s') : s'.sorted := by
  refine step_loop_induction op (fun st => st.sorted) fuel s._csts ?_ s s' hs h
  intro cst _ st st' hst hp
  exact process_constraint_induction cst op (fun st => st.sorted)
    (fun st dst l o hst _ => sorted_add_info st dst l o op hst) fuel st st' hst hp

/-- An invariant of the refinement passes holds when the refinement loop is
left. -/
theorem refine_loop_induction (fuel N : Nat) (Inv : pta_system → Prop)
    (hpass : ∀ s s', Inv s → step fuel binary_op.refine s = Except.ok s' →
      Inv { s' with iteration := (s'.iteration + 1) % size_t_modulus }) :
    ∀ (n : Nat) (s s' : pta_system), Inv s → refine_loop fuel N n s = Except.ok s' →
      Inv s' := by
  intro n
  induction n with
  | zero =>
    intro s s' _ h
    simp [refine_loop] at h
  | succ n ih =>
    intro s s' hs h
    simp only [refine_loop] at h
    split at h
    · cases hstep : step fuel binary_op.refine s with
      | error e => rw [hstep] at h; cases h
      | ok s1 =>
        rw [hstep] at h
        exact ih _ s' (hpass s s1 hs hstep) h
    · simp only [Except.ok.injEq] at h
      exact h ▸ hs

/-- The state that `solve` returns from a state with sorted address sets
solves every constraint. -/
theorem solve_solution (fuel : Nat) (s : pta_system) (W N : Nat) (s' : pta_system)
    (hsorted : s.sorted) (h : solve fuel s W N = Except.ok s') :
    (∀ cst ∈ s._csts, solution s' cst) ∧ s'._csts = s._csts ∧ s'.sorted := by
  unfold solve at h
  cases hloop : extrapolate_loop fuel W fuel { s with iteration := 0 } with
  | error e => rw [hloop] at h; cases h
  | ok s1 =>
    rw [hloop] at h
    simp only at h
    obtain ⟨⟨hc1, hso1⟩, hcs1, s0, ⟨hc0, hso0⟩, hstep⟩ :=
      extrapolate_loop_induction fuel W (fun st => st._csts = s._csts ∧ st.sorted)
        (fun st st' hst hstep =>
          ⟨(step_iteration fuel _ _ st' hstep).2.trans hst.1,
            step_sorted fuel _
              { st with iteration := (st.iteration + 1) % size_t_modulus, change_seen := false }
              st' (fun v => hst.2 v) hstep⟩)
        fuel { s with iteration := 0 } s1 ⟨rfl, hsorted⟩ hloop
    have hnc := step_loop_no_change fuel _ s0._csts
      { s0 with iteration := (s0.iteration + 1) % size_t_modulus, change_seen := false } s1
      hso0 hstep hcs1
    have hsol1 : ∀ cst ∈ s._csts, solution s1 cst := by
      intro cst hc
      rw [hnc.1]
      exact hnc.2 cst (hc0 ▸ hc)
    exact refine_loop_induction fuel N
      (fun st => (∀ cst ∈ s._csts, solution st cst) ∧ st._csts = s._csts ∧ st.sorted)
      (fun st st' hst hstep => by
        have hget := step_loop_stable fuel _ st._csts st st' (hst.2.1 ▸ hst.1) hstep
        refine ⟨fun cst hc => ?_, (step_iteration fuel _ st st' hstep).2.trans hst.2.1,
          step_sorted fuel _ st st' hst.2.2 hstep⟩
        exact (solution_with_iteration st' _ cst).mpr
          ((solution_congr st st' hget cst).mpr (hst.1 cst hc)))
      fuel { s1 with iteration := 0 } s'
      ⟨fun cst hc => (solution_with_iteration s1 0 cst).mpr (hsol1 cst hc), hc1, hso1⟩ h

end pta_system

namespace pta_system

theorem process_ref_mono (s T : pta_system)
    (hb : ∀ v x, x ∈ s.get_address_set v → x ∈ T.get_address_set v) (ref : pta_ref) :
    ∀ x ∈ (s.process_ref ref).1, x ∈ (T.process_ref ref).1 := by
  intro x hx
  cases ref with
  | pointer_ref p o => exact hb _ x hx
  | object_ref a o => exact hx
  | function_ref f => exact hx
  | param_ref fptr k =>
    simp only [process_ref, mem_process_ref_loop] at hx ⊢
    rcases hx with h | ⟨f, hf, h⟩
    · exact Or.inl h
    · exact Or.inr ⟨f, hb _ f hf, hb _ x h⟩
  | return_ref fptr =>
    simp only [process_ref, mem_process_ref_loop] at hx ⊢
    rcases hx with h | ⟨f, hf, h⟩
    · exact Or.inl h
    · exact Or.inr ⟨f, hb _ f hf, hb _ x h⟩

/-- Address sets that are included in those of a state that solves the
constraint stay so when the constraint is processed. -/
theorem process_constraint_below (cst : pta_constraint) (op : binary_op) (fuel : Nat)
    (s s' T : pta_system) (hT : solution T cst)
    (hb : ∀ v x, x ∈ s.get_address_set v → x ∈ T.get_address_set v)
    (h : process_constraint fuel cst op s = Except.ok s') :
    ∀ v x, x ∈ s'.get_address_set v → x ∈ T.get_address_set v := by
  refine process_constraint_induction cst op
    (fun st => ∀ v x, x ∈ st.get_address_set v → x ∈ T.get_address_set v) ?_ fuel s s' hb h
  intro st dst l o hst hw v x hx
  rcases (mem_add_info st dst l o op v x).mp hx with hx1 | ⟨hv, hxl⟩
  · exact hst v x hx1
  · subst hv
    cases cst with
    | pta_assign lhs rhs =>
      obtain ⟨h1, h2⟩ := hw
      subst h1 h2
      exact hT x (process_ref_mono st T hst rhs x hxl)
    | pta_store ref rhs =>
      cases hd : ref.deref with
      | none => simp [writes, hd] at hw
      | some vk =>
        obtain ⟨v', key⟩ := vk
        obtain ⟨a, ha, h1, h2⟩ := (writes_store _ _ _ _ _ v' key hd).mp hw
        subst h1 h2
        simp only [solution, hd] at hT
        exact hT a (hst _ a ha) x (hst _ x hxl)
    | pta_load lhs ref =>
      cases hd : ref.deref with
      | none => simp [writes, hd] at hw
      | some vk =>
        obtain ⟨v', key⟩ := vk
        obtain ⟨a, ha, h1, h2⟩ := (writes_load _ _ _ _ _ v' key hd).mp hw
        subst h1 h2
        simp only [solution, hd] at hT
        exact hT a (hst _ a ha) x (hst _ x hxl)

theorem step_below (fuel : Nat) (op : binary_op) (s s' T : pta_system)
    (hT : ∀ cst ∈ s._csts, solution T cst)
    (hb : ∀ v x, x ∈ s.get_address_set v → x ∈ T.get_address_set v)
    (h : step fuel op s = Except.ok s') :
    ∀ v x, x ∈ s'.get_address_set v → x ∈ T.get_address_set v := by
  refine step_loop_induction op
    (fun st => ∀ v x, x ∈ st.get_address_set v → x ∈ T.get_address_set v) fuel s._csts ?_
    s s' hb h
  intro cst hc st st' hst hp
  exact process_constraint_below cst op fuel st st' T (hT cst hc) hst hp

/-- The address sets that `solve` returns are included in those of every
state that solves the constraints and includes the address sets at the
start. -/
theorem solve_below (fuel : Nat) (s : pta_system) (W N : Nat) (s' T : pta_system)
    (hT : ∀ cst ∈ s._csts, solution T cst)
    (hb : ∀ v x, x ∈ s.get_address_set v → x ∈ T.get_address_set v)
    (h : solve fuel s W N = Except.ok s') :
    ∀ v x, x ∈ s'.get_address_set v → x ∈ T.get_address_set v := by
  unfold solve at h
  cases hloop : extrapolate_loop fuel W fuel { s with iteration := 0 } with
  | error e => rw [hloop] at h; cases h
  | ok s1 =>
    rw [hloop] at h
    simp only at h
    obtain ⟨⟨hc1, hb1⟩, _, _⟩ :=
      extrapolate_loop_induction fuel W
        (fun st => st._csts = s._csts ∧
          ∀ v x, x ∈ st.get_address_set v → x ∈ T.get_address_set v)
        (fun st st' hst hstep =>
          ⟨(step_iteration fuel _ _ st' hstep).2.trans hst.1,
            step_below fuel _
              { st with iteration := (st.iteration + 1) % size_t_modulus, change_seen := false }
              st' T (fun cst hc => hT cst (hst.1 ▸ hc)) hst.2 hstep⟩)
        fuel { s with iteration := 0 } s1 ⟨rfl, hb⟩ hloop
    exact (refine_loop_induction fuel N
      (fun st => st._csts = s._csts ∧
        ∀ v x, x ∈ st.get_address_set v → x ∈ T.get_address_set v)
      (fun st st' hst hstep =>
        ⟨(step_iteration fuel _ st st' hstep).2.trans hst.1,
          step_below fuel _ st st' T (fun cst hc => hT cst (hst.1 ▸ hc)) hst.2 hstep⟩)
      fuel { s1 with iteration := 0 } s' ⟨hc1, hb1⟩ h).2

theorem sorted_eq_of_mem_iff (l1 l2 : List Nat) (h1 : l1.Sorted (· < ·))
    (h2 : l2.Sorted (· < ·)) (h : ∀ x, x ∈ l1 ↔ x ∈ l2) : l1 = l2 :=
  List.eq_of_perm_of_sorted ((List.perm_ext_iff_of_nodup h1.nodup h2.nodup).mpr h) h1 h2

theorem sorted_mk_system (csts : List pta_constraint) (cs : Bool) (it : Nat) :
    (mk_system csts cs it).sorted := by
  intro v
  simp [mk_system, get_address_set, map_find]

end pta_system

/-- The system of C14 with one stored variable. -/
theorem solve_store_load_one (p q r : pointer_var) (hpq : p ≠ q) (hpr : p ≠ r) (hqr : q ≠ r)
    (o1 o2 o o' : interval) (W N : Nat) (hW : W < size_t_modulus) (hN : N < size_t_modulus)
    (change_seen : Bool) (iteration fuel : Nat)
    (hfuel : (pta_system.mk_system
        [pta_constraint.pta_assign p (pta_ref.object_ref 1 o1),
         pta_constraint.pta_assign q (pta_ref.object_ref 2 o2),
         pta_constraint.pta_store (pta_ref.pointer_ref p o) q,
         pta_constraint.pta_load r (pta_ref.pointer_ref p o')]
        change_seen iteration).enough_fuel W N ≤ fuel) :
    ∃ s', pta_system.solve fuel (pta_system.mk_system
        [pta_constraint.pta_assign p (pta_ref.object_ref 1 o1),
         pta_constraint.pta_assign q (pta_ref.object_ref 2 o2),
         pta_constraint.pta_store (pta_ref.pointer_ref p o) q,
         pta_constraint.pta_load r (pta_ref.pointer_ref p o')]
        change_seen iteration) W N = Except.ok s' ∧ (s'.get r).1 = [2] := by
  obtain ⟨_, s', _, _, _, hs'⟩ := (pta_system.solve_total _ W N hW hN fuel hfuel).2 rfl
  refine ⟨s', hs', ?_⟩
  obtain ⟨hsol, _, hsorted⟩ := pta_system.solve_solution fuel _ W N s'
    (pta_system.sorted_mk_system _ _ _) hs'
  have hp : 1 ∈ s'.get_address_set p.str := by
    have := hsol (pta_constraint.pta_assign p (pta_ref.object_ref 1 o1)) (by simp [pta_system.mk_system])
    exact this 1 (by simp [pta_system.process_ref, address_set.insert])
  have hq : 2 ∈ s'.get_address_set q.str := by
    have := hsol (pta_constraint.pta_assign q (pta_ref.object_ref 2 o2)) (by simp [pta_system.mk_system])
    exact this 2 (by simp [pta_system.process_ref, address_set.insert])
  have ho : 2 ∈ s'.get_address_set (vname.O 1) := by
    have := hsol (pta_constraint.pta_store (pta_ref.pointer_ref p o) q) (by simp [pta_system.mk_system])
    simp only [pta_system.solution, pta_ref.deref] at this
    exact this 1 hp 2 hq
  have hr : 2 ∈ s'.get_address_set r.str := by
    have := hsol (pta_constraint.pta_load r (pta_ref.pointer_ref p o')) (by simp [pta_system.mk_system])
    simp only [pta_system.solution, pta_ref.deref] at this
    exact this 1 hp 2 ho
  have hpq' : ¬ p._uid = q._uid := fun h => hpq (by cases p; cases q; simp_all)
  have hpr' : ¬ p._uid = r._uid := fun h => hpr (by cases p; cases r; simp_all)
  have hqr' : ¬ q._uid = r._uid := fun h => hqr (by cases q; cases r; simp_all)
  have hup := pta_system.solve_below fuel _ W N s'
    ⟨[], [], [(p.str, [1]), (q.str, [2]), (vname.O 1, [2]), (r.str, [2])], false, 0⟩
    (by
      intro cst hc
      simp only [pta_system.mk_system, List.mem_cons, List.mem_singleton, List.not_mem_nil,
        or_false] at hc
      rcases hc with rfl | rfl | rfl | rfl <;>
        simp [pta_system.solution, pta_system.process_ref, pta_ref.deref,
          pta_system.get_address_set, map_find, pointer_var.str, address_set.insert, hpq',
          hpr', hqr'])
    (by simp [pta_system.mk_system, pta_system.get_address_set, map_find]) hs'
  refine pta_system.sorted_eq_of_mem_iff _ _ (hsorted r.str) (by simp) (fun x => ⟨fun hx => ?_, fun hx => ?_⟩)
  · have := hup r.str x hx
    simpa [pta_system.get_address_set, map_find, pointer_var.str, hpr', hqr',
      fun h => hpr' (Eq.symm h), fun h => hqr' (Eq.symm h)] using this
  · simp only [List.mem_singleton] at hx
    rw [hx]
    exact hr

/-- The system of C14 with two stored variables. -/
theorem solve_store_load_two (p q1 q2 r : pointer_var) (hpq1 : p ≠ q1) (hpq2 : p ≠ q2)
    (hpr : p ≠ r) (hq : q1 ≠ q2) (hq1r : q1 ≠ r) (hq2r : q2 ≠ r)
    (o1 o2 o3 o o' o'' : interval) (W N : Nat) (hW : W < size_t_modulus)
    (hN : N < size_t_modulus) (change_seen : Bool) (iteration fuel : Nat)
    (hfuel : (pta_system.mk_system
        [pta_constraint.pta_assign p (pta_ref.object_ref 1 o1),
         pta_constraint.pta_assign q1 (pta_ref.object_ref 2 o2),
         pta_constraint.pta_assign q2 (pta_ref.object_ref 3 o3),
         pta_constraint.pta_store (pta_ref.pointer_ref p o) q1,
         pta_constraint.pta_store (pta_ref.pointer_ref p o') q2,
         pta_constraint.pta_load r (pta_ref.pointer_ref p o'')]
        change_seen iteration).enough_fuel W N ≤ fuel) :
    ∃ s', pta_system.solve fuel (pta_system.mk_system
        [pta_constraint.pta_assign p (pta_ref.object_ref 1 o1),
         pta_constraint.pta_assign q1 (pta_ref.object_ref 2 o2),
         pta_constraint.pta_assign q2 (pta_ref.object_ref 3 o3),
         pta_constraint.pta_store (pta_ref.pointer_ref p o) q1,
         pta_constraint.pta_store (pta_ref.pointer_ref p o') q2,
         pta_constraint.pta_load r (pta_ref.pointer_ref p o'')]
        change_seen iteration) W N = Except.ok s' ∧ (s'.get r).1 = [2, 3] := by
  obtain ⟨_, s', _, _, _, hs'⟩ := (pta_system.solve_total _ W N hW hN fuel hfuel).2 rfl
  refine ⟨s', hs', ?_⟩
  obtain ⟨hsol, _, hsorted⟩ := pta_system.solve_solution fuel _ W N s'
    (pta_system.sorted_mk_system _ _ _) hs'
  have hp : 1 ∈ s'.get_address_set p.str := by
    have := hsol (pta_constraint.pta_assign p (pta_ref.object_ref 1 o1))
      (by simp [pta_system.mk_system])
    exact this 1 (by simp [pta_system.process_ref, address_set.insert])
  have hq1 : 2 ∈ s'.get_address_set q1.str := by
    have := hsol (pta_constraint.pta_assign q1 (pta_ref.object_ref 2 o2))
      (by simp [pta_system.mk_system])
    exact this 2 (by simp [pta_system.process_ref, address_set.insert])
  have hq2 : 3 ∈ s'.get_address_set q2.str := by
    have := hsol (pta_constraint.pta_assign q2 (pta_ref.object_ref 3 o3))
      (by simp [pta_system.mk_system])
    exact this 3 (by simp [pta_system.process_ref, address_set.insert])
  have ho1 : 2 ∈ s'.get_address_set (vname.O 1) := by
    have := hsol (pta_constraint.pta_store (pta_ref.pointer_ref p o) q1)
      (by simp [pta_system.mk_system])
    simp only [pta_system.solution, pta_ref.deref] at this
    exact this 1 hp 2 hq1
  have ho2 : 3 ∈ s'.get_address_set (vname.O 1) := by
    have := hsol (pta_constraint.pta_store (pta_ref.pointer_ref p o') q2)
      (by simp [pta_system.mk_system])
    simp only [pta_system.solution, pta_ref.deref] at this
    exact this 1 hp 3 hq2
  have hr := hsol (pta_constraint.pta_load r (pta_ref.pointer_ref p o''))
      (by simp [pta_system.mk_system])
  simp only [pta_system.solution, pta_ref.deref] at hr
  have e1 : ¬ p._uid = q1._uid := fun h => hpq1 (by cases p; cases q1; simp_all)
  have e2 : ¬ p._uid = q2._uid := fun h => hpq2 (by cases p; cases q2; simp_all)
  have e3 : ¬ p._uid = r._uid := fun h => hpr (by cases p; cases r; simp_all)
  have e4 : ¬ q1._uid = q2._uid := fun h => hq (by cases q1; cases q2; simp_all)
  have e5 : ¬ q1._uid = r._uid := fun h => hq1r (by cases q1; cases r; simp_all)
  have e6 : ¬ q2._uid = r._uid := fun h => hq2r (by cases q2; cases r; simp_all)
  have hup := pta_system.solve_below fuel _ W N s'
    ⟨[], [], [(p.str, [1]), (q1.str, [2]), (q2.str, [3]), (vname.O 1, [2, 3]),
      (r.str, [2, 3])], false, 0⟩
    (by
      intro cst hc
      simp only [pta_system.mk_system, List.mem_cons, List.mem_singleton, List.not_mem_nil,
        or_false] at hc
      rcases hc with rfl | rfl | rfl | rfl | rfl | rfl <;>
        simp [pta_system.solution, pta_system.process_ref, pta_ref.deref,
          pta_system.get_address_set, map_find, pointer_var.str, address_set.insert, e1, e2,
          e3, e4, e5, e6])
    (by simp [pta_system.mk_system, pta_system.get_address_set, map_find]) hs'
  refine pta_system.sorted_eq_of_mem_iff _ _ (hsorted r.str) (by simp)
    (fun x => ⟨fun hx => ?_, fun hx => ?_⟩)
  · have := hup r.str x hx
    simpa [pta_system.get_address_set, map_find, pointer_var.str, e3, e5, e6,
      fun h => e3 (Eq.symm h), fun h => e5 (Eq.symm h), fun h => e6 (Eq.symm h)] using this
  · simp only [List.mem_cons, List.mem_singleton, List.not_mem_nil, or_false] at hx
    rcases hx with hx | hx
    · rw [hx]; exact hr 1 hp 2 ho1
    · rw [hx]; exact hr 1 hp 3 ho2


/-! ## Liveness -/


theorem mem_ptset_add (s : List Nat) (e x : Nat) : x ∈ ptset_add s e ↔ x ∈ s ∨ x = e := by
  unfold ptset_add
  split
  · rename_i h
    constructor
    · exact Or.inl
    · rintro (h1 | h1)
      · exact h1
      · rw [h1]; exact h
  · simp

theorem mem_ptset_remove (s : List Nat) (e x : Nat) :
    x ∈ ptset_remove s e ↔ x ∈ s ∧ x ≠ e := by
  simp [ptset_remove]

theorem mem_ptset_union (s t : List Nat) (x : Nat) : x ∈ ptset_union s t ↔ x ∈ s ∨ x ∈ t := by
  unfold ptset_union
  induction t generalizing s with
  | nil => simp
  | cons a t ih =>
    rw [List.foldl_cons, ih, mem_ptset_add]
    simp only [List.mem_cons]
    tauto

theorem ptset_leq_iff (s t : List Nat) : ptset_leq s t = true ↔ ∀ x ∈ s, x ∈ t := by
  simp [ptset_leq]

theorem label_map_find_set {β : Type} (n n' : Nat) (x : β) (m : List (Nat × β)) :
    label_map_find n' (label_map_set n x m) = if n' = n then some x else label_map_find n' m := by
  induction m with
  | nil =>
    by_cases h : n' = n
    · simp [label_map_set, label_map_find, h]
    · have h' : ¬ n = n' := fun e => h e.symm
      simp [label_map_set, label_map_find, h, h']
  | cons e m ih =>
    obtain ⟨k, y⟩ := e
    by_cases hk : k = n
    · subst hk
      by_cases h : n' = k
      · subst h
        simp [label_map_set, label_map_find]
      · have h' : ¬ k = n' := fun e => h e.symm
        simp [label_map_set, label_map_find, h, h']
    · by_cases h : n' = n
      · subst h
        simp only [label_map_set, if_neg hk, label_map_find, ih, if_true]
      · by_cases hk' : k = n'
        · simp [label_map_set, label_map_find, hk, hk', h]
        · simp [label_map_set, label_map_find, hk, hk', h, ih]

theorem label_map_find_append {β : Type} (n : Nat) (m m' : List (Nat × β)) :
    label_map_find n (m ++ m') =
      match label_map_find n m with
      | some x => some x
      | none => label_map_find n m' := by
  induction m with
  | nil => simp [label_map_find]
  | cons e m ih =>
    obtain ⟨k, y⟩ := e
    simp only [List.cons_append, label_map_find]
    split
    · rfl
    · exact ih

theorem label_map_find_insert {β : Type} (n n' : Nat) (x : β) (m : List (Nat × β)) :
    label_map_find n' (label_map_insert n x m) =
      match label_map_find n' m with
      | some y => some y
      | none => if n' = n then some x else none := by
  unfold label_map_insert
  cases hn : label_map_find n m with
  | some y =>
    simp only
    cases hn' : label_map_find n' m with
    | some z => rfl
    | none =>
      simp only
      have : n' ≠ n := by
        intro e
        rw [e, hn] at hn'
        cases hn'
      rw [if_neg this]
  | none =>
    simp only
    rw [label_map_find_append]
    cases hn' : label_map_find n' m with
    | some z => rfl
    | none =>
      simp only [label_map_find]
      by_cases e : n = n'
      · simp [e]
      · have e' : ¬ n' = n := fun h => e h.symm
        simp [e, e']

theorem label_map_get_set (n n' : Nat) (x : liveness_domain)
    (m : List (Nat × liveness_domain)) :
    label_map_get (label_map_set n x m) n' = if n' = n then x else label_map_get m n' := by
  unfold label_map_get
  rw [label_map_find_set]
  by_cases h : n' = n
  · simp [h]
  · simp [h]

namespace liveness_domain

/-- The value is not top. -/
theorem bottom_not_top : bottom._inv._is_top = false := rfl

theorem mem_discrete_remove_fold (l : List Nat) (a : discrete_domain) (ha : a._is_top = false) :
    (l.foldl (fun inv v => inv.remove v) a)._is_top = false ∧
    ∀ x, x ∈ (l.foldl (fun inv v => inv.remove v) a)._set ↔ x ∈ a._set ∧ x ∉ l := by
  induction l generalizing a with
  | nil => simp [ha]
  | cons e l ih =>
    rw [List.foldl_cons]
    have h1 : (a.remove e)._is_top = false := by simp [discrete_domain.remove, ha]
    have h2 : ∀ x, x ∈ (a.remove e)._set ↔ x ∈ a._set ∧ x ≠ e := by
      intro x
      simp [discrete_domain.remove, ha, mem_ptset_remove]
    obtain ⟨g1, g2⟩ := ih (a.remove e) h1
    refine ⟨g1, fun x => ?_⟩
    rw [g2, h2]
    simp only [List.mem_cons, not_or]
    tauto

theorem remove_all_spec (a other : liveness_domain) (ha : a._inv._is_top = false)
    (ho : other._inv._is_top = false) :
    (a.remove_all other)._inv._is_top = false ∧
    ∀ x, x ∈ (a.remove_all other)._inv._set ↔ x ∈ a._inv._set ∧ x ∉ other._inv._set := by
  unfold remove_all
  split
  · rename_i h
    refine ⟨ha, fun x => ?_⟩
    simp only [is_bottom, discrete_domain.is_bottom, ha, ho, Bool.not_false, Bool.true_and,
      Bool.or_eq_true, List.isEmpty_iff] at h
    rcases h with h | h
    · simp [h]
    · simp [h]
  · simp only [discrete_domain.is_top, ho, Bool.not_false, if_true]
    exact mem_discrete_remove_fold _ _ ha

theorem add_all_spec (a other : liveness_domain) (ha : a._inv._is_top = false)
    (ho : other._inv._is_top = false) :
    (a.add_all other)._inv._is_top = false ∧
    ∀ x, x ∈ (a.add_all other)._inv._set ↔ x ∈ a._inv._set ∨ x ∈ other._inv._set := by
  unfold add_all
  split
  · rename_i h
    refine ⟨ha, fun x => ?_⟩
    simp only [is_top, is_bottom, discrete_domain.is_top, discrete_domain.is_bottom, ha, ho,
      Bool.not_false, Bool.true_and, Bool.false_or, List.isEmpty_iff] at h
    simp [h]
  · simp only [is_top, discrete_domain.is_top, ho, Bool.false_eq_true, if_false]
    simp [discrete_domain.join, ha, ho, mem_ptset_union]

theorem live_join_spec (a other : liveness_domain) (ha : a._inv._is_top = false)
    (ho : other._inv._is_top = false) :
    (a.join other)._inv._is_top = false ∧
    ∀ x, x ∈ (a.join other)._inv._set ↔ x ∈ a._inv._set ∨ x ∈ other._inv._set := by
  simp [join, discrete_domain.join, ha, ho, mem_ptset_union]

theorem leq_spec (a other : liveness_domain) (ha : a._inv._is_top = false)
    (ho : other._inv._is_top = false) :
    a.leq other = true ↔ ∀ x ∈ a._inv._set, x ∈ other._inv._set := by
  unfold leq
  split
  · rename_i h
    simp only [is_bottom, discrete_domain.is_bottom, ha, Bool.not_false, Bool.true_and,
      List.isEmpty_iff] at h
    simp [h]
  · simp [is_top, discrete_domain.is_top, discrete_domain.leq, ha, ho, ptset_leq_iff]

theorem live_is_bottom_iff (a : liveness_domain) (ha : a._inv._is_top = false) :
    a.is_bottom = true ↔ a._inv._set = [] := by
  simp [is_bottom, discrete_domain.is_bottom, ha]

theorem add_spec (a : liveness_domain) (e : Nat) (ha : a._inv._is_top = false) :
    (a.add e)._inv._is_top = false ∧
    ∀ x, x ∈ (a.add e)._inv._set ↔ x ∈ a._inv._set ∨ x = e := by
  simp [add, is_top, discrete_domain.is_top, discrete_domain.add, ha, mem_ptset_add]

theorem remove_not_top (a : liveness_domain) (e : Nat) (ha : a._inv._is_top = false) :
    (a.remove e)._inv._is_top = false := by
  unfold remove
  split
  · exact ha
  · simp [discrete_domain.remove, ha]

theorem mem_remove (a : liveness_domain) (e : Nat) (ha : a._inv._is_top = false) (x : Nat) :
    x ∈ (a.remove e)._inv._set → x ∈ a._inv._set := by
  unfold remove
  split
  · exact fun h => h
  · simp only [discrete_domain.remove, ha, Bool.not_false, if_true, mem_ptset_remove]
    exact fun h => h.1

end liveness_domain

namespace Liveness

theorem exec_node_cases (l : Liveness) (c : Bool) (n : Nat) (l' : Liveness) (c' : Bool)
    (h : exec_node l c n = some (l', c')) :
    ∃ B in_, get_node l.m_cfg n = some B ∧
      l.analyze n (live_out_of l.m_in_map B.next) = some in_ ∧
      ((in_.leq (label_map_get l.m_in_map n) = false ∧
          l' = { l with m_in_map :=
            label_map_set n (in_.join (label_map_get l.m_in_map n)) l.m_in_map } ∧
          c' = true) ∨
       (in_.leq (label_map_get l.m_in_map n) = true ∧
          l' = { l with m_out_map :=
            label_map_set n (live_out_of l.m_in_map B.next) l.m_out_map } ∧
          c' = c)) := by
  unfold exec_node at h
  cases hB : get_node l.m_cfg n with
  | none => rw [hB] at h; cases h
  | some B =>
    rw [hB] at h
    simp only at h
    cases ha : l.analyze n (live_out_of l.m_in_map B.next) with
    | none => rw [ha] at h; cases h
    | some in_ =>
      rw [ha] at h
      simp only at h
      refine ⟨B, in_, rfl, ha, ?_⟩
      cases hle : in_.leq (label_map_get l.m_in_map n)
      · rw [hle] at h
        simp only [Bool.not_false, if_true, Option.some.injEq, Prod.mk.injEq] at h
        exact Or.inl ⟨rfl, h.1.symm, h.2.symm⟩
      · rw [hle] at h
        simp only [Bool.not_true, Bool.false_eq_true, if_false, Option.some.injEq,
          Prod.mk.injEq] at h
        exact Or.inr ⟨rfl, h.1.symm, h.2.symm⟩

/-- A pass keeps the graph, the kill and gen sets and the dead sets. -/
theorem exec_pass_frame (order : List Nat) :
    ∀ (l : Liveness) (c : Bool) (l' : Liveness) (c' : Bool),
      exec_pass order l c = some (l', c') →
      l'.m_cfg = l.m_cfg ∧ l'.m_kill_gen_map = l.m_kill_gen_map ∧
        l'.m_dead_map = l.m_dead_map ∧ (c = true → c' = true) := by
  induction order with
  | nil =>
    intro l c l' c' h
    simp only [exec_pass, Option.some.injEq, Prod.mk.injEq] at h
    obtain ⟨h1, h2⟩ := h
    subst h1 h2
    exact ⟨rfl, rfl, rfl, fun h => h⟩
  | cons n order ih =>
    intro l c l' c' h
    simp only [exec_pass] at h
    cases hn : exec_node l c n with
    | none => rw [hn] at h; cases h
    | some r =>
      obtain ⟨l1, c1⟩ := r
      rw [hn] at h
      simp only at h
      obtain ⟨g1, g2, g3, g4⟩ := ih l1 c1 l' c' h
      obtain ⟨B, in_, _, _, hc⟩ := exec_node_cases l c n l1 c1 hn
      rcases hc with ⟨_, e, ec⟩ | ⟨_, e, ec⟩
      · subst e
        exact ⟨g1, g2, g3, fun _ => g4 ec⟩
      · subst e
        exact ⟨g1, g2, g3, fun hc => g4 (ec ▸ hc)⟩

/-- A pass that ends with `change` false has changed no live-in set, and has
stored for every node of the order the join of the live-in sets of its
successors as its live-out set, the live-in set of the node being above the
result of `analyze` on it. -/
theorem exec_pass_no_change (order : List Nat) :
    ∀ (l : Liveness) (c : Bool) (l' : Liveness),
      exec_pass order l c = some (l', false) →
      c = false ∧ l'.m_in_map = l.m_in_map ∧
      (∀ n, n ∉ order → label_map_find n l'.m_out_map = label_map_find n l.m_out_map) ∧
      (∀ n ∈ order, ∃ B in_, get_node l.m_cfg n = some B ∧
        l.analyze n (live_out_of l.m_in_map B.next) = some in_ ∧
        in_.leq (label_map_get l.m_in_map n) = true ∧
        label_map_get l'.m_out_map n = live_out_of l.m_in_map B.next) := by
  induction order with
  | nil =>
    intro l c l' h
    simp only [exec_pass, Option.some.injEq, Prod.mk.injEq] at h
    obtain ⟨h1, h2⟩ := h
    subst h1 h2
    exact ⟨rfl, rfl, fun _ _ => rfl, by simp⟩
  | cons n order ih =>
    intro l c l' h
    simp only [exec_pass] at h
    cases hn : exec_node l c n with
    | none => rw [hn] at h; cases h
    | some r =>
      obtain ⟨l1, c1⟩ := r
      rw [hn] at h
      simp only at h
      obtain ⟨g1, g2, g3, g4⟩ := ih l1 c1 l' h
      obtain ⟨B, in_, hB, ha, hc⟩ := exec_node_cases l c n l1 c1 hn
      rcases hc with ⟨_, _, ec⟩ | ⟨hle, e, ec⟩
      · rw [ec] at g1
        cases g1
      · subst e
        refine ⟨by rw [← ec, g1], g2, ?_, ?_⟩
        · intro m hm
          rw [List.mem_cons, not_or] at hm
          rw [g3 m hm.2]
          simp only
          rw [label_map_find_set, if_neg hm.1]
        · intro m hm
          by_cases hmo : m ∈ order
          · exact g4 m hmo
          · have hmn : m = n := by
              rcases List.mem_cons.mp hm with h1 | h1
              · exact h1
              · exact absurd h1 hmo
            subst hmn
            refine ⟨B, in_, hB, ha, hle, ?_⟩
            unfold label_map_get
            rw [g3 m hmo]
            simp only
            rw [label_map_find_set, if_pos rfl]

/-- The state that the fixpoint loop returns is left by a pass that has seen
no change. -/
theorem exec_loop_last_pass (order : List Nat) :
    ∀ (fuel : Nat) (l l' : Liveness), exec_loop order fuel l = some l' →
      ∃ l0, exec_pass order l0 false = some (l', false) ∧ l0.m_cfg = l.m_cfg ∧
        l0.m_kill_gen_map = l.m_kill_gen_map ∧ l0.m_dead_map = l.m_dead_map := by
  intro fuel
  induction fuel with
  | zero =>
    intro l l' h
    simp [exec_loop] at h
  | succ fuel ih =>
    intro l l' h
    simp only [exec_loop] at h
    cases hp : exec_pass order l false with
    | none => rw [hp] at h; cases h
    | some r =>
      obtain ⟨l1, c1⟩ := r
      rw [hp] at h
      simp only at h
      cases c1
      · simp only [Bool.false_eq_true, if_false, Option.some.injEq] at h
        subst h
        exact ⟨l, hp, rfl, rfl, rfl⟩
      · simp only [if_true] at h
        obtain ⟨l0, h0, g1, g2, g3⟩ := ih l1 l' h
        obtain ⟨f1, f2, f3, _⟩ := exec_pass_frame order l false l1 true hp
        exact ⟨l0, h0, g1.trans f1, g2.trans f2, g3.trans f3⟩

end Liveness

namespace Liveness

theorem live_out_of_spec (in_map : List (Nat × liveness_domain))
    (hin : ∀ n, (label_map_get in_map n)._inv._is_top = false) (next : List Nat) :
    (live_out_of in_map next)._inv._is_top = false ∧
    ∀ x, x ∈ (live_out_of in_map next)._inv._set ↔
      ∃ p ∈ next, x ∈ (label_map_get in_map p)._inv._set := by
  unfold live_out_of
  have key : ∀ (acc : liveness_domain), acc._inv._is_top = false →
      (next.foldl (fun out p => out.join (label_map_get in_map p)) acc)._inv._is_top = false ∧
      ∀ x, x ∈ (next.foldl (fun out p => out.join (label_map_get in_map p)) acc)._inv._set ↔
        x ∈ acc._inv._set ∨ ∃ p ∈ next, x ∈ (label_map_get in_map p)._inv._set := by
    induction next with
    | nil => intro acc hacc; simp [hacc]
    | cons p next ih =>
      intro acc hacc
      rw [List.foldl_cons]
      obtain ⟨j1, j2⟩ := liveness_domain.live_join_spec acc (label_map_get in_map p) hacc (hin p)
      obtain ⟨g1, g2⟩ := ih (acc.join (label_map_get in_map p)) j1
      refine ⟨g1, fun x => ?_⟩
      rw [g2, j2]
      simp only [List.mem_cons, exists_eq_or_imp]
      tauto
  obtain ⟨g1, g2⟩ := key liveness_domain.bottom rfl
  refine ⟨g1, fun x => ?_⟩
  rw [g2]
  simp [liveness_domain.bottom, discrete_domain.bottom]

theorem analyze_spec (l : Liveness) (n : Nat) (k g out : liveness_domain)
    (hkg : label_map_find n l.m_kill_gen_map = some (k, g)) (hk : k._inv._is_top = false)
    (hg : g._inv._is_top = false) (ho : out._inv._is_top = false) :
    ∃ in_, l.analyze n out = some in_ ∧ in_._inv._is_top = false ∧
      ∀ x, x ∈ in_._inv._set ↔ (x ∈ out._inv._set ∧ x ∉ k._inv._set) ∨ x ∈ g._inv._set := by
  refine ⟨(out.remove_all k).add_all g, by simp [analyze, hkg], ?_⟩
  obtain ⟨r1, r2⟩ := liveness_domain.remove_all_spec out k ho hk
  obtain ⟨a1, a2⟩ := liveness_domain.add_all_spec (out.remove_all k) g r1 hg
  refine ⟨a1, fun x => ?_⟩
  rw [a2, r2]

/-- `process_post` on every node of the order: the dead set of a node whose
live-out set is not bottom is the set of the variables of its block without
those of its live-out set; no entry is made for the other nodes. -/
theorem process_post_loop_spec (order : List Nat) :
    ∀ (l : Liveness), (∀ n ∈ order, ∃ B, get_node l.m_cfg n = some B) →
      (∀ n ∈ order, (label_map_get l.m_out_map n)._inv._is_top = false) →
      ∃ l', process_post_loop order l = some l' ∧ l'.m_cfg = l.m_cfg ∧
        l'.m_out_map = l.m_out_map ∧
        ∀ b, label_map_find b l'.m_dead_map =
          match label_map_find b l.m_dead_map with
          | some x => some x
          | none =>
            if b ∈ order ∧ (label_map_get l.m_out_map b).is_bottom = false then
              (get_node l.m_cfg b).map
                (fun B => (⟨B.live⟩ : liveness_domain).remove_all (label_map_get l.m_out_map b))
            else none := by
  induction order with
  | nil =>
    intro l _ _
    refine ⟨l, rfl, rfl, rfl, fun b => ?_⟩
    cases label_map_find b l.m_dead_map <;> simp
  | cons n order ih =>
    intro l hB hout
    obtain ⟨B, hBn⟩ := hB n (List.mem_cons_self _ _)
    have hnt := hout n (List.mem_cons_self _ _)
    simp only [process_post_loop]
    cases hbot : (label_map_get l.m_out_map n).is_bottom
    · -- an entry is inserted
      have hsize : (label_map_get l.m_out_map n).size =
          some (label_map_get l.m_out_map n)._inv._set.length := by
        simp [liveness_domain.size, discrete_domain.size, hnt]
      have hpp : process_post l n (label_map_get l.m_out_map n) =
          some { l with
            m_dead_map := label_map_insert n
              ((⟨B.live⟩ : liveness_domain).remove_all (label_map_get l.m_out_map n))
              l.m_dead_map
            m_total_live := l.m_total_live + (label_map_get l.m_out_map n)._inv._set.length
            m_max_live := max l.m_max_live (label_map_get l.m_out_map n)._inv._set.length
            m_total_blks := l.m_total_blks + 1 } := by
        simp [process_post, hbot, hBn, hsize]
      rw [hpp]
      simp only
      obtain ⟨l', h1, h2, h3, h4⟩ := ih
        { l with
          m_dead_map := label_map_insert n
            ((⟨B.live⟩ : liveness_domain).remove_all (label_map_get l.m_out_map n))
            l.m_dead_map
          m_total_live := l.m_total_live + (label_map_get l.m_out_map n)._inv._set.length
          m_max_live := max l.m_max_live (label_map_get l.m_out_map n)._inv._set.length
          m_total_blks := l.m_total_blks + 1 }
        (fun m hm => hB m (List.mem_cons_of_mem _ hm))
        (fun m hm => hout m (List.mem_cons_of_mem _ hm))
      refine ⟨l', h1, h2, h3, fun b => ?_⟩
      rw [h4 b]
      simp only
      rw [label_map_find_insert]
      cases hfb : label_map_find b l.m_dead_map with
      | some x => rfl
      | none =>
        simp only
        by_cases hbn : b = n
        · subst hbn
          simp [hbot, hBn]
        · simp [hbn]
    · have hpp : process_post l n (label_map_get l.m_out_map n) = some l := by
        simp [process_post, hbot]
      rw [hpp]
      simp only
      obtain ⟨l', h1, h2, h3, h4⟩ := ih l
        (fun m hm => hB m (List.mem_cons_of_mem _ hm))
        (fun m hm => hout m (List.mem_cons_of_mem _ hm))
      refine ⟨l', h1, h2, h3, fun b => ?_⟩
      rw [h4 b]
      cases hfb : label_map_find b l.m_dead_map with
      | some x => rfl
      | none =>
        simp only
        by_cases hbn : b = n
        · subst hbn
          simp [hbot]
        · simp [hbn]

end Liveness

namespace Liveness

theorem label_map_find_mem {β : Type} (n : Nat) (x : β) (m : List (Nat × β))
    (h : label_map_find n m = some x) : (n, x) ∈ m := by
  induction m with
  | nil => simp [label_map_find] at h
  | cons e m ih =>
    obtain ⟨k, y⟩ := e
    simp only [label_map_find] at h
    split at h
    · rename_i hk
      subst hk
      simp only [Option.some.injEq] at h
      subst h
      simp
    · exact List.mem_cons_of_mem _ (ih h)

theorem init_fold_find (cfg : List basic_block) (n : Nat) :
    ∀ acc : List (Nat × (liveness_domain × liveness_domain)),
      label_map_find n
          (cfg.foldl (fun m b => label_map_insert b.label (init_block b) m) acc) =
        match label_map_find n acc with
        | some x => some x
        | none => (get_node cfg n).map init_block := by
  induction cfg with
  | nil =>
    intro acc
    cases hf : label_map_find n acc <;> simp [get_node, hf]
  | cons b cfg ih =>
    intro acc
    rw [List.foldl_cons, ih, label_map_find_insert]
    cases hf : label_map_find n acc with
    | some x => rfl
    | none =>
      simp only [get_node, List.find?_cons]
      by_cases hb : b.label = n
      · simp [hb]
      · have hb' : ¬ n = b.label := fun e => hb e.symm
        simp [hb, hb', get_node]

/-- The kill and gen sets of a node are those of its block. -/
theorem init_find (cfg : List basic_block) (n : Nat) :
    label_map_find n (init cfg) = (get_node cfg n).map init_block := by
  unfold init
  rw [init_fold_find]
  rfl

theorem init_stmt_no_top (kg : liveness_domain × liveness_domain) (s : statement_live)
    (h : kg.1._inv._is_top = false ∧ kg.2._inv._is_top = false) :
    (init_stmt kg s).1._inv._is_top = false ∧ (init_stmt kg s).2._inv._is_top = false := by
  unfold init_stmt
  have h1 : ∀ (l : List Nat) (kg : liveness_domain × liveness_domain),
      (kg.1._inv._is_top = false ∧ kg.2._inv._is_top = false) →
      ((l.foldl (fun kg d => (kg.1.add d, kg.2.remove d)) kg).1._inv._is_top = false ∧
        (l.foldl (fun kg d => (kg.1.add d, kg.2.remove d)) kg).2._inv._is_top = false) := by
    intro l
    induction l with
    | nil => intro kg h; exact h
    | cons d l ih =>
      intro kg h
      rw [List.foldl_cons]
      exact ih _ ⟨(liveness_domain.add_spec kg.1 d h.1).1,
        liveness_domain.remove_not_top kg.2 d h.2⟩
  have h2 : ∀ (l : List Nat) (kg : liveness_domain × liveness_domain),
      (kg.1._inv._is_top = false ∧ kg.2._inv._is_top = false) →
      ((l.foldl (fun kg u => (kg.1, kg.2.add u)) kg).1._inv._is_top = false ∧
        (l.foldl (fun kg u => (kg.1, kg.2.add u)) kg).2._inv._is_top = false) := by
    intro l
    induction l with
    | nil => intro kg h; exact h
    | cons d l ih =>
      intro kg h
      rw [List.foldl_cons]
      exact ih _ ⟨h.1, (liveness_domain.add_spec kg.2 d h.2).1⟩
  exact h2 _ _ (h1 _ _ h)

theorem init_block_no_top (b : basic_block) :
    (init_block b).1._inv._is_top = false ∧ (init_block b).2._inv._is_top = false := by
  unfold init_block
  have : ∀ (l : List statement_live) (kg : liveness_domain × liveness_domain),
      (kg.1._inv._is_top = false ∧ kg.2._inv._is_top = false) →
      ((l.foldl init_stmt kg).1._inv._is_top = false ∧
        (l.foldl init_stmt kg).2._inv._is_top = false) := by
    intro l
    induction l with
    | nil => intro kg h; exact h
    | cons s l ih =>
      intro kg h
      rw [List.foldl_cons]
      exact ih _ (init_stmt_no_top kg s h)
  exact this _ _ ⟨rfl, rfl⟩

theorem no_top_mk_liveness (cfg : List basic_block) : (mk_liveness cfg).no_top := by
  refine ⟨fun n => rfl, ?_⟩
  intro n k g h
  simp only [mk_liveness] at h
  rw [init_find] at h
  cases hB : get_node cfg n with
  | none => rw [hB] at h; cases h
  | some B =>
    rw [hB] at h
    simp only [Option.map_some', Option.some.injEq] at h
    have := init_block_no_top B
    rw [h] at this
    exact this

theorem mem_gen_vars (l : Liveness) (n : Nat) (k g : liveness_domain)
    (h : label_map_find n l.m_kill_gen_map = some (k, g)) (x : Nat)
    (hx : x ∈ g._inv._set) : x ∈ l.gen_vars := by
  unfold gen_vars
  rw [List.mem_toFinset, List.mem_flatMap]
  exact ⟨(n, (k, g)), label_map_find_mem n _ _ h, hx⟩

/-- One node of a pass: with the kill and gen sets of the node at hand the
body returns a state; no set becomes top, the live-in sets stay among the
variables of `G`, none of them shrinks, and when the flag `change` is raised
the live-in set of the node has grown. -/
theorem exec_node_grows (G : Finset Nat) (l : Liveness) (c : Bool) (n : Nat)
    (hnt : l.no_top) (hG : ∀ m x, x ∈ (label_map_get l.m_in_map m)._inv._set → x ∈ G)
    (hgen : l.gen_vars ⊆ G) (B : basic_block) (hB : get_node l.m_cfg n = some B)
    (kg : liveness_domain × liveness_domain)
    (hkg : label_map_find n l.m_kill_gen_map = some kg) :
    ∃ l' c', exec_node l c n = some (l', c') ∧ l'.no_top ∧
      (∀ m x, x ∈ (label_map_get l'.m_in_map m)._inv._set → x ∈ G) ∧
      (∀ m, l.live_in m ⊆ l'.live_in m) ∧
      (c = false → c' = true → l.live_in n ⊂ l'.live_in n) := by
  obtain ⟨k, g⟩ := kg
  obtain ⟨hk, hg⟩ := hnt.2 n k g hkg
  obtain ⟨ho1, ho2⟩ := live_out_of_spec l.m_in_map hnt.1 B.next
  obtain ⟨in_, ha, hi1, hi2⟩ := analyze_spec l n k g _ hkg hk hg ho1
  have hinG : ∀ x, x ∈ in_._inv._set → x ∈ G := by
    intro x hx
    rcases (hi2 x).mp hx with ⟨h1, _⟩ | h1
    · obtain ⟨p, _, hp⟩ := (ho2 x).mp h1
      exact hG p x hp
    · exact hgen (mem_gen_vars l n k g hkg x h1)
  cases hle : in_.leq (label_map_get l.m_in_map n)
  · -- the live-in set of n grows
    obtain ⟨j1, j2⟩ := liveness_domain.live_join_spec in_ (label_map_get l.m_in_map n) hi1
      (hnt.1 n)
    refine ⟨{ l with m_in_map :=
        label_map_set n (in_.join (label_map_get l.m_in_map n)) l.m_in_map }, true,
      by simp [exec_node, hB, ha, hle], ⟨?_, hnt.2⟩, ?_, ?_, ?_⟩
    · intro m
      simp only
      rw [label_map_get_set]
      split
      · exact j1
      · exact hnt.1 m
    · intro m x
      simp only
      rw [label_map_get_set]
      split
      · intro hx
        rcases (j2 x).mp hx with h | h
        · exact hinG x h
        · exact hG n x h
      · exact hG m x
    · intro m x hx
      simp only [live_in] at hx ⊢
      rw [label_map_get_set]
      split
      · rename_i hm
        subst hm
        rw [List.mem_toFinset] at hx ⊢
        exact (j2 x).mpr (Or.inr hx)
      · exact hx
    · intro _ _
      have hnle : ¬ ∀ x ∈ in_._inv._set, x ∈ (label_map_get l.m_in_map n)._inv._set := by
        intro hall
        rw [(liveness_domain.leq_spec in_ _ hi1 (hnt.1 n)).mpr hall] at hle
        cases hle
      simp only [not_forall] at hnle
      obtain ⟨x, hx1, hx2⟩ := hnle
      rw [Finset.ssubset_iff_of_subset]
      · refine ⟨x, ?_, ?_⟩
        · simp only [live_in]
          rw [label_map_get_set, if_pos rfl, List.mem_toFinset]
          exact (j2 x).mpr (Or.inl hx1)
        · simp only [live_in]
          rw [List.mem_toFinset]
          exact hx2
      · intro y hy
        simp only [live_in] at hy ⊢
        rw [label_map_get_set, if_pos rfl]
        rw [List.mem_toFinset] at hy ⊢
        exact (j2 y).mpr (Or.inr hy)
  · refine ⟨{ l with m_out_map :=
        label_map_set n (live_out_of l.m_in_map B.next) l.m_out_map }, c,
      by simp [exec_node, hB, ha, hle], ⟨hnt.1, hnt.2⟩, hG, fun m => Finset.Subset.refl _, ?_⟩
    intro h1 h2
    rw [h1] at h2
    cases h2

end Liveness

namespace Liveness

theorem gen_vars_congr (l l' : Liveness) (h : l'.m_kill_gen_map = l.m_kill_gen_map) :
    l'.gen_vars = l.gen_vars := by
  unfold gen_vars
  rw [h]

theorem exec_node_frame (l : Liveness) (c : Bool) (n : Nat) (l' : Liveness) (c' : Bool)
    (h : exec_node l c n = some (l', c')) :
    l'.m_cfg = l.m_cfg ∧ l'.m_kill_gen_map = l.m_kill_gen_map := by
  obtain ⟨B, in_, _, _, hc⟩ := exec_node_cases l c n l' c' h
  rcases hc with ⟨_, e, _⟩ | ⟨_, e, _⟩ <;> subst e <;> exact ⟨rfl, rfl⟩

/-- A pass over nodes of the graph returns a state; no set becomes top, the
live-in sets stay among the variables of `G`, none of them shrinks, and when
the pass raises the flag `change` the live-in set of a node of `K` has
grown. -/
theorem exec_pass_grows (G K : Finset Nat) (order : List Nat) :
    ∀ (l : Liveness) (c : Bool), l.no_top →
      (∀ m x, x ∈ (label_map_get l.m_in_map m)._inv._set → x ∈ G) → l.gen_vars ⊆ G →
      (∀ n ∈ order, n ∈ K ∧ (∃ B, get_node l.m_cfg n = some B) ∧
        ∃ kg, label_map_find n l.m_kill_gen_map = some kg) →
      ∃ l' c', exec_pass order l c = some (l', c') ∧ l'.no_top ∧
        (∀ m x, x ∈ (label_map_get l'.m_in_map m)._inv._set → x ∈ G) ∧
        (∀ m, l.live_in m ⊆ l'.live_in m) ∧
        (c = false → c' = true → ∃ m ∈ K, l.live_in m ⊂ l'.live_in m) := by
  induction order with
  | nil =>
    intro l c hnt hG _ _
    refine ⟨l, c, rfl, hnt, hG, fun m => Finset.Subset.refl _, ?_⟩
    intro h1 h2
    rw [h1] at h2
    cases h2
  | cons n order ih =>
    intro l c hnt hG hgen hnodes
    obtain ⟨hK, ⟨B, hB⟩, ⟨kg, hkg⟩⟩ := hnodes n (List.mem_cons_self _ _)
    obtain ⟨l1, c1, h1, hnt1, hG1, hsub1, hstrict1⟩ :=
      exec_node_grows G l c n hnt hG hgen B hB kg hkg
    obtain ⟨f1, f2⟩ := exec_node_frame l c n l1 c1 h1
    obtain ⟨l', c', h2, hnt2, hG2, hsub2, hstrict2⟩ := ih l1 c1 hnt1 hG1
      (by rw [gen_vars_congr l l1 f2]; exact hgen)
      (fun m hm => by
        rw [f1, f2]
        exact hnodes m (List.mem_cons_of_mem _ hm))
    refine ⟨l', c', by simp only [exec_pass, h1, h2], hnt2, hG2,
      fun m => (hsub1 m).trans (hsub2 m), ?_⟩
    intro hc hc'
    cases hc1 : c1
    · obtain ⟨m, hm, hlt⟩ := hstrict2 hc1 hc'
      exact ⟨m, hm, lt_of_le_of_lt (hsub1 m) hlt⟩
    · exact ⟨n, hK, lt_of_lt_of_le (hstrict1 hc hc1) (hsub2 n)⟩

theorem live_in_size_le (G K : Finset Nat) (l : Liveness)
    (hG : ∀ m x, x ∈ (label_map_get l.m_in_map m)._inv._set → x ∈ G) :
    live_in_size K l ≤ K.card * G.card := by
  unfold live_in_size
  have := Finset.sum_le_card_nsmul K (fun n => (l.live_in n).card) G.card
    (fun n _ => Finset.card_le_card (fun x hx => by
      simp only [live_in, List.mem_toFinset] at hx
      exact hG n x hx))
  simpa using this

/-- The fixpoint loop returns a state when the fuel exceeds the room that is
left for the live-in sets to grow. -/
theorem exec_loop_terminates (G : Finset Nat) (order : List Nat) :
    ∀ (fuel : Nat) (l : Liveness), l.no_top →
      (∀ m x, x ∈ (label_map_get l.m_in_map m)._inv._set → x ∈ G) → l.gen_vars ⊆ G →
      (∀ n ∈ order, (∃ B, get_node l.m_cfg n = some B) ∧
        ∃ kg, label_map_find n l.m_kill_gen_map = some kg) →
      order.toFinset.card * G.card - live_in_size order.toFinset l + 1 ≤ fuel →
      ∃ l', exec_loop order fuel l = some l' ∧ l'.no_top := by
  intro fuel
  induction fuel with
  | zero =>
    intro l _ _ _ _ hf
    omega
  | succ fuel ih =>
    intro l hnt hG hgen hnodes hf
    obtain ⟨l1, c1, h1, hnt1, hG1, hsub1, hstrict1⟩ :=
      exec_pass_grows G order.toFinset order l false hnt hG hgen
        (fun n hn => ⟨List.mem_toFinset.mpr hn, hnodes n hn⟩)
    obtain ⟨f1, f2, _, _⟩ := exec_pass_frame order l false l1 c1 h1
    simp only [exec_loop, h1]
    cases hc1 : c1
    · simp only [Bool.false_eq_true, if_false]
      exact ⟨l1, rfl, hnt1⟩
    · simp only [if_true]
      refine ih l1 hnt1 hG1 (by rw [gen_vars_congr l l1 f2]; exact hgen)
        (fun n hn => by rw [f1, f2]; exact hnodes n hn) ?_
      obtain ⟨m, hm, hlt⟩ := hstrict1 rfl hc1
      have hlt' : live_in_size order.toFinset l < live_in_size order.toFinset l1 :=
        Finset.sum_lt_sum (fun n _ => Finset.card_le_card (hsub1 n))
          ⟨m, hm, Finset.card_lt_card hlt⟩
      have hB := live_in_size_le G order.toFinset l1 hG1
      omega

end Liveness

namespace Liveness

/-- The run of `exec` on a new `Liveness` object: the fixpoint loop returns a
state that a pass without change has left, and `exec` returns a state whose
dead sets are those that `process_post` computes from the live-out sets. -/
theorem exec_spec (cfg : List basic_block) (order : List Nat)
    (hnodes : ∀ n ∈ order, ∃ B, get_node cfg n = some B) (fuel : Nat)
    (hfuel : enough_fuel cfg order ≤ fuel) :
    ∃ l1 L, exec_loop order fuel (mk_liveness cfg) = some l1 ∧
      exec fuel order (mk_liveness cfg) = some L ∧ l1.no_top ∧
      ∀ b ∈ order, ∀ B, get_node cfg b = some B →
        (∃ in_, l1.analyze b (live_out_of l1.m_in_map B.next) = some in_ ∧
          in_.leq (label_map_get l1.m_in_map b) = true) ∧
        L.dead_exit b =
          if (live_out_of l1.m_in_map B.next).is_bottom then liveness_domain.bottom
          else (⟨B.live⟩ : liveness_domain).remove_all (live_out_of l1.m_in_map B.next) := by
  have hkg : ∀ n ∈ order, (∃ B, get_node (mk_liveness cfg).m_cfg n = some B) ∧
      ∃ kg, label_map_find n (mk_liveness cfg).m_kill_gen_map = some kg := by
    intro n hn
    obtain ⟨B, hB⟩ := hnodes n hn
    refine ⟨⟨B, hB⟩, init_block B, ?_⟩
    simp only [mk_liveness]
    rw [init_find, hB]
    rfl
  obtain ⟨l1, h1, hnt1⟩ := exec_loop_terminates (mk_liveness cfg).gen_vars order fuel
    (mk_liveness cfg) (no_top_mk_liveness cfg)
    (fun m x hx => by simp [mk_liveness, label_map_get, label_map_find,
      liveness_domain.bottom, discrete_domain.bottom] at hx)
    (Finset.Subset.refl _) hkg
    (by
      unfold enough_fuel at hfuel
      have : order.toFinset.card * (mk_liveness cfg).gen_vars.card -
          live_in_size order.toFinset (mk_liveness cfg) ≤
          order.toFinset.card * (mk_liveness cfg).gen_vars.card := Nat.sub_le _ _
      omega)
  obtain ⟨lp, hp, g1', g2, g3'⟩ := exec_loop_last_pass order fuel (mk_liveness cfg) l1 h1
  have g1 : lp.m_cfg = cfg := g1'
  have g3 : lp.m_dead_map = [] := g3'
  obtain ⟨_, e1, _, hall⟩ := exec_pass_no_change order lp false l1 hp
  obtain ⟨f1, f2, f3, _⟩ := exec_pass_frame order lp false l1 false hp
  have hcfg1 : l1.m_cfg = cfg := f1.trans g1
  have hdead1 : l1.m_dead_map = [] := f3.trans g3
  have hout : ∀ b ∈ order, ∀ B, get_node cfg b = some B →
      label_map_get l1.m_out_map b = live_out_of l1.m_in_map B.next := by
    intro b hb B hB
    obtain ⟨B', in_, hB', _, _, ho⟩ := hall b hb
    rw [g1] at hB'
    rw [hB] at hB'
    simp only [Option.some.injEq] at hB'
    subst hB'
    rw [ho, e1]
  obtain ⟨l2, h2, _, _, hd⟩ := process_post_loop_spec order l1
    (fun n hn => by rw [hcfg1]; exact hnodes n hn)
    (fun n hn => by
      obtain ⟨B, hB⟩ := hnodes n hn
      rw [hout n hn B hB]
      exact (live_out_of_spec l1.m_in_map hnt1.1 B.next).1)
  refine ⟨l1, { l2 with m_has_exec := true, m_in_map := [], m_out_map := [] }, h1, ?_, hnt1, ?_⟩
  · have hne : (mk_liveness cfg).m_has_exec = false := rfl
    simp only [exec, hne, Bool.false_eq_true, if_false, h1, h2]
  · intro b hb B hB
    constructor
    · obtain ⟨B', in_, hB', ha, hle, _⟩ := hall b hb
      rw [g1] at hB'
      rw [hB] at hB'
      simp only [Option.some.injEq] at hB'
      subst hB'
      refine ⟨in_, ?_, ?_⟩
      · rw [e1]
        simpa [analyze, f2] using ha
      · rw [e1]; exact hle
    · simp only [dead_exit]
      rw [hd b, hdead1]
      simp only [label_map_find]
      rw [hout b hb B hB, hcfg1, hB]
      cases hbot : (live_out_of l1.m_in_map B.next).is_bottom
      · simp [hb]
      · simp

end Liveness


theorem interval_leq_join_right (x y : interval) : y.leq (x.join y) = true := by
  cases hy : y.is_bottom
  · cases hx : x.is_bottom
    · exact dis_interval.leq_join_right hx hy
    · simp only [interval.join, hx, if_true]
      exact interval.leq_refl
  · simp [interval.leq, hy]

theorem interval_leq_widening (x y : interval) : x.leq (x.widening y) = true := by
  cases hx : x.is_bottom
  · cases hy : y.is_bottom
    · rw [interval.leq_iff hx (interval.widening_not_bottom hx hy)]
      exact ⟨interval.widening_lb_le hx hy, interval.le_widening_ub hx hy⟩
    · simp only [interval.widening, hx, hy, Bool.false_eq_true, if_false, if_true]
      exact interval.leq_refl
  · simp [interval.leq, hx]

theorem interval_leq_widening_right (x y : interval) : y.leq (x.widening y) = true := by
  cases hy : y.is_bottom
  · cases hx : x.is_bottom
    · rw [interval.leq_iff hy (interval.widening_not_bottom hx hy), interval.widening_eq hx hy]
      simp only
      constructor
      · split
        · exact bound.minus_infinity_le _
        · rename_i h
          exact not_lt.mp h
      · split
        · exact bound.le_plus_infinity _
        · rename_i h
          exact not_lt.mp h
    · simp only [interval.widening, hx, if_true]
      exact interval.leq_refl
  · simp [interval.leq, hy]



namespace liveness_domain

theorem remove_all_checked_eq (a other : liveness_domain) :
    a.remove_all_checked other = some (a.remove_all other) := by
  unfold remove_all_checked remove_all
  split
  · rfl
  · split
    · rename_i h
      have h' : other._inv._is_top = false := by
        simpa [discrete_domain.is_top] using h
      simp [elements, discrete_domain.elements, h']
    · rfl

theorem mem_remove_iff (a : liveness_domain) (e : Nat) (ha : a._inv._is_top = false) (x : Nat) :
    x ∈ (a.remove e)._inv._set ↔ x ∈ a._inv._set ∧ x ≠ e := by
  unfold remove
  split
  · rename_i h
    have h' := (live_is_bottom_iff a ha).mp h
    simp [h']
  · simp [discrete_domain.remove, ha, mem_ptset_remove]

end liveness_domain

namespace Liveness

theorem init_stmt_spec (kg : liveness_domain × liveness_domain) (s : statement_live)
    (h : kg.1._inv._is_top = false ∧ kg.2._inv._is_top = false) (x : Nat) :
    (x ∈ (init_stmt kg s).1._inv._set ↔ x ∈ kg.1._inv._set ∨ x ∈ s.defs) ∧
    (x ∈ (init_stmt kg s).2._inv._set ↔
      x ∈ s.uses ∨ (x ∈ kg.2._inv._set ∧ x ∉ s.defs)) := by
  unfold init_stmt
  have h1 : ∀ (l : List Nat) (kg : liveness_domain × liveness_domain),
      (kg.1._inv._is_top = false ∧ kg.2._inv._is_top = false) →
      ((l.foldl (fun kg d => (kg.1.add d, kg.2.remove d)) kg).1._inv._is_top = false ∧
        (l.foldl (fun kg d => (kg.1.add d, kg.2.remove d)) kg).2._inv._is_top = false) ∧
      (x ∈ (l.foldl (fun kg d => (kg.1.add d, kg.2.remove d)) kg).1._inv._set ↔
        x ∈ kg.1._inv._set ∨ x ∈ l) ∧
      (x ∈ (l.foldl (fun kg d => (kg.1.add d, kg.2.remove d)) kg).2._inv._set ↔
        x ∈ kg.2._inv._set ∧ x ∉ l) := by
    intro l
    induction l with
    | nil => intro kg h; simp [h]
    | cons d l ih =>
      intro kg h
      rw [List.foldl_cons]
      have hk := (liveness_domain.add_spec kg.1 d h.1)
      have hg := liveness_domain.remove_not_top kg.2 d h.2
      obtain ⟨i1, i2, i3⟩ := ih (kg.1.add d, kg.2.remove d) ⟨hk.1, hg⟩
      refine ⟨i1, ?_, ?_⟩
      · rw [i2]
        simp only [hk.2 x, List.mem_cons]
        tauto
      · rw [i3]
        simp only [liveness_domain.mem_remove_iff kg.2 d h.2 x, List.mem_cons]
        tauto
  have h2 : ∀ (l : List Nat) (kg : liveness_domain × liveness_domain),
      kg.2._inv._is_top = false →
      (l.foldl (fun kg u => (kg.1, kg.2.add u)) kg).1 = kg.1 ∧
      (x ∈ (l.foldl (fun kg u => (kg.1, kg.2.add u)) kg).2._inv._set ↔
        x ∈ kg.2._inv._set ∨ x ∈ l) := by
    intro l
    induction l with
    | nil => intro kg h; simp
    | cons u l ih =>
      intro kg h
      rw [List.foldl_cons]
      have hg := liveness_domain.add_spec kg.2 u h
      obtain ⟨i1, i2⟩ := ih (kg.1, kg.2.add u) hg.1
      refine ⟨i1, ?_⟩
      rw [i2]
      simp only [hg.2 x, List.mem_cons]
      tauto
  obtain ⟨a1, a2, a3⟩ := h1 s.defs kg h
  obtain ⟨b1, b2⟩ := h2 s.uses _ a1.2
  constructor
  · rw [b1, a2]
  · rw [b2, a3]
    tauto

/-- The kill and gen sets of a list of statements, visited from the last to
the first. -/
theorem init_fold_spec (x : Nat) : ∀ (stmts : List statement_live),
    ((stmts.reverse.foldl init_stmt (liveness_domain.bottom, liveness_domain.bottom)).1._inv._is_top
        = false ∧
      (stmts.reverse.foldl init_stmt (liveness_domain.bottom, liveness_domain.bottom)).2._inv._is_top
        = false) ∧
    (x ∈ (stmts.reverse.foldl init_stmt
        (liveness_domain.bottom, liveness_domain.bottom)).1._inv._set ↔
      ∃ s ∈ stmts, x ∈ s.defs) ∧
    (x ∈ (stmts.reverse.foldl init_stmt
        (liveness_domain.bottom, liveness_domain.bottom)).2._inv._set ↔
      ∃ l1 s l2, stmts = l1 ++ s :: l2 ∧ x ∈ s.uses ∧ ∀ t ∈ l1, x ∉ t.defs) := by
  intro stmts
  induction stmts with
  | nil =>
    refine ⟨⟨rfl, rfl⟩, ?_, ?_⟩
    · simp [liveness_domain.bottom, discrete_domain.bottom]
    · simp [liveness_domain.bottom, discrete_domain.bottom]
  | cons s stmts ih =>
    rw [List.reverse_cons, List.foldl_append, List.foldl_cons, List.foldl_nil]
    obtain ⟨i1, i2, i3⟩ := ih
    have hs := init_stmt_spec _ s i1 x
    refine ⟨init_stmt_no_top _ s i1, ?_, ?_⟩
    · rw [hs.1, i2]
      simp only [List.mem_cons]
      constructor
      · rintro (⟨t, ht, hx⟩ | hx)
        · exact ⟨t, Or.inr ht, hx⟩
        · exact ⟨s, Or.inl rfl, hx⟩
      · rintro ⟨t, ht | ht, hx⟩
        · subst ht; exact Or.inr hx
        · exact Or.inl ⟨t, ht, hx⟩
    · rw [hs.2, i3]
      constructor
      · rintro (hx | ⟨⟨l1, t, l2, e, hx, hl⟩, hd⟩)
        · exact ⟨[], s, stmts, rfl, hx, by simp⟩
        · refine ⟨s :: l1, t, l2, by rw [e]; rfl, hx, ?_⟩
          intro u hu
          rcases List.mem_cons.mp hu with hu | hu
          · subst hu; exact hd
          · exact hl u hu
      · rintro ⟨l1, t, l2, e, hx, hl⟩
        cases l1 with
        | nil =>
          simp only [List.nil_append, List.cons.injEq] at e
          rw [e.1]
          exact Or.inl hx
        | cons u l1 =>
          simp only [List.cons_append, List.cons.injEq] at e
          refine Or.inr ⟨⟨l1, t, l2, e.2, hx, fun v hv => hl v (List.mem_cons_of_mem _ hv)⟩, ?_⟩
          rw [e.1]
          exact hl u (List.mem_cons_self _ _)

end Liveness





theorem invariant_map_find_append {L D : Type} [DecidableEq L] (b k : L) (x : D) :
    ∀ m : List (L × D), invariant_map_find b (m ++ [(k, x)]) =
      match invariant_map_find b m with
      | some y => some y
      | none => if k = b then some x else none := by
  intro m
  induction m with
  | nil => simp [invariant_map_find]
  | cons e m ih =>
    obtain ⟨k', y⟩ := e
    by_cases h : k' = b
    · simp [invariant_map_find, h]
    · simp [invariant_map_find, h, ih]


namespace pta_system

theorem add_offset_with_csts (L : List pta_constraint) (s : pta_system) (v : vname)
    (o : interval) (op : binary_op) :
    (s.with_csts L).add_offset v o op = (s.add_offset v o op).with_csts L := by
  have hg : (s.with_csts L).get_offset v = s.get_offset v := rfl
  unfold add_offset
  simp only [hg]
  by_cases h : (!op.convergence_achieved (s.get_offset v) o) = true
  · rw [if_pos h, if_pos h]; rfl
  · rw [if_neg h, if_neg h]

theorem add_address_with_csts (L : List pta_constraint) (s : pta_system) (v : vname)
    (a : index_t) :
    (s.with_csts L).add_address v a = (s.add_address v a).with_csts L := by
  have hg : (s.with_csts L).get_address_set v = s.get_address_set v := rfl
  unfold add_address
  simp only [hg]
  by_cases h : (!(s.get_address_set v).contains a) = true
  · rw [if_pos h, if_pos h]; rfl
  · rw [if_neg h, if_neg h]

theorem add_address_set_with_csts (L : List pta_constraint) (v : vname) (set : address_set) :
    ∀ s : pta_system,
      (s.with_csts L).add_address_set v set = (s.add_address_set v set).with_csts L := by
  unfold add_address_set
  induction set with
  | nil => intro s; rfl
  | cons a set ih =>
    intro s
    rw [List.foldl_cons, List.foldl_cons, add_address_with_csts, ih]

theorem process_ref_loop_with_csts (L : List pta_constraint) (s : pta_system)
    (str : index_t → vname) :
    ∀ (fptrs : address_set) (acc : pta_info),
      (s.with_csts L).process_ref_loop str fptrs acc = s.process_ref_loop str fptrs acc := by
  intro fptrs
  induction fptrs with
  | nil => intro acc; rfl
  | cons f fptrs ih =>
    intro acc
    obtain ⟨addrs, offset⟩ := acc
    simp only [process_ref_loop]
    rw [ih]
    rfl

theorem process_ref_with_csts (L : List pta_constraint) (s : pta_system) (r : pta_ref) :
    (s.with_csts L).process_ref r = s.process_ref r := by
  cases r with
  | pointer_ref p o => rfl
  | object_ref a o => rfl
  | function_ref u => rfl
  | param_ref f p => exact process_ref_loop_with_csts L s _ _ _
  | return_ref f => exact process_ref_loop_with_csts L s _ _ _

theorem for_each_address_with_csts (L : List pta_constraint) (v : vname)
    (body : index_t → pta_system → pta_system)
    (hbody : ∀ a s, body a (s.with_csts L) = (body a s).with_csts L) :
    ∀ (fuel : Nat) (it : Option index_t) (s : pta_system),
      for_each_address v body fuel it (s.with_csts L) =
        (for_each_address v body fuel it s).map (with_csts L) := by
  intro fuel
  induction fuel with
  | zero =>
    intro it s
    cases it <;> rfl
  | succ fuel ih =>
    intro it s
    cases it with
    | none => rfl
    | some a =>
      simp only [for_each_address]
      rw [hbody, ← ih]
      rfl

theorem process_constraint_with_csts (L : List pta_constraint) (fuel : Nat)
    (cst : pta_constraint) (op : binary_op) (s : pta_system) :
    process_constraint fuel cst op (s.with_csts L) =
      (process_constraint fuel cst op s).map (with_csts L) := by
  cases cst with
  | pta_assign lhs rhs =>
    simp only [process_constraint]
    rw [process_ref_with_csts, add_address_set_with_csts, add_offset_with_csts]
    rfl
  | pta_store ref rhs =>
    cases ref with
    | pointer_ref p o =>
      simp only [process_constraint]
      exact for_each_address_with_csts L _ _
        (fun a st => by rw [add_address_set_with_csts, add_offset_with_csts]; rfl) _ _ _
    | object_ref a o => rfl
    | function_ref u => rfl
    | param_ref f p =>
      simp only [process_constraint]
      exact for_each_address_with_csts L _ _
        (fun a st => by rw [add_address_set_with_csts, add_offset_with_csts]; rfl) _ _ _
    | return_ref f =>
      simp only [process_constraint]
      exact for_each_address_with_csts L _ _
        (fun a st => by rw [add_address_set_with_csts, add_offset_with_csts]; rfl) _ _ _
  | pta_load lhs ref =>
    cases ref with
    | pointer_ref p o =>
      simp only [process_constraint]
      exact for_each_address_with_csts L _ _
        (fun a st => by
          show ((st.with_csts L).add_address_set _ _).add_offset _ _ _ = _
          rw [add_address_set_with_csts, add_offset_with_csts]; rfl) _ _ _
    | object_ref a o => rfl
    | function_ref u => rfl
    | param_ref f p =>
      simp only [process_constraint]
      exact for_each_address_with_csts L _ _
        (fun a st => by
          show ((st.with_csts L).add_address_set _ _).add_offset _ _ _ = _
          rw [add_address_set_with_csts, add_offset_with_csts]; rfl) _ _ _
    | return_ref f =>
      simp only [process_constraint]
      exact for_each_address_with_csts L _ _
        (fun a st => by
          show ((st.with_csts L).add_address_set _ _).add_offset _ _ _ = _
          rw [add_address_set_with_csts, add_offset_with_csts]; rfl) _ _ _

theorem process_constraint_forget_offset (fuel : Nat) (cst : pta_constraint) (op : binary_op)
    (s : pta_system) :
    process_constraint fuel cst.forget_offset op s = process_constraint fuel cst op s := by
  cases cst with
  | pta_assign lhs rhs => rfl
  | pta_store ref rhs => cases ref <;> rfl
  | pta_load lhs ref => cases ref <;> rfl

theorem step_loop_with_csts (L : List pta_constraint) (fuel : Nat) (op : binary_op) :
    ∀ (csts csts' : List pta_constraint),
      csts'.map pta_constraint.forget_offset = csts.map pta_constraint.forget_offset →
      ∀ s : pta_system, step_loop fuel op csts' (s.with_csts L) =
        (step_loop fuel op csts s).map (with_csts L) := by
  intro csts
  induction csts with
  | nil =>
    intro csts' h s
    cases csts' with
    | nil => rfl
    | cons c cs => simp at h
  | cons c csts ih =>
    intro csts' h s
    cases csts' with
    | nil => simp at h
    | cons c' cs' =>
      simp only [List.map_cons, List.cons.injEq] at h
      simp only [step_loop]
      rw [← process_constraint_forget_offset fuel c', h.1, process_constraint_forget_offset,
        process_constraint_with_csts]
      cases hp : process_constraint fuel c op s with
      | error e => rfl
      | ok s1 =>
        simp only [Except.map]
        exact ih cs' h.2 s1

theorem step_with_csts (L : List pta_constraint) (fuel : Nat) (op : binary_op)
    (s : pta_system)
    (h : L.map pta_constraint.forget_offset = s._csts.map pta_constraint.forget_offset) :
    step fuel op (s.with_csts L) = (step fuel op s).map (with_csts L) :=
  step_loop_with_csts L fuel op s._csts L h s

theorem csts_process_constraint (fuel : Nat) (cst : pta_constraint) (op : binary_op)
    (s s' : pta_system) (h : process_constraint fuel cst op s = Except.ok s') :
    s'._csts = s._csts := by
  have h1 := process_constraint_with_csts s._csts fuel cst op s
  have e : s.with_csts s._csts = s := rfl
  rw [e, h] at h1
  simp only [Except.map, Except.ok.injEq] at h1
  rw [h1]
  rfl

theorem csts_step_loop (fuel : Nat) (op : binary_op) :
    ∀ (csts : List pta_constraint) (s s' : pta_system),
      step_loop fuel op csts s = Except.ok s' → s'._csts = s._csts := by
  intro csts
  induction csts with
  | nil =>
    intro s s' h
    simp only [step_loop, Except.ok.injEq] at h
    rw [h]
  | cons c csts ih =>
    intro s s' h
    simp only [step_loop] at h
    cases hp : process_constraint fuel c op s with
    | error e => rw [hp] at h; cases h
    | ok s1 =>
      rw [hp] at h
      rw [ih s1 s' h, csts_process_constraint fuel c op s s1 hp]

theorem csts_step (fuel : Nat) (op : binary_op) (s s' : pta_system)
    (h : step fuel op s = Except.ok s') : s'._csts = s._csts :=
  csts_step_loop fuel op s._csts s s' h

theorem extrapolate_loop_with_csts (L : List pta_constraint) (fuel W : Nat) :
    ∀ (n : Nat) (s : pta_system),
      L.map pta_constraint.forget_offset = s._csts.map pta_constraint.forget_offset →
      extrapolate_loop fuel W n (s.with_csts L) =
        (extrapolate_loop fuel W n s).map (with_csts L) := by
  intro n
  induction n with
  | zero => intro s _; rfl
  | succ n ih =>
    intro s h
    simp only [extrapolate_loop]
    have e := step_with_csts L fuel (binary_op.extrapolate W)
      { s with iteration := (s.iteration + 1) % size_t_modulus, change_seen := false } h
    have e' : step fuel (binary_op.extrapolate W)
        { (s.with_csts L) with iteration := ((s.with_csts L).iteration + 1) % size_t_modulus, change_seen := false } =
        (step fuel (binary_op.extrapolate W)
          { s with iteration := (s.iteration + 1) % size_t_modulus, change_seen := false }).map
          (with_csts L) := e
    rw [e']
    cases hs : step fuel (binary_op.extrapolate W)
        { s with iteration := (s.iteration + 1) % size_t_modulus, change_seen := false } with
    | error e => rfl
    | ok s1 =>
      simp only [Except.map]
      have hc : s1._csts = s._csts := (csts_step fuel _ _ s1 hs : s1._csts = _)
      have hcs : (s1.with_csts L).change_seen = s1.change_seen := rfl
      rw [hcs]
      split
      · exact ih s1 (by rw [hc]; exact h)
      · rfl

theorem refine_loop_with_csts (L : List pta_constraint) (fuel N : Nat) :
    ∀ (n : Nat) (s : pta_system),
      L.map pta_constraint.forget_offset = s._csts.map pta_constraint.forget_offset →
      refine_loop fuel N n (s.with_csts L) = (refine_loop fuel N n s).map (with_csts L) := by
  intro n
  induction n with
  | zero => intro s _; rfl
  | succ n ih =>
    intro s h
    simp only [refine_loop]
    have hi : (s.with_csts L).iteration = s.iteration := rfl
    rw [hi]
    split
    · rw [step_with_csts L fuel _ _ h]
      cases hs : step fuel binary_op.refine s with
      | error e => rfl
      | ok s1 =>
        simp only [Except.map]
        have hc : s1._csts = s._csts := (csts_step fuel _ _ s1 hs : s1._csts = _)
        exact ih { s1 with iteration := (s1.iteration + 1) % size_t_modulus }
          (by show _ = s1._csts.map _; rw [hc]; exact h)
    · rfl

theorem csts_extrapolate_loop (fuel W : Nat) :
    ∀ (n : Nat) (s s' : pta_system),
      extrapolate_loop fuel W n s = Except.ok s' → s'._csts = s._csts := by
  intro n
  induction n with
  | zero => intro s s' h; cases h
  | succ n ih =>
    intro s s' h
    simp only [extrapolate_loop] at h
    cases hs : step fuel (binary_op.extrapolate W)
        { s with iteration := (s.iteration + 1) % size_t_modulus, change_seen := false } with
    | error e => rw [hs] at h; cases h
    | ok s1 =>
      rw [hs] at h
      have hc : s1._csts = s._csts := (csts_step fuel _ _ s1 hs : s1._csts = _)
      simp only at h
      split at h
      · rw [ih s1 s' h, hc]
      · cases h; exact hc

theorem solve_with_csts (L : List pta_constraint) (fuel : Nat) (s : pta_system) (W N : Nat)
    (h : L.map pta_constraint.forget_offset = s._csts.map pta_constraint.forget_offset) :
    solve fuel (s.with_csts L) W N = (solve fuel s W N).map (with_csts L) := by
  simp only [solve]
  have e : extrapolate_loop fuel W fuel { (s.with_csts L) with iteration := 0 } =
      (extrapolate_loop fuel W fuel { s with iteration := 0 }).map (with_csts L) :=
    extrapolate_loop_with_csts L fuel W fuel { s with iteration := 0 } h
  rw [e]
  cases hs : extrapolate_loop fuel W fuel { s with iteration := 0 } with
  | error e => rfl
  | ok s1 =>
    simp only [Except.map]
    have hc : s1._csts = s._csts := (csts_extrapolate_loop fuel W fuel _ s1 hs : s1._csts = _)
    exact refine_loop_with_csts L fuel N fuel { s1 with iteration := 0 }
      (by show _ = s1._csts.map _; rw [hc]; exact h)

end pta_system




namespace bound

theorem mul_fin_lower_nonneg {a : bound} {u v : Int} (h : a ≤ finite u) (hv : 0 ≤ v) :
    mul a (finite v) ≤ finite (u * v) := by
  cases a with
  | minus_infinity =>
    simp only [mul]
    split_ifs with h1 h2
    · subst h1; simp
    · simp
    · omega
  | finite a =>
    simp only [mul, finite_le_finite] at h ⊢
    exact Int.mul_le_mul_of_nonneg_right h hv
  | plus_infinity => simp at h

theorem mul_fin_upper_nonneg {b : bound} {u v : Int} (h : finite u ≤ b) (hv : 0 ≤ v) :
    finite (u * v) ≤ mul b (finite v) := by
  cases b with
  | minus_infinity => simp at h
  | finite b =>
    simp only [mul, finite_le_finite] at h ⊢
    exact Int.mul_le_mul_of_nonneg_right h hv
  | plus_infinity =>
    simp only [mul]
    split_ifs with h1 h2
    · subst h1; simp
    · simp
    · omega

theorem mul_fin_lower_nonpos {b : bound} {u v : Int} (h : finite u ≤ b) (hv : v ≤ 0) :
    mul b (finite v) ≤ finite (u * v) := by
  cases b with
  | minus_infinity => simp at h
  | finite b =>
    simp only [mul, finite_le_finite] at h ⊢
    exact Int.mul_le_mul_of_nonpos_right h hv
  | plus_infinity =>
    simp only [mul]
    split_ifs with h1 h2
    · subst h1; simp
    · omega
    · simp

theorem mul_fin_upper_nonpos {a : bound} {u v : Int} (h : a ≤ finite u) (hv : v ≤ 0) :
    finite (u * v) ≤ mul a (finite v) := by
  cases a with
  | minus_infinity =>
    simp only [mul]
    split_ifs with h1 h2
    · subst h1; simp
    · omega
    · simp
  | finite a =>
    simp only [mul, finite_le_finite] at h ⊢
    exact Int.mul_le_mul_of_nonpos_right h hv
  | plus_infinity => simp at h

theorem mul_mono_right_nonneg {e c d : bound} (he : finite 0 ≤ e) (h : c ≤ d) :
    mul e c ≤ mul e d := by
  cases e with
  | minus_infinity => simp at he
  | finite e =>
    simp only [finite_le_finite] at he
    cases c with
    | minus_infinity =>
      cases d <;> simp only [mul] <;> (try split_ifs) <;> (try simp_all) <;> (try omega)
    | finite c =>
      cases d with
      | minus_infinity => simp at h
      | finite d =>
        simp only [mul, finite_le_finite] at h ⊢
        exact Int.mul_le_mul_of_nonneg_left h he
      | plus_infinity => simp only [mul]; split_ifs <;> (try simp_all) <;> (try omega)
    | plus_infinity =>
      cases d <;> simp only [mul] <;> simp at h ⊢
  | plus_infinity =>
    cases c <;> cases d <;> simp only [mul] <;> simp at h ⊢ <;>
      (try split_ifs) <;> (try simp) <;> (try omega)

theorem mul_mono_right_nonpos {e c d : bound} (he : e ≤ finite 0) (h : c ≤ d) :
    mul e d ≤ mul e c := by
  cases e with
  | plus_infinity => simp at he
  | finite e =>
    simp only [finite_le_finite] at he
    cases c with
    | minus_infinity =>
      cases d <;> simp only [mul] <;> (try split_ifs) <;> (try simp_all) <;> (try omega)
    | finite c =>
      cases d with
      | minus_infinity => simp at h
      | finite d =>
        simp only [mul, finite_le_finite] at h ⊢
        exact Int.mul_le_mul_of_nonpos_left he h
      | plus_infinity => simp only [mul]; split_ifs <;> (try simp_all) <;> (try omega)
    | plus_infinity =>
      cases d <;> simp only [mul] <;> simp at h ⊢
  | minus_infinity =>
    cases c <;> cases d <;> simp only [mul] <;> simp at h ⊢ <;>
      (try split_ifs) <;> (try simp) <;> (try omega)

end bound

namespace interval

theorem contains_iff {i : interval} {n : Int} :
    i.contains n = true ↔ i.lb ≤ bound.finite n ∧ bound.finite n ≤ i.ub := by
  simp [contains, bound.leb_iff]

theorem not_bottom_of_contains {i : interval} {n : Int} (h : i.contains n = true) :
    i.is_bottom = false := by
  rw [contains_iff] at h
  exact is_bottom_false_iff.mpr (le_trans h.1 h.2)

theorem contains_of_leq {x y : interval} {n : Int} (h : x.contains n = true)
    (hxy : x.leq y = true) : y.contains n = true := by
  have hx := not_bottom_of_contains h
  have hy : y.is_bottom = false := by
    cases hb : y.is_bottom
    · rfl
    · simp [leq, hx, hb] at hxy
  rw [leq_iff hx hy] at hxy
  rw [contains_iff] at h ⊢
  exact ⟨le_trans hxy.1 h.1, le_trans h.2 hxy.2⟩

theorem contains_add {a b : interval} {u v : Int} (ha : a.contains u = true)
    (hb : b.contains v = true) : (a.add b).contains (u + v) = true := by
  have ha' := not_bottom_of_contains ha
  have hb' := not_bottom_of_contains hb
  rw [contains_iff] at ha hb ⊢
  simp only [add, ha', hb', Bool.or_self, Bool.false_eq_true, if_false]
  obtain ⟨al, au⟩ := a
  obtain ⟨bl, bu⟩ := b
  simp only at ha hb ⊢
  constructor
  · cases al <;> cases bl <;> simp [bound.add] at ha hb ⊢
    omega
  · cases au <;> cases bu <;> simp [bound.add] at ha hb ⊢
    omega

theorem contains_sub {a b : interval} {u v : Int} (ha : a.contains u = true)
    (hb : b.contains v = true) : (a.sub b).contains (u - v) = true := by
  have ha' := not_bottom_of_contains ha
  have hb' := not_bottom_of_contains hb
  rw [contains_iff] at ha hb ⊢
  simp only [sub, ha', hb', Bool.or_self, Bool.false_eq_true, if_false]
  obtain ⟨al, au⟩ := a
  obtain ⟨bl, bu⟩ := b
  simp only at ha hb ⊢
  constructor
  · cases al <;> cases bu <;> simp [bound.sub, bound.add, bound.neg] at ha hb ⊢
    omega
  · cases au <;> cases bl <;> simp [bound.sub, bound.add, bound.neg] at ha hb ⊢
    omega

theorem contains_mul {a b : interval} {u v : Int} (ha : a.contains u = true)
    (hb : b.contains v = true) : (a.mul b).contains (u * v) = true := by
  have ha' := not_bottom_of_contains ha
  have hb' := not_bottom_of_contains hb
  rw [contains_iff] at ha hb ⊢
  simp only [mul, ha', hb', Bool.or_self, Bool.false_eq_true, if_false, bound.bmin_eq,
    bound.bmax_eq]
  obtain ⟨al, au⟩ := a
  obtain ⟨bl, bu⟩ := b
  simp only at ha hb ⊢
  obtain ⟨ha1, ha2⟩ := ha
  obtain ⟨hb1, hb2⟩ := hb
  constructor
  · rcases le_total 0 v with hv | hv
    · have h1 := bound.mul_fin_lower_nonneg ha1 hv
      rcases le_total (bound.finite 0) al with he | he
      · exact le_trans (le_trans (min_le_left _ _) (min_le_left _ _))
          (le_trans (bound.mul_mono_right_nonneg he hb1) h1)
      · exact le_trans (le_trans (min_le_left _ _) (min_le_right _ _))
          (le_trans (bound.mul_mono_right_nonpos he hb2) h1)
    · have h1 := bound.mul_fin_lower_nonpos ha2 hv
      rcases le_total (bound.finite 0) au with he | he
      · exact le_trans (le_trans (min_le_right _ _) (min_le_left _ _))
          (le_trans (bound.mul_mono_right_nonneg he hb1) h1)
      · exact le_trans (le_trans (min_le_right _ _) (min_le_right _ _))
          (le_trans (bound.mul_mono_right_nonpos he hb2) h1)
  · rcases le_total 0 v with hv | hv
    · have h1 := bound.mul_fin_upper_nonneg ha2 hv
      rcases le_total (bound.finite 0) au with he | he
      · exact le_trans (le_trans h1 (bound.mul_mono_right_nonneg he hb2))
          (le_trans (le_max_right _ _) (le_max_right _ _))
      · exact le_trans (le_trans h1 (bound.mul_mono_right_nonpos he hb1))
          (le_trans (le_max_left _ _) (le_max_right _ _))
    · have h1 := bound.mul_fin_upper_nonpos ha1 hv
      rcases le_total (bound.finite 0) al with he | he
      · exact le_trans (le_trans h1 (bound.mul_mono_right_nonneg he hb2))
          (le_trans (le_max_right _ _) (le_max_left _ _))
      · exact le_trans (le_trans h1 (bound.mul_mono_right_nonpos he hb1))
          (le_trans (le_max_left _ _) (le_max_left _ _))

end interval


namespace dis_interval

theorem pairwise_head_last {R : interval → interval → Prop} :
    ∀ (l : List interval) (hne : l ≠ []), List.Pairwise R l →
      ∀ z ∈ l, (z = l.head hne ∨ R (l.head hne) z) ∧ (z = l.getLast hne ∨ R z (l.getLast hne)) := by
  intro l
  induction l with
  | nil => intro hne; exact absurd rfl hne
  | cons x l ih =>
    intro hne hp z hz
    rw [List.pairwise_cons] at hp
    constructor
    · rcases List.mem_cons.mp hz with hz | hz
      · exact Or.inl hz
      · exact Or.inr (hp.1 z hz)
    · cases l with
      | nil =>
        simp only [List.mem_singleton] at hz
        exact Or.inl hz
      | cons y l =>
        rw [List.getLast_cons (List.cons_ne_nil y l)]
        rcases List.mem_cons.mp hz with hz | hz
        · right
          rw [hz]
          exact hp.1 _ (List.getLast_mem _)
        · exact (ih (List.cons_ne_nil y l) hp.2 z hz).2

/-- The hull of the first and the last interval of a list with gaps contains
the integers of every interval of the list. -/
theorem hull_contains (l : List interval) (hne : l ≠ [])
    (hnb : ∀ x ∈ l, x.is_bottom = false) (hs : sorted_with_gaps l) (z : interval) (hz : z ∈ l)
    (n : Int) (hn : z.contains n = true) :
    ((l.head hne).join (l.getLast hne)).contains n = true := by
  have hp := pairwise_of_sorted_with_gaps l hnb hs
  obtain ⟨h1, h2⟩ := pairwise_head_last l hne hp z hz
  have hh := hnb _ (List.head_mem hne)
  have hl := hnb _ (List.getLast_mem hne)
  rw [interval.join_eq hh hl, interval.contains_iff]
  rw [interval.contains_iff] at hn
  simp only
  have hzb := interval.is_bottom_false_iff.mp (hnb z hz)
  constructor
  · refine le_trans (min_le_left _ _) ?_
    rcases h1 with h1 | h1
    · rw [← h1]; exact hn.1
    · exact le_trans (le_trans (interval.is_bottom_false_iff.mp hh)
        (le_trans (bound.le_plus_one _) (le_of_lt h1))) hn.1
  · refine le_trans ?_ (le_max_right _ _)
    rcases h2 with h2 | h2
    · rw [← h2]; exact hn.2
    · exact le_trans hn.2 (le_trans (bound.le_plus_one _)
        (le_trans (le_of_lt h2) (interval.is_bottom_false_iff.mp hl)))

/-- The value built by the list constructor contains the integers of every
interval of the list, when no interval of the list is bottom or top. -/
theorem of_list_contains (l : List interval)
    (hl : ∀ x ∈ l, x.is_bottom = false ∧ x.is_top = false) (w : interval) (hw : w ∈ l)
    (n : Int) (hn : w.contains n = true) : (of_list l true).contains n = true := by
  obtain ⟨h2, hc⟩ := normalize_cover l hl
  rw [of_list_eq, h2]
  simp only [Bool.false_eq_true, if_false]
  rcases hc with hc | hc
  · obtain ⟨_, z, hz, hwz⟩ := hc w hw
    have hzn := interval.contains_of_leq hn hwz
    have hne : (normalize l).1 ≠ [] := List.ne_nil_of_mem hz
    rw [if_neg hne]
    split
    · rename_i hcap
      have hok := normalize_list_ok l
        (fun x hx hb => by rw [(hl x hx).1] at hb; cases hb)
        (fun x hx => hl x (by rw [hx]; exact List.mem_singleton_self x))
      rw [approx_list_of_two_le _ hne (by simp only [max_num_disjunctions] at hcap; omega)]
      simp only [contains, List.any_cons, List.any_nil, Bool.or_false]
      exact hull_contains _ hne (fun x hx => (hok.1 x hx).1) hok.2 z hz n hzn
    · simp only [contains, List.any_eq_true]
      exact ⟨z, hz, hzn⟩
  · rw [if_pos hc.1]
    rfl

theorem bin_op_push_spec (intv : interval) (st st' : List interval × Bool)
    (h : bin_op_push intv st = some st') :
    (intv.is_bottom = false → intv ∈ st'.1 ∧ st'.2 = false) ∧
    (∀ w ∈ st.1, w ∈ st'.1) ∧ (st.2 = false → st'.2 = false) ∧
    (∀ w ∈ st'.1, w ∈ st.1 ∨ (w.is_bottom = false ∧ w.is_top = false)) := by
  unfold bin_op_push at h
  split at h
  · rename_i hb
    cases h
    exact ⟨fun h' => (by rw [hb] at h'; cases h'), fun w hw => hw, fun h' => h',
      fun w hw => Or.inl hw⟩
  · rename_i hb
    split at h
    · cases h
    · rename_i ht
      cases h
      refine ⟨fun _ => ⟨by simp, rfl⟩, fun w hw => (by simp [hw]), fun _ => rfl, ?_⟩
      intro w hw
      simp only [List.mem_append, List.mem_singleton] at hw
      rcases hw with hw | hw
      · exact Or.inl hw
      · right
        rw [hw]
        exact ⟨by simpa using hb, by simpa using ht⟩

theorem bin_op_inner_spec (op : interval → interval → interval) (xi : interval) :
    ∀ (ys : List interval) (st st' : List interval × Bool),
      bin_op_inner op xi ys st = some st' →
      (∀ yj ∈ ys, (op xi yj).is_bottom = false → op xi yj ∈ st'.1 ∧ st'.2 = false) ∧
      (∀ w ∈ st.1, w ∈ st'.1) ∧ (st.2 = false → st'.2 = false) ∧
      (∀ w ∈ st'.1, w ∈ st.1 ∨ (w.is_bottom = false ∧ w.is_top = false)) := by
  intro ys
  induction ys with
  | nil =>
    intro st st' h
    simp only [bin_op_inner, Option.some.injEq] at h
    subst h
    exact ⟨fun _ h => (by cases h), fun w hw => hw, fun h => h, fun w hw => Or.inl hw⟩
  | cons y ys ih =>
    intro st st' h
    simp only [bin_op_inner] at h
    cases hp : bin_op_push (op xi y) st with
    | none => rw [hp] at h; cases h
    | some st1 =>
      rw [hp] at h
      obtain ⟨p1, p2, p3, p4⟩ := bin_op_push_spec _ st st1 hp
      obtain ⟨i1, i2, i3, i4⟩ := ih st1 st' h
      refine ⟨?_, fun w hw => i2 w (p2 w hw), fun h' => i3 (p3 h'), ?_⟩
      · intro yj hyj hb
        rcases List.mem_cons.mp hyj with e | hyj
        · subst e
          exact ⟨i2 _ (p1 hb).1, i3 (p1 hb).2⟩
        · exact i1 yj hyj hb
      · intro w hw
        rcases i4 w hw with hw | hw
        · exact p4 w hw
        · exact Or.inr hw

theorem bin_op_outer_spec (op : interval → interval → interval) (ys : List interval) :
    ∀ (xs : List interval) (st st' : List interval × Bool),
      bin_op_outer op xs ys st = some st' →
      (∀ xi ∈ xs, ∀ yj ∈ ys, (op xi yj).is_bottom = false →
        op xi yj ∈ st'.1 ∧ st'.2 = false) ∧
      (∀ w ∈ st.1, w ∈ st'.1) ∧ (st.2 = false → st'.2 = false) ∧
      (∀ w ∈ st'.1, w ∈ st.1 ∨ (w.is_bottom = false ∧ w.is_top = false)) := by
  intro xs
  induction xs with
  | nil =>
    intro st st' h
    simp only [bin_op_outer, Option.some.injEq] at h
    subst h
    exact ⟨fun _ h => (by cases h), fun w hw => hw, fun h => h, fun w hw => Or.inl hw⟩
  | cons x xs ih =>
    intro st st' h
    simp only [bin_op_outer] at h
    cases hp : bin_op_inner op x ys st with
    | none => rw [hp] at h; cases h
    | some st1 =>
      rw [hp] at h
      obtain ⟨p1, p2, p3, p4⟩ := bin_op_inner_spec op x ys st st1 hp
      obtain ⟨i1, i2, i3, i4⟩ := ih st1 st' h
      refine ⟨?_, fun w hw => i2 w (p2 w hw), fun h' => i3 (p3 h'), ?_⟩
      · intro xi hxi yj hyj hb
        rcases List.mem_cons.mp hxi with e | hxi
        · subst e
          exact ⟨i2 _ (p1 yj hyj hb).1, i3 (p1 yj hyj hb).2⟩
        · exact i1 xi hxi yj hyj hb
      · intro w hw
        rcases i4 w hw with hw | hw
        · exact p4 w hw
        · exact Or.inr hw

theorem contains_top (n : Int) : top.contains n = true := rfl

theorem dis_not_bottom_of_contains {x : dis_interval} {n : Int} (h : x.contains n = true) :
    x.is_bottom = false := by
  obtain ⟨s, l⟩ := x
  cases s <;> simp_all [contains, is_bottom]

/-- The lifted operation with `shortcut_top` contains `f u v` for u in x and
v in y, when the operation on intervals does. -/
theorem apply_bin_op_contains (op : interval → interval → interval) (f : Int → Int → Int)
    (hop : ∀ a b u v, a.contains u = true → b.contains v = true →
      (op a b).contains (f u v) = true)
    (x y : dis_interval) (u v : Int) (hu : x.contains u = true) (hv : y.contains v = true) :
    (apply_bin_op x y op true).contains (f u v) = true := by
  have hxb := dis_not_bottom_of_contains hu
  have hyb := dis_not_bottom_of_contains hv
  unfold apply_bin_op
  simp only [hxb, hyb, Bool.or_self, Bool.false_eq_true, if_false, Bool.true_and, Bool.true_or,
    if_true]
  split
  · rfl
  · split
    · rfl
    · rename_i h1 h2
      have hxt : x.is_top = false := by
        cases h : x.is_top
        · rfl
        · simp [h] at h2
      have hyt : y.is_top = false := by
        cases h : y.is_top
        · rfl
        · simp [h] at h2
      obtain ⟨sx, lx⟩ := x
      obtain ⟨sy, ly⟩ := y
      cases sx
      · simp [is_bottom] at hxb
      · cases sy
        · simp [is_bottom] at hyb
        · simp only [contains, List.any_eq_true] at hu hv
          obtain ⟨xi, hxi, hxu⟩ := hu
          obtain ⟨yj, hyj, hyv⟩ := hv
          have hc := hop xi yj u v hxu hyv
          cases hr : bin_op_outer op lx ly ([], true) with
          | none => rfl
          | some st =>
            obtain ⟨res, isb⟩ := st
            obtain ⟨o1, _, _, o4⟩ := bin_op_outer_spec op ly lx ([], true) (res, isb) hr
            obtain ⟨m1, m2⟩ := o1 xi hxi yj hyj (interval.not_bottom_of_contains hc)
            simp only at m1 m2
            simp only [m2, Bool.false_eq_true, if_false]
            refine of_list_contains res ?_ _ m1 _ hc
            intro w hw
            rcases o4 w hw with h | h
            · simp at h
            · exact h
        · simp [is_top] at hyt
      · simp [is_top] at hxt

end dis_interval


namespace dis_interval

theorem fuse_length (res : List interval) :
    ∀ (intv : interval),
      (∀ res' p, fuse res intv = fused.subsumed res' p → res'.length ≤ res.length) ∧
      (∀ res' i, fuse res intv = fused.push res' i → res'.length ≤ res.length) := by
  induction res with
  | nil =>
    intro intv
    constructor
    · intro res' p h; simp [fuse] at h
    · intro res' i h
      simp only [fuse, fused.push.injEq] at h
      rw [← h.1]
  | cons prev res ih =>
    intro intv
    simp only [fuse]
    split
    · obtain ⟨i1, i2⟩ := ih (prev.join intv)
      exact ⟨fun res' p h => Nat.le_succ_of_le (i1 res' p h),
        fun res' i h => Nat.le_succ_of_le (i2 res' i h)⟩
    · split
      · constructor
        · intro res' p h
          simp only [fused.subsumed.injEq] at h
          rw [← h.1]
        · intro res' i h; cases h
      · constructor
        · intro res' p h; cases h
        · intro res' i h
          simp only [fused.push.injEq] at h
          rw [← h.1]

theorem normalize_loop_length (l : List interval) :
    ∀ (res : List interval) (prev : interval) (b : Nat) (r : List interval) (b' : Nat),
      normalize_loop l res prev b = some (r, b') → r.length ≤ res.length + l.length := by
  induction l with
  | nil =>
    intro res prev b r b' h
    simp only [normalize_loop, Option.some.injEq, Prod.mk.injEq] at h
    rw [← h.1]
    simp
  | cons intv l ih =>
    intro res prev b r b' h
    simp only [normalize_loop] at h
    simp only [List.length_cons]
    split at h
    · have := ih _ _ _ _ _ h; omega
    · split at h
      · have := ih _ _ _ _ _ h; omega
      · split at h
        · cases h
        · split at h
          · rename_i res' prev' hf
            have := ih _ _ _ _ _ h
            have hl : res'.length ≤ res.length := by
              split at hf
              · exact (fuse_length res intv).1 res' prev' hf
              · cases hf
            omega
          · rename_i res' intv' hf
            have hl : res'.length ≤ res.length := by
              split at hf
              · exact (fuse_length res intv).2 res' intv' hf
              · simp only [fused.push.injEq] at hf
                rw [← hf.1]
            split at h
            · cases h
            · have := ih _ _ _ _ _ h
              simp only [List.length_cons] at this
              omega

theorem normalize_length_le (l : List interval) : (normalize l).1.length ≤ l.length := by
  unfold normalize
  split
  · exact Nat.le_refl _
  · cases hr : normalize_loop (sort l) [] interval.top 0 with
    | none => simp
    | some rb =>
      obtain ⟨r, b⟩ := rb
      have := normalize_loop_length (sort l) [] interval.top 0 r b hr
      rw [length_sort] at this
      simpa using this

theorem of_list_length_le (l : List interval) (hne : l ≠ []) :
    (of_list l true)._list.length ≤ l.length := by
  have hpos : 1 ≤ l.length := by
    cases l with
    | nil => exact absurd rfl hne
    | cons x l => simp
  rw [of_list_eq]
  split
  · simp
  · split
    · simp
    · split
      · split
        · simpa using hpos
        · exact normalize_length_le l
      · exact normalize_length_le l

theorem join_main_length :
    ∀ (fuel : Nat) (a b res a' b' res' : List interval),
      join_main fuel a b res = some (a', b', res') →
      a'.length + b'.length + res'.length ≤ a.length + b.length + res.length := by
  intro fuel
  induction fuel with
  | zero =>
    intro a b res a' b' res' h
    simp only [join_main, Option.some.injEq, Prod.mk.injEq] at h
    obtain ⟨h1, h2, h3⟩ := h
    subst h1; subst h2; subst h3
    exact Nat.le_refl _
  | succ fuel ih =>
    intro a b res a' b' res' h
    cases a with
    | nil =>
      simp only [join_main, Option.some.injEq, Prod.mk.injEq] at h
      obtain ⟨h1, h2, h3⟩ := h
      subst h1; subst h2; subst h3
      exact Nat.le_refl _
    | cons x xs =>
      cases b with
      | nil =>
        simp only [join_main, Option.some.injEq, Prod.mk.injEq] at h
        obtain ⟨h1, h2, h3⟩ := h
        subst h1; subst h2; subst h3
        exact Nat.le_refl _
      | cons y ys =>
        simp only [join_main] at h
        simp only [List.length_cons]
        split at h
        · cases h
        · split at h
          · have := ih _ _ _ _ _ _ h; simp only [List.length_cons] at this; omega
          · split at h
            · have := ih _ _ _ _ _ _ h; simp only [List.length_cons] at this; omega
            · split at h
              · have := ih _ _ _ _ _ _ h; simp only [List.length_cons] at this; omega
              · split at h
                · have := ih _ _ _ _ _ _ h; simp only [List.length_cons] at this; omega
                · split at h
                  · have := ih _ _ _ _ _ _ h; simp only [List.length_cons] at this; omega
                  · split at h
                    · have := ih _ _ _ _ _ _ h
                      simp only [List.length_cons] at this; omega
                    · split at h
                      · have := ih _ _ _ _ _ _ h
                        simp only [List.length_cons] at this; omega
                      · have := ih _ _ _ _ _ _ h
                        simp only [List.length_cons] at this; omega

theorem join_rest_length (l : List interval) :
    ∀ res : List interval, (join_rest l res).length ≤ l.length + res.length := by
  induction l with
  | nil => intro res; simp [join_rest]
  | cons intv l ih =>
    intro res
    simp only [join_rest, List.length_cons]
    split
    · rename_i res' p hf
      have := ih res'
      have := (fuse_length res intv).1 res' p hf
      omega
    · rename_i res' i hf
      have := ih (i :: res')
      have := (fuse_length res intv).2 res' i hf
      simp only [List.length_cons] at *
      omega

theorem join_list_length (a b r : List interval) (h : join_list a b = some r) :
    r.length ≤ a.length + b.length := by
  unfold join_list at h
  cases hm : join_main (a.length + b.length) a b [] with
  | none => rw [hm] at h; cases h
  | some t =>
    obtain ⟨a', b', res⟩ := t
    rw [hm] at h
    simp only [Option.some.injEq] at h
    rw [← h, List.length_reverse]
    have h1 := join_main_length _ _ _ _ _ _ _ hm
    have h2 := join_rest_length a' res
    have h3 := join_rest_length b' (join_rest a' res)
    simp only [List.length_nil] at h1
    omega

theorem join_uncapped_of_length (la lb : List interval)
    (h : la.length + lb.length < max_num_disjunctions) :
    join_uncapped ⟨state_t.FINITE, la⟩ ⟨state_t.FINITE, lb⟩ = true := by
  unfold join_uncapped
  simp only
  cases hj : join_list la lb with
  | none => rfl
  | some res =>
    simp only [decide_eq_true_eq]
    exact Nat.lt_of_le_of_lt (Nat.le_trans (normalize_length_le res)
      (join_list_length la lb res hj)) h

theorem join_length_le (la lb : List interval) :
    (join ⟨state_t.FINITE, la⟩ ⟨state_t.FINITE, lb⟩)._list.length ≤ la.length + lb.length := by
  simp only [join, is_bottom, is_top, reduceCtorEq, decide_False, Bool.false_eq_true, if_false]
  cases hj : join_list la lb with
  | none => simp
  | some res =>
    cases res with
    | nil => simp [of_state]
    | cons r rs =>
      simp only
      split
      · simp [of_state]
      · exact Nat.le_trans (of_list_length_le _ (List.cons_ne_nil r rs))
          (join_list_length la lb _ hj)

end dis_interval

namespace dis_interval

theorem top_contains_of_proper {z : interval} (hz : proper z) (ht : z.is_top = true) (c : Int) :
    z.contains c = true := by
  obtain ⟨h1, h2⟩ := top_bounds hz ht
  rw [interval.contains_iff, h1, h2]
  simp

/-- Two overlapping or consecutive intervals without the integer `c`: their
hull does not hold `c` either. -/
theorem not_contains_join (c : Int) {x y : interval} (hx : proper x) (hy : proper y)
    (hxc : x.contains c = false) (hyc : y.contains c = false)
    (h : (overlap x y || are_consecutive x y) = true) :
    (x.join y).contains c = false := by
  have hxb := interval.is_bottom_false_iff.mp hx.1
  have hyb := interval.is_bottom_false_iff.mp hy.1
  rw [interval.join_eq hx.1 hy.1]
  rw [Bool.or_eq_true, overlap_iff, are_consecutive_iff] at h
  rw [← Bool.not_eq_true, interval.contains_iff] at hxc hyc ⊢
  obtain ⟨xl, xu⟩ := x
  obtain ⟨yl, yu⟩ := y
  simp only at hxb hyb h hxc hyc ⊢
  intro hc
  obtain ⟨hc1, hc2⟩ := hc
  rw [min_le_iff] at hc1
  rw [le_max_iff] at hc2
  have hx' : bound.finite c < xl ∨ xu < bound.finite c := by
    by_contra hn
    push_neg at hn
    exact hxc ⟨hn.1, hn.2⟩
  have hy' : bound.finite c < yl ∨ yu < bound.finite c := by
    by_contra hn
    push_neg at hn
    exact hyc ⟨hn.1, hn.2⟩
  rcases hx' with hx' | hx' <;> rcases hy' with hy' | hy'
  · rcases hc1 with h1 | h1
    · exact absurd h1 (not_le.mpr hx')
    · exact absurd h1 (not_le.mpr hy')
  · -- yu < c < xl
    rcases h with h | h | h
    · exact absurd (lt_of_le_of_lt h.2 (lt_trans hy' hx')) (lt_irrefl _)
    · exact absurd (lt_of_lt_of_le (lt_of_lt_of_le hx' h.1.1) (le_trans hyb (le_of_lt hy')))
        (lt_irrefl _)
    · obtain ⟨_, e⟩ := h
      cases yu with
      | minus_infinity => simp [bound.plus] at e; rw [← e] at hx'; simp at hx'
      | finite k =>
        simp only [bound.plus] at e
        rw [← e] at hx'
        simp only [bound.finite_lt_finite] at hx' hy'
        omega
      | plus_infinity => simp at hy'
  · -- xu < c < yl
    rcases h with h | h | h
    · exact absurd (lt_of_le_of_lt h.1 (lt_trans hx' hy')) (lt_irrefl _)
    · obtain ⟨_, e⟩ := h
      cases xu with
      | minus_infinity => simp [bound.plus] at e; rw [← e] at hy'; simp at hy'
      | finite k =>
        simp only [bound.plus] at e
        rw [← e] at hy'
        simp only [bound.finite_lt_finite] at hx' hy'
        omega
      | plus_infinity => simp at hx'
    · exact absurd (lt_of_lt_of_le (lt_of_lt_of_le hy' h.1.1) (le_trans hxb (le_of_lt hx')))
        (lt_irrefl _)
  · rcases hc2 with h2 | h2
    · exact absurd h2 (not_le.mpr hx')
    · exact absurd h2 (not_le.mpr hy')

theorem contains_of_covered {r : List interval} {y : interval} (h : covered r y) (v : Int)
    (hv : y.contains v = true) : (⟨state_t.FINITE, r⟩ : dis_interval).contains v = true := by
  obtain ⟨_, z, hz, hyz⟩ := h
  simp only [contains, List.any_eq_true]
  exact ⟨z, hz, interval.contains_of_leq hv hyz⟩

/-- One join of `trim_bound`: the accumulated value `res` is bottom or a
well-formed FINITE value without `c`, the piece `p` is the stored bottom or a
proper interval without `c`, and the cap is not reached. -/
theorem join_piece (c : Int) (res : dis_interval) (p : interval)
    (hres : res = ⟨state_t.BOT, []⟩ ∨ (res._state = state_t.FINITE ∧ well_formed res ∧
      ∀ z ∈ res._list, proper z ∧ z.contains c = false))
    (hp : p = interval.bottom ∨ (proper p ∧ p.is_top = false ∧ p.contains c = false))
    (hlen : res._list.length + 1 < max_num_disjunctions) :
    ((res.join (of_interval p)) = ⟨state_t.BOT, []⟩ ∨
      ((res.join (of_interval p))._state = state_t.FINITE ∧
        well_formed (res.join (of_interval p)) ∧
        ∀ z ∈ (res.join (of_interval p))._list, proper z ∧ z.contains c = false)) ∧
    (res.join (of_interval p))._list.length ≤ res._list.length + 1 ∧
    (∀ v, res.contains v = true → (res.join (of_interval p)).contains v = true) ∧
    (∀ v, p.contains v = true → (res.join (of_interval p)).contains v = true) := by
  rcases hp with hp | ⟨hpp, hpt, hpc⟩
  · subst hp
    have e : of_interval interval.bottom = ⟨state_t.BOT, []⟩ := by decide
    rw [e]
    rcases hres with hres | ⟨hs, hw, hz⟩
    · subst hres
      refine ⟨Or.inl rfl, by simp [join, is_bottom], fun v hv => hv, fun v hv => ?_⟩
      simp [interval.contains, interval.bottom, bound.leb] at hv
      omega
    · have hb : res.is_bottom = false := by simp [is_bottom, hs]
      have e2 : res.join ⟨state_t.BOT, []⟩ = res := by
        simp only [join, hb, Bool.false_eq_true, if_false]
        rfl
      rw [e2]
      refine ⟨Or.inr ⟨hs, hw, hz⟩, Nat.le_succ _, fun v hv => hv, fun v hv => ?_⟩
      simp [interval.contains, interval.bottom, bound.leb] at hv
      omega
  · have e : of_interval p = ⟨state_t.FINITE, [p]⟩ := by
      simp [of_interval, hpt, hpp.1]
    rw [e]
    have hwp : well_formed ⟨state_t.FINITE, [p]⟩ := by
      rw [well_formed_finite_iff]
      refine ⟨by simp, ?_, trivial, by simp [max_num_disjunctions]⟩
      intro i hi
      simp only [List.mem_singleton] at hi
      subst hi
      exact ⟨hpp.1, hpt⟩
    rcases hres with hres | ⟨hs, hw, hz⟩
    · subst hres
      have e2 : join ⟨state_t.BOT, []⟩ ⟨state_t.FINITE, [p]⟩ = ⟨state_t.FINITE, [p]⟩ := by
        simp [join, is_bottom]
      rw [e2]
      refine ⟨Or.inr ⟨rfl, hwp, ?_⟩, by simp, fun v hv => by simp [contains] at hv, ?_⟩
      · intro z hz'
        simp only [List.mem_singleton] at hz'
        subst hz'
        exact ⟨hpp, hpc⟩
      · intro v hv
        simp [contains, hv]
    · obtain ⟨sr, la⟩ := res
      simp only at hs
      subst hs
      simp only at hw hz hlen
      have hcap := join_uncapped_of_length la [p] (by simpa using hlen)
      have hlenle := join_length_le la [p]
      rcases join_spec la [p] hw hwp hcap with ⟨_, hP⟩ | ⟨r, hr, hwr, hcov, hP⟩
      · exfalso
        obtain ⟨z, ⟨hz1, hz2⟩, hzt⟩ := hP (fun z => proper z ∧ z.contains c = false)
          (fun x y hx hy hxy => ⟨proper_join hx.1 hy.1,
            not_contains_join c hx.1 hy.1 hx.2 hy.2 hxy⟩)
          (fun x hx => hx.1.1)
          (fun x hx => by
            simp only [List.mem_append, List.mem_singleton] at hx
            rcases hx with hx | hx
            · exact hz x hx
            · subst hx; exact ⟨hpp, hpc⟩)
        rw [top_contains_of_proper hz1 hzt c] at hz2
        cases hz2
      · rw [hr] at hlenle ⊢
        refine ⟨Or.inr ⟨rfl, hwr, ?_⟩, by simpa using hlenle, ?_, ?_⟩
        · exact hP (fun z => proper z ∧ z.contains c = false)
            (fun x y hx hy hxy => ⟨proper_join hx.1 hy.1,
              not_contains_join c hx.1 hy.1 hx.2 hy.2 hxy⟩)
            (fun x hx => hx.1.1)
            (fun x hx => by
              simp only [List.mem_append, List.mem_singleton] at hx
              rcases hx with hx | hx
              · exact hz x hx
              · subst hx; exact ⟨hpp, hpc⟩)
        · intro v hv
          simp only [contains, List.any_eq_true] at hv
          obtain ⟨y, hy, hyv⟩ := hv
          exact contains_of_covered (hcov y (List.mem_append_left _ hy)) v hyv
        · intro v hv
          exact contains_of_covered (hcov p (List.mem_append_right _ (List.mem_singleton_self p)))
            v hv

end dis_interval

namespace dis_interval

theorem of_num_leq_iff (c : Int) (i : interval) (hi : i.is_bottom = false) :
    (interval.of_num c).leq i = i.contains c := by
  have hc : (interval.of_num c).is_bottom = false := by
    rw [interval.is_bottom_false_iff]
    exact le_refl _
  rw [Bool.eq_iff_iff, interval.leq_iff hc hi, interval.contains_iff]
  rfl

theorem mk_interval_of_lt {l u : bound} (h : u < l) :
    interval.mk_interval l u = interval.bottom := by
  simp [interval.mk_interval, bound.ltb_iff.mpr h]

/-- One iteration of the loop of `trim_bound`. -/
theorem trim_step_spec (c : Int) (res : dis_interval) (i : interval)
    (hi : i.is_bottom = false ∧ i.is_top = false)
    (hres : res = ⟨state_t.BOT, []⟩ ∨ (res._state = state_t.FINITE ∧ well_formed res ∧
      ∀ z ∈ res._list, proper z ∧ z.contains c = false))
    (hlen : res._list.length + (if i.contains c = true then 2 else 1) < max_num_disjunctions) :
    ((trim_step c res i) = ⟨state_t.BOT, []⟩ ∨
      ((trim_step c res i)._state = state_t.FINITE ∧ well_formed (trim_step c res i) ∧
        ∀ z ∈ (trim_step c res i)._list, proper z ∧ z.contains c = false)) ∧
    (trim_step c res i)._list.length ≤
      res._list.length + (if i.contains c = true then 2 else 1) ∧
    (∀ v, res.contains v = true → (trim_step c res i).contains v = true) ∧
    (∀ v, v ≠ c → i.contains v = true → (trim_step c res i).contains v = true) := by
  have hip := proper_of_not_top hi.1 hi.2
  unfold trim_step
  rw [of_num_leq_iff c i hi.1]
  cases hc : i.contains c
  · simp only [Bool.not_false, if_true]
    simp only [hc, Bool.false_eq_true, if_false] at hlen
    obtain ⟨j1, j2, j3, j4⟩ := join_piece c res i hres (Or.inr ⟨hip, hi.2, hc⟩) hlen
    exact ⟨j1, by simpa using j2, j3, fun v _ hv => j4 v hv⟩
  · simp only [Bool.not_true, Bool.false_eq_true, if_false]
    simp only [hc, if_true] at hlen
    have hc' := interval.contains_iff.mp hc
    obtain ⟨il, iu⟩ := i
    simp only at hc' ⊢
    -- the piece above c
    have hup : interval.mk_interval (bound.finite (c + 1)) iu = interval.bottom ∨
        (proper (interval.mk_interval (bound.finite (c + 1)) iu) ∧
          (interval.mk_interval (bound.finite (c + 1)) iu).is_top = false ∧
          (interval.mk_interval (bound.finite (c + 1)) iu).contains c = false) := by
      by_cases h : iu < bound.finite (c + 1)
      · exact Or.inl (mk_interval_of_lt h)
      · right
        have h' : bound.finite (c + 1) ≤ iu := not_lt.mp h
        rw [interval.mk_interval_of_le h']
        refine ⟨⟨interval.is_bottom_false_iff.mpr h', by simp, ?_⟩, by simp [interval.is_top, bound.is_infinite], ?_⟩
        · rintro rfl
          simp at h'
        · rw [← Bool.not_eq_true, interval.contains_iff]
          simp
    have hupc : ∀ v, v ≠ c → bound.finite c ≤ bound.finite v → bound.finite v ≤ iu →
        (interval.mk_interval (bound.finite (c + 1)) iu).contains v = true := by
      intro v hv h1 h2
      simp only [bound.finite_le_finite] at h1
      have h3 : bound.finite (c + 1) ≤ bound.finite v := by
        simp only [bound.finite_le_finite]; omega
      rw [interval.mk_interval_of_le (le_trans h3 h2), interval.contains_iff]
      exact ⟨h3, h2⟩
    -- the piece below c
    have hdn : interval.mk_interval il (bound.finite (c - 1)) = interval.bottom ∨
        (proper (interval.mk_interval il (bound.finite (c - 1))) ∧
          (interval.mk_interval il (bound.finite (c - 1))).is_top = false ∧
          (interval.mk_interval il (bound.finite (c - 1))).contains c = false) := by
      by_cases h : bound.finite (c - 1) < il
      · exact Or.inl (mk_interval_of_lt h)
      · right
        have h' : il ≤ bound.finite (c - 1) := not_lt.mp h
        rw [interval.mk_interval_of_le h']
        refine ⟨⟨interval.is_bottom_false_iff.mpr h', ?_, by simp⟩,
          by simp [interval.is_top, bound.is_infinite], ?_⟩
        · rintro rfl
          simp at h'
        · rw [← Bool.not_eq_true, interval.contains_iff]
          simp
    have hdnc : ∀ v, v ≠ c → il ≤ bound.finite v → bound.finite v ≤ bound.finite c →
        (interval.mk_interval il (bound.finite (c - 1))).contains v = true := by
      intro v hv h1 h2
      simp only [bound.finite_le_finite] at h2
      have h3 : bound.finite v ≤ bound.finite (c - 1) := by
        simp only [bound.finite_le_finite]; omega
      rw [interval.mk_interval_of_le (le_trans h1 h3), interval.contains_iff]
      exact ⟨h1, h3⟩
    split
    · rename_i hl
      obtain ⟨j1, j2, j3, j4⟩ := join_piece c res _ hres hup (by omega)
      refine ⟨j1, by simp only [if_true]; omega, j3, ?_⟩
      intro v hv hvi
      rw [interval.contains_iff] at hvi
      simp only at hvi
      exact j4 v (hupc v hv (by rw [← hl]; exact hvi.1) hvi.2)
    · split
      · rename_i hl hu
        obtain ⟨j1, j2, j3, j4⟩ := join_piece c res _ hres hdn (by omega)
        refine ⟨j1, by simp only [if_true]; omega, j3, ?_⟩
        intro v hv hvi
        rw [interval.contains_iff] at hvi
        simp only at hvi
        exact j4 v (hdnc v hv hvi.1 (by rw [← hu]; exact hvi.2))
      · obtain ⟨j1, j2, j3, j4⟩ := join_piece c res _ hres hdn (by omega)
        obtain ⟨k1, k2, k3, k4⟩ := join_piece c _ _ j1 hup (by omega)
        refine ⟨k1, by simp only [if_true]; omega, fun v hv => k3 v (j3 v hv), ?_⟩
        intro v hv hvi
        rw [interval.contains_iff] at hvi
        simp only at hvi
        rcases le_total (bound.finite c) (bound.finite v) with h | h
        · exact k4 v (hupc v hv h hvi.2)
        · exact k3 v (j4 v (hdnc v hv hvi.1 h))

/-- In a list with gaps at most one interval contains `c`. -/
theorem count_contains_le_one (c : Int) (l : List interval)
    (hnb : ∀ x ∈ l, x.is_bottom = false)
    (hp : List.Pairwise (fun a b => a.ub.plus 1 < b.lb) l) :
    (l.filter (fun i => i.contains c)).length ≤ 1 := by
  induction l with
  | nil => simp
  | cons x l ih =>
    rw [List.pairwise_cons] at hp
    have ih' := ih (fun y hy => hnb y (List.mem_cons_of_mem _ hy)) hp.2
    rw [List.filter_cons]
    split
    · rename_i hx
      have : l.filter (fun i => i.contains c) = [] := by
        rw [List.filter_eq_nil_iff]
        intro z hz hzc
        rw [interval.contains_iff] at hx hzc
        have h1 := hp.1 z hz
        have h2 : z.lb ≤ x.ub := le_trans hzc.1 hx.2
        exact absurd (lt_of_le_of_lt (le_trans h2 (bound.le_plus_one _)) h1) (lt_irrefl _)
      rw [this]
      simp
    · exact ih'

/-- The loop of `trim_bound` over a list of intervals. -/
theorem trim_fold_spec (c : Int) :
    ∀ (l : List interval) (res : dis_interval),
      (∀ i ∈ l, i.is_bottom = false ∧ i.is_top = false) →
      (res = ⟨state_t.BOT, []⟩ ∨ (res._state = state_t.FINITE ∧ well_formed res ∧
        ∀ z ∈ res._list, proper z ∧ z.contains c = false)) →
      res._list.length + l.length + (l.filter (fun i => i.contains c)).length <
        max_num_disjunctions →
      ((l.foldl (trim_step c) res) = ⟨state_t.BOT, []⟩ ∨
        ((l.foldl (trim_step c) res)._state = state_t.FINITE ∧
          well_formed (l.foldl (trim_step c) res) ∧
          ∀ z ∈ (l.foldl (trim_step c) res)._list, proper z ∧ z.contains c = false)) ∧
      (∀ v, res.contains v = true → (l.foldl (trim_step c) res).contains v = true) ∧
      (∀ v, v ≠ c → ∀ i ∈ l, i.contains v = true →
        (l.foldl (trim_step c) res).contains v = true) := by
  intro l
  induction l with
  | nil =>
    intro res _ hres _
    exact ⟨hres, fun v hv => hv, fun v _ i hi => by cases hi⟩
  | cons i l ih =>
    intro res hl hres hlen
    rw [List.foldl_cons]
    have hi := hl i (List.mem_cons_self _ _)
    have hlen1 : res._list.length + (if i.contains c = true then 2 else 1) <
        max_num_disjunctions := by
      rw [List.filter_cons] at hlen
      simp only [List.length_cons] at hlen
      split at hlen <;> rename_i hc
      · rw [if_pos hc]
        simp only [List.length_cons] at hlen
        omega
      · rw [if_neg hc]
        omega
    obtain ⟨s1, s2, s3, s4⟩ := trim_step_spec c res i hi hres hlen1
    have hlen2 : (trim_step c res i)._list.length + l.length +
        (l.filter (fun i => i.contains c)).length < max_num_disjunctions := by
      rw [List.filter_cons] at hlen
      simp only [List.length_cons] at hlen
      split at hlen <;> rename_i hc
      · rw [if_pos hc] at s2
        simp only [List.length_cons] at hlen
        omega
      · rw [if_neg hc] at s2
        omega
    obtain ⟨i1, i2, i3⟩ := ih (trim_step c res i)
      (fun j hj => hl j (List.mem_cons_of_mem _ hj)) s1 hlen2
    refine ⟨i1, fun v hv => i2 v (s3 v hv), ?_⟩
    intro v hv j hj hjv
    rcases List.mem_cons.mp hj with e | hj
    · subst e
      exact i2 v (s4 v hv hjv)
    · exact i3 v hv j hj hjv

end dis_interval

namespace dis_interval

theorem trim_bound_top (l : List interval) (c : Int) :
    trim_bound ⟨state_t.TOP, l⟩ c =
      ⟨state_t.FINITE, [⟨bound.minus_infinity, bound.finite (c - 1)⟩,
        ⟨bound.finite (c + 1), bound.plus_infinity⟩]⟩ := by
  have h1 : ¬ (c + 1 ≤ c - 1) := by omega
  have h2 : c - 1 ≤ c + 1 := by omega
  have h3 : ¬ (c - 1 + 1 = c + 1) := by omega
  have h4 : ¬ (c - 1 = c + 1) := by omega
  have hA : (interval.of_num (c - 1)).lower_half_line =
      ⟨bound.minus_infinity, bound.finite (c - 1)⟩ := by
    simp [interval.lower_half_line, interval.of_num, interval.is_bottom, bound.ltb, bound.leb]
  have hB : (interval.of_num (c + 1)).upper_half_line =
      ⟨bound.finite (c + 1), bound.plus_infinity⟩ := by
    simp [interval.upper_half_line, interval.of_num, interval.is_bottom, bound.ltb, bound.leb]
  have hwf : well_formed ⟨state_t.FINITE, [⟨bound.minus_infinity, bound.finite (c - 1)⟩,
      ⟨bound.finite (c + 1), bound.plus_infinity⟩]⟩ := by
    rw [well_formed_finite_iff]
    refine ⟨by simp, ?_, ?_, by simp [max_num_disjunctions]⟩
    · intro i hi
      simp only [List.mem_cons, List.mem_singleton, List.not_mem_nil, or_false] at hi
      rcases hi with hi | hi <;> subst hi <;>
        simp [interval.is_bottom, interval.is_top, bound.ltb, bound.leb, bound.is_infinite]
    · refine ⟨⟨?_, ?_⟩, trivial⟩
      · simp [IsOnTheLeft, bound.leb, h2, h4]
      · simp [are_consecutive, bound.leb, bound.plus, h3]
  unfold trim_bound
  simp only [is_bottom, is_top, reduceCtorEq, decide_False, decide_True, Bool.false_eq_true,
    if_false, if_true]
  rw [hA, hB]
  have e1 : of_interval ⟨bound.minus_infinity, bound.finite (c - 1)⟩ =
      ⟨state_t.FINITE, [⟨bound.minus_infinity, bound.finite (c - 1)⟩]⟩ := by
    simp [of_interval, interval.is_top, interval.is_bottom, bound.is_infinite, bound.ltb,
      bound.leb]
  have e2 : of_interval ⟨bound.finite (c + 1), bound.plus_infinity⟩ =
      ⟨state_t.FINITE, [⟨bound.finite (c + 1), bound.plus_infinity⟩]⟩ := by
    simp [of_interval, interval.is_top, interval.is_bottom, bound.is_infinite, bound.ltb,
      bound.leb]
  rw [e1, e2]
  have e3 : bottom.join ⟨state_t.FINITE, [⟨bound.minus_infinity, bound.finite (c - 1)⟩]⟩ =
      ⟨state_t.FINITE, [⟨bound.minus_infinity, bound.finite (c - 1)⟩]⟩ := rfl
  rw [e3]
  have e4 : join_list [⟨bound.minus_infinity, bound.finite (c - 1)⟩]
      [⟨bound.finite (c + 1), bound.plus_infinity⟩] =
      some [⟨bound.minus_infinity, bound.finite (c - 1)⟩,
        ⟨bound.finite (c + 1), bound.plus_infinity⟩] := by
    simp [join_list, join_main, join_rest, fuse, interval.is_top, interval.is_bottom,
      interval.eq, interval.leq, overlap, are_consecutive, IsOnTheLeft, bound.is_infinite,
      bound.ltb, bound.leb, bound.plus, h1, h2, h3, h4]
  simp only [join, is_bottom, is_top, reduceCtorEq, decide_False, Bool.false_eq_true, if_false,
    e4]
  rw [if_neg (by simp)]
  exact of_list_of_well_formed _ hwf

end dis_interval



theorem label_map_find_tree_remove {A : Type} (k k' : Nat) (t : List (Nat × A)) :
    label_map_find k' (tree_remove k t) = if k' = k then none else label_map_find k' t := by
  induction t with
  | nil => simp [tree_remove, label_map_find]
  | cons e t ih =>
    obtain ⟨j, x⟩ := e
    unfold tree_remove at ih ⊢
    rw [List.filter_cons]
    by_cases hj : j = k
    · simp only [hj, ne_eq, not_true_eq_false, decide_False, Bool.false_eq_true, if_false]
      rw [ih]
      by_cases h : k' = k
      · simp [h]
      · have h' : ¬ k = k' := fun e => h e.symm
        simp [h, label_map_find, h']
    · simp only [ne_eq, hj, not_false_eq_true, decide_True, if_true, label_map_find]
      rw [ih]
      by_cases h : k' = k
      · have h' : ¬ j = k' := by rw [h]; exact hj
        simp [h, hj]
      · simp [h]

theorem tree_remove_of_not_found {A : Type} (k : Nat) (t : List (Nat × A))
    (h : label_map_find k t = none) : tree_remove k t = t := by
  induction t with
  | nil => rfl
  | cons e t ih =>
    obtain ⟨j, x⟩ := e
    simp only [label_map_find] at h
    split at h
    · cases h
    · rename_i hj
      unfold tree_remove at ih ⊢
      rw [List.filter_cons]
      simp only [ne_eq, hj, not_false_eq_true, decide_True, if_true]
      rw [ih h]

theorem label_map_set_of_found {A : Type} (k : Nat) (v : A) (t : List (Nat × A))
    (h : label_map_find k t = some v) : label_map_set k v t = t := by
  induction t with
  | nil => simp [label_map_find] at h
  | cons e t ih =>
    obtain ⟨j, x⟩ := e
    simp only [label_map_find] at h
    simp only [label_map_set]
    split at h
    · rename_i hj
      simp only [Option.some.injEq] at h
      simp [hj, h]
    · rename_i hj
      simp only [hj, if_false]
      rw [ih h]

theorem label_map_find_mem_tree {A : Type} (k : Nat) (v : A) (t : List (Nat × A))
    (h : label_map_find k t = some v) : (k, v) ∈ t := by
  induction t with
  | nil => simp [label_map_find] at h
  | cons e t ih =>
    obtain ⟨j, x⟩ := e
    simp only [label_map_find] at h
    split at h
    · rename_i hj
      simp only [Option.some.injEq] at h
      simp [hj, h]
    · exact List.mem_cons_of_mem _ (ih h)

namespace separate_domain

variable {A : Type}

theorem get_set (ops : abs_dom_ops A) (s : separate_domain A) (k k' : Nat) (v : A)
    (hs : s._is_bottom = false) (hv : ops.is_bottom v = false)
    (ht : ops.is_top v = true → v = ops.top) :
    (s.set ops k v)._is_bottom = false ∧
    (s.set ops k v).get ops k' = if k' = k then v else s.get ops k' := by
  unfold set
  simp only [hs, Bool.not_false, if_true, hv, Bool.false_eq_true, if_false]
  cases hvt : ops.is_top v
  · simp only [Bool.false_eq_true, if_false, get, label_map_find_set, hs]
    refine ⟨trivial, ?_⟩
    by_cases h : k' = k <;> simp [h]
  · simp only [if_true, get, label_map_find_tree_remove, hs, Bool.false_eq_true, if_false]
    refine ⟨trivial, ?_⟩
    by_cases h : k' = k
    · simp [h, ht hvt]
    · simp [h]

theorem get_forget (ops : abs_dom_ops A) (s : separate_domain A) (k k' : Nat)
    (hs : s._is_bottom = false) :
    (s.forget k)._is_bottom = false ∧
    (s.forget k).get ops k' = if k' = k then ops.top else s.get ops k' := by
  unfold forget
  simp only [hs, Bool.not_false, if_true, get, label_map_find_tree_remove, Bool.false_eq_true,
    if_false]
  refine ⟨trivial, ?_⟩
  by_cases h : k' = k <;> simp [h]

/-- Storing in a variable the value read from it leaves an environment as it
is, when no value of the tree is bottom or top and the top of the value
domain is top for `is_top` and not bottom. -/
theorem set_get_self (ops : abs_dom_ops A) (s : separate_domain A) (k : Nat)
    (hw : s.well_formed ops) (htop : ops.is_top ops.top = true)
    (htb : ops.is_bottom ops.top = false) :
    s.set ops k (s.get ops k) = s := by
  obtain ⟨b, t⟩ := s
  unfold set get
  cases b
  · simp only [Bool.not_false, if_true, Bool.false_eq_true, if_false]
    cases hf : label_map_find k t with
    | none =>
      simp only [htb, htop, Bool.false_eq_true, if_false, if_true]
      rw [tree_remove_of_not_found k t hf]
    | some v =>
      obtain ⟨h1, h2⟩ := hw (k, v) (label_map_find_mem_tree k v t hf)
      simp only at h1 h2
      simp only [h1, h2, Bool.false_eq_true, if_false]
      rw [label_map_set_of_found k v t hf]
  · simp

end separate_domain

namespace interval_domain

theorem interval_get_set (s : interval_domain) (k k' : Nat) (v : interval)
    (hs : s._env._is_bottom = false) (hv : v.is_bottom = false)
    (ht : v.is_top = true → v = interval.top) :
    (s.set k v)._env._is_bottom = false ∧
    (s.set k v).get k' = if k' = k then v else s.get k' :=
  separate_domain.get_set interval_ops s._env k k' v hs hv ht

theorem interval_get_forget (s : interval_domain) (k k' : Nat) (hs : s._env._is_bottom = false) :
    (s.forget k)._env._is_bottom = false ∧
    (s.forget k).get k' = if k' = k then interval.top else s.get k' :=
  separate_domain.get_forget interval_ops s._env k k' hs

theorem assign_num (s : interval_domain) (x : Nat) (n : Int) :
    s.assign x (linear_expression.of_num n) = s.set x (iv n n) := rfl

theorem assign_var (s : interval_domain) (x y : Nat) :
    s.assign x (linear_expression.of_var y) = s.set x (s.get y) := by
  simp [assign, linear_expression.of_var, linear_expression.get_variable]

end interval_domain

/-- The load of the array smashing over the interval domain, on a state that
is not bottom in which the cell `a` holds `v`: the left-hand side gets `v`,
the cell keeps `v`, and the state is not bottom. -/
theorem smashing_load_get (s : array_smashing interval_domain) (lhs a i a_prime : Nat)
    (n_bytes : Int) (h1 : a_prime ≠ a) (h2 : a_prime ≠ lhs)
    (hs : s._inv._env._is_bottom = false) (hv : (s._inv.get a).is_bottom = false)
    (ht : (s._inv.get a).is_top = true → s._inv.get a = interval.top) :
    ((s.load interval_domain_ops lhs a i n_bytes a_prime)._inv.get lhs = s._inv.get a) ∧
    ((s.load interval_domain_ops lhs a i n_bytes a_prime)._inv.get a = s._inv.get a) ∧
    (∀ y, y ≠ lhs → y ≠ a_prime →
      (s.load interval_domain_ops lhs a i n_bytes a_prime)._inv.get y = s._inv.get y) := by
  have e : (s.load interval_domain_ops lhs a i n_bytes a_prime)._inv =
      (((s._inv.set a_prime (s._inv.get a)).set lhs
        ((s._inv.set a_prime (s._inv.get a)).get a_prime)).forget a_prime) := by
    simp only [array_smashing.load, interval_domain_ops, interval_domain.expand]
    rw [interval_domain.assign_var]
  rw [e]
  obtain ⟨b1, g1⟩ := interval_domain.interval_get_set s._inv a_prime a_prime _ hs hv ht
  simp only [if_true] at g1
  rw [g1]
  have g2 := fun k => (interval_domain.interval_get_set (s._inv.set a_prime (s._inv.get a)) lhs k _
    b1 hv ht)
  have b2 := (g2 lhs).1
  have g3 := fun k => (interval_domain.interval_get_forget
    ((s._inv.set a_prime (s._inv.get a)).set lhs (s._inv.get a)) a_prime k b2).2
  have hl : lhs ≠ a_prime := fun e => h2 e.symm
  have ha : a ≠ a_prime := fun e => h1 e.symm
  refine ⟨?_, ?_, ?_⟩
  · rw [g3, if_neg hl, (g2 lhs).2, if_pos rfl]
  · rw [g3, if_neg ha, (g2 a).2]
    by_cases h : a = lhs
    · rw [if_pos h]
    · rw [if_neg h, (interval_domain.interval_get_set s._inv a_prime a _ hs hv ht).2, if_neg ha]
  · intro y hy1 hy2
    rw [g3, if_neg hy2, (g2 y).2, if_neg hy1,
      (interval_domain.interval_get_set s._inv a_prime y _ hs hv ht).2, if_neg hy2]



theorem interval_join_iv_num (l u v : Int) (h : l ≤ u) :
    (iv l u).join (interval.of_num v) = iv (min l v) (max u v) := by
  have e1 : (iv l u).is_bottom = false := by
    simp only [interval.is_bottom, iv, bound.ltb, bound.leb]
    simp only [Bool.and_eq_false_imp, decide_eq_true_eq, Bool.not_eq_false', decide_eq_true_eq]
    intro _; exact h
  have e2 : (interval.of_num v).is_bottom = false := by
    simp [interval.is_bottom, interval.of_num, bound.ltb, bound.leb]
  unfold interval.join
  rw [e1, e2]
  simp only [Bool.false_eq_true, if_false, iv, interval.of_num, bound.bmin, bound.bmax,
    bound.leb, interval.mk_interval, decide_eq_true_eq]
  by_cases h1 : l ≤ v <;> by_cases h2 : u ≤ v
  · rw [min_eq_left h1, max_eq_right h2]
    simp only [h1, h2, if_true, bound.ltb, bound.leb]
    have : ¬ (v ≤ l ∧ ¬ l ≤ v) := by omega
    simp [this]
  · rw [min_eq_left h1, max_eq_left (by omega)]
    simp only [h1, h2, if_true, if_false, bound.ltb, bound.leb]
    simp only [h, decide_True, Bool.not_true, Bool.and_false, Bool.false_eq_true, if_false]
  · rw [min_eq_right (by omega), max_eq_right h2]
    simp only [h1, h2, if_true, if_false, bound.ltb, bound.leb]
    simp
  · rw [min_eq_right (by omega), max_eq_left (by omega)]
    simp only [h1, h2, if_false, bound.ltb, bound.leb]
    have : ¬ (u ≤ v ∧ ¬ v ≤ u) := by omega
    simp [this]

theorem array_init_fold (vs : List Int) :
    ∀ l u : Int, l ≤ u →
      vs.foldl (fun init v => init.join (interval.of_num v)) (iv l u) =
        iv (vs.foldl min l) (vs.foldl max u) ∧ vs.foldl min l ≤ vs.foldl max u := by
  induction vs with
  | nil => intro l u h; exact ⟨rfl, h⟩
  | cons v vs ih =>
    intro l u h
    simp only [List.foldl_cons]
    rw [interval_join_iv_num l u v h]
    exact ih _ _ (by omega)

theorem iv_proper (l u : Int) (h : l ≤ u) :
    (iv l u).is_bottom = false ∧ (iv l u).is_top = false := by
  constructor
  · simp only [interval.is_bottom, iv, bound.ltb, bound.leb]
    simp only [Bool.and_eq_false_imp, decide_eq_true_eq, Bool.not_eq_false', decide_eq_true_eq]
    intro _; exact h
  · rfl



theorem edge_find_edge_set {W : Type} (u v u' v' : Nat) (x : W) (es : List ((Nat × Nat) × W)) :
    edge_find u' v' (edge_set u v x es) =
      if (u', v') = (u, v) then (edge_find u v es).map (fun _ => x) else edge_find u' v' es := by
  induction es with
  | nil => simp [edge_set, edge_find]
  | cons e es ih =>
    obtain ⟨k, w⟩ := e
    simp only [edge_set]
    by_cases hk : k = (u, v)
    · rw [if_pos hk]
      simp only [edge_find]
      by_cases h : (u', v') = (u, v)
      · rw [if_pos h, if_pos hk, if_pos (hk.trans h.symm)]; rfl
      · rw [if_neg h]
        have : ¬ k = (u', v') := fun e => h (e.symm.trans hk)
        rw [if_neg this, if_neg this]
    · rw [if_neg hk]
      simp only [edge_find]
      by_cases h : (u', v') = (u, v)
      · rw [if_pos h, if_neg hk]
        have : ¬ k = (u', v') := fun e => hk (e.trans h)
        rw [if_neg this, ih, if_pos h]
      · rw [if_neg h]
        by_cases hk' : k = (u', v')
        · rw [if_pos hk', if_pos hk']
        · rw [if_neg hk', if_neg hk', ih, if_neg h]

theorem edge_find_map {W : Type} (f : (Nat × Nat) × W → (Nat × Nat) × W)
    (h : (Nat × Nat) → W → W) (hf : ∀ e, f e = (e.1, h e.1 e.2)) (u v : Nat)
    (es : List ((Nat × Nat) × W)) :
    edge_find u v (es.map f) = (edge_find u v es).map (h (u, v)) := by
  induction es with
  | nil => rfl
  | cons e es ih =>
    obtain ⟨k, w⟩ := e
    simp only [List.map_cons, hf, edge_find]
    by_cases hk : k = (u, v)
    · rw [if_pos hk, if_pos hk, hk]; rfl
    · rw [if_neg hk, if_neg hk]
      have := ih
      simp only [hf] at this
      rw [← this]

theorem edge_find_weak_update_edges {S W : Type} (p : array_graph_params S W) (scalar : S)
    (i i_succ : Nat) (new_w : W) (a b : Nat) (es : List ((Nat × Nat) × W)) :
    edge_find a b (array_graph_domain.weak_update_edges p scalar i i_succ new_w es) =
      if a = i ∧ b = i_succ then edge_find a b es
      else (edge_find a b es).map (weak_update_weight p scalar i i_succ new_w a b) := by
  unfold array_graph_domain.weak_update_edges
  rw [edge_find_map _ (fun k wt =>
    if k.1 = i ∧ k.2 = i_succ then wt
    else weak_update_weight p scalar i i_succ new_w k.1 k.2 wt)]
  · by_cases h : a = i ∧ b = i_succ
    · rw [if_pos h]
      simp only [h, and_self, if_true]
      cases edge_find i i_succ es <;> rfl
    · rw [if_neg h]
      simp only [h, if_false]
  · intro e
    obtain ⟨⟨a', b'⟩, wt⟩ := e
    simp only [weak_update_weight]
    by_cases h1 : a' = i ∧ b' = i_succ
    · simp [h1]
    · by_cases h2 : p.ops.is_bottom wt = true
      · simp [h1, h2]
      · have h2' : p.ops.is_bottom wt = false := by
          cases hb : p.ops.is_bottom wt
          · rfl
          · exact absurd hb h2
        simp only [h1, h2', Bool.false_eq_true, false_or, if_false]
        split <;> rfl







theorem edges_le_refl {W : Type} [Preorder W] (es : List ((Nat × Nat) × W)) : edges_le es es := by
  intro u v
  cases h : edge_find u v es with
  | none => exact Or.inl ⟨rfl, rfl⟩
  | some w => exact Or.inr ⟨w, w, rfl, rfl, le_refl w⟩

theorem edges_le_trans {W : Type} [Preorder W] {a b c : List ((Nat × Nat) × W)}
    (h1 : edges_le a b) (h2 : edges_le b c) : edges_le a c := by
  intro u v
  rcases h1 u v with ⟨ha, hb⟩ | ⟨w1, w, ha, hb, hle⟩
  · rcases h2 u v with ⟨_, hc⟩ | ⟨w1, w, hb', _, _⟩
    · exact Or.inl ⟨ha, hc⟩
    · rw [hb] at hb'; cases hb'
  · rcases h2 u v with ⟨hb', _⟩ | ⟨w1', w', hb', hc, hle'⟩
    · rw [hb] at hb'; cases hb'
    · rw [hb] at hb'
      cases hb'
      exact Or.inr ⟨w1, w', ha, hc, le_trans hle hle'⟩

theorem edges_le_edge_set {W : Type} [Preorder W] (es : List ((Nat × Nat) × W)) (i j : Nat)
    (old new : W) (h : edge_find i j es = some old) (hle : new ≤ old) :
    edges_le (edge_set i j new es) es := by
  intro u v
  rw [edge_find_edge_set]
  by_cases hk : (u, v) = (i, j)
  · rw [if_pos hk]
    simp only [Prod.mk.injEq] at hk
    rw [hk.1, hk.2, h]
    exact Or.inr ⟨new, old, rfl, rfl, hle⟩
  · rw [if_neg hk]
    exact edges_le_refl es u v

theorem edge_set_of_found {W : Type} (u v : Nat) (x : W) (es : List ((Nat × Nat) × W))
    (h : edge_find u v es = some x) : edge_set u v x es = es := by
  induction es with
  | nil => rfl
  | cons e es ih =>
    obtain ⟨k, w⟩ := e
    simp only [edge_find] at h
    simp only [edge_set]
    by_cases hk : k = (u, v)
    · rw [if_pos hk] at h
      rw [if_pos hk]
      cases h
      rfl
    · rw [if_neg hk] at h
      rw [if_neg hk, ih h]

theorem foldl_fixed {α β : Type} (f : α → β → α) (a : α) (l : List β)
    (h : ∀ x ∈ l, f a x = a) : l.foldl f a = a := by
  induction l with
  | nil => rfl
  | cons x l ih =>
    simp only [List.foldl_cons]
    rw [h x (List.mem_cons_self _ _)]
    exact ih (fun y hy => h y (List.mem_cons_of_mem _ hy))

theorem foldl_step_spec {W β : Type} [Preorder W] (step : Bool × List ((Nat × Nat) × W) → β →
      Bool × List ((Nat × Nat) × W))
    (P : List ((Nat × Nat) × W) → β → Prop)
    (hstep : ∀ st x, edges_le (step st x).2 st.2 ∧
      ((step st x).1 = false → st.1 = false ∧ (step st x).2 = st.2 ∧ P st.2 x))
    (l : List β) :
    ∀ st, edges_le (l.foldl step st).2 st.2 ∧
      ((l.foldl step st).1 = false →
        st.1 = false ∧ (l.foldl step st).2 = st.2 ∧ ∀ x ∈ l, P st.2 x) := by
  induction l with
  | nil =>
    intro st
    exact ⟨edges_le_refl _, fun h => ⟨h, rfl, fun x hx => by cases hx⟩⟩
  | cons x l ih =>
    intro st
    simp only [List.foldl_cons]
    obtain ⟨h1, h2⟩ := ih (step st x)
    obtain ⟨h3, h4⟩ := hstep st x
    refine ⟨edges_le_trans h1 h3, ?_⟩
    intro hf
    obtain ⟨a1, a2, a3⟩ := h2 hf
    obtain ⟨b1, b2, b3⟩ := h4 a1
    refine ⟨b1, a2.trans b2, ?_⟩
    intro y hy
    rcases List.mem_cons.1 hy with e | e
    · rw [e]; exact b3
    · have := a3 y e
      rw [b2] at this
      exact this

namespace array_graph

section lattice

variable {W : Type} [Lattice W] [BoundedOrder W] [∀ a b : W, Decidable (a ≤ b)]

/-- One update of `oneStep` over the weights of a lattice: the weights do not
grow; when the flag is false after the update, it was false before, the edges
are unchanged and the weights of the three edges, when they are there,
satisfy the inequality of the canonical form. -/
theorem oneStep_j_spec (f : W → Nat → W) (k i j : Nat) (st : Bool × List ((Nat × Nat) × W)) :
    edges_le (oneStep_j (lattice_weights W f) k i st j).2 st.2 ∧
    ((oneStep_j (lattice_weights W f) k i st j).1 = false →
      st.1 = false ∧ (oneStep_j (lattice_weights W f) k i st j).2 = st.2 ∧
      ∀ a b c, edge_find i j st.2 = some a → edge_find i k st.2 = some b →
        edge_find k j st.2 = some c → a ≤ b ⊔ c) := by
  unfold oneStep_j
  cases h1 : edge_find i j st.2 with
  | none =>
    refine ⟨edges_le_refl _, fun h => ⟨h, rfl, ?_⟩⟩
    intro a b c ha; cases ha
  | some Old =>
    cases h2 : edge_find k j st.2 with
    | none =>
      refine ⟨edges_le_refl _, fun h => ⟨h, rfl, ?_⟩⟩
      intro a b c _ _ hc; cases hc
    | some w_kj =>
      cases h3 : edge_find i k st.2 with
      | none =>
        refine ⟨edges_le_refl _, fun h => ⟨h, rfl, ?_⟩⟩
        intro a b c _ hb; cases hb
      | some w_ik =>
        simp only [lattice_weights]
        refine ⟨edges_le_edge_set st.2 i j Old _ h1 inf_le_left, ?_⟩
        intro hf
        simp only [Bool.or_eq_false_iff, Bool.not_eq_false', Bool.and_eq_true,
          decide_eq_true_eq] at hf
        obtain ⟨hc, hle, _⟩ := hf
        have heq : Old ⊓ (w_ik ⊔ w_kj) = Old := le_antisymm inf_le_left hle
        refine ⟨hc, ?_, ?_⟩
        · rw [heq]
          exact edge_set_of_found i j Old st.2 h1
        · intro a b c ha hb hc'
          cases ha; cases hb; cases hc'
          exact le_trans hle inf_le_right

theorem oneStep_i_spec (f : W → Nat → W) (vs : List Nat) (k i : Nat)
    (st : Bool × List ((Nat × Nat) × W)) :
    edges_le (oneStep_i (lattice_weights W f) vs k st i).2 st.2 ∧
    ((oneStep_i (lattice_weights W f) vs k st i).1 = false →
      st.1 = false ∧ (oneStep_i (lattice_weights W f) vs k st i).2 = st.2 ∧
      ∀ j ∈ vs, ∀ a b c, edge_find i j st.2 = some a → edge_find i k st.2 = some b →
        edge_find k j st.2 = some c → a ≤ b ⊔ c) := by
  unfold oneStep_i
  cases h : (edge_find i k st.2).isSome
  · simp only [Bool.false_eq_true, if_false]
    refine ⟨edges_le_refl _, fun hf => ⟨hf, trivial, ?_⟩⟩
    intro j _ a b c _ hb
    rw [hb] at h
    cases h
  · simp only [if_true]
    exact foldl_step_spec (oneStep_j (lattice_weights W f) k i)
      (fun es j => ∀ a b c, edge_find i j es = some a → edge_find i k es = some b →
        edge_find k j es = some c → a ≤ b ⊔ c)
      (fun st j => oneStep_j_spec f k i j st) vs st

theorem oneStep_k_spec (f : W → Nat → W) (vs : List Nat) (k : Nat)
    (st : Bool × List ((Nat × Nat) × W)) :
    edges_le (oneStep_k (lattice_weights W f) vs st k).2 st.2 ∧
    ((oneStep_k (lattice_weights W f) vs st k).1 = false →
      st.1 = false ∧ (oneStep_k (lattice_weights W f) vs st k).2 = st.2 ∧
      ∀ i ∈ vs, ∀ j ∈ vs, ∀ a b c, edge_find i j st.2 = some a → edge_find i k st.2 = some b →
        edge_find k j st.2 = some c → a ≤ b ⊔ c) := by
  unfold oneStep_k
  exact foldl_step_spec (oneStep_i (lattice_weights W f) vs k)
    (fun es i => ∀ j ∈ vs, ∀ a b c, edge_find i j es = some a → edge_find i k es = some b →
      edge_find k j es = some c → a ≤ b ⊔ c)
    (fun st i => oneStep_i_spec f vs k i st) vs st

theorem oneStep_spec (f : W → Nat → W) (g : array_graph W) :
    (oneStep (lattice_weights W f) g).2._vertices = g._vertices ∧
    (oneStep (lattice_weights W f) g).2._is_bottom = g._is_bottom ∧
    edges_le (oneStep (lattice_weights W f) g).2._edges g._edges ∧
    ((oneStep (lattice_weights W f) g).1 = false →
      (oneStep (lattice_weights W f) g).2 = g ∧ transitively_tight g) := by
  have h := foldl_step_spec (oneStep_k (lattice_weights W f) g._vertices)
    (fun es k => ∀ i ∈ g._vertices, ∀ j ∈ g._vertices, ∀ a b c, edge_find i j es = some a →
      edge_find i k es = some b → edge_find k j es = some c → a ≤ b ⊔ c)
    (fun st k => oneStep_k_spec f g._vertices k st) g._vertices (false, g._edges)
  refine ⟨rfl, rfl, h.1, ?_⟩
  intro hf
  obtain ⟨_, h2, h3⟩ := h.2 hf
  refine ⟨?_, h3⟩
  show ({ g with _edges := _ } : array_graph W) = g
  rw [h2]

theorem canonical_loop_spec (f : W → Nat → W) (fuel : Nat) :
    ∀ (g g1 : array_graph W), canonical_loop (lattice_weights W f) fuel g = some g1 →
      g1._vertices = g._vertices ∧ g1._is_bottom = g._is_bottom ∧
      edges_le g1._edges g._edges ∧ transitively_tight g1 ∧
      oneStep (lattice_weights W f) g1 = (false, g1) := by
  induction fuel with
  | zero => intro g g1 h; cases h
  | succ n ih =>
    intro g g1 h
    simp only [canonical_loop] at h
    obtain ⟨s1, s2, s3, s4⟩ := oneStep_spec f g
    cases hc : (oneStep (lattice_weights W f) g).1
    · rw [hc] at h
      simp only [Bool.false_eq_true, if_false, Option.some.injEq] at h
      obtain ⟨e, ht⟩ := s4 hc
      have hg : g1 = g := h.symm.trans e
      rw [hg]
      refine ⟨rfl, rfl, edges_le_refl _, ht, ?_⟩
      apply Prod.ext
      · exact hc
      · exact e
    · rw [hc] at h
      simp only [if_true] at h
      obtain ⟨a1, a2, a3, a4, a5⟩ := ih _ g1 h
      exact ⟨a1.trans s1, a2.trans s2, edges_le_trans a3 s3, a4, a5⟩

end lattice

end array_graph





theorem complete_simple_of_edges_le {W : Type} [LE W] {V : List Nat}
    {es1 es : List ((Nat × Nat) × W)} (h : edges_le es1 es) (hcs : complete_simple V es) :
    complete_simple V es1 := by
  refine ⟨?_, ?_⟩
  · intro i hi j hj hij
    have := hcs.1 i hi j hj hij
    rcases h i j with ⟨_, h2⟩ | ⟨w1, w, h1, _, _⟩
    · rw [h2] at this; cases this
    · rw [h1]; rfl
  · intro i
    rcases h i i with ⟨h1, _⟩ | ⟨w1, w, _, h2, _⟩
    · exact h1
    · rw [hcs.2 i] at h2; cases h2

theorem is_complete_complete_simple {W : Type} (g : array_graph W)
    (h : g.is_complete = true) : complete_simple g._vertices g._edges := by
  unfold array_graph.is_complete at h
  simp only [Bool.and_eq_true, List.all_eq_true, Bool.or_eq_true, decide_eq_true_eq] at h
  obtain ⟨h1, h2⟩ := h
  refine ⟨?_, ?_⟩
  · intro i hi j hj hij
    rcases h1 i hi j hj with e | e
    · exact absurd e hij
    · exact e
  · intro i
    cases he : edge_find i i g._edges with
    | none => rfl
    | some w =>
      exfalso
      have : ∀ (es : List ((Nat × Nat) × W)), (∀ x ∈ es, x.1.1 ≠ x.1.2) →
          edge_find i i es = some w → False := by
        intro es
        induction es with
        | nil => intro _ h; cases h
        | cons e es ih =>
          obtain ⟨k, x⟩ := e
          intro hall hf
          simp only [edge_find] at hf
          by_cases hk : k = (i, i)
          · have := hall (k, x) (List.mem_cons_self _ _)
            rw [hk] at this
            exact this rfl
          · rw [if_neg hk] at hf
            exact ih (fun y hy => hall y (List.mem_cons_of_mem _ hy)) hf
      exact this g._edges h2 he

theorem weight_matrix_edge_set {W : Type} [Bot W] (es : List ((Nat × Nat) × W)) (i j : Nat)
    (x : W) (hij : i ≠ j) (h : (edge_find i j es).isSome = true) (a b : Nat) :
    weight_matrix (edge_set i j x es) a b = if a = i ∧ b = j then x else weight_matrix es a b := by
  unfold weight_matrix
  by_cases hab : a = b
  · have : ¬ (a = i ∧ b = j) := by
      intro ⟨h1, h2⟩
      exact hij (h1.symm.trans (hab.trans h2))
    rw [if_pos hab, if_neg this, if_pos hab]
  · rw [if_neg hab, if_neg hab, edge_find_edge_set]
    by_cases hk : a = i ∧ b = j
    · have hk' : (a, b) = (i, j) := by rw [hk.1, hk.2]
      rw [if_pos hk, if_pos hk']
      cases he : edge_find i j es with
      | none => rw [he] at h; cases h
      | some w => rfl
    · have hk' : ¬ (a, b) = (i, j) := by
        intro e
        simp only [Prod.mk.injEq] at e
        exact hk e
      rw [if_neg hk, if_neg hk']

theorem weight_matrix_of_found {W : Type} [Bot W] {V : List Nat} {es : List ((Nat × Nat) × W)}
    (hcs : complete_simple V es) {i j : Nat} {w : W} (h : edge_find i j es = some w) :
    i ≠ j ∧ weight_matrix es i j = w := by
  have hij : i ≠ j := by
    intro e
    rw [e, hcs.2 j] at h
    cases h
  refine ⟨hij, ?_⟩
  unfold weight_matrix
  rw [if_neg hij, h]
  rfl

theorem weight_matrix_self {W : Type} [Bot W] (es : List ((Nat × Nat) × W)) (i : Nat) :
    weight_matrix es i i = ⊥ := by
  unfold weight_matrix
  rw [if_pos rfl]

namespace array_graph

section distrib

variable {W : Type} [DistribLattice W] [BoundedOrder W] [∀ a b : W, Decidable (a ≤ b)]

theorem complete_simple_eq_of_none {W : Type} {V : List Nat} {es : List ((Nat × Nat) × W)}
    (hcs : complete_simple V es) {i j : Nat} (hi : i ∈ V) (hj : j ∈ V)
    (h : edge_find i j es = none) : i = j := by
  by_contra hij
  have := hcs.1 i hi j hj hij
  rw [h] at this
  cases this

/-- One update of `oneStep` on the matrix of the weights of a complete graph:
the entry from `i` to `j` becomes its meet with the join of the entries from
`i` to `k` and from `k` to `j`. -/
theorem oneStep_j_matrix (f : W → Nat → W) (V : List Nat) (k i j : Nat)
    (st : Bool × List ((Nat × Nat) × W)) (hcs : complete_simple V st.2)
    (hi : i ∈ V) (hj : j ∈ V) (hk : k ∈ V) (a b : Nat) :
    weight_matrix (oneStep_j (lattice_weights W f) k i st j).2 a b =
      if a = i ∧ b = j then
        weight_matrix st.2 i j ⊓ (weight_matrix st.2 i k ⊔ weight_matrix st.2 k j)
      else weight_matrix st.2 a b := by
  have hnone : weight_matrix st.2 i j ⊓ (weight_matrix st.2 i k ⊔ weight_matrix st.2 k j)
        = weight_matrix st.2 i j →
      weight_matrix st.2 a b = if a = i ∧ b = j then
        weight_matrix st.2 i j ⊓ (weight_matrix st.2 i k ⊔ weight_matrix st.2 k j)
      else weight_matrix st.2 a b := by
    intro hx
    by_cases hab : a = i ∧ b = j
    · rw [if_pos hab, hx, hab.1, hab.2]
    · rw [if_neg hab]
  unfold oneStep_j
  cases h1 : edge_find i j st.2 with
  | none =>
    simp only
    apply hnone
    have e := complete_simple_eq_of_none hcs hi hj h1
    rw [e, weight_matrix_self]
    exact bot_inf_eq _
  | some Old =>
    obtain ⟨hij, e1⟩ := weight_matrix_of_found hcs h1
    cases h2 : edge_find k j st.2 with
    | none =>
      simp only
      apply hnone
      have e := complete_simple_eq_of_none hcs hk hj h2
      rw [e, weight_matrix_self, sup_bot_eq]
      exact inf_idem _
    | some w_kj =>
      obtain ⟨_, e2⟩ := weight_matrix_of_found hcs h2
      cases h3 : edge_find i k st.2 with
      | none =>
        simp only
        apply hnone
        have e := complete_simple_eq_of_none hcs hi hk h3
        rw [e, weight_matrix_self, bot_sup_eq]
        exact inf_idem _
      | some w_ik =>
        obtain ⟨_, e3⟩ := weight_matrix_of_found hcs h3
        simp only [lattice_weights]
        rw [weight_matrix_edge_set st.2 i j _ hij (by rw [h1]; rfl), e1, e2, e3]

end distrib

end array_graph



theorem foldl_phase {α β : Type} (step : α → β → α) (P : α → Prop) (R : α → α → Prop)
    (D : α → β → Prop) (ok : β → Prop)
    (htrans : ∀ a b c, R a b → R b c → R a c)
    (hrefl : ∀ a, R a a)
    (hkeep : ∀ s s1 y, R s s1 → D s y → D s1 y)
    (hstep : ∀ s x, ok x → P s → P (step s x) ∧ R s (step s x) ∧ D (step s x) x) :
    ∀ (l : List β) (s : α), (∀ x ∈ l, ok x) → P s →
      P (l.foldl step s) ∧ R s (l.foldl step s) ∧ ∀ x ∈ l, D (l.foldl step s) x := by
  intro l
  induction l with
  | nil =>
    intro s _ hp
    exact ⟨hp, hrefl s, fun x hx => by cases hx⟩
  | cons x l ih =>
    intro s hok hp
    simp only [List.foldl_cons]
    obtain ⟨p1, r1, d1⟩ := hstep s x (hok x (List.mem_cons_self _ _)) hp
    obtain ⟨p2, r2, d2⟩ := ih (step s x) (fun y hy => hok y (List.mem_cons_of_mem _ hy)) p1
    refine ⟨p2, htrans _ _ _ r1 r2, ?_⟩
    intro y hy
    rcases List.mem_cons.1 hy with e | e
    · rw [e]; exact hkeep _ _ _ r2 d1
    · exact d2 y e

theorem fw_target_row {W : Type} [Lattice W] (M0 : Nat → Nat → W) (k a : Nat) :
    fw_target M0 k a k = M0 a k := by
  unfold fw_target
  exact inf_sup_self

theorem fw_target_col {W : Type} [Lattice W] (M0 : Nat → Nat → W) (k b : Nat) :
    fw_target M0 k k b = M0 k b := by
  unfold fw_target
  exact inf_eq_left.2 le_sup_right

theorem fw_phase_keep_trans {W : Type} [Lattice W] [Bot W] (M0 : Nat → Nat → W) (k : Nat)
    (a b c : List ((Nat × Nat) × W)) (h1 : fw_phase_keep M0 k a b) (h2 : fw_phase_keep M0 k b c) :
    fw_phase_keep M0 k a c :=
  fun x y h => h2 x y (h1 x y h)

/-- The pass for the vertex `k` keeps the inequalities of the canonical form
for the intermediate vertices of `K` and adds those for `k`; the lattice is
distributive. -/
theorem fw_tight_step {W : Type} [DistribLattice W] (V K : List Nat) (M0 M1 : Nat → Nat → W) (k : Nat) (hk : k ∈ V)
    (hK : ∀ c ∈ K, c ∈ V) (ht : fw_tight V K M0)
    (h1 : ∀ a ∈ V, ∀ b ∈ V, M1 a b = fw_target M0 k a b) :
    fw_tight V (k :: K) M1 := by
  intro a ha b hb c hc
  rcases List.mem_cons.1 hc with e | e
  · rw [e, h1 a ha b hb, h1 a ha k hk, h1 k hk b hb, fw_target_row, fw_target_col]
    exact inf_le_right
  · have hcV := hK c e
    rw [h1 a ha b hb, h1 a ha c hcV, h1 c hcV b hb]
    unfold fw_target
    have t1 : M0 a b ≤ M0 a c ⊔ M0 c b := ht a ha b hb c e
    have t2 : M0 k b ≤ M0 k c ⊔ M0 c b := ht k hk b hb c e
    have t3 : M0 a k ≤ M0 a c ⊔ M0 c k := ht a ha k hk c e
    rw [sup_inf_left, sup_inf_right, sup_inf_right]
    refine le_inf (le_inf ?_ ?_) (le_inf ?_ ?_)
    · exact le_trans inf_le_left t1
    · refine le_trans inf_le_right (sup_le ?_ ?_)
      · exact le_trans le_sup_left le_sup_left
      · refine le_trans t2 (sup_le ?_ le_sup_right)
        exact le_trans le_sup_right le_sup_left
    · refine le_trans inf_le_right (sup_le ?_ ?_)
      · refine le_trans t3 (sup_le le_sup_left ?_)
        exact le_trans le_sup_left le_sup_right
      · exact le_trans le_sup_right le_sup_right
    · refine le_trans inf_le_right (sup_le ?_ ?_)
      · exact le_trans le_sup_left le_sup_left
      · exact le_trans le_sup_right le_sup_right

namespace array_graph

section distrib

variable {W : Type} [DistribLattice W] [BoundedOrder W] [∀ a b : W, Decidable (a ≤ b)]

theorem oneStep_j_phase (f : W → Nat → W) (V : List Nat) (M0 : Nat → Nat → W) (k i j : Nat)
    (st : Bool × List ((Nat × Nat) × W)) (hi : i ∈ V) (hj : j ∈ V) (hk : k ∈ V)
    (hp : complete_simple V st.2 ∧ fw_phase_inv M0 k st.2) :
    (complete_simple V (oneStep_j (lattice_weights W f) k i st j).2 ∧
      fw_phase_inv M0 k (oneStep_j (lattice_weights W f) k i st j).2) ∧
    fw_phase_keep M0 k st.2 (oneStep_j (lattice_weights W f) k i st j).2 ∧
    weight_matrix (oneStep_j (lattice_weights W f) k i st j).2 i j = fw_target M0 k i j := by
  obtain ⟨hcs, hinv⟩ := hp
  have hrow : weight_matrix st.2 i k = M0 i k := by
    rcases hinv i k with h | h
    · exact h
    · rw [h, fw_target_row]
  have hcol : weight_matrix st.2 k j = M0 k j := by
    rcases hinv k j with h | h
    · exact h
    · rw [h, fw_target_col]
  have hnew : weight_matrix st.2 i j ⊓ (weight_matrix st.2 i k ⊔ weight_matrix st.2 k j)
      = fw_target M0 k i j := by
    rw [hrow, hcol]
    rcases hinv i j with h | h
    · rw [h]; rfl
    · rw [h]
      unfold fw_target
      rw [inf_assoc, inf_idem]
  have hm := oneStep_j_matrix f V k i j st hcs hi hj hk
  refine ⟨⟨complete_simple_of_edges_le (oneStep_j_spec f k i j st).1 hcs, ?_⟩, ?_, ?_⟩
  · intro a b
    rw [hm a b]
    by_cases hab : a = i ∧ b = j
    · rw [if_pos hab, hnew, hab.1, hab.2]
      exact Or.inr rfl
    · rw [if_neg hab]
      exact hinv a b
  · intro a b h
    rw [hm a b]
    by_cases hab : a = i ∧ b = j
    · rw [if_pos hab, hnew, hab.1, hab.2]
    · rw [if_neg hab]
      exact h
  · rw [hm i j, if_pos ⟨rfl, rfl⟩, hnew]

theorem oneStep_i_phase (f : W → Nat → W) (V : List Nat) (M0 : Nat → Nat → W) (k i : Nat)
    (st : Bool × List ((Nat × Nat) × W)) (hi : i ∈ V) (hk : k ∈ V)
    (hp : complete_simple V st.2 ∧ fw_phase_inv M0 k st.2) :
    (complete_simple V (oneStep_i (lattice_weights W f) V k st i).2 ∧
      fw_phase_inv M0 k (oneStep_i (lattice_weights W f) V k st i).2) ∧
    fw_phase_keep M0 k st.2 (oneStep_i (lattice_weights W f) V k st i).2 ∧
    ∀ j ∈ V, weight_matrix (oneStep_i (lattice_weights W f) V k st i).2 i j
      = fw_target M0 k i j := by
  unfold oneStep_i
  cases h : (edge_find i k st.2).isSome
  · simp only [Bool.false_eq_true, if_false]
    refine ⟨hp, fun a b e => e, ?_⟩
    intro j _
    have hn : edge_find i k st.2 = none := by
      cases he : edge_find i k st.2 with
      | none => rfl
      | some w => rw [he] at h; cases h
    have e := complete_simple_eq_of_none hp.1 hi hk hn
    rw [e]
    rcases hp.2 k j with h1 | h1
    · rw [h1, fw_target_col]
    · exact h1
  · simp only [if_true]
    exact foldl_phase (oneStep_j (lattice_weights W f) k i)
      (fun s => complete_simple V s.2 ∧ fw_phase_inv M0 k s.2)
      (fun s s1 => fw_phase_keep M0 k s.2 s1.2)
      (fun s j => weight_matrix s.2 i j = fw_target M0 k i j)
      (fun j => j ∈ V)
      (fun a b c => fw_phase_keep_trans M0 k a.2 b.2 c.2)
      (fun a x y e => e)
      (fun s s1 y r d => r i y d)
      (fun s x hx hps => oneStep_j_phase f V M0 k i x s hi hx hk hps)
      V st (fun x hx => hx) hp

theorem oneStep_k_phase (f : W → Nat → W) (V : List Nat) (k : Nat)
    (st : Bool × List ((Nat × Nat) × W)) (hk : k ∈ V) (hcs : complete_simple V st.2) :
    complete_simple V (oneStep_k (lattice_weights W f) V st k).2 ∧
    ∀ a ∈ V, ∀ b ∈ V, weight_matrix (oneStep_k (lattice_weights W f) V st k).2 a b
      = fw_target (weight_matrix st.2) k a b := by
  unfold oneStep_k
  have h := foldl_phase (oneStep_i (lattice_weights W f) V k)
    (fun s => complete_simple V s.2 ∧ fw_phase_inv (weight_matrix st.2) k s.2)
    (fun s s1 => fw_phase_keep (weight_matrix st.2) k s.2 s1.2)
    (fun s i => ∀ j ∈ V, weight_matrix s.2 i j = fw_target (weight_matrix st.2) k i j)
    (fun i => i ∈ V)
    (fun a b c => fw_phase_keep_trans (weight_matrix st.2) k a.2 b.2 c.2)
    (fun a x y e => e)
    (fun s s1 y r d j hj => r y j (d j hj))
    (fun s x hx hps => oneStep_i_phase f V (weight_matrix st.2) k x s hx hk hps)
    V st (fun x hx => hx) ⟨hcs, fun a b => Or.inl rfl⟩
  exact ⟨h.1.1, h.2.2⟩

theorem oneStep_k_loop (f : W → Nat → W) (V : List Nat) :
    ∀ (ks K : List Nat) (st : Bool × List ((Nat × Nat) × W)),
      (∀ c ∈ ks, c ∈ V) → (∀ c ∈ K, c ∈ V) → complete_simple V st.2 →
      fw_tight V K (weight_matrix st.2) →
      complete_simple V (ks.foldl (oneStep_k (lattice_weights W f) V) st).2 ∧
      fw_tight V (ks.reverse ++ K)
        (weight_matrix (ks.foldl (oneStep_k (lattice_weights W f) V) st).2) := by
  intro ks
  induction ks with
  | nil =>
    intro K st _ _ hcs ht
    exact ⟨hcs, ht⟩
  | cons k ks ih =>
    intro K st hks hK hcs ht
    simp only [List.foldl_cons, List.reverse_cons, List.append_assoc, List.singleton_append]
    have hk := hks k (List.mem_cons_self _ _)
    obtain ⟨c1, c2⟩ := oneStep_k_phase f V k st hk hcs
    have t1 := fw_tight_step V K (weight_matrix st.2) _ k hk hK ht c2
    exact ih (k :: K) _ (fun c hc => hks c (List.mem_cons_of_mem _ hc))
      (fun c hc => by
        rcases List.mem_cons.1 hc with e | e
        · rw [e]; exact hk
        · exact hK c e) c1 t1

end distrib

end array_graph



namespace array_graph

section lattice

variable {W : Type} [Lattice W] [BoundedOrder W] [∀ a b : W, Decidable (a ≤ b)]

theorem oneStep_j_fixed (f : W → Nat → W) (k i j : Nat) (c : Bool)
    (es : List ((Nat × Nat) × W))
    (h : ∀ a b d, edge_find i j es = some a → edge_find i k es = some b →
      edge_find k j es = some d → a ≤ b ⊔ d) :
    oneStep_j (lattice_weights W f) k i (c, es) j = (c, es) := by
  unfold oneStep_j
  cases h1 : edge_find i j es with
  | none => rfl
  | some Old =>
    cases h2 : edge_find k j es with
    | none => rfl
    | some w_kj =>
      cases h3 : edge_find i k es with
      | none => rfl
      | some w_ik =>
        have hle : Old ≤ w_ik ⊔ w_kj := h Old w_ik w_kj h1 h3 h2
        have heq : Old ⊓ (w_ik ⊔ w_kj) = Old := inf_eq_left.2 hle
        simp only [lattice_weights, heq, le_refl, decide_True, Bool.and_self, Bool.not_true,
          Bool.or_false]
        rw [edge_set_of_found i j Old es h1]

/-- A graph that satisfies the inequalities of the canonical form is left as
it is by `oneStep`, which returns false. -/
theorem oneStep_of_tight (f : W → Nat → W) (g : array_graph W) (h : g.transitively_tight) :
    oneStep (lattice_weights W f) g = (false, g) := by
  have hk : ∀ (c : Bool) (k : Nat), k ∈ g._vertices →
      oneStep_k (lattice_weights W f) g._vertices (c, g._edges) k = (c, g._edges) := by
    intro c k hk
    unfold oneStep_k
    apply foldl_fixed
    intro i hi
    unfold oneStep_i
    split
    · apply foldl_fixed
      intro j hj
      exact oneStep_j_fixed f k i j c g._edges (fun a b d e1 e2 e3 =>
        h k hk i hi j hj a b d e1 e2 e3)
    · rfl
  unfold oneStep
  rw [foldl_fixed _ _ _ (fun k hk' => hk false k hk')]

end lattice

section distrib

variable {W : Type} [DistribLattice W] [BoundedOrder W] [∀ a b : W, Decidable (a ≤ b)]

/-- Over a distributive lattice one call of `oneStep` on a complete graph
gives a graph that satisfies the inequalities of the canonical form. -/
theorem oneStep_tight_of_complete (f : W → Nat → W) (g : array_graph W)
    (h : g.is_complete = true) :
    (oneStep (lattice_weights W f) g).2.transitively_tight := by
  have hcs := is_complete_complete_simple g h
  obtain ⟨c1, c2⟩ := oneStep_k_loop f g._vertices g._vertices [] (false, g._edges)
    (fun c hc => hc) (fun c hc => by cases hc) hcs (fun a _ b _ c hc => by cases hc)
  intro k hk i hi j hj a b c e1 e2 e3
  have hk' : k ∈ g._vertices.reverse ++ [] := by
    simp only [List.append_nil, List.mem_reverse]
    exact hk
  have := c2 i hi j hj k hk'
  have m1 := (weight_matrix_of_found c1 e1).2
  have m2 := (weight_matrix_of_found c1 e2).2
  have m3 := (weight_matrix_of_found c1 e3).2
  rw [← m1, ← m2, ← m3]
  exact this

end distrib

end array_graph



theorem canonical_le {W : Type} [Lattice W] [BoundedOrder W] [∀ a b : W, Decidable (a ≤ b)]
    (f : W → Nat → W) (dist : Bool) (fuel : Nat) (g g1 : array_graph W)
    (h : array_graph.canonical (lattice_weights W f) dist fuel g = Except.ok g1) :
    g1._vertices = g._vertices ∧ g1._is_bottom = g._is_bottom ∧
    edges_le g1._edges g._edges := by
  unfold array_graph.canonical at h
  cases dist
  · simp only [Bool.false_eq_true, if_false] at h
    cases hc : array_graph.canonical_loop (lattice_weights W f) fuel g with
    | none => rw [hc] at h; cases h
    | some g2 =>
      rw [hc] at h
      simp only [Except.ok.injEq] at h
      subst h
      obtain ⟨a1, a2, a3, _, _⟩ := array_graph.canonical_loop_spec f fuel g g2 hc
      exact ⟨a1, a2, a3⟩
  · simp only [if_true, Except.ok.injEq] at h
    subst h
    obtain ⟨a1, a2, a3, _⟩ := array_graph.oneStep_spec f g
    exact ⟨a1, a2, a3⟩

theorem edge_find_reduce_edges {S W : Type} (ops : weight_ops W) (sops : scalar_ops S)
    (scalar : S) (u v : Nat) (es : List ((Nat × Nat) × W)) :
    edge_find u v (array_graph.reduce_edges ops sops scalar es) =
      (edge_find u v es).map (fun w =>
        if sops.is_bottom (sops.add_constraint scalar
          (linear_constraint.le (linear_expression.of_var u)
            ((linear_expression.of_var v).add_num (-1)))) = true
        then ops.bottom else w) := by
  unfold array_graph.reduce_edges
  rw [edge_find_map _ (fun k w =>
    if sops.is_bottom (sops.add_constraint scalar
      (linear_constraint.le (linear_expression.of_var k.1)
        ((linear_expression.of_var k.2).add_num (-1)))) = true
    then ops.bottom else w)]
  intro e
  simp only
  split <;> rfl

theorem edge_find_isSome_iff {W : Type} (a b : Nat) (es : List ((Nat × Nat) × W)) :
    (edge_find a b es).isSome = true ↔ ∃ w, ((a, b), w) ∈ es := by
  induction es with
  | nil => simp [edge_find]
  | cons e es ih =>
    obtain ⟨k, x⟩ := e
    simp only [edge_find]
    by_cases hk : k = (a, b)
    · rw [if_pos hk]
      simp only [Option.isSome_some, true_iff]
      exact ⟨x, by rw [hk]; exact List.mem_cons_self _ _⟩
    · rw [if_neg hk, ih]
      constructor
      · rintro ⟨w, hw⟩
        exact ⟨w, List.mem_cons_of_mem _ hw⟩
      · rintro ⟨w, hw⟩
        rcases List.mem_cons.1 hw with e | e
        · simp only [Prod.mk.injEq] at e
          exact absurd e.1.symm hk
        · exact ⟨w, e⟩

theorem edge_find_none_iff {W : Type} (a b : Nat) (es : List ((Nat × Nat) × W)) :
    edge_find a b es = none ↔ ∀ w, ((a, b), w) ∉ es := by
  constructor
  · intro h w hw
    have := (edge_find_isSome_iff a b es).2 ⟨w, hw⟩
    rw [h] at this
    cases this
  · intro h
    cases he : edge_find a b es with
    | none => rfl
    | some w =>
      obtain ⟨w1, hw1⟩ := (edge_find_isSome_iff a b es).1 (by rw [he]; rfl)
      exact absurd hw1 (h w1)

theorem mem_new_edges {W : Type} (u : Nat) (val : W) (vs : List Nat) :
    ∀ (acc : List ((Nat × Nat) × W)) (e : (Nat × Nat) × W),
      e ∈ vs.foldl (fun es v => es ++ [((u, v), val), ((v, u), val)]) acc ↔
        e ∈ acc ∨ ∃ v ∈ vs, e = ((u, v), val) ∨ e = ((v, u), val) := by
  induction vs with
  | nil => intro acc e; simp
  | cons x vs ih =>
    intro acc e
    simp only [List.foldl_cons]
    rw [ih]
    constructor
    · rintro (h | ⟨v, hv, h⟩)
      · rcases List.mem_append.1 h with h | h
        · exact Or.inl h
        · refine Or.inr ⟨x, List.mem_cons_self _ _, ?_⟩
          simp only [List.mem_cons, List.mem_singleton, List.not_mem_nil, or_false] at h
          exact h
      · exact Or.inr ⟨v, List.mem_cons_of_mem _ hv, h⟩
    · rintro (h | ⟨v, hv, h⟩)
      · exact Or.inl (List.mem_append_left _ h)
      · rcases List.mem_cons.1 hv with e1 | e1
        · refine Or.inl (List.mem_append_right _ ?_)
          rw [e1] at h
          simp only [List.mem_cons, List.mem_singleton, List.not_mem_nil, or_false]
          exact h
        · exact Or.inr ⟨v, e1, h⟩

namespace array_graph

theorem foldlM_add_edge {W : Type} (es : List ((Nat × Nat) × W)) :
    ∀ (g : array_graph W), (∀ e ∈ es, e.1.1 ∈ g._vertices ∧ e.1.2 ∈ g._vertices) →
      es.foldlM add_edge g = Except.ok { g with _edges := g._edges ++ es } := by
  induction es with
  | nil =>
    intro g _
    simp only [List.foldlM_nil, List.append_nil]
    rfl
  | cons e es ih =>
    intro g h
    simp only [List.foldlM_cons]
    have he := h e (List.mem_cons_self _ _)
    have h1 : add_edge g e = Except.ok { g with _edges := g._edges ++ [e] } := by
      simp [add_edge, find_vertex_map, he.1, he.2]
    rw [h1]
    refine (ih ({ g with _edges := g._edges ++ [e] } : array_graph W)
      (fun x hx => h x (List.mem_cons_of_mem _ hx))).trans ?_
    simp

/-- The graph `top ()` and the graphs that `insert_vertex` builds from a
complete graph are complete: every two distinct vertices are joined by an
edge in each direction and no edge joins a vertex to itself. -/
theorem insert_vertex_complete {W : Type} [Lattice W] [BoundedOrder W]
    [∀ a b : W, Decidable (a ≤ b)] (f : W → Nat → W) (IsDistWeight : Bool) (fuel : Nat)
    (g g1 : array_graph W) (u : Nat) (val : W)
    (hc : complete_simple g._vertices g._edges)
    (h : g.insert_vertex (lattice_weights W f) IsDistWeight fuel u val = Except.ok g1) :
    complete_simple g1._vertices g1._edges := by
  unfold insert_vertex at h
  by_cases hcond : (!g.is_bottom && !g.find_vertex_map u) = true
  · rw [if_pos hcond] at h
    simp only [Bool.and_eq_true, Bool.not_eq_true', find_vertex_map,
      decide_eq_false_iff_not] at hcond
    obtain ⟨_, hu⟩ := hcond
    let N : List ((Nat × Nat) × W) :=
      g._vertices.foldl (fun es v => es ++ [((u, v), val), ((v, u), val)]) []
    have hN : ∀ e, e ∈ N ↔ ∃ v ∈ g._vertices, e = ((u, v), val) ∨ e = ((v, u), val) := by
      intro e
      have := mem_new_edges u val g._vertices [] e
      simp only [List.not_mem_nil, false_or] at this
      exact this
    let ga : array_graph W := { g with _vertices := g._vertices ++ [u] }
    let gb : array_graph W := { ga with _edges := ga._edges ++ N }
    have h1 : [u].foldlM insert_vertex_map g = Except.ok ga := by
      simp only [List.foldlM_cons, List.foldlM_nil]
      have : insert_vertex_map g u = Except.ok ga := by
        simp [insert_vertex_map, find_vertex_map, hu, ga]
      rw [this]
      rfl
    have h2 : N.foldlM add_edge ga = Except.ok gb := by
      apply foldlM_add_edge
      intro e he
      obtain ⟨v, hv, e1 | e1⟩ := (hN e).1 he
      · rw [e1]
        exact ⟨List.mem_append_right _ (List.mem_singleton_self u),
          List.mem_append_left _ hv⟩
      · rw [e1]
        exact ⟨List.mem_append_left _ hv,
          List.mem_append_right _ (List.mem_singleton_self u)⟩
    have h3 : canonical (lattice_weights W f) IsDistWeight fuel gb = Except.ok g1 := by
      have : add (lattice_weights W f) IsDistWeight fuel g [u] N =
          canonical (lattice_weights W f) IsDistWeight fuel gb := by
        unfold add
        rw [h1]
        show (do
          let g2 ← N.foldlM add_edge ga
          canonical (lattice_weights W f) IsDistWeight fuel g2) = _
        rw [h2]
        rfl
      rw [← this]
      exact h
    obtain ⟨c1, _, c3⟩ := canonical_le f IsDistWeight fuel gb g1 h3
    rw [c1]
    apply complete_simple_of_edges_le c3
    refine ⟨?_, ?_⟩
    · intro i hi j hj hij
      rw [edge_find_isSome_iff]
      have hi' : i ∈ g._vertices ∨ i = u := by
        rcases List.mem_append.1 hi with e | e
        · exact Or.inl e
        · exact Or.inr (List.mem_singleton.1 e)
      have hj' : j ∈ g._vertices ∨ j = u := by
        rcases List.mem_append.1 hj with e | e
        · exact Or.inl e
        · exact Or.inr (List.mem_singleton.1 e)
      rcases hi' with hi' | hi'
      · rcases hj' with hj' | hj'
        · obtain ⟨w, hw⟩ := (edge_find_isSome_iff i j g._edges).1 (hc.1 i hi' j hj' hij)
          exact ⟨w, List.mem_append_left _ hw⟩
        · refine ⟨val, List.mem_append_right _ ((hN _).2 ⟨i, hi', Or.inr ?_⟩)⟩
          rw [hj']
      · rcases hj' with hj' | hj'
        · refine ⟨val, List.mem_append_right _ ((hN _).2 ⟨j, hj', Or.inl ?_⟩)⟩
          rw [hi']
        · exact absurd (hi'.trans hj'.symm) hij
    · intro i
      rw [edge_find_none_iff]
      intro w hw
      rcases List.mem_append.1 hw with e | e
      · exact (edge_find_none_iff i i g._edges).1 (hc.2 i) w e
      · obtain ⟨v, hv, e1 | e1⟩ := (hN _).1 e
        · simp only [Prod.mk.injEq] at e1
          exact hu (by rw [← e1.1.1, e1.1.2]; exact hv)
        · simp only [Prod.mk.injEq] at e1
          exact hu (by rw [← e1.1.2, e1.1.1]; exact hv)
  · rw [if_neg hcond] at h
    simp only [Except.ok.injEq] at h
    rw [← h]
    exact hc

theorem top_complete {W : Type} :
    complete_simple (top : array_graph W)._vertices (top : array_graph W)._edges :=
  ⟨fun i hi => (by cases hi), fun i => rfl⟩

end array_graph

namespace dis_interval

theorem normalize_eq_normalize_sorted (l : List interval) :
    normalize l = normalize_sorted l (sort l) := by
  unfold normalize normalize_sorted
  rw [length_sort]

theorem of_list_eq_of_list_sorted (l : List interval) (Normalize : Bool) :
    of_list l Normalize = of_list_sorted l (sort l) Normalize := by
  unfold of_list of_list_sorted
  rw [normalize_eq_normalize_sorted]

theorem of_list_sorted_eq (l s : List interval) :
    of_list_sorted l s true =
      if (normalize_sorted l s).2 = true then ⟨state_t.BOT, []⟩
      else if (normalize_sorted l s).1 = [] then ⟨state_t.TOP, []⟩
      else if max_num_disjunctions ≤ (normalize_sorted l s).1.length then
        match approx_list (normalize_sorted l s).1 with
        | some alljoined => ⟨state_t.FINITE, [alljoined]⟩
        | none => ⟨state_t.FINITE, (normalize_sorted l s).1⟩
      else ⟨state_t.FINITE, (normalize_sorted l s).1⟩ := by
  unfold of_list_sorted
  generalize normalize_sorted l s = n
  obtain ⟨res, isb⟩ := n
  cases isb
  · cases res with
    | nil => simp [is_finite]
    | cons x xs =>
      by_cases hge : max_num_disjunctions ≤ xs.length + 1
      · simp only [is_finite, List.length_cons, hge, decide_True, Bool.and_self,
          Bool.false_eq_true, if_false, if_true, List.isEmpty_cons, reduceCtorEq]
      · simp [is_finite, hge]
  · simp [is_finite]

theorem normalize_sorted_snd_of_ne_nil (l s : List interval)
    (h : (normalize_sorted l s).1 ≠ []) : (normalize_sorted l s).2 = false := by
  by_cases hlen : l.length ≤ 1
  · simp [normalize_sorted, hlen]
  · simp only [normalize_sorted, if_neg hlen] at h ⊢
    cases hr : normalize_loop s [] interval.top 0 with
    | none => rfl
    | some rb =>
      obtain ⟨r, b⟩ := rb
      rw [hr] at h
      simp only at h ⊢
      have hb := normalize_loop_bottoms s [] interval.top 0 r b hr
      simp only [decide_eq_false_iff_not]
      intro hbl
      apply h
      rw [hb.2 (by omega)]
      rfl

end dis_interval

namespace dis_interval

/-- Whatever the order of the vector, the loop of `normalize` pushes no
bottom and no top interval. -/
theorem normalize_loop_proper (l : List interval) :
    ∀ (res : List interval) (prev : interval) (b : Nat) (r : List interval) (b' : Nat),
      (∀ x ∈ res, x.is_bottom = false ∧ x.is_top = false) →
      normalize_loop l res prev b = some (r, b') →
      ∀ x ∈ r, x.is_bottom = false ∧ x.is_top = false := by
  induction l with
  | nil =>
    intro res prev b r b' hres h
    simp only [normalize_loop, Option.some.injEq, Prod.mk.injEq] at h
    rw [← h.1]
    exact hres
  | cons intv l ih =>
    intro res prev b r b' hres h
    unfold normalize_loop at h
    split at h
    · exact ih _ _ _ _ _ hres h
    · split at h
      · exact ih _ _ _ _ _ hres h
      · rename_i hnb
        split at h
        · cases h
        · rename_i hnt
          have hnb' : intv.is_bottom = false := by
            cases hb : intv.is_bottom
            · rfl
            · exact absurd hb hnb
          have hnt' : intv.is_top = false := by
            cases ht : intv.is_top
            · rfl
            · exact absurd ht hnt
          by_cases hp : prev.is_top = true
          · simp only [hp, Bool.not_true, Bool.false_eq_true, if_false] at h
            rw [hnt'] at h
            simp only [Bool.false_eq_true, if_false] at h
            refine ih _ _ _ _ _ ?_ h
            intro x hx
            rcases List.mem_cons.1 hx with e | e
            · rw [e]; exact ⟨hnb', hnt'⟩
            · exact hres x e
          · have hp' : prev.is_top = false := by
              cases ht : prev.is_top
              · rfl
              · exact absurd ht hp
            simp only [hp', Bool.not_false, if_true] at h
            obtain ⟨popped, res', intv', e1, e2, e3, _⟩ :=
              fuse_spec res intv (fun x hx => (hres x hx).1) hnb'
            rw [e2] at h
            simp only at h
            split at h
            · cases h
            · rename_i ht
              refine ih _ _ _ _ _ ?_ h
              intro x hx
              rcases List.mem_cons.1 hx with e | e
              · rw [e]
                refine ⟨e3, ?_⟩
                cases hh : intv'.is_top
                · rfl
                · exact absurd hh ht
              · exact hres x (by rw [e1]; exact List.mem_append_right _ e)

/-- The list of a value built by the list constructor, whatever the order in
which `std::sort` leaves the vector, is one of the lists of `sort_exact`. -/
theorem sort_exact_of_list_sorted (l s : List interval) :
    sort_exact (of_list_sorted l s true)._list := by
  rw [of_list_sorted_eq]
  have hn : sort_exact (normalize_sorted l s).1 := by
    unfold normalize_sorted
    by_cases hlen : l.length ≤ 1
    · rw [if_pos hlen]
      exact Or.inl (by simp only; omega)
    · rw [if_neg hlen]
      cases hr : normalize_loop s [] interval.top 0 with
      | none => exact Or.inl (by simp)
      | some rb =>
        obtain ⟨r, b⟩ := rb
        refine Or.inr ?_
        intro x hx
        simp only [List.mem_reverse] at hx
        exact normalize_loop_proper s [] interval.top 0 r b (fun y hy => by cases hy) hr x hx
  split
  · exact Or.inl (by simp)
  · split
    · exact Or.inl (by simp)
    · split
      · split
        · exact Or.inl (by simp)
        · exact hn
      · exact hn

/-- The list of a value built from one interval has at most one element. -/
theorem sort_exact_of_interval (i : interval) : sort_exact (of_interval i)._list := by
  unfold of_interval
  split
  · exact Or.inl (by simp)
  · split
    · exact Or.inl (by simp)
    · exact Or.inl (by simp)

end dis_interval

/-- C1: `a <= top()` is false for every well-formed FINITE dis_interval `a`,
because `operator<=` scans the empty list of top without testing `is_top`;
`bottom() <= a` holds for every `a`. -/
theorem leq_top_false_of_finite (a : dis_interval) (hs : a._state = state_t.FINITE)
    (hwf : dis_interval.well_formed a) :
    dis_interval.leq a dis_interval.top = false ∧
      ∀ b : dis_interval, dis_interval.leq dis_interval.bottom b = true := by
  obtain ⟨s, l⟩ := a
  simp only at hs
  subst hs
  refine ⟨?_, fun b => rfl⟩
  cases l with
  | nil => exact absurd rfl hwf.1
  | cons x xs => rfl

/-- Witness of C1: the well-formed value {[0,1]} is not `<=` top. -/
theorem leq_top_false_of_finite_witness :
    dis_interval.leq ⟨state_t.FINITE, [iv 0 1]⟩ dis_interval.top = false ∧
      ∀ b : dis_interval, dis_interval.leq dis_interval.bottom b = true :=
  leq_top_false_of_finite ⟨state_t.FINITE, [iv 0 1]⟩ rfl (by decide)

set_option maxRecDepth 100000 in
/-- C2: the list constructor can return a value that is not well-formed: the
join of the well-formed values {[-oo,0] | [4,4] | .. | [96,96]} and
{[2,2] | [6,6] | .. | [94,94] | [200,+oo]} (25 disjuncts each) hands it 50
disjuncts, the hull that replaces them is top, and the result is FINITE with
the one-element list [top], which is not well-formed and which
`check_well_formed` rejects. -/
theorem join_capped_hull_top :
    dis_interval.well_formed
      ⟨state_t.FINITE, ⟨bound.minus_infinity, bound.finite 0⟩ :: stride 0 4 24 4⟩ ∧
    dis_interval.well_formed
      ⟨state_t.FINITE, stride 0 4 24 2 ++ [⟨bound.finite 200, bound.plus_infinity⟩]⟩ ∧
    dis_interval.join
      ⟨state_t.FINITE, ⟨bound.minus_infinity, bound.finite 0⟩ :: stride 0 4 24 4⟩
      ⟨state_t.FINITE, stride 0 4 24 2 ++ [⟨bound.finite 200, bound.plus_infinity⟩]⟩
      = ⟨state_t.FINITE, [interval.top]⟩ ∧
    ¬ dis_interval.well_formed ⟨state_t.FINITE, [interval.top]⟩ ∧
    dis_interval.check_well_formed ⟨state_t.FINITE, [interval.top]⟩ = false := by
  decide

/-- C3: for every well-formed FINITE `a` the join `a | top()` is top and
`a <= (a | top())` is false, so the join is not an upper bound under
`operator<=`. -/
theorem join_top_not_upper_bound (a : dis_interval) (hs : a._state = state_t.FINITE)
    (hwf : dis_interval.well_formed a) :
    dis_interval.join a dis_interval.top = dis_interval.top ∧
      dis_interval.leq a (dis_interval.join a dis_interval.top) = false := by
  obtain ⟨s, l⟩ := a
  simp only at hs
  subst hs
  have h1 : dis_interval.join ⟨state_t.FINITE, l⟩ dis_interval.top = dis_interval.top := rfl
  rw [h1]
  refine ⟨rfl, ?_⟩
  cases l with
  | nil => exact absurd rfl hwf.1
  | cons x xs => rfl

/-- Witness of C3: {[0,1]} is not `<=` its join with top. -/
theorem join_top_not_upper_bound_witness :
    dis_interval.join ⟨state_t.FINITE, [iv 0 1]⟩ dis_interval.top = dis_interval.top ∧
      dis_interval.leq ⟨state_t.FINITE, [iv 0 1]⟩
        (dis_interval.join ⟨state_t.FINITE, [iv 0 1]⟩ dis_interval.top) = false :=
  join_top_not_upper_bound ⟨state_t.FINITE, [iv 0 1]⟩ rfl (by decide)

set_option maxRecDepth 100000 in
/-- C4 (counterexample): a = 25 points 0,4,..,96, b = 24 points 2,6,..,94 and
[1000,1000], c = {[0,200] | [1000,1000]} are well-formed, `a <= c` and
`b <= c`, but the join has 50 disjuncts, is collapsed to [0,1000], and is not
`<=` c. -/
theorem join_not_least_when_capped :
    dis_interval.well_formed ⟨state_t.FINITE, stride 0 4 25 0⟩ ∧
    dis_interval.well_formed ⟨state_t.FINITE, stride 0 4 24 2 ++ [iv 1000 1000]⟩ ∧
    dis_interval.well_formed ⟨state_t.FINITE, [iv 0 200, iv 1000 1000]⟩ ∧
    dis_interval.leq ⟨state_t.FINITE, stride 0 4 25 0⟩
      ⟨state_t.FINITE, [iv 0 200, iv 1000 1000]⟩ = true ∧
    dis_interval.leq ⟨state_t.FINITE, stride 0 4 24 2 ++ [iv 1000 1000]⟩
      ⟨state_t.FINITE, [iv 0 200, iv 1000 1000]⟩ = true ∧
    dis_interval.join ⟨state_t.FINITE, stride 0 4 25 0⟩
      ⟨state_t.FINITE, stride 0 4 24 2 ++ [iv 1000 1000]⟩ = ⟨state_t.FINITE, [iv 0 1000]⟩ ∧
    dis_interval.leq
      (dis_interval.join ⟨state_t.FINITE, stride 0 4 25 0⟩
        ⟨state_t.FINITE, stride 0 4 24 2 ++ [iv 1000 1000]⟩)
      ⟨state_t.FINITE, [iv 0 200, iv 1000 1000]⟩ = false := by
  decide

/-- C4 (amended): for well-formed a, b and c with `a <= c` and `b <= c`, the
join satisfies `(a | b) <= c` whenever the vector built by the join, once
normalized, has fewer than 50 intervals (the cap is not reached); and the
join of {[0,7] | [9,11]} and {[0,6] | [8,11]} is the single interval [0,11]. -/
theorem join_least_upper_bound (a b c : dis_interval) (ha : dis_interval.well_formed a)
    (hb : dis_interval.well_formed b) (hc : dis_interval.well_formed c)
    (hac : dis_interval.leq a c = true) (hbc : dis_interval.leq b c = true)
    (hcap : dis_interval.join_uncapped a b = true) :
    dis_interval.leq (dis_interval.join a b) c = true ∧
      dis_interval.join ⟨state_t.FINITE, [iv 0 7, iv 9 11]⟩
        ⟨state_t.FINITE, [iv 0 6, iv 8 11]⟩ = ⟨state_t.FINITE, [iv 0 11]⟩ :=
  ⟨dis_interval.join_least_aux a b c ha hb hc hac hbc hcap, by decide⟩

/-- Witness of C4 (amended): a = {[0,7] | [9,11]}, b = {[0,6] | [8,11]} and
c = {[-5,20]}. -/
theorem join_least_upper_bound_witness :
    dis_interval.leq
        (dis_interval.join ⟨state_t.FINITE, [iv 0 7, iv 9 11]⟩
          ⟨state_t.FINITE, [iv 0 6, iv 8 11]⟩)
        ⟨state_t.FINITE, [iv (-5) 20]⟩ = true ∧
      dis_interval.join ⟨state_t.FINITE, [iv 0 7, iv 9 11]⟩
        ⟨state_t.FINITE, [iv 0 6, iv 8 11]⟩ = ⟨state_t.FINITE, [iv 0 11]⟩ :=
  join_least_upper_bound ⟨state_t.FINITE, [iv 0 7, iv 9 11]⟩
    ⟨state_t.FINITE, [iv 0 6, iv 8 11]⟩ ⟨state_t.FINITE, [iv (-5) 20]⟩
    (by decide) (by decide) (by decide) (by decide) (by decide) (by decide)

/-- C5: for well-formed a and b the join is commutative and idempotent under
the syntactic `operator==`: `(a | b) == (b | a)` and `(a | a) == a`. -/
theorem join_commutative_idempotent (a b : dis_interval) (ha : dis_interval.well_formed a)
    (hb : dis_interval.well_formed b) :
    dis_interval.eq (dis_interval.join a b) (dis_interval.join b a) = true ∧
      dis_interval.eq (dis_interval.join a a) a = true := by
  rw [dis_interval.join_comm a b ha hb, dis_interval.join_self a ha]
  exact ⟨dis_interval.eq_self _, dis_interval.eq_self _⟩

/-- Witness of C5: a = {[0,7] | [9,11]} and b = {[0,6] | [8,11]}. -/
theorem join_commutative_idempotent_witness :
    dis_interval.eq
        (dis_interval.join ⟨state_t.FINITE, [iv 0 7, iv 9 11]⟩
          ⟨state_t.FINITE, [iv 0 6, iv 8 11]⟩)
        (dis_interval.join ⟨state_t.FINITE, [iv 0 6, iv 8 11]⟩
          ⟨state_t.FINITE, [iv 0 7, iv 9 11]⟩) = true ∧
      dis_interval.eq
        (dis_interval.join ⟨state_t.FINITE, [iv 0 7, iv 9 11]⟩
          ⟨state_t.FINITE, [iv 0 7, iv 9 11]⟩)
        ⟨state_t.FINITE, [iv 0 7, iv 9 11]⟩ = true :=
  join_commutative_idempotent ⟨state_t.FINITE, [iv 0 7, iv 9 11]⟩
    ⟨state_t.FINITE, [iv 0 6, iv 8 11]⟩ (by decide) (by decide)

set_option maxRecDepth 100000 in
/-- C6 (counterexample): with a = 25 points 0,4,..,96, b = 25 points
2,6,..,98 and c = {[1000,1000]}, `(a | b)` reaches the cap and is collapsed,
so `(a | b) | c` is {[0,98] | [1000,1000]}, while `a | (b | c)` is collapsed
to {[0,1000]}: the two are not `==`. -/
theorem join_not_associative_when_capped :
    dis_interval.well_formed ⟨state_t.FINITE, stride 0 4 25 0⟩ ∧
    dis_interval.well_formed ⟨state_t.FINITE, stride 0 4 25 2⟩ ∧
    dis_interval.well_formed ⟨state_t.FINITE, [iv 1000 1000]⟩ ∧
    dis_interval.join
      (dis_interval.join ⟨state_t.FINITE, stride 0 4 25 0⟩ ⟨state_t.FINITE, stride 0 4 25 2⟩)
      ⟨state_t.FINITE, [iv 1000 1000]⟩ = ⟨state_t.FINITE, [iv 0 98, iv 1000 1000]⟩ ∧
    dis_interval.join ⟨state_t.FINITE, stride 0 4 25 0⟩
      (dis_interval.join ⟨state_t.FINITE, stride 0 4 25 2⟩ ⟨state_t.FINITE, [iv 1000 1000]⟩)
      = ⟨state_t.FINITE, [iv 0 1000]⟩ ∧
    dis_interval.eq
      (dis_interval.join
        (dis_interval.join ⟨state_t.FINITE, stride 0 4 25 0⟩ ⟨state_t.FINITE, stride 0 4 25 2⟩)
        ⟨state_t.FINITE, [iv 1000 1000]⟩)
      (dis_interval.join ⟨state_t.FINITE, stride 0 4 25 0⟩
        (dis_interval.join ⟨state_t.FINITE, stride 0 4 25 2⟩ ⟨state_t.FINITE, [iv 1000 1000]⟩))
      = false := by
  decide

/-- C6 (amended): for well-formed a, b and c the join is associative,
`((a | b) | c) == (a | (b | c))`, whenever none of the four joins involved
reaches the cap of 50 intervals. -/
theorem join_associative_below_cap (a b c : dis_interval) (ha : dis_interval.well_formed a)
    (hb : dis_interval.well_formed b) (hc : dis_interval.well_formed c)
    (h1 : dis_interval.join_uncapped a b = true)
    (h2 : dis_interval.join_uncapped (dis_interval.join a b) c = true)
    (h3 : dis_interval.join_uncapped b c = true)
    (h4 : dis_interval.join_uncapped a (dis_interval.join b c) = true) :
    dis_interval.eq (dis_interval.join (dis_interval.join a b) c)
      (dis_interval.join a (dis_interval.join b c)) = true := by
  rw [dis_interval.join_assoc_aux a b c ha hb hc h1 h2 h3 h4]
  exact dis_interval.eq_self _

/-- Witness of C6 (amended): a = {[0,1]}, b = {[3,4] | [10,11]} and
c = {[2,2] | [20,+oo]}. -/
theorem join_associative_below_cap_witness :
    dis_interval.eq
      (dis_interval.join
        (dis_interval.join ⟨state_t.FINITE, [iv 0 1]⟩ ⟨state_t.FINITE, [iv 3 4, iv 10 11]⟩)
        ⟨state_t.FINITE, [iv 2 2, ⟨bound.finite 20, bound.plus_infinity⟩]⟩)
      (dis_interval.join ⟨state_t.FINITE, [iv 0 1]⟩
        (dis_interval.join ⟨state_t.FINITE, [iv 3 4, iv 10 11]⟩
          ⟨state_t.FINITE, [iv 2 2, ⟨bound.finite 20, bound.plus_infinity⟩]⟩)) = true :=
  join_associative_below_cap ⟨state_t.FINITE, [iv 0 1]⟩ ⟨state_t.FINITE, [iv 3 4, iv 10 11]⟩
    ⟨state_t.FINITE, [iv 2 2, ⟨bound.finite 20, bound.plus_infinity⟩]⟩
    (by decide) (by decide) (by decide) (by decide) (by decide) (by decide) (by decide)

set_option maxRecDepth 100000 in
/-- C7 (counterexample): a = {[0,5] | [10,15] | .. | [250,255]} and
b = {[4,11] | [14,21] | .. | [254,261]} (26 disjuncts each) are well-formed;
their 51 non-empty intersections reach the cap, the meet is collapsed to
[4,255], and it is `<=` neither a nor b. -/
theorem meet_not_lower_bound_when_capped :
    dis_interval.well_formed ⟨state_t.FINITE, stride 5 10 26 0⟩ ∧
    dis_interval.well_formed ⟨state_t.FINITE, stride 7 10 26 4⟩ ∧
    dis_interval.meet ⟨state_t.FINITE, stride 5 10 26 0⟩ ⟨state_t.FINITE, stride 7 10 26 4⟩
      = ⟨state_t.FINITE, [iv 4 255]⟩ ∧
    dis_interval.leq
      (dis_interval.meet ⟨state_t.FINITE, stride 5 10 26 0⟩ ⟨state_t.FINITE, stride 7 10 26 4⟩)
      ⟨state_t.FINITE, stride 5 10 26 0⟩ = false ∧
    dis_interval.leq
      (dis_interval.meet ⟨state_t.FINITE, stride 5 10 26 0⟩ ⟨state_t.FINITE, stride 7 10 26 4⟩)
      ⟨state_t.FINITE, stride 7 10 26 4⟩ = false := by
  decide

/-- C7 (amended): for well-formed a and b, `(a & top()) == a`, and the meet is
a lower bound, `(a & b) <= a` and `(a & b) <= b`, whenever the non-bottom
intersections collected by the meet, once normalized, are fewer than 50 (the
cap is not reached) and the pair is not one top value with one FINITE
value. -/
theorem meet_lower_bound (a b : dis_interval) (ha : dis_interval.well_formed a)
    (hb : dis_interval.well_formed b)
    (h1 : a.is_top = true → b.is_finite = false)
    (h2 : b.is_top = true → a.is_finite = false)
    (hcap : dis_interval.meet_uncapped a b = true) :
    dis_interval.leq (dis_interval.meet a b) a = true ∧
      dis_interval.leq (dis_interval.meet a b) b = true ∧
      dis_interval.eq (dis_interval.meet a dis_interval.top) a = true :=
  ⟨(dis_interval.meet_lower_aux a b ha hb h1 h2 hcap).1,
    (dis_interval.meet_lower_aux a b ha hb h1 h2 hcap).2, dis_interval.meet_top_eq a⟩

/-- Witness of C7 (amended): a = {[0,5] | [10,15]} and b = {[4,11]}. -/
theorem meet_lower_bound_witness :
    dis_interval.leq
        (dis_interval.meet ⟨state_t.FINITE, [iv 0 5, iv 10 15]⟩ ⟨state_t.FINITE, [iv 4 11]⟩)
        ⟨state_t.FINITE, [iv 0 5, iv 10 15]⟩ = true ∧
      dis_interval.leq
        (dis_interval.meet ⟨state_t.FINITE, [iv 0 5, iv 10 15]⟩ ⟨state_t.FINITE, [iv 4 11]⟩)
        ⟨state_t.FINITE, [iv 4 11]⟩ = true ∧
      dis_interval.eq
        (dis_interval.meet ⟨state_t.FINITE, [iv 0 5, iv 10 15]⟩ dis_interval.top)
        ⟨state_t.FINITE, [iv 0 5, iv 10 15]⟩ = true :=
  meet_lower_bound ⟨state_t.FINITE, [iv 0 5, iv 10 15]⟩ ⟨state_t.FINITE, [iv 4 11]⟩
    (by decide) (by decide) (by decide) (by decide) (by decide)

/-- C8: a = {[-oo,5] | [10,20]} and b = {[-oo,7] | [10,20]} are well-formed;
the widening of their first intervals is top, `normalize` takes that top for
a duplicate of the initial value of `prev`, and `a || b` is {[10,20]}, which is
an upper bound of neither argument.  Also, whatever `widen_op` is, the
widening of {[0,1]} with top is top, and {[0,1]} is not `<=` it. -/
theorem widening_not_upper_bound :
    dis_interval.well_formed
      ⟨state_t.FINITE, [⟨bound.minus_infinity, bound.finite 5⟩, iv 10 20]⟩ ∧
    dis_interval.well_formed
      ⟨state_t.FINITE, [⟨bound.minus_infinity, bound.finite 7⟩, iv 10 20]⟩ ∧
    dis_interval.widen
      ⟨state_t.FINITE, [⟨bound.minus_infinity, bound.finite 5⟩, iv 10 20]⟩
      ⟨state_t.FINITE, [⟨bound.minus_infinity, bound.finite 7⟩, iv 10 20]⟩
      = ⟨state_t.FINITE, [iv 10 20]⟩ ∧
    dis_interval.leq
      ⟨state_t.FINITE, [⟨bound.minus_infinity, bound.finite 5⟩, iv 10 20]⟩
      (dis_interval.widen
        ⟨state_t.FINITE, [⟨bound.minus_infinity, bound.finite 5⟩, iv 10 20]⟩
        ⟨state_t.FINITE, [⟨bound.minus_infinity, bound.finite 7⟩, iv 10 20]⟩) = false ∧
    dis_interval.leq
      ⟨state_t.FINITE, [⟨bound.minus_infinity, bound.finite 7⟩, iv 10 20]⟩
      (dis_interval.widen
        ⟨state_t.FINITE, [⟨bound.minus_infinity, bound.finite 5⟩, iv 10 20]⟩
        ⟨state_t.FINITE, [⟨bound.minus_infinity, bound.finite 7⟩, iv 10 20]⟩) = false ∧
    ∀ widen_op : interval → interval → interval,
      dis_interval.widening widen_op ⟨state_t.FINITE, [iv 0 1]⟩ dis_interval.top
        = dis_interval.top ∧
      dis_interval.leq ⟨state_t.FINITE, [iv 0 1]⟩
        (dis_interval.widening widen_op ⟨state_t.FINITE, [iv 0 1]⟩ dis_interval.top)
        = false :=
  ⟨by decide, by decide, by decide, by decide, by decide, fun _ => ⟨rfl, rfl⟩⟩

/-- C10: `normalize` applied to the two-element list [top, [10,20]] returns
the non-empty list [[10,20]]: the top interval is skipped as a duplicate of
the initial value of `prev`, so the result is not empty although an input
interval is top. -/
theorem normalize_keeps_list_after_leading_top :
    dis_interval.normalize [interval.top, iv 10 20] = ([iv 10 20], false) := by
  decide

/-- C11: whatever the order in which `std::sort` leaves the vector (`s` is
its content after the call), when the normalized form of a list has
`max_num_disjunctions` (50) or more disjuncts, the list constructor returns
FINITE with exactly one interval, the hull of the first and the last
normalized disjunct; and every FINITE value returned by the list constructor
(normalizing or not) has fewer than 50 disjuncts.  The constructor `of_list`
is the case `s = sort l`. -/
theorem of_list_cap_collapse (l s : List interval) (Normalize : Bool) :
    dis_interval.of_list l Normalize
      = dis_interval.of_list_sorted l (dis_interval.sort l) Normalize ∧
    (∀ hne : (dis_interval.normalize_sorted l s).1 ≠ [],
      dis_interval.max_num_disjunctions ≤ (dis_interval.normalize_sorted l s).1.length →
      dis_interval.of_list_sorted l s true =
        ⟨state_t.FINITE, [((dis_interval.normalize_sorted l s).1.head hne).join
          ((dis_interval.normalize_sorted l s).1.getLast hne)]⟩) ∧
    ((dis_interval.of_list_sorted l s Normalize).is_finite = true →
      (dis_interval.of_list_sorted l s Normalize)._list.length
        < dis_interval.max_num_disjunctions) := by
  refine ⟨dis_interval.of_list_eq_of_list_sorted l Normalize, ?_, ?_⟩
  · intro hne hlen
    rw [dis_interval.of_list_sorted_eq, dis_interval.normalize_sorted_snd_of_ne_nil l s hne]
    simp only [Bool.false_eq_true, if_false, hne, hlen, if_true]
    rw [dis_interval.approx_list_of_two_le _ hne
      (by simp only [dis_interval.max_num_disjunctions] at hlen; omega)]
  · intro hfin
    exact dis_interval.cap_length_lt _ hfin

set_option maxRecDepth 100000 in
/-- Witness of C11: the 50 intervals [0,0], [2,2], .., [98,98], which any
sort leaves in this order, are collapsed to the single interval [0,98]. -/
theorem of_list_cap_collapse_witness :
    dis_interval.max_num_disjunctions
      ≤ (dis_interval.normalize_sorted (stride 0 2 50 0) (stride 0 2 50 0)).1.length ∧
    dis_interval.of_list_sorted (stride 0 2 50 0) (stride 0 2 50 0) true
      = ⟨state_t.FINITE, [iv 0 98]⟩ ∧
    (dis_interval.of_list_sorted (stride 0 2 50 0) (stride 0 2 50 0) true)._list.length <
      dis_interval.max_num_disjunctions :=
  ⟨by decide,
   ((of_list_cap_collapse (stride 0 2 50 0) (stride 0 2 50 0) true).2.1 (by decide)
     (by decide)).trans (by decide),
   (of_list_cap_collapse (stride 0 2 50 0) (stride 0 2 50 0) true).2.2 (by decide)⟩

/-- C12: `nullity_value::operator<=` is the order of the flat lattice: `a <= b`
holds iff a is bottom, or b is top, or a equals b; equivalently iff the
two-bit code of a is a bit-subset of the code of b; and the relation is
reflexive, transitive and antisymmetric. -/
theorem nullity_leq_flat_order (a b c : nullity_value) :
    (a.leq b = true ↔ (a = nullity_value.bottom ∨ b = nullity_value.top ∨ a = b)) ∧
    (a.leq b = true ↔ a._value.to_int &&& b._value.to_int = a._value.to_int) ∧
    a.leq a = true ∧
    (a.leq b = true → b.leq c = true → a.leq c = true) ∧
    (a.leq b = true → b.leq a = true → a = b) := by
  obtain ⟨a⟩ := a
  obtain ⟨b⟩ := b
  obtain ⟨c⟩ := c
  cases a <;> cases b <;> cases c <;> decide

/-- Witness of C12: null <= top, bottom <= null, and bottom <= top by
transitivity through null. -/
theorem nullity_leq_flat_order_witness :
    nullity_value.null.leq nullity_value.top = true ∧
      nullity_value.bottom.leq nullity_value.null = true ∧
      nullity_value.bottom.leq nullity_value.top = true :=
  ⟨(nullity_leq_flat_order nullity_value.null nullity_value.top nullity_value.top).1.mpr
      (Or.inr (Or.inl rfl)),
   (nullity_leq_flat_order nullity_value.bottom nullity_value.null nullity_value.top).1.mpr
      (Or.inl rfl),
   (nullity_leq_flat_order nullity_value.bottom nullity_value.null nullity_value.top).2.2.2.1
      (by decide) (by decide)⟩

/-- C13: `a | b` is the least upper bound and `a & b` the greatest lower bound
of a and b for `operator<=`; null | non_null is top, null & non_null is
bottom; the widening is the join and the narrowing is the meet. -/
theorem nullity_join_meet_lattice (a b c : nullity_value) :
    (a.leq (a.join b) = true ∧ b.leq (a.join b) = true ∧
      (a.leq c = true → b.leq c = true → (a.join b).leq c = true)) ∧
    ((a.meet b).leq a = true ∧ (a.meet b).leq b = true ∧
      (c.leq a = true → c.leq b = true → c.leq (a.meet b) = true)) ∧
    nullity_value.null.join nullity_value.non_null = nullity_value.top ∧
    nullity_value.null.meet nullity_value.non_null = nullity_value.bottom ∧
    a.widening b = a.join b ∧ a.narrowing b = a.meet b := by
  obtain ⟨a⟩ := a
  obtain ⟨b⟩ := b
  obtain ⟨c⟩ := c
  cases a <;> cases b <;> cases c <;> decide

/-- Witness of C13: top is an upper bound of null and non_null, hence above
their join; bottom is a lower bound of both, hence below their meet. -/
theorem nullity_join_meet_lattice_witness :
    (nullity_value.null.join nullity_value.non_null).leq nullity_value.top = true ∧
      nullity_value.bottom.leq (nullity_value.null.meet nullity_value.non_null) = true :=
  ⟨(nullity_join_meet_lattice nullity_value.null nullity_value.non_null nullity_value.top).1.2.2
      (by decide) (by decide),
   (nullity_join_meet_lattice nullity_value.null nullity_value.non_null nullity_value.bottom).2.1.2.2
      (by decide) (by decide)⟩

/-- C18: for every analyzer state and every label b, `operator[](b)` is
`get_pre(b)`; and when the map `m_pre_map` (`m_post_map`) has no entry for b,
`get_pre(b)` (`get_post(b)`) is the top of the abstract domain. -/
theorem query_pre_post {L D : Type} [DecidableEq L] (ops : abs_dom_ops D)
    (a : FwdAnalyzer L D) (b : L) :
    a.operator_index ops b = a.get_pre ops b ∧
    ((∀ x, (b, x) ∉ a.m_pre_map) → a.get_pre ops b = ops.top) ∧
    ((∀ x, (b, x) ∉ a.m_post_map) → a.get_post ops b = ops.top) := by
  refine ⟨rfl, fun h => ?_, fun h => ?_⟩
  · simp only [FwdAnalyzer.get_pre, invariant_map_find_none b _ h]
  · simp only [FwdAnalyzer.get_post, invariant_map_find_none b _ h]

/-- Witness of C18: with entries for the label 0 only, the queries at the
label 1 return top. -/
theorem query_pre_post_witness :
    (FwdAnalyzer.get_pre dis_interval_ops
        ⟨[(0, ⟨state_t.FINITE, [iv 0 1]⟩)], [(0, ⟨state_t.FINITE, [iv 2 3]⟩)]⟩ 1 =
      dis_interval.top) ∧
    (FwdAnalyzer.get_post dis_interval_ops
        ⟨[(0, ⟨state_t.FINITE, [iv 0 1]⟩)], [(0, ⟨state_t.FINITE, [iv 2 3]⟩)]⟩ 1 =
      dis_interval.top) :=
  ⟨(query_pre_post dis_interval_ops
      ⟨[(0, ⟨state_t.FINITE, [iv 0 1]⟩)], [(0, ⟨state_t.FINITE, [iv 2 3]⟩)]⟩ 1).2.1
      (by simp),
   (query_pre_post dis_interval_ops
      ⟨[(0, ⟨state_t.FINITE, [iv 0 1]⟩)], [(0, ⟨state_t.FINITE, [iv 2 3]⟩)]⟩ 1).2.2
      (by simp)⟩

/-- C20: `store` with `is_singleton` true is the assignment of `v` to the cell
`a`; with `is_singleton` false it is the join of the prior state with the state
after that assignment; and when the join of the numerical domain is an upper
bound of its first argument for `operator<=`, the prior state is `<=` the
result of the weak update. -/
theorem store_strong_weak {D V E : Type} (ops : num_domain_ops D V E)
    (s : array_smashing D) (a i : V) (v : E) (n_bytes : Int) :
    s.store ops a i v n_bytes true = s.assign ops a v ∧
    s.store ops a i v n_bytes false = s.join ops (s.assign ops a v) ∧
    ((∀ x y : D, ops.leq x (ops.join x y) = true) →
      s.leq ops (s.store ops a i v n_bytes false) = true) := by
  refine ⟨rfl, rfl, fun h => ?_⟩
  exact h _ _

/-- Witness of C20: on the one-cell interval domain the state [3,3] is below
the state after the weak update with [5,5]. -/
theorem store_strong_weak_witness :
    array_smashing.leq one_cell_ops ⟨iv 3 3⟩
      (array_smashing.store one_cell_ops ⟨iv 3 3⟩ 0 1 (iv 5 5) 4 false) = true :=
  (store_strong_weak one_cell_ops ⟨iv 3 3⟩ 0 1 (iv 5 5) 4).2.2 interval_leq_join

/-- C14: for the constraints p == object(1), q1 == object(2), *(p+o) << q1,
r *= (p+o'), with any offsets and any thresholds, `solve` started on a new
system with enough fuel returns a state in which the address set of `get(r)`
is exactly {2}; and with the further constraints q2 == object(3),
*(p+o') << q2 the address set of `get(r)` is exactly {2,3}. -/
theorem pta_store_load_points_to (p q1 q2 r : pointer_var) (hpq1 : p ≠ q1) (hpq2 : p ≠ q2)
    (hpr : p ≠ r) (hq : q1 ≠ q2) (hq1r : q1 ≠ r) (hq2r : q2 ≠ r)
    (o1 o2 o3 o o' o'' : interval) (W N : Nat) (hW : W < size_t_modulus)
    (hN : N < size_t_modulus) (change_seen : Bool) (iteration fuel : Nat) :
    ((pta_system.mk_system
        [pta_constraint.pta_assign p (pta_ref.object_ref 1 o1),
         pta_constraint.pta_assign q1 (pta_ref.object_ref 2 o2),
         pta_constraint.pta_store (pta_ref.pointer_ref p o) q1,
         pta_constraint.pta_load r (pta_ref.pointer_ref p o')]
        change_seen iteration).enough_fuel W N ≤ fuel →
      ∃ s', pta_system.solve fuel (pta_system.mk_system
        [pta_constraint.pta_assign p (pta_ref.object_ref 1 o1),
         pta_constraint.pta_assign q1 (pta_ref.object_ref 2 o2),
         pta_constraint.pta_store (pta_ref.pointer_ref p o) q1,
         pta_constraint.pta_load r (pta_ref.pointer_ref p o')]
        change_seen iteration) W N = Except.ok s' ∧ (s'.get r).1 = [2]) ∧
    ((pta_system.mk_system
        [pta_constraint.pta_assign p (pta_ref.object_ref 1 o1),
         pta_constraint.pta_assign q1 (pta_ref.object_ref 2 o2),
         pta_constraint.pta_assign q2 (pta_ref.object_ref 3 o3),
         pta_constraint.pta_store (pta_ref.pointer_ref p o) q1,
         pta_constraint.pta_store (pta_ref.pointer_ref p o') q2,
         pta_constraint.pta_load r (pta_ref.pointer_ref p o'')]
        change_seen iteration).enough_fuel W N ≤ fuel →
      ∃ s', pta_system.solve fuel (pta_system.mk_system
        [pta_constraint.pta_assign p (pta_ref.object_ref 1 o1),
         pta_constraint.pta_assign q1 (pta_ref.object_ref 2 o2),
         pta_constraint.pta_assign q2 (pta_ref.object_ref 3 o3),
         pta_constraint.pta_store (pta_ref.pointer_ref p o) q1,
         pta_constraint.pta_store (pta_ref.pointer_ref p o') q2,
         pta_constraint.pta_load r (pta_ref.pointer_ref p o'')]
        change_seen iteration) W N = Except.ok s' ∧ (s'.get r).1 = [2, 3]) :=
  ⟨fun h => solve_store_load_one p q1 r hpq1 hpr hq1r o1 o2 o o' W N hW hN change_seen
      iteration fuel h,
   fun h => solve_store_load_two p q1 q2 r hpq1 hpq2 hpr hq hq1r hq2r o1 o2 o3 o o' o'' W N
      hW hN change_seen iteration fuel h⟩

/-- Witness of C14: the two systems of the test, with the variables 1 to 4,
the offsets [0,0] and [0,3], the thresholds 100 and 1 and 3000 and 5000
units of fuel. -/
theorem pta_store_load_points_to_witness :
    (∃ s', pta_system.solve 3000 (pta_system.mk_system
        [pta_constraint.pta_assign ⟨1⟩ (pta_ref.object_ref 1 (iv 0 0)),
         pta_constraint.pta_assign ⟨2⟩ (pta_ref.object_ref 2 (iv 0 0)),
         pta_constraint.pta_store (pta_ref.pointer_ref ⟨1⟩ (iv 0 3)) ⟨2⟩,
         pta_constraint.pta_load ⟨4⟩ (pta_ref.pointer_ref ⟨1⟩ (iv 0 3))]
        false 0) 100 1 = Except.ok s' ∧ (s'.get ⟨4⟩).1 = [2]) ∧
    (∃ s', pta_system.solve 5000 (pta_system.mk_system
        [pta_constraint.pta_assign ⟨1⟩ (pta_ref.object_ref 1 (iv 0 0)),
         pta_constraint.pta_assign ⟨2⟩ (pta_ref.object_ref 2 (iv 0 0)),
         pta_constraint.pta_assign ⟨3⟩ (pta_ref.object_ref 3 (iv 0 0)),
         pta_constraint.pta_store (pta_ref.pointer_ref ⟨1⟩ (iv 0 3)) ⟨2⟩,
         pta_constraint.pta_store (pta_ref.pointer_ref ⟨1⟩ (iv 0 3)) ⟨3⟩,
         pta_constraint.pta_load ⟨4⟩ (pta_ref.pointer_ref ⟨1⟩ (iv 0 3))]
        false 0) 100 1 = Except.ok s' ∧ (s'.get ⟨4⟩).1 = [2, 3]) :=
  ⟨(pta_store_load_points_to ⟨1⟩ ⟨2⟩ ⟨3⟩ ⟨4⟩ (by decide) (by decide) (by decide) (by decide)
      (by decide) (by decide) (iv 0 0) (iv 0 0) (iv 0 0) (iv 0 3) (iv 0 3) (iv 0 3) 100 1
      (by decide) (by decide) false 0 3000).1 (by decide),
   (pta_store_load_points_to ⟨1⟩ ⟨2⟩ ⟨3⟩ ⟨4⟩ (by decide) (by decide) (by decide) (by decide)
      (by decide) (by decide) (iv 0 0) (iv 0 0) (iv 0 0) (iv 0 3) (iv 0 3) (iv 0 3) 100 1
      (by decide) (by decide) false 0 5000).2 (by decide)⟩

/-- C15: on a state with sorted address sets whose constraints dereference no
object and no function, `solve` with enough fuel returns a state whose
address sets solve every constraint: for an assign `lhs == v + o` the
addresses of v are addresses of lhs; for `lhs == object(a, o)` the address a
is an address of lhs; for a store `*(p + o) << q` the addresses of q are
addresses of the cell O{a} of every address a of p; for a load `r *= (p + o)`
the addresses of the cell O{a} of every address a of p are addresses of r;
and one further step, with any operator, leaves every address set as it
is. -/
theorem pta_solve_is_solution (s : pta_system) (W N : Nat) (hW : W < size_t_modulus)
    (hN : N < size_t_modulus) (hsorted : s.sorted)
    (hfree : pta_system.deref_free s._csts = true) (fuel : Nat)
    (hfuel : s.enough_fuel W N ≤ fuel) :
    ∃ s', pta_system.solve fuel s W N = Except.ok s' ∧
      (∀ lhs v o, pta_constraint.pta_assign lhs (pta_ref.pointer_ref v o) ∈ s._csts →
        ∀ a ∈ s'.get_address_set v.str, a ∈ s'.get_address_set lhs.str) ∧
      (∀ lhs a o, pta_constraint.pta_assign lhs (pta_ref.object_ref a o) ∈ s._csts →
        a ∈ s'.get_address_set lhs.str) ∧
      (∀ p o q, pta_constraint.pta_store (pta_ref.pointer_ref p o) q ∈ s._csts →
        ∀ a ∈ s'.get_address_set p.str, ∀ x ∈ s'.get_address_set q.str,
          x ∈ s'.get_address_set (vname.O a)) ∧
      (∀ r p o, pta_constraint.pta_load r (pta_ref.pointer_ref p o) ∈ s._csts →
        ∀ a ∈ s'.get_address_set p.str, ∀ x ∈ s'.get_address_set (vname.O a),
          x ∈ s'.get_address_set r.str) ∧
      (∀ (op : binary_op) (fuel' : Nat) (s'' : pta_system),
        pta_system.step fuel' op s' = Except.ok s'' →
        ∀ v, s''.get_address_set v = s'.get_address_set v) := by
  obtain ⟨_, s', _, _, _, hs'⟩ := (pta_system.solve_total s W N hW hN fuel hfuel).2 hfree
  obtain ⟨hsol, hcsts, _⟩ := pta_system.solve_solution fuel s W N s' hsorted hs'
  refine ⟨s', hs', ?_, ?_, ?_, ?_, ?_⟩
  · intro lhs v o hc
    exact hsol _ hc
  · intro lhs a o hc
    exact hsol _ hc a (by simp [pta_system.process_ref, address_set.insert])
  · intro p o q hc
    have := hsol _ hc
    simp only [pta_system.solution, pta_ref.deref] at this
    exact this
  · intro r p o hc
    have := hsol _ hc
    simp only [pta_system.solution, pta_ref.deref] at this
    exact this
  · intro op fuel' s'' hstep
    exact pta_system.step_loop_stable fuel' op s'._csts s' s'' (hcsts ▸ hsol) hstep

/-- Witness of C15: the system p == object(1), q == object(2), *(p+[0,3]) << q,
r *= (p+[0,3]) on a new state, with the thresholds 100 and 1. -/
theorem pta_solve_is_solution_witness :
    ∃ s', pta_system.solve 3000 (pta_system.mk_system
        [pta_constraint.pta_assign ⟨1⟩ (pta_ref.object_ref 1 (iv 0 0)),
         pta_constraint.pta_assign ⟨2⟩ (pta_ref.object_ref 2 (iv 0 0)),
         pta_constraint.pta_store (pta_ref.pointer_ref ⟨1⟩ (iv 0 3)) ⟨2⟩,
         pta_constraint.pta_load ⟨3⟩ (pta_ref.pointer_ref ⟨1⟩ (iv 0 3))]
        false 0) 100 1 = Except.ok s' ∧
      ∀ (op : binary_op) (fuel' : Nat) (s'' : pta_system),
        pta_system.step fuel' op s' = Except.ok s'' →
        ∀ v, s''.get_address_set v = s'.get_address_set v := by
  obtain ⟨s', h1, _, _, _, _, h2⟩ := pta_solve_is_solution (pta_system.mk_system
        [pta_constraint.pta_assign ⟨1⟩ (pta_ref.object_ref 1 (iv 0 0)),
         pta_constraint.pta_assign ⟨2⟩ (pta_ref.object_ref 2 (iv 0 0)),
         pta_constraint.pta_store (pta_ref.pointer_ref ⟨1⟩ (iv 0 3)) ⟨2⟩,
         pta_constraint.pta_load ⟨3⟩ (pta_ref.pointer_ref ⟨1⟩ (iv 0 3))]
        false 0) 100 1 (by decide) (by decide) (pta_system.sorted_mk_system _ _ _) (by decide)
        3000 (by decide)
  exact ⟨s', h1, h2⟩

/-- C16: for every state of the system and all thresholds W and N (values of
`std::size_t`), `solve` with enough fuel does not use up the fuel; when no
constraint dereferences an object or a function, the extrapolation loop
returns a state left by a pass that has seen no change, the refinement phase
consists of exactly N passes, and `solve` returns a state. -/
theorem pta_solve_terminates (s : pta_system) (W N : Nat) (hW : W < size_t_modulus)
    (hN : N < size_t_modulus) (fuel : Nat) (hfuel : s.enough_fuel W N ≤ fuel) :
    pta_system.solve fuel s W N ≠ Except.error pta_error.out_of_fuel ∧
    (pta_system.deref_free s._csts = true →
      ∃ s1 s', pta_system.extrapolate_loop fuel W fuel { s with iteration := 0 } =
          Except.ok s1 ∧
        s1.change_seen = false ∧
        pta_system.solve fuel s W N =
          pta_system.passes fuel binary_op.refine N { s1 with iteration := 0 } ∧
        pta_system.solve fuel s W N = Except.ok s') :=
  pta_system.solve_total s W N hW hN fuel hfuel

/-- Witness of C16: the self-incrementing system p == object(1, [0,0]),
p == p + [1,1] with the widening threshold 5 and the narrowing threshold 1. -/
theorem pta_solve_terminates_witness :
    pta_system.solve 40 (pta_system.mk_system
        [pta_constraint.pta_assign ⟨1⟩ (pta_ref.object_ref 1 (iv 0 0)),
         pta_constraint.pta_assign ⟨1⟩ (pta_ref.pointer_ref ⟨1⟩ (iv 1 1))] false 0) 5 1 ≠
      Except.error pta_error.out_of_fuel :=
  (pta_solve_terminates (pta_system.mk_system
        [pta_constraint.pta_assign ⟨1⟩ (pta_ref.object_ref 1 (iv 0 0)),
         pta_constraint.pta_assign ⟨1⟩ (pta_ref.pointer_ref ⟨1⟩ (iv 1 1))] false 0) 5 1
      (by decide) (by decide) 40 (by decide)).1

/-- C17: in every state, with every operator, processing a store or a load
through an object reference raises the error "cannot dereference a memory
object" and through a function reference the error "cannot dereference a
function object"; a store or a load through a pointer, parameter or return
reference raises no error, and with more fuel than the greatest address of
the state it returns a state. -/
theorem pta_dereference_error (fuel : Nat) (op : binary_op) (s : pta_system)
    (v : pointer_var) :
    (∀ a o,
      pta_system.process_constraint fuel (pta_constraint.pta_store (pta_ref.object_ref a o) v)
          op s = Except.error (pta_error.crab_error "cannot dereference a memory object") ∧
      pta_system.process_constraint fuel (pta_constraint.pta_load v (pta_ref.object_ref a o))
          op s = Except.error (pta_error.crab_error "cannot dereference a memory object")) ∧
    (∀ f,
      pta_system.process_constraint fuel (pta_constraint.pta_store (pta_ref.function_ref f) v)
          op s = Except.error (pta_error.crab_error "cannot dereference a function object") ∧
      pta_system.process_constraint fuel (pta_constraint.pta_load v (pta_ref.function_ref f))
          op s = Except.error (pta_error.crab_error "cannot dereference a function object")) ∧
    (∀ ref : pta_ref,
      ref.kind = pta_ref_kind.POINTER_REF ∨ ref.kind = pta_ref_kind.PARAM_REF ∨
        ref.kind = pta_ref_kind.RETURN_REF →
      (∀ msg,
        pta_system.process_constraint fuel (pta_constraint.pta_store ref v) op s ≠
          Except.error (pta_error.crab_error msg) ∧
        pta_system.process_constraint fuel (pta_constraint.pta_load v ref) op s ≠
          Except.error (pta_error.crab_error msg)) ∧
      (s.max_address < fuel →
        (∃ s', pta_system.process_constraint fuel (pta_constraint.pta_store ref v) op s =
          Except.ok s') ∧
        (∃ s', pta_system.process_constraint fuel (pta_constraint.pta_load v ref) op s =
          Except.ok s'))) := by
  refine ⟨fun a o => ⟨rfl, rfl⟩, fun f => ⟨rfl, rfl⟩, ?_⟩
  intro ref hk
  have hd : ref.deref.isSome = true := by
    cases ref <;> simp [pta_ref.kind, pta_ref.deref] at hk ⊢
  refine ⟨fun msg => ⟨?_, ?_⟩, fun hf => ⟨?_, ?_⟩⟩
  · exact pta_system.process_constraint_no_crab_error (pta_constraint.pta_store ref v) op fuel s
      hd msg
  · exact pta_system.process_constraint_no_crab_error (pta_constraint.pta_load v ref) op fuel s
      hd msg
  · exact pta_system.process_constraint_deref_terminates (pta_constraint.pta_store ref v) op
      fuel s hf hd
  · exact pta_system.process_constraint_deref_terminates (pta_constraint.pta_load v ref) op
      fuel s hf hd

/-- Witness of C17: a store through the pointer 1 in a state where 1 points
to the object 1 and 2 to the object 2 returns a state. -/
theorem pta_dereference_error_witness :
    ∃ s', pta_system.process_constraint 5
      (pta_constraint.pta_store (pta_ref.pointer_ref ⟨1⟩ (iv 0 3)) ⟨2⟩)
      (binary_op.extrapolate 100)
      ⟨[], [], [(vname.V 1, [1]), (vname.V 2, [2])], false, 1⟩ = Except.ok s' :=
  (((pta_dereference_error 5 (binary_op.extrapolate 100)
      ⟨[], [], [(vname.V 1, [1]), (vname.V 2, [2])], false, 1⟩ ⟨2⟩).2.2
      (pta_ref.pointer_ref ⟨1⟩ (iv 0 3)) (Or.inl rfl)).2 (by decide)).1


/-- C19 (counterexample): on the graph b0 -> b1 -> b2 with b0: x := .., b1:
y := x, b2: a use of y, visited in the order b2, b1, b0, `exec` leaves no dead
set for the exit block b2, so `dead_exit (b2)` is the empty set, although the
live-out set of b2 is empty and the variables of b2 without its live-out set
are {y}. -/
theorem liveness_dead_exit_at_exit_block :
    (Liveness.exec 3 [2, 1, 0] (Liveness.mk_liveness
        [⟨0, [⟨[1], []⟩], [1], ⟨false, [1]⟩⟩,
         ⟨1, [⟨[2], [1]⟩], [2], ⟨false, [2, 1]⟩⟩,
         ⟨2, [⟨[], [2]⟩], [], ⟨false, [2]⟩⟩])).map (fun L => L.dead_exit 2) =
      some liveness_domain.bottom ∧
    (Liveness.exec_loop [2, 1, 0] 3 (Liveness.mk_liveness
        [⟨0, [⟨[1], []⟩], [1], ⟨false, [1]⟩⟩,
         ⟨1, [⟨[2], [1]⟩], [2], ⟨false, [2, 1]⟩⟩,
         ⟨2, [⟨[], [2]⟩], [], ⟨false, [2]⟩⟩])).map
        (fun l => Liveness.live_out_of l.m_in_map []) = some liveness_domain.bottom ∧
    (⟨⟨false, [2]⟩⟩ : liveness_domain).remove_all liveness_domain.bottom = ⟨⟨false, [2]⟩⟩ := by
  decide

/-- C19 (amended): on a new `Liveness` object whose order names nodes of the
graph, `exec` with enough fuel returns; the fixpoint loop ends in a state
where the live-in set of every node b is above the result of `analyze` on the
live-out set of b, the join of the live-in sets of its successors; for every
node b whose live-out set is not empty, `dead_exit (b)` holds exactly the
variables of the block of b that are not in its live-out set; for a node
whose live-out set is empty `dead_exit (b)` is the empty set; and in both
cases no variable of `dead_exit (b)` is in the live-out set of b. -/
theorem liveness_dead_exit (cfg : List basic_block) (order : List Nat)
    (hnodes : ∀ n ∈ order, (get_node cfg n).isSome = true) (fuel : Nat)
    (hfuel : Liveness.enough_fuel cfg order ≤ fuel) :
    ∃ l1 L, Liveness.exec_loop order fuel (Liveness.mk_liveness cfg) = some l1 ∧
      Liveness.exec fuel order (Liveness.mk_liveness cfg) = some L ∧
      ∀ b ∈ order, ∀ B, get_node cfg b = some B →
        (∃ in_, l1.analyze b (Liveness.live_out_of l1.m_in_map B.next) = some in_ ∧
          in_.leq (label_map_get l1.m_in_map b) = true) ∧
        ((Liveness.live_out_of l1.m_in_map B.next).is_bottom = false →
          B.live._is_top = false →
          ∀ x, x ∈ (L.dead_exit b)._inv._set ↔
            x ∈ B.live._set ∧ x ∉ (Liveness.live_out_of l1.m_in_map B.next)._inv._set) ∧
        ((Liveness.live_out_of l1.m_in_map B.next).is_bottom = true →
          L.dead_exit b = liveness_domain.bottom) ∧
        (B.live._is_top = false →
          ∀ x, x ∈ (L.dead_exit b)._inv._set →
            x ∉ (Liveness.live_out_of l1.m_in_map B.next)._inv._set) := by
  obtain ⟨l1, L, h1, h2, hnt, hall⟩ := Liveness.exec_spec cfg order
    (fun n hn => Option.isSome_iff_exists.mp (hnodes n hn)) fuel hfuel
  refine ⟨l1, L, h1, h2, ?_⟩
  intro b hb B hB
  obtain ⟨hfix, hdead⟩ := hall b hb B hB
  have hout := Liveness.live_out_of_spec l1.m_in_map hnt.1 B.next
  refine ⟨hfix, ?_, ?_, ?_⟩
  · intro hbot hlive x
    rw [hdead, hbot]
    simp only [Bool.false_eq_true, if_false]
    exact (liveness_domain.remove_all_spec ⟨B.live⟩ _ hlive hout.1).2 x
  · intro hbot
    rw [hdead, hbot]
    rfl
  · intro hlive x hx
    rw [hdead] at hx
    cases hbot : (Liveness.live_out_of l1.m_in_map B.next).is_bottom
    · rw [hbot] at hx
      simp only [Bool.false_eq_true, if_false] at hx
      exact ((liveness_domain.remove_all_spec ⟨B.live⟩ _ hlive hout.1).2 x).mp hx |>.2
    · rw [hbot] at hx
      simp [liveness_domain.bottom, discrete_domain.bottom] at hx

/-- Witness of C19 (amended): the graph b0 -> b1 -> b2 of the counterexample,
visited in the order b2, b1, b0 with 10 units of fuel. -/
theorem liveness_dead_exit_witness :
    ∃ l1 L, Liveness.exec_loop [2, 1, 0] 10 (Liveness.mk_liveness
        [⟨0, [⟨[1], []⟩], [1], ⟨false, [1]⟩⟩,
         ⟨1, [⟨[2], [1]⟩], [2], ⟨false, [2, 1]⟩⟩,
         ⟨2, [⟨[], [2]⟩], [], ⟨false, [2]⟩⟩]) = some l1 ∧
      Liveness.exec 10 [2, 1, 0] (Liveness.mk_liveness
        [⟨0, [⟨[1], []⟩], [1], ⟨false, [1]⟩⟩,
         ⟨1, [⟨[2], [1]⟩], [2], ⟨false, [2, 1]⟩⟩,
         ⟨2, [⟨[], [2]⟩], [], ⟨false, [2]⟩⟩]) = some L ∧
      ((Liveness.live_out_of l1.m_in_map [2]).is_bottom = false →
        ∀ x, x ∈ (L.dead_exit 1)._inv._set ↔
          x ∈ [2, 1] ∧ x ∉ (Liveness.live_out_of l1.m_in_map [2])._inv._set) := by
  obtain ⟨l1, L, h1, h2, h3⟩ := liveness_dead_exit
    [⟨0, [⟨[1], []⟩], [1], ⟨false, [1]⟩⟩,
     ⟨1, [⟨[2], [1]⟩], [2], ⟨false, [2, 1]⟩⟩,
     ⟨2, [⟨[], [2]⟩], [], ⟨false, [2]⟩⟩] [2, 1, 0] (by decide) 10 (by decide)
  exact ⟨l1, L, h1, h2, fun hb =>
    (h3 1 (by decide) ⟨1, [⟨[2], [1]⟩], [2], ⟨false, [2, 1]⟩⟩ rfl).2.1 hb rfl⟩


/-- C29: `extrapolate::apply (before, after, iteration)` is the join
`before | after` when `iteration < _threshold` and the widening
`before || after` otherwise; in both cases `before` and `after` are `<=` the
result; and `convergence_achieved` holds iff `after <= before`. -/
theorem pta_extrapolate_apply (W : Nat) (before after : interval) (iteration : Nat) :
    (binary_op.extrapolate W).apply before after iteration =
      (if iteration < W then before.join after else before.widening after) ∧
    before.leq ((binary_op.extrapolate W).apply before after iteration) = true ∧
    after.leq ((binary_op.extrapolate W).apply before after iteration) = true ∧
    ((binary_op.extrapolate W).convergence_achieved before after = true ↔
      after.leq before = true) := by
  refine ⟨rfl, ?_, ?_, Iff.rfl⟩
  · simp only [binary_op.apply]
    split
    · exact interval_leq_join _ _
    · exact interval_leq_widening _ _
  · simp only [binary_op.apply]
    split
    · exact interval_leq_join_right _ _
    · exact interval_leq_widening_right _ _

/-- C30: `refine::apply (before, after, _)` is `after` when `after <= before`
and `before | after` otherwise; `convergence_achieved` of `refine` is always
false, so `add_offset` with `refine` sets `change_seen` and overwrites the
offset of the name by the result, whatever the state; and the result is
`<= before | after`. -/
theorem pta_refine_apply (before after : interval) (iteration : Nat) (s : pta_system)
    (v : vname) :
    binary_op.refine.apply before after iteration =
      (if after.leq before then after else before.join after) ∧
    binary_op.refine.convergence_achieved before after = false ∧
    (s.add_offset v after binary_op.refine).change_seen = true ∧
    (s.add_offset v after binary_op.refine).get_offset v =
      binary_op.refine.apply (s.get_offset v) after s.iteration ∧
    (binary_op.refine.apply before after iteration).leq (before.join after) = true := by
  refine ⟨rfl, rfl, ?_, ?_, ?_⟩
  · simp [pta_system.add_offset, binary_op.convergence_achieved]
  · rw [pta_system.get_offset_add_offset]
    simp [binary_op.convergence_achieved]
  · simp only [binary_op.apply]
    split
    · exact interval_leq_join_right _ _
    · exact interval.leq_refl


/-- C27 (counterexample): the difference of top and the set {1} raises no
exception; it returns top. -/
theorem liveness_top_minus_returns :
    liveness_domain.remove_all_checked liveness_domain.top ⟨⟨false, [1]⟩⟩ =
      some liveness_domain.top := by
  decide

/-- C27 (amended): set difference with top as first operand raises nothing and
leaves the operand top: for every element x, every collection c and every set
s, `top() -= x`, `top() -= c`, `top() - x` and `top() - c` of
`discrete_domain` are top, and `top() -= x` and `top() -= s` of
`liveness_domain` return top. -/
theorem liveness_top_minus (x : Nat) (c : List Nat) (s : liveness_domain) :
    discrete_domain.top.remove x = discrete_domain.top ∧
    discrete_domain.top.remove_collection c = discrete_domain.top ∧
    discrete_domain.top.minus x = discrete_domain.top ∧
    discrete_domain.top.minus_collection c = discrete_domain.top ∧
    liveness_domain.top.remove x = liveness_domain.top ∧
    liveness_domain.top.remove_all_checked s = some liveness_domain.top := by
  refine ⟨rfl, rfl, rfl, rfl, rfl, ?_⟩
  rw [liveness_domain.remove_all_checked_eq]
  unfold liveness_domain.remove_all
  split
  · rfl
  · split
    · congr 1
      have : ∀ l : List Nat,
          l.foldl (fun inv v => discrete_domain.remove inv v) discrete_domain.top =
            discrete_domain.top := by
        intro l
        induction l with
        | nil => rfl
        | cons v l ih => rw [List.foldl_cons]; exact ih
      show (⟨_⟩ : liveness_domain) = ⟨_⟩
      rw [show liveness_domain.top._inv = discrete_domain.top from rfl, this]
    · rfl

/-- C28: the kill and gen sets that `init` computes for a block: a variable is
in kill iff some statement of the block defines it; a variable is in gen iff
some statement of the block uses it and no earlier statement of the block
defines it; neither set is top; and the map `m_kill_gen_map` holds this pair
for the label of every block. -/
theorem liveness_kill_gen (cfg : List basic_block) (b : basic_block) (n x : Nat) :
    (x ∈ (Liveness.init_block b).1._inv._set ↔ ∃ s ∈ b.stmts, x ∈ s.defs) ∧
    (x ∈ (Liveness.init_block b).2._inv._set ↔
      ∃ l1 s l2, b.stmts = l1 ++ s :: l2 ∧ x ∈ s.uses ∧ ∀ t ∈ l1, x ∉ t.defs) ∧
    (Liveness.init_block b).1._inv._is_top = false ∧
    (Liveness.init_block b).2._inv._is_top = false ∧
    label_map_find n (Liveness.mk_liveness cfg).m_kill_gen_map =
      (get_node cfg n).map Liveness.init_block := by
  obtain ⟨i1, i2, i3⟩ := Liveness.init_fold_spec x b.stmts
  exact ⟨i2, i3, i1.1, i1.2, Liveness.init_find cfg n⟩

/-- C33: the widening of `liveness_domain` returns its second argument, so it
is not extensive: {1} is not `<=` the widening of {1} with bottom. -/
theorem liveness_widening_not_extensive (a b : liveness_domain) :
    a.widening b = b ∧
    (⟨⟨false, [1]⟩⟩ : liveness_domain).leq
      ((⟨⟨false, [1]⟩⟩ : liveness_domain).widening liveness_domain.bottom) = false := by
  exact ⟨rfl, by decide⟩

/-- C37: `discrete_domain::operator==` compares the sets whenever one of the
operands is not top and does not look at `_is_top` then: a top value and a
value that is not top are equal for it when their sets are, although the
first is not `<=` the second; top() == bottom() is true. -/
theorem discrete_eq_ignores_top (s : List Nat) :
    (⟨true, s⟩ : discrete_domain).eq ⟨false, s⟩ = true ∧
    (⟨true, s⟩ : discrete_domain).leq ⟨false, s⟩ = false ∧
    discrete_domain.top.eq discrete_domain.bottom = true ∧
    discrete_domain.top.leq discrete_domain.bottom = false := by
  refine ⟨?_, rfl, by decide, by decide⟩
  simp [discrete_domain.eq, ptset_eq, ptset_leq]


/-- C38: on a new `Liveness` object whose order names nodes of the graph, the
fixpoint loop of `exec` ends when the fuel is at least `enough_fuel`, a
number computed from the graph and the order; and in the state it ends in,
the kill and gen sets are those of `init`, every node n of the order has a
kill and a gen set, and every variable that
is in the live-out set of n (the variables of the live-in sets of the
successors of n) and not in kill, or that is in gen, is in the live-in set
of n. -/
theorem liveness_post_fixpoint (cfg : List basic_block) (order : List Nat)
    (hnodes : ∀ n ∈ order, (get_node cfg n).isSome = true) (fuel : Nat)
    (hfuel : Liveness.enough_fuel cfg order ≤ fuel) :
    ∃ l1, Liveness.exec_loop order fuel (Liveness.mk_liveness cfg) = some l1 ∧
      l1.m_kill_gen_map = Liveness.init cfg ∧
      ∀ n ∈ order, ∀ B, get_node cfg n = some B →
        ∃ kill gen, label_map_find n l1.m_kill_gen_map = some (kill, gen) ∧
          (∀ x, x ∈ (Liveness.live_out_of l1.m_in_map B.next)._inv._set ↔
            ∃ s ∈ B.next, x ∈ (label_map_get l1.m_in_map s)._inv._set) ∧
          ∀ x, (x ∈ (Liveness.live_out_of l1.m_in_map B.next)._inv._set ∧
                x ∉ kill._inv._set) ∨ x ∈ gen._inv._set →
            x ∈ (label_map_get l1.m_in_map n)._inv._set := by
  obtain ⟨l1, L, h1, _, hnt, hall⟩ := Liveness.exec_spec cfg order
    (fun n hn => Option.isSome_iff_exists.mp (hnodes n hn)) fuel hfuel
  have hkgm : l1.m_kill_gen_map = Liveness.init cfg := by
    obtain ⟨l0, hp, _, hk0, _⟩ := Liveness.exec_loop_last_pass order fuel _ l1 h1
    rw [(Liveness.exec_pass_frame order l0 false l1 false hp).2.1, hk0]
    rfl
  refine ⟨l1, h1, hkgm, ?_⟩
  intro n hn B hB
  obtain ⟨⟨in_, ha, hle⟩, _⟩ := hall n hn B hB
  have hout := Liveness.live_out_of_spec l1.m_in_map hnt.1 B.next
  cases hkg : label_map_find n l1.m_kill_gen_map with
  | none => simp [Liveness.analyze, hkg] at ha
  | some kg =>
    obtain ⟨kill, gen⟩ := kg
    obtain ⟨hk, hg⟩ := hnt.2 n kill gen hkg
    obtain ⟨in2, ha2, hin2, hmem⟩ := Liveness.analyze_spec l1 n kill gen _ hkg hk hg hout.1
    rw [ha] at ha2
    cases ha2
    refine ⟨kill, gen, rfl, hout.2, ?_⟩
    intro x hx
    exact (liveness_domain.leq_spec in_ _ hin2 (hnt.1 n)).mp hle x ((hmem x).mpr hx)

/-- Witness of C38: the graph b0 -> b1 -> b2 with b0: x := .., b1: y := x,
b2: a use of y, visited in the order b2, b1, b0 with 10 units of fuel. -/
theorem liveness_post_fixpoint_witness :
    ∃ l1, Liveness.exec_loop [2, 1, 0] 10 (Liveness.mk_liveness
        [⟨0, [⟨[1], []⟩], [1], ⟨false, [1]⟩⟩,
         ⟨1, [⟨[2], [1]⟩], [2], ⟨false, [2, 1]⟩⟩,
         ⟨2, [⟨[], [2]⟩], [], ⟨false, [2]⟩⟩]) = some l1 ∧
      ∃ kill gen, label_map_find 1 l1.m_kill_gen_map = some (kill, gen) ∧
        ∀ x, (x ∈ (Liveness.live_out_of l1.m_in_map [2])._inv._set ∧
              x ∉ kill._inv._set) ∨ x ∈ gen._inv._set →
          x ∈ (label_map_get l1.m_in_map 1)._inv._set := by
  obtain ⟨l1, h1, _, h2⟩ := liveness_post_fixpoint
    [⟨0, [⟨[1], []⟩], [1], ⟨false, [1]⟩⟩,
     ⟨1, [⟨[2], [1]⟩], [2], ⟨false, [2, 1]⟩⟩,
     ⟨2, [⟨[], [2]⟩], [], ⟨false, [2]⟩⟩] [2, 1, 0] (by decide) 10 (by decide)
  obtain ⟨kill, gen, h3, _, h5⟩ :=
    h2 1 (by decide) ⟨1, [⟨[2], [1]⟩], [2], ⟨false, [2, 1]⟩⟩ rfl
  exact ⟨l1, h1, kill, gen, h3, h5⟩


/-- C40: `process_pre` and `process_post` keep the first value written for a
label: when the map has an entry for the label the state is left as it is;
when it has none, the entry of the label becomes bottom() if the invariant is
bottom, top() if it is top, and the invariant itself otherwise, and the
entries of the other labels stay; `process_pre` never changes `m_post_map`
and `process_post` never changes `m_pre_map`. -/
theorem process_pre_post_first_write {L D : Type} [DecidableEq L] (ops : abs_dom_ops D)
    (a : FwdAnalyzer L D) (node : L) (inv : D) :
    ((invariant_map_find node a.m_pre_map).isSome = true →
      a.process_pre ops node inv = a) ∧
    ((invariant_map_find node a.m_pre_map).isSome = false →
      invariant_map_find node (a.process_pre ops node inv).m_pre_map =
        some (if ops.is_bottom inv then ops.bottom
              else if ops.is_top inv then ops.top else inv) ∧
      ∀ b, b ≠ node → invariant_map_find b (a.process_pre ops node inv).m_pre_map =
        invariant_map_find b a.m_pre_map) ∧
    (a.process_pre ops node inv).m_post_map = a.m_post_map ∧
    ((invariant_map_find node a.m_post_map).isSome = true →
      a.process_post ops node inv = a) ∧
    ((invariant_map_find node a.m_post_map).isSome = false →
      invariant_map_find node (a.process_post ops node inv).m_post_map =
        some (if ops.is_bottom inv then ops.bottom
              else if ops.is_top inv then ops.top else inv) ∧
      ∀ b, b ≠ node → invariant_map_find b (a.process_post ops node inv).m_post_map =
        invariant_map_find b a.m_post_map) ∧
    (a.process_post ops node inv).m_pre_map = a.m_pre_map := by
  refine ⟨?_, ?_, ?_, ?_, ?_, ?_⟩
  · intro h
    cases hf : invariant_map_find node a.m_pre_map with
    | none => rw [hf] at h; cases h
    | some x => simp [FwdAnalyzer.process_pre, hf]
  · intro h
    have hf : invariant_map_find node a.m_pre_map = none := by
      cases hf : invariant_map_find node a.m_pre_map with
      | none => rfl
      | some x => rw [hf] at h; cases h
    constructor
    · simp only [FwdAnalyzer.process_pre, hf]
      split
      · simp [invariant_map_find_append, hf]
      · split
        · simp [invariant_map_find_append, hf]
        · simp [invariant_map_find_append, hf]
    · intro b hb
      have hb' : ¬ node = b := fun e => hb e.symm
      simp only [FwdAnalyzer.process_pre, hf]
      split
      · simp only [invariant_map_find_append, hb', if_false]
        cases invariant_map_find b a.m_pre_map <;> rfl
      · split
        · simp only [invariant_map_find_append, hb', if_false]
          cases invariant_map_find b a.m_pre_map <;> rfl
        · simp only [invariant_map_find_append, hb', if_false]
          cases invariant_map_find b a.m_pre_map <;> rfl
  · simp only [FwdAnalyzer.process_pre]
    split
    · split
      · rfl
      · split <;> rfl
    · rfl
  · intro h
    cases hf : invariant_map_find node a.m_post_map with
    | none => rw [hf] at h; cases h
    | some x => simp [FwdAnalyzer.process_post, hf]
  · intro h
    have hf : invariant_map_find node a.m_post_map = none := by
      cases hf : invariant_map_find node a.m_post_map with
      | none => rfl
      | some x => rw [hf] at h; cases h
    constructor
    · simp only [FwdAnalyzer.process_post, hf]
      split
      · simp [invariant_map_find_append, hf]
      · split
        · simp [invariant_map_find_append, hf]
        · simp [invariant_map_find_append, hf]
    · intro b hb
      have hb' : ¬ node = b := fun e => hb e.symm
      simp only [FwdAnalyzer.process_post, hf]
      split
      · simp only [invariant_map_find_append, hb', if_false]
        cases invariant_map_find b a.m_post_map <;> rfl
      · split
        · simp only [invariant_map_find_append, hb', if_false]
          cases invariant_map_find b a.m_post_map <;> rfl
        · simp only [invariant_map_find_append, hb', if_false]
          cases invariant_map_find b a.m_post_map <;> rfl
  · simp only [FwdAnalyzer.process_post]
    split
    · split
      · rfl
      · split <;> rfl
    · rfl

/-- Witness of C40: with an entry for the label 0 only, a second write at 0
changes nothing, and a write of the value BOT with a non-empty list at the
label 1 stores bottom(). -/
theorem process_pre_post_first_write_witness :
    FwdAnalyzer.process_pre dis_interval_ops
        ⟨[(0, ⟨state_t.FINITE, [iv 0 1]⟩)], []⟩ 0 ⟨state_t.FINITE, [iv 5 6]⟩ =
      ⟨[(0, ⟨state_t.FINITE, [iv 0 1]⟩)], []⟩ ∧
    invariant_map_find 1 (FwdAnalyzer.process_post dis_interval_ops
        ⟨[(0, ⟨state_t.FINITE, [iv 0 1]⟩)], []⟩ 1 ⟨state_t.BOT, [iv 5 6]⟩).m_post_map =
      some dis_interval.bottom :=
  ⟨(process_pre_post_first_write dis_interval_ops
      ⟨[(0, ⟨state_t.FINITE, [iv 0 1]⟩)], []⟩ 0 ⟨state_t.FINITE, [iv 5 6]⟩).1 (by decide),
   ((process_pre_post_first_write dis_interval_ops
      ⟨[(0, ⟨state_t.FINITE, [iv 0 1]⟩)], []⟩ 1 ⟨state_t.BOT, [iv 5 6]⟩).2.2.2.2.1
      (by decide)).1⟩


/-- C39: the offset of the reference of a store or load through a pointer is
not used: when the constraints of two systems differ only in these offsets,
`solve` on the second system returns what it returns on the first one (the
same error, or the same state but for the list of constraints), for every
fuel and all thresholds; so every `get (v)` after `solve` is the same. -/
theorem pta_store_load_offset_ignored (s : pta_system) (csts' : List pta_constraint)
    (h : csts'.map pta_constraint.forget_offset = s._csts.map pta_constraint.forget_offset)
    (fuel W N : Nat) :
    pta_system.solve fuel (s.with_csts csts') W N =
      (pta_system.solve fuel s W N).map (pta_system.with_csts csts') ∧
    ∀ t, pta_system.solve fuel s W N = Except.ok t →
      ∃ t', pta_system.solve fuel (s.with_csts csts') W N = Except.ok t' ∧
        ∀ v, t'.get v = t.get v := by
  have e := pta_system.solve_with_csts csts' fuel s W N h
  refine ⟨e, ?_⟩
  intro t ht
  rw [e, ht]
  exact ⟨t.with_csts csts', rfl, fun v => rfl⟩

/-- Witness of C39: a store through p + [4,7] and a load through p + [0,3]
give what the store and the load through p + [0,0] give. -/
theorem pta_store_load_offset_ignored_witness :
    pta_system.solve 100 (pta_system.mk_system
        [pta_constraint.pta_assign ⟨1⟩ (pta_ref.object_ref 1 (iv 0 0)),
         pta_constraint.pta_assign ⟨2⟩ (pta_ref.object_ref 2 (iv 0 0)),
         pta_constraint.pta_store (pta_ref.pointer_ref ⟨1⟩ (iv 4 7)) ⟨2⟩,
         pta_constraint.pta_load ⟨3⟩ (pta_ref.pointer_ref ⟨1⟩ (iv 0 3))] false 0) 5 1 =
      (pta_system.solve 100 (pta_system.mk_system
        [pta_constraint.pta_assign ⟨1⟩ (pta_ref.object_ref 1 (iv 0 0)),
         pta_constraint.pta_assign ⟨2⟩ (pta_ref.object_ref 2 (iv 0 0)),
         pta_constraint.pta_store (pta_ref.pointer_ref ⟨1⟩ (iv 0 0)) ⟨2⟩,
         pta_constraint.pta_load ⟨3⟩ (pta_ref.pointer_ref ⟨1⟩ (iv 0 0))] false 0) 5 1).map
        (pta_system.with_csts
          [pta_constraint.pta_assign ⟨1⟩ (pta_ref.object_ref 1 (iv 0 0)),
           pta_constraint.pta_assign ⟨2⟩ (pta_ref.object_ref 2 (iv 0 0)),
           pta_constraint.pta_store (pta_ref.pointer_ref ⟨1⟩ (iv 4 7)) ⟨2⟩,
           pta_constraint.pta_load ⟨3⟩ (pta_ref.pointer_ref ⟨1⟩ (iv 0 3))]) :=
  (pta_store_load_offset_ignored
    (pta_system.mk_system
      [pta_constraint.pta_assign ⟨1⟩ (pta_ref.object_ref 1 (iv 0 0)),
       pta_constraint.pta_assign ⟨2⟩ (pta_ref.object_ref 2 (iv 0 0)),
       pta_constraint.pta_store (pta_ref.pointer_ref ⟨1⟩ (iv 0 0)) ⟨2⟩,
       pta_constraint.pta_load ⟨3⟩ (pta_ref.pointer_ref ⟨1⟩ (iv 0 0))] false 0)
    [pta_constraint.pta_assign ⟨1⟩ (pta_ref.object_ref 1 (iv 0 0)),
     pta_constraint.pta_assign ⟨2⟩ (pta_ref.object_ref 2 (iv 0 0)),
     pta_constraint.pta_store (pta_ref.pointer_ref ⟨1⟩ (iv 4 7)) ⟨2⟩,
     pta_constraint.pta_load ⟨3⟩ (pta_ref.pointer_ref ⟨1⟩ (iv 0 3))]
    (by decide) 100 5 1).1


/-- C34: a top interval at the front of the list is skipped by `normalize`:
for the list [top, [10,20]] the result is the list [[10,20]] with `is_bottom`
false, so the integer 5, which belongs to an interval of the input, belongs
to no interval of the result. -/
theorem normalize_loses_values_after_leading_top :
    interval.top.contains 5 = true ∧
    dis_interval.normalize [interval.top, iv 10 20] = ([iv 10 20], false) ∧
    (iv 10 20).contains 5 = false := by
  decide

/-- C36: the lifted sum, difference and product contain the sum, difference
and product of an integer of the first operand and an integer of the second;
they are bottom when an operand is bottom; and they are top when no operand
is bottom and one is top. -/
theorem dis_interval_arith_sound (a b : dis_interval) (u v : Int) :
    (a.contains u = true → b.contains v = true →
      (a.add b).contains (u + v) = true ∧ (a.sub b).contains (u - v) = true ∧
        (a.mul b).contains (u * v) = true) ∧
    (a.is_bottom = true ∨ b.is_bottom = true →
      a.add b = dis_interval.bottom ∧ a.sub b = dis_interval.bottom ∧
        a.mul b = dis_interval.bottom) ∧
    (a.is_bottom = false → b.is_bottom = false → a.is_top = true ∨ b.is_top = true →
      a.add b = dis_interval.top ∧ a.sub b = dis_interval.top ∧
        a.mul b = dis_interval.top) := by
  refine ⟨?_, ?_, ?_⟩
  · intro hu hv
    have ha := dis_interval.dis_not_bottom_of_contains hu
    have hb := dis_interval.dis_not_bottom_of_contains hv
    simp only [dis_interval.add, dis_interval.sub, dis_interval.mul, ha, hb, Bool.or_self,
      Bool.false_eq_true, if_false]
    exact ⟨dis_interval.apply_bin_op_contains _ (fun u v => u + v)
        (fun a b u v h1 h2 => interval.contains_add h1 h2) a b u v hu hv,
      dis_interval.apply_bin_op_contains _ (fun u v => u - v)
        (fun a b u v h1 h2 => interval.contains_sub h1 h2) a b u v hu hv,
      dis_interval.apply_bin_op_contains _ (fun u v => u * v)
        (fun a b u v h1 h2 => interval.contains_mul h1 h2) a b u v hu hv⟩
  · intro h
    have : (a.is_bottom || b.is_bottom) = true := by
      rcases h with h | h <;> simp [h]
    simp [dis_interval.add, dis_interval.sub, dis_interval.mul, this]
  · intro ha hb ht
    simp only [dis_interval.add, dis_interval.sub, dis_interval.mul, ha, hb, Bool.or_self,
      Bool.false_eq_true, if_false, dis_interval.apply_bin_op, Bool.true_and]
    have h2 : (a.is_top || b.is_top) = true := by
      rcases ht with h | h <;> simp [h]
    simp only [h2, if_true]
    simp

/-- Witness of C36: 3 is in [1,4] | [10,12] and -2 in [-2,0], and the sum 1,
the difference 5 and the product -6 are in the lifted results. -/
theorem dis_interval_arith_sound_witness :
    (dis_interval.add ⟨state_t.FINITE, [iv 1 4, iv 10 12]⟩
        ⟨state_t.FINITE, [iv (-2) 0]⟩).contains (3 + -2) = true ∧
    (dis_interval.sub ⟨state_t.FINITE, [iv 1 4, iv 10 12]⟩
        ⟨state_t.FINITE, [iv (-2) 0]⟩).contains (3 - -2) = true ∧
    (dis_interval.mul ⟨state_t.FINITE, [iv 1 4, iv 10 12]⟩
        ⟨state_t.FINITE, [iv (-2) 0]⟩).contains (3 * -2) = true :=
  (dis_interval_arith_sound ⟨state_t.FINITE, [iv 1 4, iv 10 12]⟩
    ⟨state_t.FINITE, [iv (-2) 0]⟩ 3 (-2)).1 (by decide) (by decide)


set_option maxRecDepth 1000000 in
/-- C35 (counterexample): the well-formed value [0,2] | [4,4] | [6,6] | .. |
[98,98] has 49 intervals; without 1 it would have 50, so the joins of
`trim_bound` reach the cap and the result is the hull [0,98], which contains
1. -/
theorem trim_bound_capped_keeps_value :
    dis_interval.well_formed ⟨state_t.FINITE, iv 0 2 :: stride 0 2 48 4⟩ ∧
    dis_interval.trim_bound ⟨state_t.FINITE, iv 0 2 :: stride 0 2 48 4⟩ 1 =
      ⟨state_t.FINITE, [iv 0 98]⟩ ∧
    (iv 0 98).contains 1 = true := by
  decide

/-- C35 (amended): for every well-formed x that is not bottom and has fewer
than 49 intervals and every integer c, `trim_bound (x, c)` does not contain c
and contains every integer v other than c that x contains; for top the
result is (-oo, c-1] | [c+1, +oo), and for bottom it is bottom. -/
theorem trim_bound_removes (x : dis_interval) (c : Int) :
    (dis_interval.well_formed x → x.is_bottom = false →
      x._list.length + 1 < dis_interval.max_num_disjunctions →
      (x.trim_bound c).contains c = false ∧
      ∀ v, v ≠ c → x.contains v = true → (x.trim_bound c).contains v = true) ∧
    (x.is_top = true →
      x.trim_bound c = ⟨state_t.FINITE, [⟨bound.minus_infinity, bound.finite (c - 1)⟩,
        ⟨bound.finite (c + 1), bound.plus_infinity⟩]⟩) ∧
    (x.is_bottom = true → x.trim_bound c = x) := by
  refine ⟨?_, ?_, ?_⟩
  · intro hw hb hlen
    obtain ⟨s, l⟩ := x
    cases s with
    | BOT => simp [dis_interval.is_bottom] at hb
    | TOP =>
      rw [dis_interval.trim_bound_top]
      constructor
      · simp [dis_interval.contains, interval.contains, bound.leb]
      · intro v hv _
        simp only [dis_interval.contains, interval.contains, bound.leb, List.any_cons,
          List.any_nil, Bool.or_false, Bool.true_and, Bool.and_true, Bool.or_eq_true,
          decide_eq_true_eq]
        omega
    | FINITE =>
      have hl : ∀ i ∈ l, i.is_bottom = false ∧ i.is_top = false := hw.2.1
      have hp := (dis_interval.well_formed_pairwise hw)
      have hcnt := dis_interval.count_contains_le_one c l hp.1 hp.2
      simp only at hlen
      obtain ⟨f1, _, f3⟩ := dis_interval.trim_fold_spec c l ⟨state_t.BOT, []⟩ hl (Or.inl rfl)
        (by simp only [List.length_nil]; omega)
      have e : dis_interval.trim_bound ⟨state_t.FINITE, l⟩ c =
          l.foldl (dis_interval.trim_step c) ⟨state_t.BOT, []⟩ := by
        simp [dis_interval.trim_bound, dis_interval.is_bottom, dis_interval.is_top]
        rfl
      rw [e]
      constructor
      · rcases f1 with f1 | ⟨fs, _, fz⟩
        · rw [f1]; rfl
        · generalize l.foldl (dis_interval.trim_step c) ⟨state_t.BOT, []⟩ = r at fs fz
          obtain ⟨rs, rl⟩ := r
          simp only at fs fz
          subst fs
          simp only [dis_interval.contains]
          rw [← Bool.not_eq_true, List.any_eq_true]
          rintro ⟨z, hz, hzc⟩
          rw [(fz z hz).2] at hzc
          cases hzc
      · intro v hv hxv
        simp only [dis_interval.contains, List.any_eq_true] at hxv
        obtain ⟨i, hi, hiv⟩ := hxv
        exact f3 v hv i hi hiv
  · intro ht
    obtain ⟨s, l⟩ := x
    cases s <;> simp [dis_interval.is_top] at ht
    exact dis_interval.trim_bound_top l c
  · intro hb
    simp [dis_interval.trim_bound, hb]

/-- Witness of C35 (amended): [0,2] | [5,5] | [7,9] without 5 is
[0,2] | [7,9], which contains 8 and does not contain 5. -/
theorem trim_bound_removes_witness :
    (dis_interval.trim_bound ⟨state_t.FINITE, [iv 0 2, iv 5 5, iv 7 9]⟩ 5).contains 5 = false ∧
    (dis_interval.trim_bound ⟨state_t.FINITE, [iv 0 2, iv 5 5, iv 7 9]⟩ 5).contains 8 = true :=
  ⟨((trim_bound_removes ⟨state_t.FINITE, [iv 0 2, iv 5 5, iv 7 9]⟩ 5).1
      (by decide) (by decide) (by decide)).1,
   ((trim_bound_removes ⟨state_t.FINITE, [iv 0 2, iv 5 5, iv 7 9]⟩ 5).1
      (by decide) (by decide) (by decide)).2 8 (by decide) (by decide)⟩


/-- Claim C21: over the interval domain and from top, after the strong store
of 3 in the array `a` a load gives [3,3]; after a further strong store of 5 it
gives [5,5]; after a further weak store of 5 instead it gives [3,5], the join
of the two values; the load leaves the cell `a` as it was, in these three
states and in every state that is not bottom and holds a proper value for
`a`.  The temporary variable `a_prime` of the load is a fresh name, different
from `a` and from the left-hand side `r`. -/
theorem smashing_store_load (a i j k r a_prime : Nat) (n : Int)
    (h1 : a_prime ≠ a) (h2 : a_prime ≠ r) :
    (((array_smashing.top interval_domain.top).store interval_domain_ops.tonum_domain_ops a i
      (linear_expression.of_num 3) n true).load interval_domain_ops r a k n a_prime)._inv.get r
      = iv 3 3 ∧
    ((((array_smashing.top interval_domain.top).store interval_domain_ops.tonum_domain_ops a i
      (linear_expression.of_num 3) n true).store interval_domain_ops.tonum_domain_ops a j
      (linear_expression.of_num 5) n true).load interval_domain_ops r a k n a_prime)._inv.get r
      = iv 5 5 ∧
    ((((array_smashing.top interval_domain.top).store interval_domain_ops.tonum_domain_ops a i
      (linear_expression.of_num 3) n true).store interval_domain_ops.tonum_domain_ops a j
      (linear_expression.of_num 5) n false).load interval_domain_ops r a k n a_prime)._inv.get r
      = iv 3 5 ∧
    (iv 3 3).join (iv 5 5) = iv 3 5 ∧
    (((array_smashing.top interval_domain.top).store interval_domain_ops.tonum_domain_ops a i
      (linear_expression.of_num 3) n true).load interval_domain_ops r a k n a_prime)._inv.get a =
      ((array_smashing.top interval_domain.top).store interval_domain_ops.tonum_domain_ops a i
      (linear_expression.of_num 3) n true)._inv.get a ∧
    ((((array_smashing.top interval_domain.top).store interval_domain_ops.tonum_domain_ops a i
      (linear_expression.of_num 3) n true).store interval_domain_ops.tonum_domain_ops a j
      (linear_expression.of_num 5) n true).load interval_domain_ops r a k n a_prime)._inv.get a =
      (((array_smashing.top interval_domain.top).store interval_domain_ops.tonum_domain_ops a i
      (linear_expression.of_num 3) n true).store interval_domain_ops.tonum_domain_ops a j
      (linear_expression.of_num 5) n true)._inv.get a ∧
    ((((array_smashing.top interval_domain.top).store interval_domain_ops.tonum_domain_ops a i
      (linear_expression.of_num 3) n true).store interval_domain_ops.tonum_domain_ops a j
      (linear_expression.of_num 5) n false).load interval_domain_ops r a k n a_prime)._inv.get a =
      (((array_smashing.top interval_domain.top).store interval_domain_ops.tonum_domain_ops a i
      (linear_expression.of_num 3) n true).store interval_domain_ops.tonum_domain_ops a j
      (linear_expression.of_num 5) n false)._inv.get a ∧
    (∀ s : array_smashing interval_domain, s._inv._env._is_bottom = false →
      (s._inv.get a).is_bottom = false →
      ((s._inv.get a).is_top = true → s._inv.get a = interval.top) →
      (s.load interval_domain_ops r a k n a_prime)._inv.get a = s._inv.get a) := by
  have key :
      let ops := interval_domain_ops
      let s1 := (array_smashing.top interval_domain.top).store ops.tonum_domain_ops a i
        (linear_expression.of_num 3) n true
      let s2 := s1.store ops.tonum_domain_ops a j (linear_expression.of_num 5) n true
      let s2w := s1.store ops.tonum_domain_ops a j (linear_expression.of_num 5) n false
      (s1.load ops r a k n a_prime)._inv.get r = iv 3 3 ∧
      (s2.load ops r a k n a_prime)._inv.get r = iv 5 5 ∧
      (s2w.load ops r a k n a_prime)._inv.get r = iv 3 5 ∧
      (iv 3 3).join (iv 5 5) = iv 3 5 ∧
      (s1.load ops r a k n a_prime)._inv.get a = s1._inv.get a ∧
      (s2.load ops r a k n a_prime)._inv.get a = s2._inv.get a ∧
      (s2w.load ops r a k n a_prime)._inv.get a = s2w._inv.get a ∧
      (∀ s : array_smashing interval_domain, s._inv._env._is_bottom = false →
        (s._inv.get a).is_bottom = false →
        ((s._inv.get a).is_top = true → s._inv.get a = interval.top) →
        (s.load ops r a k n a_prime)._inv.get a = s._inv.get a) := by
    intro ops s1 s2 s2w
    have e1 : s1._inv = ⟨⟨false, [(a, iv 3 3)]⟩⟩ := rfl
    have e2 : s2._inv = ⟨⟨false, [(a, iv 5 5)]⟩⟩ := by
      show (s1._inv.assign a (linear_expression.of_num 5)) = _
      rw [e1]
      have b5 : (iv 5 5).is_bottom = false := rfl
      have t5 : (iv 5 5).is_top = false := rfl
      simp [interval_domain.assign_num, interval_domain.set, separate_domain.set, interval_ops,
        label_map_set, b5, t5]
    have e2w : s2w._inv = ⟨⟨false, [(a, iv 3 5)]⟩⟩ := by
      show s1._inv.join (s1._inv.assign a (linear_expression.of_num 5)) = _
      rw [e1]
      have b5 : (iv 5 5).is_bottom = false := rfl
      have t5 : (iv 5 5).is_top = false := rfl
      have j : (iv 3 3).join (iv 5 5) = iv 3 5 := by decide
      have t35 : (iv 3 5).is_top = false := rfl
      simp [interval_domain.assign_num, interval_domain.set, separate_domain.set, interval_ops,
        label_map_set, interval_domain.join, separate_domain.join, label_map_find, b5, t5, j, t35]
    have g : ∀ (l u : Int), l ≤ u →
        (⟨⟨false, [(a, iv l u)]⟩⟩ : interval_domain).get a = iv l u := by
      intro l u _
      simp [interval_domain.get, separate_domain.get, label_map_find]
    have L : ∀ (s : array_smashing interval_domain) (l u : Int), l ≤ u →
        s._inv = ⟨⟨false, [(a, iv l u)]⟩⟩ →
        (s.load ops r a k n a_prime)._inv.get r = iv l u ∧
        (s.load ops r a k n a_prime)._inv.get a = s._inv.get a := by
      intro s l u hlu hs
      have hg : s._inv.get a = iv l u := by rw [hs]; exact g l u hlu
      have hb : s._inv._env._is_bottom = false := by rw [hs]
      have := smashing_load_get s r a k a_prime n h1 h2 hb
        (by rw [hg]; exact (iv_proper l u hlu).1)
        (by rw [hg, (iv_proper l u hlu).2]; intro h; cases h)
      exact ⟨by rw [this.1, hg], this.2.1⟩
    refine ⟨(L s1 3 3 (by decide) e1).1, (L s2 5 5 (by decide) e2).1,
      (L s2w 3 5 (by decide) e2w).1, by decide, (L s1 3 3 (by decide) e1).2,
      (L s2 5 5 (by decide) e2).2, (L s2w 3 5 (by decide) e2w).2, ?_⟩
    intro s hb hv ht
    exact (smashing_load_get s r a k a_prime n h1 h2 hb hv ht).2.1
  exact key

theorem smashing_store_load_witness :
    (2 : Nat) ≠ 0 ∧ (2 : Nat) ≠ 1 ∧
    ((((array_smashing.top interval_domain.top).store interval_domain_ops.tonum_domain_ops 0 5
        (linear_expression.of_num 3) 4 true).store interval_domain_ops.tonum_domain_ops 0 6
        (linear_expression.of_num 5) 4 false).load interval_domain_ops 1 0 7 4 2)._inv.get 1
      = iv 3 5 :=
  ⟨by decide, by decide, (smashing_store_load 0 5 6 7 1 2 4 (by decide) (by decide)).2.2.1⟩

/-- Claim C22: `array_init (a, values)` with a list of constants that is not
empty calls `set` of the numerical domain on `a` with the interval from the
least to the greatest constant; over the interval domain the cell `a` then
holds this interval when the state is not bottom, and every other variable
keeps its value; a bottom state stays as it is; with the empty list the state
is unchanged. -/
theorem array_init_hull :
    (∀ (D V E : Type) (ops : array_num_domain_ops D V E) (s : array_smashing D) (a : V)
        (v : Int) (vs : List Int),
      s.array_init ops a (v :: vs) = ⟨ops.set s._inv a (iv (vs.foldl min v) (vs.foldl max v))⟩ ∧
      (∀ w ∈ v :: vs, vs.foldl min v ≤ w ∧ w ≤ vs.foldl max v) ∧
      vs.foldl min v ∈ v :: vs ∧ vs.foldl max v ∈ v :: vs ∧
      s.array_init ops a [] = s) ∧
    (∀ (s : array_smashing interval_domain) (a : Nat) (v : Int) (vs : List Int),
      (s._inv.is_bottom = false →
        (s.array_init interval_domain_ops a (v :: vs))._inv.get a =
          iv (vs.foldl min v) (vs.foldl max v)) ∧
      (∀ y, y ≠ a →
        (s.array_init interval_domain_ops a (v :: vs))._inv.get y = s._inv.get y) ∧
      (s._inv.is_bottom = true → s.array_init interval_domain_ops a (v :: vs) = s)) := by
  have hmin : ∀ (vs : List Int) (v : Int),
      (∀ w ∈ v :: vs, vs.foldl min v ≤ w) ∧ vs.foldl min v ∈ v :: vs := by
    intro vs
    induction vs with
    | nil => intro v; simp
    | cons x vs ih =>
      intro v
      simp only [List.foldl_cons]
      obtain ⟨h1, h2⟩ := ih (min v x)
      constructor
      · intro w hw
        simp only [List.mem_cons] at hw
        rcases hw with hw | hw | hw
        · have := h1 (min v x) (List.mem_cons_self _ _); rw [hw]; omega
        · have := h1 (min v x) (List.mem_cons_self _ _); rw [hw]; omega
        · exact h1 w (List.mem_cons_of_mem _ hw)
      · simp only [List.mem_cons] at h2 ⊢
        rcases h2 with h2 | h2
        · rw [h2]
          rcases min_choice v x with h | h <;> rw [h] <;> simp
        · exact Or.inr (Or.inr h2)
  have hmax : ∀ (vs : List Int) (v : Int),
      (∀ w ∈ v :: vs, w ≤ vs.foldl max v) ∧ vs.foldl max v ∈ v :: vs := by
    intro vs
    induction vs with
    | nil => intro v; simp
    | cons x vs ih =>
      intro v
      simp only [List.foldl_cons]
      obtain ⟨h1, h2⟩ := ih (max v x)
      constructor
      · intro w hw
        simp only [List.mem_cons] at hw
        rcases hw with hw | hw | hw
        · have := h1 (max v x) (List.mem_cons_self _ _); rw [hw]; omega
        · have := h1 (max v x) (List.mem_cons_self _ _); rw [hw]; omega
        · exact h1 w (List.mem_cons_of_mem _ hw)
      · simp only [List.mem_cons] at h2 ⊢
        rcases h2 with h2 | h2
        · rw [h2]
          rcases max_choice v x with h | h <;> rw [h] <;> simp
        · exact Or.inr (Or.inr h2)
  have hinit : ∀ (v : Int) (vs : List Int),
      (v :: vs).foldl (fun init w => init.join (interval.of_num w)) interval.bottom =
        iv (vs.foldl min v) (vs.foldl max v) := by
    intro v vs
    simp only [List.foldl_cons]
    have : interval.bottom.join (interval.of_num v) = iv v v := rfl
    rw [this]
    exact (array_init_fold vs v v (le_refl v)).1
  have hgen : ∀ (D V E : Type) (ops : array_num_domain_ops D V E) (s : array_smashing D) (a : V)
      (v : Int) (vs : List Int),
      s.array_init ops a (v :: vs) =
        ⟨ops.set s._inv a (iv (vs.foldl min v) (vs.foldl max v))⟩ := by
    intro D V E ops s a v vs
    unfold array_smashing.array_init
    simp only [List.isEmpty_cons, Bool.false_eq_true, if_false]
    rw [hinit]
  refine ⟨?_, ?_⟩
  · intro D V E ops s a v vs
    exact ⟨hgen D V E ops s a v vs,
      fun w hw => ⟨(hmin vs v).1 w hw, (hmax vs v).1 w hw⟩, (hmin vs v).2, (hmax vs v).2, rfl⟩
  · intro s a v vs
    rw [hgen]
    have hle : vs.foldl min v ≤ vs.foldl max v := (array_init_fold vs v v (le_refl v)).2
    have hp := iv_proper _ _ hle
    refine ⟨?_, ?_, ?_⟩
    · intro hb
      have := (interval_domain.interval_get_set s._inv a a _ hb hp.1 (by rw [hp.2]; intro h; cases h)).2
      rw [if_pos rfl] at this
      exact this
    · intro y hy
      cases hb : s._inv._env._is_bottom
      · have := (interval_domain.interval_get_set s._inv a y _ hb hp.1 (by rw [hp.2]; intro h; cases h)).2
        rw [if_neg hy] at this
        exact this
      · simp [interval_domain_ops, interval_domain.set, separate_domain.set, hb]
    · intro hb
      have hb' : s._inv._env._is_bottom = true := hb
      simp [interval_domain_ops, interval_domain.set, separate_domain.set, hb']

theorem array_init_hull_witness :
    ((array_smashing.top interval_domain.top).array_init interval_domain_ops 0 [4, 1, 7])._inv.get 0
      = iv 1 7 :=
  (array_init_hull.2 (array_smashing.top interval_domain.top) 0 4 [1, 7]).1 rfl


/-- Claim C25: `array_read (i)` returns the bottom weight on a bottom state;
on a state that is not bottom in which `i` has the successor index `i_succ`
it is `get_weight (i, i_succ)`, which is exactly the weight of the edge from
`i` to `i_succ` when both are vertices and the edge is there, and an error
otherwise; when `i` has no successor index it raises the error "There is no
successor index associated with". -/
theorem array_read_edge_weight {S W : Type} (p : array_graph_params S W)
    (s : array_graph_domain S W) (i : Nat) :
    (s.is_bottom = true → s.array_read p i = Except.ok p.ops.bottom) ∧
    (s.is_bottom = false → ∀ i_succ, s.get_succ_idx i = some i_succ →
      s.array_read p i = s._g.get_weight i i_succ ∧
      (∀ w, i ∈ s._g._vertices → i_succ ∈ s._g._vertices →
        edge_find i i_succ s._g._edges = some w → s.array_read p i = Except.ok w) ∧
      ((i ∉ s._g._vertices ∨ i_succ ∉ s._g._vertices ∨ edge_find i i_succ s._g._edges = none) →
        s.array_read p i =
          Except.error (graph_error.ikos_error "No edge found with given vertices"))) ∧
    (s.is_bottom = false → s.get_succ_idx i = none →
      s.array_read p i =
        Except.error (graph_error.ikos_error "There is no successor index associated with")) := by
  refine ⟨?_, ?_, ?_⟩
  · intro hb
    simp [array_graph_domain.array_read, hb]
  · intro hb i_succ hs
    have e : s.array_read p i = s._g.get_weight i i_succ := by
      simp [array_graph_domain.array_read, hb, hs]
    refine ⟨e, ?_, ?_⟩
    · intro w h1 h2 h3
      rw [e]
      simp [array_graph.get_weight, array_graph.find_vertex_map, h1, h2, h3]
    · intro h
      rw [e]
      unfold array_graph.get_weight array_graph.find_vertex_map
      by_cases h1 : i ∈ s._g._vertices
      · by_cases h2 : i_succ ∈ s._g._vertices
        · rcases h with h | h | h
          · exact absurd h1 h
          · exact absurd h2 h
          · simp [h1, h2, h]
        · simp [h2]
      · simp [h1]
  · intro hb hs
    simp [array_graph_domain.array_read, hb, hs]

theorem array_read_edge_weight_witness :
    example_state.array_read (example_params false 5) 0 = Except.ok (iv 1 1) :=
  ((array_read_edge_weight (example_params false 5) example_state 0).2.1 rfl 1 rfl).2.1
    (iv 1 1) (by decide) (by decide) rfl

/-- Claim C26: assigning a variable to itself leaves the state unchanged: in
`array_graph_domain`, for every state and every variable; in
`dis_interval_domain`, for every state whose environment holds neither
bottom nor top as a value, which is the invariant of the environments. -/
theorem assign_self_unchanged :
    (∀ (S W : Type) (p : array_graph_params S W) (a : array_graph_domain S W) (x : Nat),
      a.assign p x (linear_expression.of_var x) = Except.ok a) ∧
    (∀ (a : dis_interval_domain) (x : Nat), a._env.well_formed dis_interval_ops →
      a.assign x (linear_expression.of_var x) = a) := by
  refine ⟨?_, ?_⟩
  · intro S W p a x
    unfold array_graph_domain.assign
    by_cases hb : a.is_bottom = true
    · rw [if_pos hb]
    · rw [if_neg hb]
      have : (linear_expression.of_var x).get_variable = some x := by
        simp [linear_expression.of_var, linear_expression.get_variable]
      rw [if_pos this]
  · intro a x hw
    have : (linear_expression.of_var x).get_variable = some x := by
      simp [linear_expression.of_var, linear_expression.get_variable]
    unfold dis_interval_domain.assign
    rw [this]
    simp only
    rw [separate_domain.set_get_self dis_interval_ops a._env x hw rfl rfl]

theorem assign_self_unchanged_witness :
    example_state.assign (example_params false 5) 0 (linear_expression.of_var 0)
      = Except.ok example_state ∧
    (⟨⟨false, [(0, dis_interval.of_interval (iv 1 2))]⟩⟩ : dis_interval_domain).assign 0
      (linear_expression.of_var 0)
      = ⟨⟨false, [(0, dis_interval.of_interval (iv 1 2))]⟩⟩ :=
  ⟨assign_self_unchanged.1 _ _ (example_params false 5) example_state 0,
    assign_self_unchanged.2 _ 0 (by
      intro e he
      simp only [List.mem_singleton] at he
      subst he
      exact ⟨by decide, by decide⟩)⟩


/-- Claim C32: `array_write (arr, i, w)` leaves a bottom state as it is and
raises an error when `i` has no successor index; otherwise, when the edge from
`i` to its successor `i_succ` is in the graph with weight `old`, the state
before the final call of `canonical` has on this edge the meet of `w` and of
`old` without `arr`, and on every other edge from `a` to `b` the weight
`weak_update_weight`: the old weight when it is bottom or when `a <= i` and
`i_succ <= b` make the scalar state bottom, and else its join with the new
weight of the edge from `i` to `i_succ`; the scalar state, the vertices and
the successor indexes are unchanged, and the result is this state with its
graph made canonical. -/
theorem array_write_strong_weak {S W : Type} (p : array_graph_params S W)
    (s : array_graph_domain S W) (arr i : Nat) (w : W) :
    (s.is_bottom = true → s.array_write p arr i w = Except.ok s) ∧
    (s.is_bottom = false → s.get_succ_idx i = none →
      s.array_write p arr i w =
        Except.error (graph_error.ikos_error "There is no successor index associated with")) ∧
    (s.is_bottom = false → ∀ i_succ old, s.get_succ_idx i = some i_succ →
      i ∈ s._g._vertices → i_succ ∈ s._g._vertices →
      edge_find i i_succ s._g._edges = some old →
      ∃ s1, s.array_write_edges p arr i w = Except.ok s1 ∧
        s1._is_bottom = s._is_bottom ∧ s1._scalar = s._scalar ∧
        s1._succ_idx_map = s._succ_idx_map ∧ s1._g._vertices = s._g._vertices ∧
        s1._g._is_bottom = s._g._is_bottom ∧
        edge_find i i_succ s1._g._edges = some (p.ops.meet w (p.ops.forget old arr)) ∧
        (∀ a b, ¬ (a = i ∧ b = i_succ) →
          edge_find a b s1._g._edges =
            (edge_find a b s._g._edges).map
              (weak_update_weight p s._scalar i i_succ (p.ops.meet w (p.ops.forget old arr))
                a b)) ∧
        s.array_write p arr i w =
          (s1._g.canonical p.ops p.IsDistWeight p.fuel).map (fun g => { s1 with _g := g })) := by
  refine ⟨?_, ?_, ?_⟩
  · intro hb
    simp [array_graph_domain.array_write, hb]
  · intro hb hs
    simp only [array_graph_domain.array_write, hb, Bool.false_eq_true, if_false,
      array_graph_domain.array_write_edges, hs]
    rfl
  · intro hb i_succ old hs hi hi' he
    have hget : s._g.get_weight i i_succ = Except.ok old := by
      simp [array_graph.get_weight, array_graph.find_vertex_map, hi, hi', he]
    let g0 : array_graph W :=
      { s._g with _edges := edge_set i i_succ (p.ops.forget old arr) s._g._edges }
    have he0 : edge_find i i_succ g0._edges = some (p.ops.forget old arr) := by
      show edge_find i i_succ (edge_set i i_succ (p.ops.forget old arr) s._g._edges) = _
      rw [edge_find_edge_set, if_pos rfl, he]; rfl
    let g1 : array_graph W :=
      { g0 with _edges :=
          edge_set i i_succ (p.ops.meet w (p.ops.forget old arr)) g0._edges }
    have hmeet : g0.meet_weight p.ops p.IsDistWeight p.fuel i i_succ w = Except.ok g1 := by
      have h1 : g0.find_vertex_map i = true := by
        simp [array_graph.find_vertex_map, g0, hi]
      have h2 : g0.find_vertex_map i_succ = true := by
        simp [array_graph.find_vertex_map, g0, hi']
      unfold array_graph.meet_weight
      rw [h1, h2, he0]
      rfl
    have he1 : edge_find i i_succ g1._edges = some (p.ops.meet w (p.ops.forget old arr)) := by
      show edge_find i i_succ (edge_set i i_succ _ g0._edges) = _
      rw [edge_find_edge_set, if_pos rfl, he0]; rfl
    have hget1 : g1.get_weight i i_succ = Except.ok (p.ops.meet w (p.ops.forget old arr)) := by
      have h1 : g1.find_vertex_map i = true := by
        simp [array_graph.find_vertex_map, g1, g0, hi]
      have h2 : g1.find_vertex_map i_succ = true := by
        simp [array_graph.find_vertex_map, g1, g0, hi']
      unfold array_graph.get_weight
      rw [h1, h2, he1]
      rfl
    let es1 := array_graph_domain.weak_update_edges p s._scalar i i_succ
      (p.ops.meet w (p.ops.forget old arr)) g1._edges
    let s1 : array_graph_domain S W := { s with _g := { g1 with _edges := es1 } }
    have hs1 : s.array_write_edges p arr i w = Except.ok s1 := by
      unfold array_graph_domain.array_write_edges
      rw [hs]
      simp only [hget]
      show (do
        let g ← g0.meet_weight p.ops p.IsDistWeight p.fuel i i_succ w
        let new_w ← g.get_weight i i_succ
        Except.ok ({ s with _g := { g with _edges :=
          array_graph_domain.weak_update_edges p s._scalar i i_succ new_w g._edges } } :
            array_graph_domain S W)) = _
      rw [hmeet]
      show (do
        let new_w ← g1.get_weight i i_succ
        Except.ok ({ s with _g := { g1 with _edges :=
          array_graph_domain.weak_update_edges p s._scalar i i_succ new_w g1._edges } } :
            array_graph_domain S W)) = _
      rw [hget1]
      rfl
    refine ⟨s1, hs1, rfl, rfl, rfl, rfl, rfl, ?_, ?_, ?_⟩
    · show edge_find i i_succ (array_graph_domain.weak_update_edges p s._scalar i i_succ _
        g1._edges) = _
      rw [edge_find_weak_update_edges, if_pos ⟨rfl, rfl⟩, he1]
    · intro a b hab
      show edge_find a b (array_graph_domain.weak_update_edges p s._scalar i i_succ _
        g1._edges) = _
      rw [edge_find_weak_update_edges, if_neg hab]
      have hne : ¬ (a, b) = (i, i_succ) := by
        intro h
        simp only [Prod.mk.injEq] at h
        exact hab h
      have : edge_find a b g1._edges = edge_find a b s._g._edges := by
        show edge_find a b (edge_set i i_succ _ (edge_set i i_succ _ s._g._edges)) = _
        rw [edge_find_edge_set, if_neg hne, edge_find_edge_set, if_neg hne]
      rw [this]
    · unfold array_graph_domain.array_write
      rw [hb]
      simp only [Bool.false_eq_true, if_false]
      rw [hs1]
      show (do
        let g ← s1._g.canonical p.ops p.IsDistWeight p.fuel
        Except.ok ({ s1 with _g := g } : array_graph_domain S W)) = _
      cases s1._g.canonical p.ops p.IsDistWeight p.fuel <;> rfl

theorem array_write_strong_weak_witness :
    ∃ s1, example_state.array_write_edges (example_params false 5) 9 0 (iv 1 5) = Except.ok s1 ∧
      edge_find 0 1 s1._g._edges = some (iv 1 1) ∧
      edge_find 2 3 s1._g._edges = some (iv 1 9) ∧
      edge_find 3 2 s1._g._edges = some (iv 7 9) := by
  obtain ⟨s1, h1, _, _, _, _, _, h7, h8, _⟩ :=
    (array_write_strong_weak (example_params false 5) example_state 9 0 (iv 1 5)).2.2 rfl 1
      (iv 1 1) rfl (by decide) (by decide) rfl
  refine ⟨s1, h1, ?_, ?_, ?_⟩
  · rw [h7]; decide
  · rw [h8 2 3 (by decide)]; decide
  · rw [h8 3 2 (by decide)]; decide


/-- Claim C23: when `canonical ()` returns on a graph whose weights are those
of a lattice (`IsDistWeight` is false: `oneStep` is iterated until it reports
no change), then for all vertices `i`, `j`, `k` whose edges from `i` to `j`,
from `i` to `k` and from `k` to `j` are in the graph, the weight from `i` to
`j` is at most the join of the two others; a further `oneStep` changes
nothing; and no weight has been raised: the graph has the same vertices and
the same edges, each with a weight that is at most the old one. -/
theorem canonical_transitively_tight {W : Type} [Lattice W] [BoundedOrder W]
    [∀ a b : W, Decidable (a ≤ b)] (f : W → Nat → W) (fuel : Nat) (g g1 : array_graph W)
    (h : array_graph.canonical (lattice_weights W f) false fuel g = Except.ok g1) :
    (∀ i ∈ g1._vertices, ∀ j ∈ g1._vertices, ∀ k ∈ g1._vertices, ∀ w_ij w_ik w_kj,
      edge_find i j g1._edges = some w_ij → edge_find i k g1._edges = some w_ik →
      edge_find k j g1._edges = some w_kj → w_ij ≤ w_ik ⊔ w_kj) ∧
    array_graph.oneStep (lattice_weights W f) g1 = (false, g1) ∧
    g1._vertices = g._vertices ∧
    (∀ u v, edge_find u v g._edges = none → edge_find u v g1._edges = none) ∧
    (∀ u v w, edge_find u v g._edges = some w →
      ∃ w1, edge_find u v g1._edges = some w1 ∧ w1 ≤ w) := by
  unfold array_graph.canonical at h
  simp only [Bool.false_eq_true, if_false] at h
  cases hc : array_graph.canonical_loop (lattice_weights W f) fuel g with
  | none => rw [hc] at h; cases h
  | some g2 =>
    rw [hc] at h
    simp only [Except.ok.injEq] at h
    subst h
    obtain ⟨a1, _, a3, a4, a5⟩ := array_graph.canonical_loop_spec f fuel g g2 hc
    refine ⟨?_, a5, a1, ?_, ?_⟩
    · intro i hi j hj k hk w_ij w_ik w_kj e1 e2 e3
      exact a4 k hk i hi j hj w_ij w_ik w_kj e1 e2 e3
    · intro u v hn
      rcases a3 u v with ⟨h1, _⟩ | ⟨w1, w, _, h2, _⟩
      · exact h1
      · rw [hn] at h2; cases h2
    · intro u v w hw
      rcases a3 u v with ⟨_, h2⟩ | ⟨w1, w', h1, h2, hle⟩
      · rw [hw] at h2; cases h2
      · rw [hw] at h2
        cases h2
        exact ⟨w1, h1, hle⟩

theorem canonical_transitively_tight_witness :
    array_graph.canonical (lattice_weights (Fin 4) (fun w _ => w)) false 3 example_graph
      = Except.ok example_graph_canonical ∧
    ((2 : Fin 4) ≤ 1 ⊔ 2) ∧
    array_graph.oneStep (lattice_weights (Fin 4) (fun w _ => w)) example_graph_canonical
      = (false, example_graph_canonical) :=
  have h : array_graph.canonical (lattice_weights (Fin 4) (fun w _ => w)) false 3 example_graph
      = Except.ok example_graph_canonical := rfl
  ⟨h,
    (canonical_transitively_tight (fun w _ => w) 3 example_graph example_graph_canonical h).1
      0 (by decide) 2 (by decide) 1 (by decide) 2 1 2 rfl rfl rfl,
    (canonical_transitively_tight (fun w _ => w) 3 example_graph example_graph_canonical h).2.1⟩


/-- Claim C24: when the weight lattice is distributive, a single call of
`oneStep` reaches the canonical fixpoint on every graph that the class can
hold, that is, on every graph in which every two distinct vertices are joined
by an edge in each direction and no edge joins a vertex to itself (`top ()`
is such a graph and `insert_vertex` keeps this shape): the graph then
satisfies the inequalities of the canonical form, a second call of `oneStep`
changes nothing and returns false, and `canonical ()` with `IsDistWeight`
true gives the same graph as the iteration of `oneStep` until it reports no
change, which ends after two calls at most. -/
theorem oneStep_reaches_fixpoint {W : Type} [DistribLattice W] [BoundedOrder W]
    [∀ a b : W, Decidable (a ≤ b)] (f : W → Nat → W) (g : array_graph W)
    (h : g.is_complete = true) :
    array_graph.oneStep (lattice_weights W f) (array_graph.oneStep (lattice_weights W f) g).2
      = (false, (array_graph.oneStep (lattice_weights W f) g).2) ∧
    (array_graph.oneStep (lattice_weights W f) g).2.transitively_tight ∧
    (∀ fuel, array_graph.canonical (lattice_weights W f) true fuel g
      = Except.ok (array_graph.oneStep (lattice_weights W f) g).2) ∧
    (∀ fuel, 2 ≤ fuel → array_graph.canonical (lattice_weights W f) false fuel g
      = array_graph.canonical (lattice_weights W f) true fuel g) := by
  have ht := array_graph.oneStep_tight_of_complete f g h
  have h2 := array_graph.oneStep_of_tight f _ ht
  refine ⟨h2, ht, fun fuel => rfl, ?_⟩
  intro fuel hfuel
  obtain ⟨n, rfl⟩ : ∃ n, fuel = n + 2 := ⟨fuel - 2, by omega⟩
  unfold array_graph.canonical
  simp only [Bool.false_eq_true, if_false, if_true, array_graph.canonical_loop]
  cases hc : (array_graph.oneStep (lattice_weights W f) g).1
  · simp
  · simp only [if_true, h2, Bool.false_eq_true, if_false]

theorem oneStep_reaches_fixpoint_witness :
    example_graph_complete.is_complete = true ∧
    array_graph.oneStep (lattice_weights (Fin 4) (fun w _ => w))
      (array_graph.oneStep (lattice_weights (Fin 4) (fun w _ => w)) example_graph_complete).2
      = (false, (array_graph.oneStep (lattice_weights (Fin 4) (fun w _ => w))
          example_graph_complete).2) ∧
    edge_find 0 2 (array_graph.oneStep (lattice_weights (Fin 4) (fun w _ => w))
      example_graph_complete).2._edges = some 2 :=
  ⟨rfl, (oneStep_reaches_fixpoint (fun w _ => w) example_graph_complete rfl).1, rfl⟩

/-- Claim C31: when `reduce (S)` returns on a graph that is not bottom, with
weights in a lattice, every edge from `u` to `v` for which `S` with the
constraint `u <= v - 1` is bottom has the bottom weight, and no weight has
been raised: the graph has the same vertices and the same edges, each with a
weight that is at most the old one.  When `IsDistWeight` is true the call
always returns. -/
theorem reduce_refuted_edges {S W : Type} [Lattice W] [BoundedOrder W]
    [∀ a b : W, Decidable (a ≤ b)] (f : W → Nat → W) (sops : scalar_ops S)
    (IsDistWeight : Bool) (fuel : Nat) (g g1 : array_graph W) (scalar : S)
    (hb : g.is_bottom = false)
    (h : g.reduce (lattice_weights W f) sops IsDistWeight fuel scalar = Except.ok g1) :
    g1._vertices = g._vertices ∧
    (∀ u v w, edge_find u v g._edges = some w →
      sops.is_bottom (sops.add_constraint scalar
        (linear_constraint.le (linear_expression.of_var u)
          ((linear_expression.of_var v).add_num (-1)))) = true →
      edge_find u v g1._edges = some ⊥) ∧
    (∀ u v w, edge_find u v g._edges = some w →
      ∃ w1, edge_find u v g1._edges = some w1 ∧ w1 ≤ w) ∧
    (∀ u v, edge_find u v g._edges = none → edge_find u v g1._edges = none) ∧
    (∃ g2, g.reduce (lattice_weights W f) sops true fuel scalar = Except.ok g2) := by
  have hret : ∃ g2, g.reduce (lattice_weights W f) sops true fuel scalar = Except.ok g2 := by
    unfold array_graph.reduce
    rw [hb]
    simp only [Bool.false_eq_true, if_false, array_graph.canonical, if_true]
    exact ⟨_, rfl⟩
  unfold array_graph.reduce at h
  rw [hb] at h
  simp only [Bool.false_eq_true, if_false] at h
  cases hc : array_graph.canonical (lattice_weights W f) IsDistWeight fuel g with
  | error e => rw [hc] at h; cases h
  | ok ga =>
    rw [hc] at h
    let es2 := array_graph.reduce_edges (lattice_weights W f) sops scalar ga._edges
    have h' : array_graph.canonical (lattice_weights W f) IsDistWeight fuel
        ({ ga with _edges := es2 } : array_graph W) = Except.ok g1 := h
    obtain ⟨a1, _, a3⟩ := canonical_le f IsDistWeight fuel g ga hc
    obtain ⟨b1, _, b3⟩ := canonical_le f IsDistWeight fuel _ g1 h'
    have b3' : edges_le g1._edges
        (array_graph.reduce_edges (lattice_weights W f) sops scalar ga._edges) := b3
    refine ⟨b1.trans a1, ?_, ?_, ?_, hret⟩
    · intro u v w hw href
      rcases a3 u v with ⟨_, h2⟩ | ⟨wa, w', h1, h2, _⟩
      · rw [hw] at h2; cases h2
      · rcases b3' u v with ⟨_, h4⟩ | ⟨w1, wr, h3, h4, hle⟩
        · rw [edge_find_reduce_edges, h1] at h4; cases h4
        · rw [edge_find_reduce_edges, h1] at h4
          simp only [Option.map_some', href, if_true, Option.some.injEq] at h4
          rw [h3]
          have : wr = ⊥ := h4.symm
          rw [this] at hle
          rw [le_bot_iff.1 hle]
    · intro u v w hw
      rcases a3 u v with ⟨_, h2⟩ | ⟨wa, w', h1, h2, hle1⟩
      · rw [hw] at h2; cases h2
      · rw [hw] at h2
        cases h2
        rcases b3' u v with ⟨_, h4⟩ | ⟨w1, wr, h3, h4, hle⟩
        · rw [edge_find_reduce_edges, h1] at h4; cases h4
        · rw [edge_find_reduce_edges, h1] at h4
          simp only [Option.map_some', Option.some.injEq] at h4
          refine ⟨w1, h3, le_trans hle ?_⟩
          rw [← h4]
          split
          · exact le_trans bot_le hle1
          · exact hle1
    · intro u v hn
      rcases a3 u v with ⟨h1, _⟩ | ⟨wa, w', _, h2, _⟩
      · rcases b3' u v with ⟨h3, _⟩ | ⟨w1, wr, _, h4, _⟩
        · exact h3
        · rw [edge_find_reduce_edges, h1] at h4; cases h4
      · rw [hn] at h2; cases h2

theorem reduce_refuted_edges_witness :
    example_graph_reduce.reduce (lattice_weights (Fin 4) (fun w _ => w)) const_env_ops false 5
      (some [(0, 5), (1, 3)]) = Except.ok example_graph_reduced ∧
    edge_find 0 1 example_graph_reduced._edges = some ⊥ :=
  have h : example_graph_reduce.reduce (lattice_weights (Fin 4) (fun w _ => w)) const_env_ops
      false 5 (some [(0, 5), (1, 3)]) = Except.ok example_graph_reduced := rfl
  ⟨h, (reduce_refuted_edges (fun w _ => w) const_env_ops false 5 example_graph_reduce
    example_graph_reduced (some [(0, 5), (1, 3)]) rfl h).2.1 0 1 2 rfl rfl⟩


end crab
